import Mathlib

/-!
# internal/lsp: Content-Length framed JSON-RPC transport and client

A shallow embedding of `rpc.go` (the frame codec `transport.Send` /
`transport.Read`), of `client.go` (the request/response correlation layer) and of
the path and URI functions of `types.go`, followed by parts of `internal/utils`
(the ring buffer of `server-manager.go`, ValidateCommand of `helpers.go`,
extractPackagePaths of `pkg-docs.go`) and by parseGoMod of
`internal/resources/go-resources.go`.

Go strings and byte slices are lists of bytes.  The standard-library helpers
the code calls (`strings`, `strconv`, `bufio`, `io`, `unicode/utf8`) are
written out below after their Go definitions.  The statements about framing
are parametric in `encoding/json` (`JsonCodec`); for the round trip of a
message the part of the library that `rpc.go` uses is written out as well
(`json.codec`).  `filepath.IsAbs` and `exec.LookPath` are parameters
(`utils.Host`).
-/

set_option maxRecDepth 4000

namespace Lsp

/-- A Go string or byte slice: a sequence of bytes (numbers below 256). -/
abbrev Bytes := List Nat

/-- The bytes of an ASCII string literal. -/
def ofString (s : String) : Bytes := s.toList.map Char.toNat

/-! ## Errors -/

/-- Go `error` values that the package produces or passes on.  `wrap p e` is
`fmt.Errorf(p + ": %w", e)`, `msg t` is `fmt.Errorf(t)`. -/
inductive Err where
  /-- The sentinel io.EOF. -/
  | EOF
  /-- The sentinel io.ErrUnexpectedEOF. -/
  | ErrUnexpectedEOF
  /-- The sentinel io.ErrClosedPipe. -/
  | ErrClosedPipe
  /-- An error reported by encoding/json. -/
  | json (text : String)
  /-- The context errors context.DeadlineExceeded / context.Canceled. -/
  | ctx (deadline : Bool)
  /-- An error built by `fmt.Errorf(p + ": %w", e)`. -/
  | wrap (pre : String) (cause : Err)
  /-- An error built by `fmt.Errorf(t)` with a constant text. -/
  | msg (text : String)
  /-- The error `fmt.Errorf("invalid Content-Length: %q", val)`. -/
  | invalidContentLength (val : Bytes)
  /-- The error `fmt.Errorf("rpc error: code=%d msg=%s", code, message)`. -/
  | rpc (code : Int) (message : Bytes)
  /-- The error `fmt.Errorf("unsupported URI scheme or invalid URI: %s", uri)`. -/
  | unsupportedURI (uri : Bytes)
  deriving DecidableEq, Repr

/-- The function errors.Is for a sentinel `target`: does the chain of `e`
(following `%w`) reach `target`? -/
def Err.Is : Err → Err → Bool
  | .wrap _ c, target => Err.Is c target
  | e, target => decide (e = target)

/-! ## unicode/utf8 and unicode -/

namespace utf8

/-- The constant utf8.RuneError, U+FFFD. -/
def RuneError : Nat := 0xFFFD

/-- The constant utf8.RuneSelf: bytes below it are single-byte runes. -/
def RuneSelf : Nat := 0x80

/-- Is `b` a continuation byte in the range `lo..hi`? -/
def inRange (lo hi b : Nat) : Bool := decide (lo ≤ b) && decide (b ≤ hi)

/-- The function utf8.DecodeRuneInString: the first rune of `s` and its width in bytes;
`(RuneError, 0)` for the empty string and `(RuneError, 1)` for an invalid encoding. -/
def DecodeRuneInString : Bytes → Nat × Nat
  | [] => (RuneError, 0)
  | s0 :: rest =>
    if s0 < 0x80 then (s0, 1)
    else if s0 < 0xC2 then (RuneError, 1)
    else if s0 ≤ 0xDF then
      match rest with
      | s1 :: _ =>
        if inRange 0x80 0xBF s1 then ((s0 % 32) * 64 + s1 % 64, 2) else (RuneError, 1)
      | _ => (RuneError, 1)
    else if s0 ≤ 0xEF then
      let lo := if s0 = 0xE0 then 0xA0 else 0x80
      let hi := if s0 = 0xED then 0x9F else 0xBF
      match rest with
      | s1 :: s2 :: _ =>
        if inRange lo hi s1 then
          if inRange 0x80 0xBF s2 then
            ((s0 % 16) * 4096 + (s1 % 64) * 64 + s2 % 64, 3)
          else (RuneError, 1)
        else (RuneError, 1)
      | _ => (RuneError, 1)
    else if s0 ≤ 0xF4 then
      let lo := if s0 = 0xF0 then 0x90 else 0x80
      let hi := if s0 = 0xF4 then 0x8F else 0xBF
      match rest with
      | s1 :: s2 :: s3 :: _ =>
        if inRange lo hi s1 then
          if inRange 0x80 0xBF s2 then
            if inRange 0x80 0xBF s3 then
              ((s0 % 8) * 262144 + (s1 % 64) * 4096 + (s2 % 64) * 64 + s3 % 64, 4)
            else (RuneError, 1)
          else (RuneError, 1)
        else (RuneError, 1)
      | _ => (RuneError, 1)
    else (RuneError, 1)

/-- The function utf8.RuneStart: `b&0xC0 != 0x80`. -/
def RuneStart (b : Nat) : Bool := decide (b / 64 % 4 ≠ 2)

/-- The backward scan of DecodeLastRuneInString: from `start` down to `lim`, stop at
the first byte that can start a rune; at most three positions are inspected. -/
def scanBack (s : Bytes) (lim : Int) : Nat → Int → Int
  | 0, start => start
  | fuel + 1, start =>
    if start < lim then start
    else if RuneStart (s.getD start.toNat 0) then start
    else scanBack s lim fuel (start - 1)

/-- The function utf8.DecodeLastRuneInString: the last rune of `s` and its width. -/
def DecodeLastRuneInString (s : Bytes) : Nat × Nat :=
  let stop := s.length
  if stop = 0 then (RuneError, 0)
  else
    let r := s.getD (stop - 1) 0
    if r < RuneSelf then (r, 1)
    else
      let lim : Int := if (stop : Int) - 4 < 0 then 0 else (stop : Int) - 4
      let start := scanBack s lim 4 ((stop : Int) - 2)
      let start := if start < 0 then 0 else start.toNat
      let (r, size) := DecodeRuneInString (s.drop start)
      if start + size ≠ stop then (RuneError, 1) else (r, size)

end utf8

namespace unicode

/-- The function unicode.IsSpace: the Unicode White_Space property. -/
def IsSpace (r : Nat) : Bool :=
  decide (9 ≤ r ∧ r ≤ 13) || decide (r = 0x20) || decide (r = 0x85) || decide (r = 0xA0)
    || decide (r = 0x1680) || decide (0x2000 ≤ r ∧ r ≤ 0x200A) || decide (r = 0x2028)
    || decide (r = 0x2029) || decide (r = 0x202F) || decide (r = 0x205F)
    || decide (r = 0x3000)

end unicode

/-! ## strings -/

namespace strings

/-- The table strings.asciiSpace: tab, newline, vertical tab, form feed, carriage return, space. -/
def asciiSpace (c : Nat) : Bool := decide (9 ≤ c ∧ c ≤ 13) || decide (c = 32)

/-- The function strings.TrimRight for a cutset of single bytes: drop every trailing
byte that is in the cutset.  Works on the reversed string. -/
def trimRightRev (cutset : Bytes) : Bytes → Bytes
  | [] => []
  | c :: r => if c ∈ cutset then trimRightRev cutset r else c :: r

/-- The function strings.TrimRight(s, cutset) for an ASCII cutset. -/
def TrimRight (s cutset : Bytes) : Bytes := (trimRightRev cutset s.reverse).reverse

/-- The function strings.TrimLeftFunc(s, unicode.IsSpace): drop leading runes that are
spaces.  Every decoded rune of a non-empty string is at least one byte wide, so
`fuel = len(s)` iterations suffice. -/
def trimLeftSpace : Nat → Bytes → Bytes
  | 0, s => s
  | fuel + 1, s =>
    match s with
    | [] => []
    | _ :: _ =>
      let (r, w) := utf8.DecodeRuneInString s
      if unicode.IsSpace r then trimLeftSpace fuel (s.drop w) else s

/-- The function strings.lastIndexFunc(s, unicode.IsSpace, false): the start index of the
last rune that is not a space, scanning backwards from `i`; `none` is -1. -/
def lastIndexNotSpace (s : Bytes) : Nat → Nat → Option Nat
  | 0, _ => none
  | fuel + 1, i =>
    if i = 0 then none
    else
      let (r, size) := utf8.DecodeLastRuneInString (s.take i)
      let i := i - size
      if unicode.IsSpace r then lastIndexNotSpace s fuel i else some i

/-- The function strings.TrimRightFunc(s, unicode.IsSpace). -/
def trimRightSpace (s : Bytes) : Bytes :=
  match lastIndexNotSpace s (s.length + 1) s.length with
  | some i =>
    if s.getD i 0 ≥ utf8.RuneSelf then s.take (i + (utf8.DecodeRuneInString (s.drop i)).2)
    else s.take (i + 1)
  | none => []

/-- The second loop of strings.TrimSpace: look for the first ASCII non-space byte from
the end; on a non-ASCII byte fall back to TrimRightFunc.  Works on the reversed string. -/
def trimSpaceStop : Bytes → Bytes
  | [] => []
  | c :: r =>
    if c ≥ utf8.RuneSelf then trimRightSpace (c :: r).reverse
    else if asciiSpace c then trimSpaceStop r
    else (c :: r).reverse

/-- The first loop of strings.TrimSpace: look for the first ASCII non-space byte; on a
non-ASCII byte fall back to TrimFunc on the remaining bytes. -/
def trimSpaceStart : Bytes → Bytes
  | [] => []
  | c :: r =>
    if c ≥ utf8.RuneSelf then trimRightSpace (trimLeftSpace (c :: r).length (c :: r))
    else if asciiSpace c then trimSpaceStart r
    else trimSpaceStop (c :: r).reverse

/-- The function strings.TrimSpace: remove leading and trailing Unicode white space. -/
def TrimSpace (s : Bytes) : Bytes := trimSpaceStart s

/-- The function strings.SplitN(s, sep, 2) for a one-byte separator: `[s]` when `sep` does not
occur, otherwise the part before and the part after its first occurrence. -/
def SplitN (s : Bytes) (sep : Nat) : List Bytes :=
  match s.span (fun c => c != sep) with
  | (_, []) => [s]
  | (before, _ :: after) => [before, after]

/-- The ASCII case folding step of strings.EqualFold: equal bytes, or an upper-case letter
and its lower-case form. -/
def foldEq (sr tr : Nat) : Bool :=
  decide (sr = tr) ||
    (let lo := min sr tr
     let hi := max sr tr
     decide (65 ≤ lo ∧ lo ≤ 90 ∧ hi = lo + 32))

/-- The function strings.EqualFold(s, t) for an ASCII `t` none of whose letters has a non-ASCII
case variant (no k or s), as is the case for "Content-Length": bytes are compared under
ASCII case folding; a non-ASCII byte in `s` sends Go to the Unicode path, where its rune
is compared with an ASCII rune of `t` and never folds to it. -/
def EqualFold : Bytes → Bytes → Bool
  | [], [] => true
  | [], _ :: _ => false
  | _ :: _, [] => false
  | sr :: s, tr :: t =>
    if sr ≥ utf8.RuneSelf then false
    else if foldEq sr tr then EqualFold s t
    else false

end strings

/-! ## strconv -/

namespace strconv

/-- Is `c` an ASCII decimal digit? -/
def isDigit (c : Nat) : Bool := decide (48 ≤ c ∧ c ≤ 57)

/-- The value of a string of decimal digits; `none` if a byte is not a digit. -/
def parseDigits (s : Bytes) : Option Nat :=
  if s.all isDigit then some (s.foldl (fun acc c => acc * 10 + (c - 48)) 0) else none

/-- The result of strconv.Atoi on a 64-bit platform: an optional sign and at least one decimal
digit, with a value in the range of `int`; `none` stands for a *NumError (syntax or range). -/
def Atoi (s : Bytes) : Option Int :=
  let (neg, digits) :=
    match s with
    | 43 :: r => (false, r)
    | 45 :: r => (true, r)
    | _ => (false, s)
  if digits = [] then none
  else
    match parseDigits digits with
    | none => none
    | some n =>
      if neg then (if n ≤ 2 ^ 63 then some (-(n : Int)) else none)
      else (if n < 2 ^ 63 then some (n : Int) else none)

/-- The digit loop of strconv.formatBits in base 10: the decimal digits of `n` in front of `acc`. -/
def formatBits : Nat → Nat → Bytes → Bytes
  | 0, _, acc => acc
  | fuel + 1, n, acc =>
    if n < 10 then (48 + n) :: acc
    else formatBits fuel (n / 10) ((48 + n % 10) :: acc)

/-- The decimal text of a natural number. -/
def formatUint (n : Nat) : Bytes := formatBits (n + 1) n []

/-- The function strconv.FormatInt(i, 10), also the verb %d of fmt. -/
def FormatInt (i : Int) : Bytes :=
  if i < 0 then 45 :: formatUint i.natAbs else formatUint i.toNat

end strconv

/-! ## bufio and io over an in-memory stream -/

namespace bufio

/-- The method bufio.Reader.ReadString(delim) on a reader whose remaining input is the given
bytes followed by end of file: the bytes up to and including the first `delim`, the error
(io.EOF when the input ends before a delimiter), and the input left in the reader. -/
def ReadString (delim : Nat) : Bytes → Bytes × Option Err × Bytes
  | [] => ([], some .EOF, [])
  | c :: r =>
    if c = delim then ([c], none, r)
    else
      let (line, err, rest) := ReadString delim r
      (c :: line, err, rest)

end bufio

namespace io

/-- The function io.ReadFull(r, buf) with `len(buf) = n` on the same kind of reader: exactly `n`
bytes, or io.EOF if no byte could be read, or io.ErrUnexpectedEOF if the input ended after
some but not all of them. The last component is the input left in the reader. -/
def ReadFull (r : Bytes) (n : Nat) : Bytes × Option Err × Bytes :=
  if n ≤ r.length then (r.take n, none, r.drop n)
  else if r = [] then ([], some .EOF, [])
  else (r, some .ErrUnexpectedEOF, [])

/-- The write half of an in-memory pipe (io.Pipe): the bytes accepted so far, and whether
the pipe has been closed. -/
structure Pipe where
  /-- The bytes written so far, in order. -/
  data : Bytes
  /-- Has Close been called? -/
  closed : Bool
  deriving DecidableEq, Repr

/-- The method Write of a pipe: appends the bytes, or fails with io.ErrClosedPipe. -/
def Pipe.Write (p : Pipe) (b : Bytes) : Pipe × Option Err :=
  if p.closed then (p, some .ErrClosedPipe) else ({ p with data := p.data ++ b }, none)

/-- The method Close of a pipe. -/
def Pipe.Close (p : Pipe) : Pipe := { p with closed := true }

end io

/-! ## rpc.go -/

/-- The struct rpcError. `data` stands for the decoded `interface{}` value (nil is `none`). -/
structure rpcError where
  /-- The field Code. -/
  code : Int
  /-- The field Message. -/
  message : Bytes
  /-- The field Data. -/
  data : Option Bytes
  deriving DecidableEq, Repr

/-- The struct rpcMessage. A nil `*json.RawMessage` or `*rpcError` is `none`. -/
structure rpcMessage where
  /-- The field JSONRPC. -/
  JSONRPC : Bytes
  /-- The field ID. -/
  ID : Option Bytes
  /-- The field Method. -/
  Method : Bytes
  /-- The field Params. -/
  Params : Option Bytes
  /-- The field Result. -/
  Result : Option Bytes
  /-- The field Error. -/
  Error : Option rpcError
  deriving DecidableEq, Repr

/-- The package encoding/json as far as rpc.go uses it: `json.Marshal(msg)` and
`json.Unmarshal(buf, &msg)` for an rpcMessage. The library is not part of the repository;
the statements about framing are parametric in it, and `json.codec` below is the library
itself, written out. -/
structure JsonCodec where
  /-- The call json.Marshal(msg). -/
  Marshal : rpcMessage → Except Err Bytes
  /-- The call json.Unmarshal(buf, &msg) into a zero rpcMessage. -/
  Unmarshal : Bytes → Except Err rpcMessage

/-- The struct transport: `rw` is the write side of the underlying stream, `reader` the input
that the bufio.Reader has still to deliver (followed by end of file). -/
structure transport where
  /-- The write side of the field rw. -/
  rw : io.Pipe
  /-- The unread input of the field reader. -/
  reader : Bytes
  deriving DecidableEq, Repr

/-- The header that Send writes: `fmt.Sprintf("Content-Length: %d\r\n\r\n", n)`. -/
def contentLengthHeader (n : Nat) : Bytes :=
  ofString "Content-Length: " ++ strconv.FormatInt n ++ ofString "\r\n\r\n"

/-- The method transport.Send: serializes the message and writes it with a Content-Length
header. Returns the transport after the writes and the error (`none` is nil). -/
def transport.Send (J : JsonCodec) (t : transport) (msg : rpcMessage) : transport × Option Err :=
  match J.Marshal msg with
  | .error err => (t, some (.wrap "marshal rpc message" err))
  | .ok body =>
    let header := contentLengthHeader body.length
    match t.rw.Write header with
    | (rw, some err) => ({ t with rw := rw }, some (.wrap "write header" err))
    | (rw, none) =>
      match rw.Write body with
      | (rw, some err) => ({ t with rw := rw }, some (.wrap "write body" err))
      | (rw, none) => ({ t with rw := rw }, none)

/-- Run-time panics of channel operations and of make. -/
inductive Panic where
  /-- The panic "send on closed channel". -/
  | sendOnClosedChannel
  /-- The panic "close of closed channel". -/
  | closeOfClosedChannel
  /-- The panic "close of nil channel". -/
  | closeOfNilChannel
  /-- The panic "makeslice: len out of range". -/
  | makesliceLen
  deriving DecidableEq, Repr

/-- The constant maxAlloc of the Go runtime on a 64-bit platform (the platform of
strconv.Atoi above): `make([]byte, n)` panics for `n` above it. An allocation within the
limit that the system cannot satisfy ends the program; that is outside this development. -/
def runtime.maxAlloc : Nat := 2 ^ 48

/-- What a call of transport.Read does: it returns a message, returns an error, or
panics. -/
inductive ReadResult where
  /-- The return `&msg, nil`. -/
  | ok (msg : rpcMessage)
  /-- The return `nil, err`. -/
  | error (err : Err)
  /-- A run-time panic. -/
  | panicked (p : Panic)
  deriving DecidableEq, Repr

/-- One header line of transport.Read, after ReadString returned it without error. -/
inductive HeaderStep where
  /-- A blank line: end of headers (`break`). -/
  | done
  /-- A line without colon or with another key (`continue`, contentLen unchanged). -/
  | skip
  /-- A Content-Length line with a non-negative value (`contentLen = n`). -/
  | length (n : Int)
  /-- A Content-Length line whose value Atoi rejects or that is negative. -/
  | invalid (val : Bytes)
  deriving DecidableEq, Repr

/-- The body of the header loop of transport.Read for one line. -/
def transport.headerLine (line : Bytes) : HeaderStep :=
  let trimmed := strings.TrimRight line (ofString "\r\n")
  if trimmed = [] then .done
  else
    let parts := strings.SplitN trimmed 58
    match parts with
    | [k, v] =>
      let key := strings.TrimSpace k
      let val := strings.TrimSpace v
      if strings.EqualFold key (ofString "Content-Length") then
        match strconv.Atoi val with
        | some n => if n < 0 then .invalid val else .length n
        | none => .invalid val
      else .skip
    | _ => .skip

/-- The header loop of transport.Read: reads header lines until the empty line. Returns
contentLen, or the error, and the input left in the reader. Every iteration consumes at
least one byte, so with `fuel` at least the number of bytes left the first case is the
read of an exhausted reader. -/
def transport.readHeaders : Nat → Int → Bytes → Except Err Int × Bytes
  | 0, _, r => (.error (.wrap "read header line" .EOF), r)
  | fuel + 1, contentLen, r =>
    match bufio.ReadString 10 r with
    | (_, some err, r) => (.error (.wrap "read header line" err), r)
    | (line, none, r) =>
      match transport.headerLine line with
      | .done => (.ok contentLen, r)
      | .skip => transport.readHeaders fuel contentLen r
      | .length n => transport.readHeaders fuel n r
      | .invalid val => (.error (.invalidContentLength val), r)

/-- The method transport.Read: reads the next framed message and decodes it. Returns the
message or the error (or the panic of the allocation of the body), and the transport
with the input that is left. -/
def transport.Read (J : JsonCodec) (t : transport) : ReadResult × transport :=
  match transport.readHeaders t.reader.length 0 t.reader with
  | (.error err, r) => (.error err, { t with reader := r })
  | (.ok contentLen, r) =>
    if contentLen ≤ 0 then
      (.error (.msg "missing or invalid Content-Length"), { t with reader := r })
    else if contentLen.toNat > runtime.maxAlloc then
      (.panicked .makesliceLen, { t with reader := r })
    else
      match io.ReadFull r contentLen.toNat with
      | (_, some err, r) => (.error (.wrap "read body" err), { t with reader := r })
      | (buf, none, r) =>
        match J.Unmarshal buf with
        | .error err => (.error (.wrap "unmarshal rpc message" err), { t with reader := r })
        | .ok msg => (.ok msg, { t with reader := r })

/-! ## Notions used to state the properties of the frame codec -/

/-- JSON white space: space, tab, line feed, carriage return. -/
def json.isWhitespace (c : Nat) : Bool :=
  decide (c = 32) || decide (c = 9) || decide (c = 10) || decide (c = 13)

/-- Removes the insignificant white space of a JSON text: the white space outside string
literals. `inString` and `escaped` track whether the scan is inside a string literal and
right after a backslash. -/
def json.stripInsignificant : Bool → Bool → Bytes → Bytes
  | _, _, [] => []
  | false, _, c :: r =>
    if json.isWhitespace c then json.stripInsignificant false false r
    else if c = 34 then c :: json.stripInsignificant true false r
    else c :: json.stripInsignificant false false r
  | true, true, c :: r => c :: json.stripInsignificant true false r
  | true, false, c :: r =>
    if c = 92 then c :: json.stripInsignificant true true r
    else if c = 34 then c :: json.stripInsignificant false false r
    else c :: json.stripInsignificant true false r

/-- Two optional opaque payloads are equal modulo insignificant white space (and both
absent or both present). -/
def json.equalModuloWhitespace (a b : Option Bytes) : Prop :=
  a.map (json.stripInsignificant false false) = b.map (json.stripInsignificant false false)

/-- The message `got` equals `m` in id, method and params bytes (params modulo
insignificant white space), and the fields absent from `m` are absent from `got`. -/
def fieldsPreserved (m got : rpcMessage) : Prop :=
  got.ID = m.ID ∧ got.Method = m.Method ∧ json.equalModuloWhitespace got.Params m.Params ∧
    (m.Result = none → got.Result = none) ∧ (m.Error = none → got.Error = none)

/-- The message `m'` is what encoding/json reads back from its own encoding of `m`: Marshal
succeeds with a body (a JSON text, so not empty, and a Go slice, so within the limit of
the allocator) that Unmarshal decodes into `m'`. -/
def JsonCodec.decodes (J : JsonCodec) (m m' : rpcMessage) : Prop :=
  ∃ body, J.Marshal m = .ok body ∧ body ≠ [] ∧ body.length ≤ runtime.maxAlloc ∧
    J.Unmarshal body = .ok m'

/-- The decimal numeral of `n`, by the digit function of the Lean core library. -/
def decimal (n : Nat) : Bytes := (Nat.toDigits 10 n).map Char.toNat

/-- The bytes of a list of lines, each ended by a line feed. -/
def headerLines (ls : List Bytes) : Bytes := (ls.map (fun l => l ++ [10])).flatten

/-- A header line (without its line feed) that is not blank: it does not end the block. -/
def isHeaderLine (l : Bytes) : Prop :=
  10 ∉ l ∧ strings.TrimRight (l ++ [10]) (ofString "\r\n") ≠ []

/-- A header line with a key (the text before its first colon) other than Content-Length. -/
def isOtherKeyLine (l : Bytes) : Prop :=
  10 ∉ l ∧ ∃ k v, l = k ++ 58 :: v ∧ 58 ∉ k ∧
    strings.EqualFold (strings.TrimSpace k) (ofString "Content-Length") = false

/-- A header line that carries no Content-Length: another key, or no colon at all. -/
def isOtherLine (l : Bytes) : Prop :=
  isOtherKeyLine l ∨ (isHeaderLine l ∧ 58 ∉ l)

/-- The bytes `hdr` are a header block, blank line included, that the header loop of Read
accepts and that declares `n` body bytes. -/
def transport.declares (hdr : Bytes) (n : Int) : Prop :=
  ∀ rest, transport.readHeaders (hdr ++ rest).length 0 (hdr ++ rest) = (.ok n, rest)

/-- Successive Sends of a list of messages on one transport, up to the first error. -/
def transport.sendAll (J : JsonCodec) : transport → List rpcMessage → transport × Option Err
  | t, [] => (t, none)
  | t, m :: ms =>
    match transport.Send J t m with
    | (t, some err) => (t, some err)
    | (t, none) => transport.sendAll J t ms

/-- The results of `n` successive calls of Read on one transport. -/
def transport.readN (J : JsonCodec) : Nat → transport → List ReadResult × transport
  | 0, t => ([], t)
  | n + 1, t =>
    let (res, t) := transport.Read J t
    let (more, t) := transport.readN J n t
    (res :: more, t)

/-- The request of TestTransportSendAndRead_RoundTrip, with an id. -/
def exampleMessage : rpcMessage :=
  { JSONRPC := ofString "2.0"
    ID := some (ofString "1")
    Method := ofString "example/echo"
    Params := some (ofString "\x7b\"hello\":\"world\",\"n\":1\x7d")
    Result := none
    Error := none }

/-- The JSON text of `exampleMessage`. -/
def exampleBody : Bytes :=
  ofString "\x7b\"jsonrpc\":\"2.0\",\"id\":1,\"method\":\"example/echo\",\"params\":\x7b\"hello\":\"world\",\"n\":1\x7d\x7d"

/-- The package encoding/json restricted to `exampleMessage`: its JSON text is `exampleBody`,
which decodes back to it; any other input is reported as an error. Serves to instantiate
the statements that are parametric in the library. -/
def exampleCodec : JsonCodec where
  Marshal m := if m = exampleMessage then .ok exampleBody else .error (.json "unsupported value")
  Unmarshal b := if b = exampleBody then .ok exampleMessage else .error (.json "invalid input")

/-- The value of a header line whose text after the first colon is `v`: the line end and
the surrounding white space are removed. -/
def transport.lineValue (v : Bytes) : Bytes :=
  strings.TrimSpace (strings.TrimRight (v ++ [10]) (ofString "\r\n"))

/-- A header line whose key is Content-Length (in any letter case) and whose value is not
a decimal integer or is negative. -/
def isBadLengthLine (l : Bytes) : Prop :=
  ∃ k v, l = k ++ 58 :: v ∧ 58 ∉ k ∧
    strings.EqualFold (strings.TrimSpace k) (ofString "Content-Length") = true ∧
    ∀ n, strconv.Atoi (transport.lineValue v) = some n → n < 0

/-- Two outcomes of Read are the same result (message or error), and after a message
the same input is left in the reader. -/
def sameOutcome (x y : ReadResult × transport) : Prop :=
  x.1 = y.1 ∧ ∀ m, x.1 = .ok m → x.2 = y.2

/-- Agreement of two outcomes of the header loop: same result, and the same input left
when the headers were accepted. -/
def transport.agree (x y : Except Err Int × Bytes) : Prop :=
  x.1 = y.1 ∧ ∀ n, x.1 = .ok n → x.2 = y.2


/-- A request whose params are the JSON value null, as Request builds it for an argument
that marshals to null (a nil pointer, say). -/
def nullParamsMessage : rpcMessage :=
  { JSONRPC := ofString "2.0"
    ID := some (ofString "1")
    Method := ofString "example/echo"
    Params := some (ofString "null")
    Result := none
    Error := none }

/-- The JSON text of `nullParamsMessage`: the field params is a non-nil pointer, so
omitempty keeps it. -/
def nullParamsBody : Bytes :=
  ofString "\x7b\"jsonrpc\":\"2.0\",\"id\":1,\"method\":\"example/echo\",\"params\":null\x7d"

/-- The package encoding/json restricted to `nullParamsMessage`. Its JSON text is
`nullParamsBody`. Reading it back, json.Unmarshal follows the documented rule "the JSON null
value unmarshals into an interface, map, pointer, or slice by setting that Go value to nil":
the field Params, a `*json.RawMessage`, is nil in the decoded message. -/
def nullParamsCodec : JsonCodec where
  Marshal m :=
    if m = nullParamsMessage then .ok nullParamsBody else .error (.json "unsupported value")
  Unmarshal b :=
    if b = nullParamsBody then .ok { nullParamsMessage with Params := none }
    else .error (.json "invalid input")

/-! ## client.go -/

/-- A Go map with string keys, as a list of entries; operations never leave two entries
with the same key. -/
abbrev Table (ν : Type) := List (Bytes × ν)

/-- The map lookup `v, ok := m[k]`. -/
def Table.get? {ν : Type} : Table ν → Bytes → Option ν
  | [], _ => none
  | (k', v) :: rest, k => if k' = k then some v else Table.get? rest k

/-- The builtin `delete(m, k)`. -/
def Table.delete {ν : Type} : Table ν → Bytes → Table ν
  | [], _ => []
  | (k', v) :: rest, k => if k' = k then Table.delete rest k else (k', v) :: Table.delete rest k

/-- The assignment `m[k] = v`: replaces the entry of `k` if there is one. -/
def Table.set {ν : Type} (m : Table ν) (k : Bytes) (v : ν) : Table ν :=
  (k, v) :: Table.delete m k

/-- A channel `chan *rpcMessage` of capacity 1: its buffer and whether it is closed. -/
structure Chan where
  /-- The buffered message, if any. -/
  buf : Option rpcMessage
  /-- Has the channel been closed? -/
  closed : Bool
  deriving DecidableEq, Repr

/-- A reference to a channel made by `make(chan *rpcMessage, 1)`: its index among the
channels made so far. -/
abbrev ChanRef := Nat

/-- A notification handler, a Go func value, identified by a number. -/
abbrev Handler := Nat

/-- What a step of the client does besides changing its state, in program order. -/
inductive Event where
  /-- The call atomic.AddInt64(&c.nextID, 1) returned `id`. -/
  | issued (id : Int)
  /-- The assignment c.pending[key] = ch; `replaced` is the entry that `key` had before. -/
  | registered (key : Bytes) (ch : ChanRef) (replaced : Option ChanRef)
  /-- The send `ch <- msg` of the receive loop was taken. -/
  | delivered (key : Bytes) (ch : ChanRef) (msg : rpcMessage)
  /-- The default branch of the select was taken: the message was dropped. -/
  | dropped (key : Bytes) (ch : ChanRef) (msg : rpcMessage)
  /-- The call close(ch). -/
  | closedChan (ch : ChanRef)
  /-- The call delete(c.pending, key). -/
  | removed (key : Bytes)
  /-- A frame with an id that is not pending: nothing is done with it. -/
  | discarded (msg : rpcMessage)
  /-- The statement `go func(handler, p) ...` started the handler `h` on `params`. -/
  | invoked (h : Handler) (params : Bytes)
  /-- The call c.opts.Logger.Printf for a read error. -/
  | logged (err : Err)
  /-- The call c.rw.Close(). -/
  | streamClosed
  /-- The statement `go c.receiveLoop()`. -/
  | loopStarted
  deriving DecidableEq, Repr

/-- The struct ClientOptions. -/
structure ClientOptions where
  /-- The field RequestTimeout, in nanoseconds. -/
  RequestTimeout : Nat
  /-- Is the field Logger non-nil? -/
  Logger : Bool
  deriving DecidableEq, Repr

/-- The struct Client. The stream `rw` is kept as its write side (`rw`) and the input it
still has to deliver (`reader`); the transport made by Start wraps this same stream, so
`hasTransport` records `c.transport != nil`. `chans` holds the channels made so far, which
the entries of `pending` refer to. -/
structure Client where
  /-- The write side of the field rw. -/
  rw : io.Pipe
  /-- The input that the stream rw still has to deliver. -/
  reader : Bytes
  /-- The field opts. -/
  opts : ClientOptions
  /-- Is the field transport non-nil? -/
  hasTransport : Bool
  /-- The field handlers; a nil func is `none`. -/
  handlers : Table (Option Handler)
  /-- The field pending. -/
  pending : Table ChanRef
  /-- The field nextID. -/
  nextID : Int
  /-- The field closed (1 is true). -/
  closed : Bool
  /-- The channels made so far. -/
  chans : List Chan
  deriving DecidableEq, Repr

/-- The function NewClient. -/
def NewClient (rw : io.Pipe) (reader : Bytes) (opts : ClientOptions) : Client :=
  let opts := if opts.RequestTimeout = 0 then { opts with RequestTimeout := 10000000000 } else opts
  { rw := rw, reader := reader, opts := opts, hasTransport := false, handlers := [],
    pending := [], nextID := 0, closed := false, chans := [] }

/-- The method Client.Start. -/
def Client.Start (c : Client) : Client × Option Err × List Event :=
  if c.closed then (c, some (.msg "client already closed"), [])
  else ({ c with hasTransport := true }, none, [.loopStarted])

/-- An int64 after an arithmetic operation: the value wraps around. -/
def wrapInt64 (x : Int) : Int := (x + 2 ^ 63) % 2 ^ 64 - 2 ^ 63

/-- The function atomic.AddInt64 on the value of the addressed variable. -/
def atomic.AddInt64 (v delta : Int) : Int := wrapInt64 (v + delta)

/-- The non-blocking send `select { case ch <- msg: default: }` on the channel `ch`; the
flag tells whether the send was taken. A reference to no channel behaves as a nil channel. -/
def trySend (chans : List Chan) (ch : ChanRef) (msg : rpcMessage) : Except Panic (List Chan × Bool) :=
  match chans[ch]? with
  | none => .ok (chans, false)
  | some s =>
    if s.closed then .error .sendOnClosedChannel
    else
      match s.buf with
      | none => .ok (chans.set ch { s with buf := some msg }, true)
      | some _ => .ok (chans, false)

/-- The builtin close(ch). -/
def closeChan (chans : List Chan) (ch : ChanRef) : Except Panic (List Chan) :=
  match chans[ch]? with
  | none => .error .closeOfNilChannel
  | some s =>
    if s.closed then .error .closeOfClosedChannel
    else .ok (chans.set ch { s with closed := true })

/-- The loop of Shutdown over the pending entries: `close(ch); delete(c.pending, id)`. -/
def closeAll : Table ChanRef → List Chan → Except Panic (List Chan × List Event)
  | [], chans => .ok (chans, [])
  | (id, ch) :: rest, chans =>
    match closeChan chans ch with
    | .error p => .error p
    | .ok chans =>
      match closeAll rest chans with
      | .error p => .error p
      | .ok (chans, evs) => .ok (chans, .closedChan ch :: .removed id :: evs)

/-- The method Client.Shutdown. -/
def Client.Shutdown (c : Client) : Except Panic (Client × Option Err × List Event) :=
  if c.closed then .ok (c, none, [])
  else
    let c := { c with closed := true, rw := c.rw.Close }
    match closeAll c.pending c.chans with
    | .error p => .error p
    | .ok (chans, evs) => .ok ({ c with chans := chans, pending := [] }, none, .streamClosed :: evs)

/-- The first part of Client.Request, up to the registration of the pending channel:
the checks, the id, the params and the message. `params` is `none` for a nil argument and
otherwise the outcome of json.Marshal(params). On success returns the message, the key
idStr and the channel respCh. -/
def Client.Request.register (c : Client) (method : Bytes) (params : Option (Except Err Bytes)) :
    Client × Except Err (rpcMessage × Bytes × ChanRef) × List Event :=
  if c.closed then (c, .error (.msg "client is closed"), [])
  else if !c.hasTransport then (c, .error (.msg "transport not started"), [])
  else
    let id := atomic.AddInt64 c.nextID 1
    let c := { c with nextID := id }
    let idStr := strconv.FormatInt id
    match params with
    | some (.error err) => (c, .error (.wrap "marshal params" err), [.issued id])
    | _ =>
      let paramsRaw : Option Bytes :=
        match params with
        | some (.ok b) => some b
        | _ => none
      let msg : rpcMessage :=
        { JSONRPC := ofString "2.0", ID := some idStr, Method := method, Params := paramsRaw,
          Result := none, Error := none }
      let respCh : ChanRef := c.chans.length
      let replaced := Table.get? c.pending idStr
      ({ c with chans := c.chans ++ [{ buf := none, closed := false }],
                pending := Table.set c.pending idStr respCh },
       .ok (msg, idStr, respCh), [.issued id, .registered idStr respCh replaced])

/-- The cleanup of Client.Request after a failed send or when the wait context is done:
`delete(c.pending, idStr)`. -/
def Client.Request.cleanup (c : Client) (idStr : Bytes) : Client × List Event :=
  ({ c with pending := Table.delete c.pending idStr }, [.removed idStr])

/-- The receive `resp, ok := <-respCh` of Client.Request when it can proceed: a buffered
message is taken out of the channel; a closed empty channel yields `(nil, false)`. On an
open empty channel the receive blocks and nothing changes. -/
def Client.Request.receive (c : Client) (ch : ChanRef) : Client × Option (Option rpcMessage × Bool) :=
  match c.chans[ch]? with
  | none => (c, none)
  | some s =>
    match s.buf with
    | some m => ({ c with chans := c.chans.set ch { s with buf := none } }, some (some m, true))
    | none => if s.closed then (c, some (none, false)) else (c, none)

/-- The method Client.RegisterNotificationHandler. -/
def Client.RegisterNotificationHandler (c : Client) (method : Bytes) (handler : Option Handler) :
    Client :=
  { c with handlers := Table.set c.handlers method handler }

/-- The routing of one decoded frame by Client.receiveLoop: a frame with an id completes
the pending request of that id, a frame with a method and no id goes to its handler. -/
def Client.route (c : Client) (msg : rpcMessage) : Except Panic (Client × List Event) :=
  match msg.ID with
  | some idKey =>
    match Table.get? c.pending idKey with
    | some ch =>
      match trySend c.chans ch msg with
      | .error p => .error p
      | .ok (chans, sent) =>
        match closeChan chans ch with
        | .error p => .error p
        | .ok chans =>
          .ok ({ c with chans := chans, pending := Table.delete c.pending idKey },
            [if sent then .delivered idKey ch msg else .dropped idKey ch msg,
             .closedChan ch, .removed idKey])
    | none => .ok (c, [.discarded msg])
  | none =>
    if msg.Method ≠ [] then
      match (Table.get? c.handlers msg.Method).join, msg.Params with
      | some h, some p => .ok (c, [.invoked h p])
      | _, _ => .ok (c, [])
    else .ok (c, [])

/-- One pass through the body of the loop of Client.receiveLoop. The flag tells whether
the loop goes on (`true`) or returns. -/
def Client.receiveLoop.iteration (J : JsonCodec) (c : Client) : Except Panic (Client × List Event × Bool) :=
  if c.closed then .ok (c, [], false)
  else
    match transport.Read J ⟨c.rw, c.reader⟩ with
    | (.panicked p, _) => .error p
    | (.error err, t) =>
      .ok ({ c with reader := t.reader }, if c.opts.Logger then [.logged err] else [], false)
    | (.ok msg, t) =>
      match Client.route { c with reader := t.reader } msg with
      | .error p => .error p
      | .ok (c, evs) => .ok (c, evs, true)

/-- What can happen to a client, one step at a time. -/
inductive Action where
  /-- A call of Start. -/
  | start
  /-- A call of Request, up to the registration of its pending channel: the id is taken
  by one atomic add and the entry is stored in one critical section of pendingMu; the step
  does the one after the other. -/
  | request (method : Bytes) (params : Option (Except Err Bytes))
  /-- A Request gives up on the key idStr: its send failed or its wait context is done. -/
  | abandon (idStr : Bytes)
  /-- A Request receives from the channel it waits on. -/
  | receive (ch : ChanRef)
  /-- The receive loop routes a decoded frame. -/
  | frame (msg : rpcMessage)
  /-- A call of Shutdown. -/
  | shutdown
  /-- A call of RegisterNotificationHandler. -/
  | registerHandler (method : Bytes) (handler : Option Handler)

/-- One step of the client. -/
def Client.step (c : Client) : Action → Except Panic (Client × List Event)
  | .start => .ok ((Client.Start c).1, (Client.Start c).2.2)
  | .request method params =>
    .ok ((Client.Request.register c method params).1, (Client.Request.register c method params).2.2)
  | .abandon idStr => .ok (Client.Request.cleanup c idStr)
  | .receive ch => .ok ((Client.Request.receive c ch).1, [])
  | .frame msg => Client.route c msg
  | .shutdown =>
    match Client.Shutdown c with
    | .error p => .error p
    | .ok (c, _, evs) => .ok (c, evs)
  | .registerHandler method handler => .ok (Client.RegisterNotificationHandler c method handler, [])

/-- A sequence of steps, with the events of all of them in order. -/
def Client.run : Client → List Action → Except Panic (Client × List Event)
  | c, [] => .ok (c, [])
  | c, a :: rest =>
    match Client.step c a with
    | .error p => .error p
    | .ok (c, evs) =>
      match Client.run c rest with
      | .error p => .error p
      | .ok (c, more) => .ok (c, evs ++ more)

/-- The ids that the requests of a run took, in order. -/
def issuedIds : List Event → List Int
  | [] => []
  | .issued id :: rest => id :: issuedIds rest
  | _ :: rest => issuedIds rest

/-- The number of messages that a run handed to the channel `ch`. -/
def deliveries (ch : ChanRef) : List Event → Nat
  | [] => 0
  | .delivered _ ch' _ :: rest => (if ch' = ch then 1 else 0) + deliveries ch rest
  | _ :: rest => deliveries ch rest

/-- The number of pending entries that a run stored. -/
def registrations : List Event → Nat
  | [] => 0
  | .registered _ _ _ :: rest => 1 + registrations rest
  | _ :: rest => registrations rest

/-- A step after which no response has arrived and no request has ended: a start, a
request or a handler registration. -/
def Action.keepsPending : Action → Bool
  | .start => true
  | .request _ _ => true
  | .registerHandler _ _ => true
  | _ => false

/-- The invariant of the pending table: every channel stored in it is open and empty, and
no channel is stored twice. -/
def Client.Inv (c : Client) : Prop :=
  (∀ e ∈ c.pending, c.chans[e.2]? = some { buf := none, closed := false }) ∧
    (c.pending.map Prod.snd).Nodup

/-- The channel `ch` of the client has been closed. -/
def Client.chanClosed (c : Client) (ch : ChanRef) : Prop :=
  ∃ s, c.chans[ch]? = some s ∧ s.closed = true

/-- The keys of the pending table are decimal numerals of ids that were issued: numbers from
1 up to the counter, no key twice. -/
def Client.KeysIssued (c : Client) : Prop :=
  0 ≤ c.nextID ∧ (∀ e ∈ c.pending, ∃ j : Int, 1 ≤ j ∧ j ≤ c.nextID ∧ e.1 = strconv.FormatInt j) ∧
    (c.pending.map Prod.fst).Nodup

/-- A started client with one request in flight: the state after Start and one Request. -/
def exampleClient : Client :=
  { rw := ⟨[], false⟩, reader := [], opts := ⟨10000000000, false⟩, hasTransport := true,
    handlers := [], pending := [(ofString "1", 0)], nextID := 1, closed := false,
    chans := [{ buf := none, closed := false }] }

/-- A response to the request of `exampleClient`. -/
def exampleResponse : rpcMessage :=
  { JSONRPC := ofString "2.0", ID := some (ofString "1"), Method := [], Params := none,
    Result := some (ofString "true"), Error := none }

/-! ## client.go: the rest of Request, Notify and the receive loop -/

/-- The method Client.Notify. `params` is `none` for a nil argument and otherwise the
outcome of json.Marshal(params). Returns the client after the writes and the error. -/
def Client.Notify (J : JsonCodec) (c : Client) (method : Bytes)
    (params : Option (Except Err Bytes)) : Client × Option Err :=
  if c.closed then (c, some (.msg "client is closed"))
  else if !c.hasTransport then (c, some (.msg "transport not started"))
  else
    match params with
    | some (.error err) => (c, some (.wrap "marshal params" err))
    | _ =>
      let paramsRaw : Option Bytes :=
        match params with
        | some (.ok b) => some b
        | _ => none
      let msg : rpcMessage :=
        { JSONRPC := ofString "2.0", ID := none, Method := method, Params := paramsRaw,
          Result := none, Error := none }
      match transport.Send J ⟨c.rw, c.reader⟩ msg with
      | (t, some err) => ({ c with rw := t.rw }, some (.wrap "send notify" err))
      | (t, none) => ({ c with rw := t.rw }, none)

/-- Client.Request up to its select: the checks, the id, the params, the registration of
the pending channel and the send, with the cleanup when the send fails. Returns the error
that Request returns here, or the key idStr and the channel respCh it goes on to wait on. -/
def Client.Request.issue (J : JsonCodec) (c : Client) (method : Bytes)
    (params : Option (Except Err Bytes)) : Client × Except Err (Bytes × ChanRef) × List Event :=
  match Client.Request.register c method params with
  | (c, .error err, evs) => (c, .error err, evs)
  | (c, .ok (msg, idStr, respCh), evs) =>
    match transport.Send J ⟨c.rw, c.reader⟩ msg with
    | (t, some err) =>
      let (c, more) := Client.Request.cleanup { c with rw := t.rw } idStr
      (c, .error (.wrap "send request" err), evs ++ more)
    | (t, none) => ({ c with rw := t.rw }, .ok (idStr, respCh), evs)

/-- The case of the select of Client.Request that is taken. -/
inductive WaitCase where
  /-- The case `<-waitCtx.Done()`; `err` is waitCtx.Err(). -/
  | ctxDone (err : Err)
  /-- The case `resp, ok := <-respCh`. -/
  | recv
  deriving DecidableEq, Repr

/-- What Client.Request returns: its error (`none` is nil) and the result payload that it
decoded into the caller's result value, if it decoded one. -/
structure Returned where
  /-- The error returned. -/
  err : Option Err
  /-- The payload that was decoded into `result`. -/
  decoded : Option Bytes
  deriving DecidableEq, Repr

/-- The select of Client.Request and what follows it. `result` tells whether the caller's
result argument is non-nil and `unmarshal` is the call json.Unmarshal(*resp.Result, result)
(`none` is nil). The outcome is `none` while the receive blocks. -/
def Client.Request.finish (c : Client) (idStr : Bytes) (respCh : ChanRef) (result : Bool)
    (unmarshal : Bytes → Option Err) : WaitCase → Client × Option Returned × List Event
  | .ctxDone err =>
    let (c, evs) := Client.Request.cleanup c idStr
    (c, some { err := some err, decoded := none }, evs)
  | .recv =>
    match Client.Request.receive c respCh with
    | (c, none) => (c, none, [])
    | (c, some (resp, ok)) =>
      match resp with
      | none => (c, some { err := some (.msg "response channel closed"), decoded := none }, [])
      | some resp =>
        if !ok then
          (c, some { err := some (.msg "response channel closed"), decoded := none }, [])
        else
          match resp.Error with
          | some e => (c, some { err := some (.rpc e.code e.message), decoded := none }, [])
          | none =>
            match result, resp.Result with
            | true, some payload =>
              match unmarshal payload with
              | some err => (c, some { err := some (.wrap "unmarshal result" err), decoded := none }, [])
              | none => (c, some { err := none, decoded := some payload }, [])
            | _, _ => (c, some { err := none, decoded := none }, [])

/-- How a call of a func value ends. -/
inductive CallOutcome where
  /-- The func returned. -/
  | returned
  /-- The func panicked. -/
  | panicked
  deriving DecidableEq, Repr

/-- The deferred function `func() { _ = recover() }` of the handler goroutine, run when the
call of the handler has ended: recover stops a panic, so the goroutine returns normally. -/
def deferredRecover : CallOutcome → CallOutcome
  | .returned => .returned
  | .panicked => .returned

/-- The goroutine `go func(handler, p) { defer ...; handler(p) }(h, *msg.Params)`, where
`run` tells how the call of a handler on a payload ends: how the goroutine ends. -/
def handlerGoroutine (run : Handler → Bytes → CallOutcome) (h : Handler) (p : Bytes) : CallOutcome :=
  deferredRecover (run h p)

/-- What ends the process apart from the program itself: a panic of a channel operation in
the receive loop, or a handler goroutine that ends by a panic. -/
inductive Crash where
  /-- A panic of the receive loop. -/
  | loop (p : Panic)
  /-- The goroutine of the handler `h` ended by a panic. -/
  | handler (h : Handler)
  deriving DecidableEq, Repr

/-- The first of the handler goroutines started by a pass of the loop that ends by a panic. -/
def firstCrash (run : Handler → Bytes → CallOutcome) : List Event → Option Handler
  | [] => none
  | .invoked h p :: rest =>
    if handlerGoroutine run h p = .panicked then some h else firstCrash run rest
  | _ :: rest => firstCrash run rest

/-- The method Client.receiveLoop together with the handler goroutines it starts: the loop
runs until a pass tells it to return. Every pass that goes on has read a frame, so with
`fuel` above the number of bytes left in the reader the first case is never reached. -/
def Client.receiveLoop (J : JsonCodec) (run : Handler → Bytes → CallOutcome) :
    Nat → Client → Except Crash (Client × List Event)
  | 0, c => .ok (c, [])
  | fuel + 1, c =>
    match Client.receiveLoop.iteration J c with
    | .error p => .error (.loop p)
    | .ok (c, evs, goOn) =>
      match firstCrash run evs with
      | some h => .error (.handler h)
      | none =>
        if goOn then
          match Client.receiveLoop J run fuel c with
          | .error e => .error e
          | .ok (c, more) => .ok (c, evs ++ more)
        else .ok (c, evs)

/-- A client with a handler for the notification "exit". -/
def exampleHandlerClient : Client :=
  { rw := ⟨[], false⟩, reader := [], opts := ⟨10000000000, false⟩, hasTransport := true,
    handlers := [(ofString "exit", some 7)], pending := [], nextID := 0, closed := false,
    chans := [] }

/-- A notification without params. -/
def exampleNotification : rpcMessage :=
  { JSONRPC := ofString "2.0", ID := none, Method := ofString "exit", Params := none,
    Result := none, Error := none }

/-- A response to the request of `exampleClient` that carries an error object, and a
result as well. -/
def exampleErrorResponse : rpcMessage :=
  { JSONRPC := ofString "2.0", ID := some (ofString "1"), Method := [], Params := none,
    Result := some (ofString "true"),
    Error := some { code := -32601, message := ofString "method not found", data := none } }

/-- The example client after the receive loop has delivered `exampleErrorResponse`. -/
def exampleAnsweredClient : Client :=
  { rw := ⟨[], false⟩, reader := [], opts := ⟨10000000000, false⟩, hasTransport := true,
    handlers := [], pending := [], nextID := 1, closed := false,
    chans := [{ buf := some exampleErrorResponse, closed := true }] }

/-- A started client that has issued no request yet. -/
def exampleStartedClient : Client :=
  { rw := ⟨[], false⟩, reader := [], opts := ⟨10000000000, false⟩, hasTransport := true,
    handlers := [], pending := [], nextID := 0, closed := false, chans := [] }

/-- The example client after its Shutdown. -/
def exampleClosedClient : Client :=
  { rw := ⟨[], true⟩, reader := [], opts := ⟨10000000000, false⟩, hasTransport := true,
    handlers := [], pending := [], nextID := 1, closed := true,
    chans := [{ buf := none, closed := true }] }

/-! ## The client: counts over the events of a run -/

/-- The number of frames of a run for which the default branch of the receive loop was
taken: the frames that were dropped although their id was pending. -/
def drops : List Event → Nat
  | [] => 0
  | .dropped _ _ _ :: rest => 1 + drops rest
  | _ :: rest => drops rest

/-- The number of calls close(ch) of a run for the channel `ch`. -/
def closes (ch : ChanRef) : List Event → Nat
  | [] => 0
  | .closedChan ch' :: rest => (if ch' = ch then 1 else 0) + closes ch rest
  | _ :: rest => closes ch rest

/-- A started client with one request in flight and a handler registered for "exit". -/
def exampleBusyClient : Client :=
  { exampleClient with handlers := [(ofString "exit", some 7)] }

/-- A frame that carries the id of the request in flight and also a method and params, as a
request of the peer would; it has neither result nor error. -/
def examplePeerRequest : rpcMessage :=
  { JSONRPC := ofString "2.0", ID := some (ofString "1"), Method := ofString "exit",
    Params := some (ofString "0"), Result := none, Error := none }

/-! ## Content-Length header lines -/

/-- A header line (without its line feed) whose key is Content-Length, in any letter case,
and whose value is the decimal integer `n`, not negative. -/
def isLengthLine (l : Bytes) (n : Int) : Prop :=
  10 ∉ l ∧ ∃ k v, l = k ++ 58 :: v ∧ 58 ∉ k ∧
    strings.EqualFold (strings.TrimSpace k) (ofString "Content-Length") = true ∧
    strconv.Atoi (transport.lineValue v) = some n ∧ 0 ≤ n

/-! ## More of strings -/

namespace strings

/-- The function strings.HasPrefix: `len(s) >= len(pre) && s[:len(pre)] == pre`. -/
def HasPrefix (s pre : Bytes) : Bool :=
  decide (pre.length ≤ s.length) && decide (s.take pre.length = pre)

/-- The function strings.TrimPrefix: `s` without the leading `pre`, or `s` itself. -/
def TrimPrefix (s pre : Bytes) : Bytes :=
  if HasPrefix s pre then s.drop pre.length else s

/-- The search of strings.Index from the offset `i` of the string on: the offset of the
first position at which `substr` starts, or -1. -/
def indexFrom (substr : Bytes) : Bytes → Int → Int
  | [], i => if substr = [] then i else -1
  | c :: s, i => if HasPrefix (c :: s) substr then i else indexFrom substr s (i + 1)

/-- The function strings.Index: the index of the first instance of `substr` in `s`, or -1. -/
def Index (s substr : Bytes) : Int := indexFrom substr s 0

/-- The function strings.Contains: `Index(s, substr) >= 0`. -/
def Contains (s substr : Bytes) : Bool := decide (Index s substr ≥ 0)

/-- The function strings.Split(s, sep) for a one-byte separator: the substrings between the
occurrences of `sep`, one more than there are occurrences. -/
def Split : Bytes → Nat → List Bytes
  | [], _ => [[]]
  | c :: s, sep =>
    if c = sep then [] :: Split s sep
    else
      match Split s sep with
      | f :: fs => (c :: f) :: fs
      | [] => [[c]]

/-- The ASCII path of strings.Fields: `cur` is the field read so far; a space byte ends it. -/
def fieldsASCII : Bytes → Bytes → List Bytes
  | cur, [] => if cur = [] then [] else [cur]
  | cur, c :: s =>
    if asciiSpace c then
      if cur = [] then fieldsASCII [] s else cur :: fieldsASCII [] s
    else fieldsASCII (cur ++ [c]) s

/-- The function strings.FieldsFunc(s, f): the maximal runs of runes that do not satisfy `f`.
Every decoded rune of a non-empty string is at least one byte wide, so `fuel = len(s)`
iterations suffice. -/
def fieldsFunc (f : Nat → Bool) : Nat → Bytes → Bytes → List Bytes
  | 0, cur, _ => if cur = [] then [] else [cur]
  | fuel + 1, cur, s =>
    match s with
    | [] => if cur = [] then [] else [cur]
    | _ :: _ =>
      let (r, w) := utf8.DecodeRuneInString s
      if f r then
        if cur = [] then fieldsFunc f fuel [] (s.drop w)
        else cur :: fieldsFunc f fuel [] (s.drop w)
      else fieldsFunc f fuel (cur ++ s.take w) (s.drop w)

/-- The function strings.Fields: the fields of `s` between runs of white space; a string
with a non-ASCII byte goes through FieldsFunc(s, unicode.IsSpace). -/
def Fields (s : Bytes) : List Bytes :=
  if s.all (fun c => decide (c < utf8.RuneSelf)) then fieldsASCII [] s
  else fieldsFunc unicode.IsSpace s.length [] s

/-- The function strings.Join. -/
def Join : List Bytes → Bytes → Bytes
  | [], _ => []
  | [a], _ => a
  | a :: b :: rest, sep => a ++ sep ++ Join (b :: rest) sep

end strings

/-! ## types.go: file paths and URIs -/

/-- The function FilePathToURI. -/
def FilePathToURI (path : Bytes) : Bytes :=
  if strings.HasPrefix path (ofString "file://") then path
  else ofString "file://" ++ path

/-- The function URIToFilePath. -/
def URIToFilePath (uri : Bytes) : Except Err Bytes :=
  if strings.HasPrefix uri (ofString "file://") then
    .ok (strings.TrimPrefix uri (ofString "file://"))
  else .error (.unsupportedURI uri)

/-! ## encoding/json, as far as rpc.go uses it

The scanner, the string encoder and decoder, and the encoding and decoding of an rpcMessage,
written out after the Go library. -/

namespace json

/-- The prefix of the input that the scanner skips between tokens: white space. -/
def skipSpace : Bytes → Bytes
  | [] => []
  | c :: r => if isWhitespace c then skipSpace r else c :: r

/-- A hexadecimal digit. -/
def isHex (c : Nat) : Bool :=
  decide (48 ≤ c ∧ c ≤ 57) || decide (97 ≤ c ∧ c ≤ 102) || decide (65 ≤ c ∧ c ≤ 70)

/-- The digit `n` of the table `hex` ("0123456789abcdef"). -/
def hexDigit (n : Nat) : Nat := if n < 10 then 48 + n else 87 + n

/-- The escape `\u00XX` of the byte `b`. -/
def escapeByte (b : Nat) : Bytes := [92, 117, 48, 48, hexDigit (b / 16), hexDigit (b % 16)]

/-- The scanner inside a string literal, after the opening quote. The state is 0 in the
text of the string, 1 after a backslash, `n + 1` (from 2 to 5) when `n` hexadecimal digits
of a `\u` escape are still to come, and 6 and 7 on the second and third byte of an encoding
of U+2028 or U+2029 that compaction has replaced. Returns the text of the literal up to the
closing quote and the input after that quote. With `esc` (the compaction that Marshal
applies, with escapeHTML) the bytes `<`, `>`, `&` and the encodings of U+2028 and U+2029
are replaced in the text by their `\u` escapes. -/
def scanString (esc : Bool) : Nat → Bytes → Option (Bytes × Bytes)
  | _, [] => none
  | 0, c :: r =>
    if c = 34 then some ([], r)
    else if c = 92 then (scanString esc 1 r).map (fun x => (92 :: x.1, x.2))
    else if c < 32 then none
    else if esc && (decide (c = 60) || decide (c = 62) || decide (c = 38)) then
      (scanString esc 0 r).map (fun x => (escapeByte c ++ x.1, x.2))
    else if esc && decide (c = 226) && (decide (r.take 2 = [128, 168])
        || decide (r.take 2 = [128, 169])) then
      (scanString esc 6 r).map
        (fun x => ([92, 117, 50, 48, 50, hexDigit (r.getD 1 0 % 16)] ++ x.1, x.2))
    else (scanString esc 0 r).map (fun x => (c :: x.1, x.2))
  | 1, c :: r =>
    if c = 34 ∨ c = 92 ∨ c = 47 ∨ c = 98 ∨ c = 102 ∨ c = 110 ∨ c = 114 ∨ c = 116 then
      (scanString esc 0 r).map (fun x => (c :: x.1, x.2))
    else if c = 117 then (scanString esc 5 r).map (fun x => (c :: x.1, x.2))
    else none
  | 6, _ :: r => scanString esc 7 r
  | 7, _ :: r => scanString esc 0 r
  | n + 2, c :: r =>
    if isHex c then
      (scanString esc (if n = 0 then 0 else n + 1) r).map (fun x => (c :: x.1, x.2))
    else none

/-- The states of the scanner inside a number. -/
inductive NumState where
  /-- Nothing read yet. -/
  | start
  /-- After the minus sign (stateNeg). -/
  | neg
  /-- After a leading zero (state0). -/
  | zero
  /-- In the integer part (state1). -/
  | int
  /-- After the decimal point (stateDot). -/
  | dot
  /-- In the fraction (stateDot0). -/
  | dot0
  /-- After the exponent letter (stateE). -/
  | e
  /-- After the sign of the exponent (stateESign). -/
  | esign
  /-- In the exponent (stateE0). -/
  | e0
  deriving DecidableEq, Repr

/-- The transition of the scanner inside a number; `none` when the byte does not continue
the number. -/
def NumState.next : NumState → Nat → Option NumState
  | .start, c =>
    if c = 45 then some .neg else if c = 48 then some .zero
    else if 49 ≤ c ∧ c ≤ 57 then some .int else none
  | .neg, c => if c = 48 then some .zero else if 49 ≤ c ∧ c ≤ 57 then some .int else none
  | .zero, c => if c = 46 then some .dot else if c = 101 ∨ c = 69 then some .e else none
  | .int, c =>
    if 48 ≤ c ∧ c ≤ 57 then some .int else if c = 46 then some .dot
    else if c = 101 ∨ c = 69 then some .e else none
  | .dot, c => if 48 ≤ c ∧ c ≤ 57 then some .dot0 else none
  | .dot0, c =>
    if 48 ≤ c ∧ c ≤ 57 then some .dot0 else if c = 101 ∨ c = 69 then some .e else none
  | .e, c =>
    if c = 43 ∨ c = 45 then some .esign else if 48 ≤ c ∧ c ≤ 57 then some .e0 else none
  | .esign, c => if 48 ≤ c ∧ c ≤ 57 then some .e0 else none
  | .e0, c => if 48 ≤ c ∧ c ≤ 57 then some .e0 else none

/-- The states in which a number may end. -/
def NumState.accepting : NumState → Bool
  | .zero => true
  | .int => true
  | .dot0 => true
  | .e0 => true
  | _ => false

/-- The scanner over a number: the text of the number and the input after it. -/
def scanNumber : NumState → Bytes → Option (Bytes × Bytes)
  | st, [] => if st.accepting then some ([], []) else none
  | st, c :: r =>
    match st.next c with
    | some st' => (scanNumber st' r).map (fun x => (c :: x.1, x.2))
    | none => if st.accepting then some ([], c :: r) else none

/-- The scanner over one of the literals true, false and null. -/
def scanLiteral (s : Bytes) : Option (Bytes × Bytes) :=
  if strings.HasPrefix s (ofString "true") then some (ofString "true", s.drop 4)
  else if strings.HasPrefix s (ofString "false") then some (ofString "false", s.drop 5)
  else if strings.HasPrefix s (ofString "null") then some (ofString "null", s.drop 4)
  else none

/-- What the scanner reads next: a value, the elements of an array up to its closing
bracket, or the members of an object up to its closing brace. -/
inductive Mode where
  /-- A value; the input starts at its first byte. -/
  | value
  /-- The elements of an array, starting at the first byte of an element. -/
  | elements
  /-- The members of an object, starting at the quote of a key. -/
  | members
  deriving DecidableEq, Repr

/-- The constant maxNestingDepth of the scanner. -/
def maxNestingDepth : Nat := 10000

/-- The scanner over one JSON value (or the rest of an array or object): returns the text
read with the white space between tokens left out (the compact form) and the input after
it, or `none` for a syntax error. `depth` is the number of arrays and objects that may
still be opened. Every call reads at least one byte or is followed by one that does, so
`2 * len + 2` is fuel enough. -/
def scan (esc : Bool) : Nat → Nat → Mode → Bytes → Option (Bytes × Bytes)
  | 0, _, _, _ => none
  | fuel + 1, depth, .value, s =>
    match s with
    | [] => none
    | c :: r =>
      if c = 123 then
        if depth = 0 then none
        else
          match skipSpace r with
          | 125 :: r' => some ([123, 125], r')
          | r' => (scan esc fuel (depth - 1) .members r').map (fun x => (123 :: x.1, x.2))
      else if c = 91 then
        if depth = 0 then none
        else
          match skipSpace r with
          | 93 :: r' => some ([91, 93], r')
          | r' => (scan esc fuel (depth - 1) .elements r').map (fun x => (91 :: x.1, x.2))
      else if c = 34 then (scanString esc 0 r).map (fun x => (34 :: (x.1 ++ [34]), x.2))
      else if c = 116 ∨ c = 102 ∨ c = 110 then scanLiteral (c :: r)
      else scanNumber .start (c :: r)
  | fuel + 1, depth, .elements, s =>
    match scan esc fuel depth .value s with
    | none => none
    | some (o, r) =>
      match skipSpace r with
      | 44 :: r' =>
        (scan esc fuel depth .elements (skipSpace r')).map (fun x => (o ++ 44 :: x.1, x.2))
      | 93 :: r' => some (o ++ [93], r')
      | _ => none
  | fuel + 1, depth, .members, s =>
    match s with
    | 34 :: r =>
      match scanString esc 0 r with
      | none => none
      | some (k, r) =>
        match skipSpace r with
        | 58 :: r =>
          match scan esc fuel depth .value (skipSpace r) with
          | none => none
          | some (o, r) =>
            match skipSpace r with
            | 44 :: r' =>
              (scan esc fuel depth .members (skipSpace r')).map
                (fun x => (34 :: (k ++ 34 :: 58 :: (o ++ 44 :: x.1)), x.2))
            | 125 :: r' => some (34 :: (k ++ 34 :: 58 :: (o ++ [125])), r')
            | _ => none
        | _ => none
    | _ => none

/-- The fuel of the scanner for an input. -/
def fuelFor (s : Bytes) : Nat := 2 * s.length + 2

/-- The compaction that Marshal applies to the bytes of a RawMessage (appendCompact with
escapeHTML): the text without its insignificant white space and with `<`, `>`, `&`,
U+2028 and U+2029 escaped; `none` when the bytes are not a JSON text. -/
def compact (raw : Bytes) : Option Bytes :=
  match scan true (fuelFor raw) maxNestingDepth .value (skipSpace raw) with
  | some (out, rest) => if skipSpace rest = [] then some out else none
  | none => none

/-- The function checkValid: is the input one JSON value, with white space around it? -/
def checkValid (data : Bytes) : Bool :=
  match scan false (fuelFor data) maxNestingDepth .value (skipSpace data) with
  | some (_, rest) => decide (skipSpace rest = [])
  | none => false

/-- The table htmlSafeSet: the ASCII bytes that the string encoder copies unchanged. -/
def htmlSafe (b : Nat) : Bool :=
  decide (32 ≤ b ∧ b < 128) &&
    !(decide (b = 34) || decide (b = 92) || decide (b = 60) || decide (b = 62) || decide (b = 38))

/-- The loop of appendString (with escapeHTML), the encoder of Go strings, as of Go 1.22:
the text between the quotes. Every iteration consumes at least one byte, so `fuel = len(s)`
iterations suffice. -/
def appendString : Nat → Bytes → Bytes
  | 0, _ => []
  | _ + 1, [] => []
  | fuel + 1, b :: r =>
    if b < utf8.RuneSelf then
      if htmlSafe b then b :: appendString fuel r
      else
        (if b = 92 ∨ b = 34 then [92, b]
         else if b = 8 then [92, 98]
         else if b = 12 then [92, 102]
         else if b = 10 then [92, 110]
         else if b = 13 then [92, 114]
         else if b = 9 then [92, 116]
         else escapeByte b) ++ appendString fuel r
    else
      if (utf8.DecodeRuneInString (b :: r)).1 = utf8.RuneError
          ∧ (utf8.DecodeRuneInString (b :: r)).2 = 1 then
        [92, 117, 102, 102, 102, 100] ++ appendString fuel r
      else if (utf8.DecodeRuneInString (b :: r)).1 = 0x2028
          ∨ (utf8.DecodeRuneInString (b :: r)).1 = 0x2029 then
        [92, 117, 50, 48, 50, hexDigit ((utf8.DecodeRuneInString (b :: r)).1 % 16)]
          ++ appendString fuel (r.drop ((utf8.DecodeRuneInString (b :: r)).2 - 1))
      else
        (b :: r).take (utf8.DecodeRuneInString (b :: r)).2
          ++ appendString fuel (r.drop ((utf8.DecodeRuneInString (b :: r)).2 - 1))

/-- The JSON encoding of a Go string. -/
def quote (s : Bytes) : Bytes := 34 :: (appendString s.length s ++ [34])

/-- The value of a hexadecimal digit. -/
def hexValue (c : Nat) : Nat :=
  if 48 ≤ c ∧ c ≤ 57 then c - 48 else if 97 ≤ c ∧ c ≤ 102 then c - 87 else c - 55

/-- The function getu4: the number of a `\u` escape at the start of the input; `none` is
the result -1. -/
def getu4 (s : Bytes) : Option Nat :=
  match s with
  | 92 :: 117 :: a :: b :: c :: d :: _ =>
    if isHex a && isHex b && isHex c && isHex d then
      some (((hexValue a * 16 + hexValue b) * 16 + hexValue c) * 16 + hexValue d)
    else none
  | _ => none

/-- The function utf8.EncodeRune. -/
def encodeRune (r : Nat) : Bytes :=
  if r ≤ 0x7F then [r]
  else if r ≤ 0x7FF then [0xC0 + r / 64, 0x80 + r % 64]
  else if r > 0x10FFFF ∨ (0xD800 ≤ r ∧ r ≤ 0xDFFF) then [0xEF, 0xBF, 0xBD]
  else if r ≤ 0xFFFF then [0xE0 + r / 4096, 0x80 + r / 64 % 64, 0x80 + r % 64]
  else [0xF0 + r / 262144, 0x80 + r / 4096 % 64, 0x80 + r / 64 % 64, 0x80 + r % 64]

/-- The loop of unquoteBytes over the text between the quotes of a string literal: the
string that the literal denotes, or `none` for a text that is not one. (The library first
looks for a text without escapes and invalid bytes and returns it as it is; the loop gives
the same result on such a text.) -/
def unquote : Nat → Bytes → Option Bytes
  | _, [] => some []
  | 0, _ :: _ => none
  | fuel + 1, c :: r =>
    if c = 92 then
      match r with
      | [] => none
      | e :: r' =>
        if e = 34 ∨ e = 92 ∨ e = 47 ∨ e = 39 then (unquote fuel r').map (fun x => e :: x)
        else if e = 98 then (unquote fuel r').map (fun x => 8 :: x)
        else if e = 102 then (unquote fuel r').map (fun x => 12 :: x)
        else if e = 110 then (unquote fuel r').map (fun x => 10 :: x)
        else if e = 114 then (unquote fuel r').map (fun x => 13 :: x)
        else if e = 116 then (unquote fuel r').map (fun x => 9 :: x)
        else if e = 117 then
          match getu4 (c :: r) with
          | none => none
          | some rr =>
            if 0xD800 ≤ rr ∧ rr < 0xE000 then
              match getu4 (r'.drop 4) with
              | some rr1 =>
                if rr < 0xDC00 ∧ 0xDC00 ≤ rr1 ∧ rr1 < 0xE000 then
                  (unquote fuel (r'.drop 10)).map
                    (fun x => encodeRune ((rr - 0xD800) * 1024 + (rr1 - 0xDC00) + 0x10000) ++ x)
                else (unquote fuel (r'.drop 4)).map (fun x => encodeRune 0xFFFD ++ x)
              | none => (unquote fuel (r'.drop 4)).map (fun x => encodeRune 0xFFFD ++ x)
            else (unquote fuel (r'.drop 4)).map (fun x => encodeRune rr ++ x)
        else none
    else if c = 34 ∨ c < 32 then none
    else if c < utf8.RuneSelf then (unquote fuel r).map (fun x => c :: x)
    else
      (unquote fuel (r.drop ((utf8.DecodeRuneInString (c :: r)).2 - 1))).map
        (fun x => encodeRune (utf8.DecodeRuneInString (c :: r)).1 ++ x)

/-- The rune that foldRune gives as far as it matters for ASCII names: the long s and the
Kelvin sign fold to S and K. Every other rune outside ASCII folds to a rune outside
ASCII, which occurs in no field name; it is left as it is here. -/
def foldRune (r : Nat) : Nat := if r = 0x17F then 0x53 else if r = 0x212A then 0x4B else r

/-- The function foldName: ASCII letters in upper case, other runes folded. -/
def foldName : Nat → Bytes → Bytes
  | 0, _ => []
  | _ + 1, [] => []
  | fuel + 1, c :: r =>
    if c < utf8.RuneSelf then (if 97 ≤ c ∧ c ≤ 122 then c - 32 else c) :: foldName fuel r
    else
      encodeRune (foldRune (utf8.DecodeRuneInString (c :: r)).1)
        ++ foldName fuel (r.drop ((utf8.DecodeRuneInString (c :: r)).2 - 1))

/-- The members of an object, from the quote of the first key on: for each member the text
of its key (between the quotes) and the bytes of its value. -/
def members : Nat → Bytes → Option (List (Bytes × Bytes))
  | 0, _ => none
  | fuel + 1, s =>
    match s with
    | 34 :: r =>
      match scanString false 0 r with
      | none => none
      | some (k, r) =>
        match skipSpace r with
        | 58 :: r =>
          match scan false (fuelFor (skipSpace r)) maxNestingDepth .value (skipSpace r) with
          | none => none
          | some (_, rest) =>
            match skipSpace rest with
            | 44 :: r' =>
              (members fuel (skipSpace r')).map
                (fun x => (k, (skipSpace r).take ((skipSpace r).length - rest.length)) :: x)
            | 125 :: _ => some [(k, (skipSpace r).take ((skipSpace r).length - rest.length))]
            | _ => none
        | _ => none
    | _ => none

/-- The members of the object whose text starts at the beginning of the input. -/
def objectMembers (v : Bytes) : Option (List (Bytes × Bytes)) :=
  match v with
  | 123 :: r =>
    match skipSpace r with
    | 125 :: _ => some []
    | s => members s.length s
  | _ => none

/-- An error of type *json.SyntaxError; its text is not modelled. -/
def syntaxError : Err := .json "SyntaxError"

/-- An error of type *json.UnmarshalTypeError; its text is not modelled. -/
def typeError : Err := .json "UnmarshalTypeError"

/-- The decoding of a value into a field of type string: `some s` sets the field, `none`
(the value null) leaves it. -/
def decodeString (v : Bytes) : Except Err (Option Bytes) :=
  match v with
  | 34 :: r =>
    match unquote r.length r.dropLast with
    | some s => .ok (some s)
    | none => .error syntaxError
  | 110 :: _ => .ok none
  | _ => .error typeError

/-- The decoding of a value into a field of type *json.RawMessage: null sets the pointer
to nil, any other value is stored as its bytes. -/
def decodeRaw (v : Bytes) : Option Bytes :=
  match v with
  | 110 :: _ => none
  | _ => some v

/-- The decoding of a value into a field of type int: `some n` sets the field, `none` (the
value null) leaves it. -/
def decodeInt (v : Bytes) : Except Err (Option Int) :=
  match v with
  | 110 :: _ => .ok none
  | c :: r =>
    if c = 45 ∨ (48 ≤ c ∧ c ≤ 57) then
      match strconv.Atoi (c :: r) with
      | some n => .ok (some n)
      | none => .error typeError
    else .error typeError
  | [] => .error typeError

/-- The fields of rpcError. -/
inductive ErrorField where
  /-- The field Code. -/
  | code
  /-- The field Message. -/
  | message
  /-- The field Data. -/
  | data
  deriving DecidableEq, Repr

/-- The field of rpcError that a key selects: the one whose name equals the key exactly or
after folding. -/
def errorFieldOf (key : Bytes) : Option ErrorField :=
  if foldName key.length key = ofString "CODE" then some .code
  else if foldName key.length key = ofString "MESSAGE" then some .message
  else if foldName key.length key = ofString "DATA" then some .data
  else none

/-- The decoding of one member of an object into an rpcError. A value of type interface
is represented by the bytes it was decoded from. -/
def assignError (e : rpcError) (kv : Bytes × Bytes) : Except Err rpcError :=
  match unquote kv.1.length kv.1 with
  | none => .error syntaxError
  | some key =>
    match errorFieldOf key with
    | none => .ok e
    | some .code =>
      match decodeInt kv.2 with
      | .error err => .error err
      | .ok none => .ok e
      | .ok (some n) => .ok { e with code := n }
    | some .message =>
      match decodeString kv.2 with
      | .error err => .error err
      | .ok none => .ok e
      | .ok (some s) => .ok { e with message := s }
    | some .data => .ok { e with data := decodeRaw kv.2 }

/-- The decoding of the members of an object into an rpcError, in order. -/
def assignErrorAll (e : rpcError) : List (Bytes × Bytes) → Except Err rpcError
  | [] => .ok e
  | kv :: rest =>
    match assignError e kv with
    | .error err => .error err
    | .ok e' => assignErrorAll e' rest

/-- The decoding of a value into a field of type *rpcError: null sets the pointer to nil,
an object is decoded into the struct that the pointer has (a new one for nil). -/
def decodeError (old : Option rpcError) (v : Bytes) : Except Err (Option rpcError) :=
  match v with
  | 110 :: _ => .ok none
  | 123 :: r =>
    match objectMembers (123 :: r) with
    | none => .error syntaxError
    | some ms =>
      match assignErrorAll (old.getD { code := 0, message := [], data := none }) ms with
      | .error err => .error err
      | .ok e => .ok (some e)
  | _ => .error typeError

/-- The fields of rpcMessage. -/
inductive Field where
  /-- The field JSONRPC. -/
  | jsonrpc
  /-- The field ID. -/
  | id
  /-- The field Method. -/
  | method
  /-- The field Params. -/
  | params
  /-- The field Result. -/
  | result
  /-- The field Error. -/
  | error
  deriving DecidableEq, Repr

/-- The field of rpcMessage that a key selects. -/
def fieldOf (key : Bytes) : Option Field :=
  if foldName key.length key = ofString "JSONRPC" then some .jsonrpc
  else if foldName key.length key = ofString "ID" then some .id
  else if foldName key.length key = ofString "METHOD" then some .method
  else if foldName key.length key = ofString "PARAMS" then some .params
  else if foldName key.length key = ofString "RESULT" then some .result
  else if foldName key.length key = ofString "ERROR" then some .error
  else none

/-- The decoding of one member of an object into an rpcMessage; a member with an unknown
key is skipped. -/
def assign (m : rpcMessage) (kv : Bytes × Bytes) : Except Err rpcMessage :=
  match unquote kv.1.length kv.1 with
  | none => .error syntaxError
  | some key =>
    match fieldOf key with
    | none => .ok m
    | some .jsonrpc =>
      match decodeString kv.2 with
      | .error err => .error err
      | .ok none => .ok m
      | .ok (some s) => .ok { m with JSONRPC := s }
    | some .id => .ok { m with ID := decodeRaw kv.2 }
    | some .method =>
      match decodeString kv.2 with
      | .error err => .error err
      | .ok none => .ok m
      | .ok (some s) => .ok { m with Method := s }
    | some .params => .ok { m with Params := decodeRaw kv.2 }
    | some .result => .ok { m with Result := decodeRaw kv.2 }
    | some .error =>
      match decodeError m.Error kv.2 with
      | .error err => .error err
      | .ok e => .ok { m with Error := e }

/-- The decoding of the members of an object into an rpcMessage, in order. -/
def assignAll (m : rpcMessage) : List (Bytes × Bytes) → Except Err rpcMessage
  | [] => .ok m
  | kv :: rest =>
    match assign m kv with
    | .error err => .error err
    | .ok m' => assignAll m' rest

/-- The call json.Unmarshal(data, &msg) into a zero rpcMessage: a syntax error for an input
that is not a JSON text; the text null changes nothing; a value other than an object, or a
member whose value does not fit its field, is a type error. -/
def Unmarshal (data : Bytes) : Except Err rpcMessage :=
  if checkValid data then
    match skipSpace data with
    | 123 :: r =>
      match objectMembers (123 :: r) with
      | none => .error syntaxError
      | some ms =>
        assignAll { JSONRPC := [], ID := none, Method := [], Params := none, Result := none,
                    Error := none } ms
    | 110 :: _ =>
      .ok { JSONRPC := [], ID := none, Method := [], Params := none, Result := none,
            Error := none }
    | _ => .error typeError
  else .error syntaxError

/-- The encoding of a field of type *json.RawMessage with omitempty under the name `name`:
nothing for a nil pointer, otherwise the compacted bytes; an error when they are not a JSON
text. (A non-nil pointer to a nil slice, which the library encodes as null, is not
represented: the bytes behind a pointer are a list here.) -/
def marshalRaw (name : Bytes) (v : Option Bytes) : Except Err Bytes :=
  match v with
  | none => .ok []
  | some raw =>
    match compact raw with
    | some c => .ok (44 :: 34 :: (name ++ 34 :: 58 :: c))
    | none => .error (.json "MarshalerError")

/-- The encoding of the field Error. `encodeValue` is the encoding of a value of type
interface, which is not modelled. -/
def marshalError (encodeValue : Bytes → Except Err Bytes) (e : Option rpcError) :
    Except Err Bytes :=
  match e with
  | none => .ok []
  | some e =>
    match e.data with
    | none =>
      .ok (ofString ",\"error\":\x7b\"code\":" ++ strconv.FormatInt e.code
        ++ ofString ",\"message\":" ++ quote e.message ++ [125])
    | some d =>
      match encodeValue d with
      | .error err => .error err
      | .ok enc =>
        .ok (ofString ",\"error\":\x7b\"code\":" ++ strconv.FormatInt e.code
          ++ ofString ",\"message\":" ++ quote e.message ++ ofString ",\"data\":" ++ enc
          ++ [125])

/-- The call json.Marshal(msg) for an rpcMessage. -/
def Marshal (encodeValue : Bytes → Except Err Bytes) (m : rpcMessage) : Except Err Bytes :=
  match marshalRaw (ofString "id") m.ID with
  | .error err => .error err
  | .ok id =>
    match marshalRaw (ofString "params") m.Params with
    | .error err => .error err
    | .ok params =>
      match marshalRaw (ofString "result") m.Result with
      | .error err => .error err
      | .ok result =>
        match marshalError encodeValue m.Error with
        | .error err => .error err
        | .ok error =>
          .ok (ofString "\x7b\"jsonrpc\":" ++ quote m.JSONRPC ++ id
            ++ (if m.Method = [] then [] else ofString ",\"method\":" ++ quote m.Method)
            ++ params ++ result ++ error ++ [125])

/-- The package encoding/json for rpcMessage. -/
def codec (encodeValue : Bytes → Except Err Bytes) : JsonCodec :=
  { Marshal := Marshal encodeValue, Unmarshal := Unmarshal }

/-- Is the input one JSON value, with white space around it, with at most `depth` arrays
and objects inside one another? (The function checkValid is the case of maxNestingDepth.) -/
def validWithin (depth : Nat) (data : Bytes) : Bool :=
  match scan false (fuelFor data) depth .value (skipSpace data) with
  | some (_, rest) => decide (skipSpace rest = [])
  | none => false

/-- Does the text hold a byte that compaction with escapeHTML replaces: one of `<`, `>`
and `&`, or an encoding of U+2028 or U+2029? -/
def needsEscape : Bytes → Bool
  | [] => false
  | c :: r =>
    decide (c = 60) || decide (c = 62) || decide (c = 38)
      || (decide (c = 226) && (decide (r.take 2 = [128, 168]) || decide (r.take 2 = [128, 169])))
      || needsEscape r

/-- What may follow a value in a compact text: nothing, a comma, or a closing bracket or
brace. -/
def endsValue (t : Bytes) : Prop := ∀ c ∈ t.head?, c = 44 ∨ c = 93 ∨ c = 125

/-- The text of the members of an object in compact form, from the quote of the first key
to the closing brace, for the keys (the text between their quotes) and the values given. -/
def membersText : List (Bytes × Bytes) → Bytes
  | [] => [125]
  | [kv] => 34 :: (kv.1 ++ 34 :: 58 :: (kv.2 ++ [125]))
  | kv :: rest => 34 :: (kv.1 ++ 34 :: 58 :: (kv.2 ++ 44 :: membersText rest))

/-- The text `v` is a value in compact form with at most `d` arrays and objects inside one
another: it starts with a byte other than white space, and wherever it is followed by a
comma, a closing bracket or nothing, the scanner reads exactly `v` and returns it. -/
def Stable (d : Nat) (v : Bytes) : Prop :=
  (∃ c o, v = c :: o ∧ isWhitespace c = false) ∧
  ∀ t, endsValue t → ∀ f d', 2 * v.length + 1 ≤ f → d ≤ d' →
    scan false f d' .value (v ++ t) = some (v, t)

/-- The key `k` (the text between the quotes) has no quote, backslash or control byte. -/
def plainKey (k : Bytes) : Prop := ∀ c ∈ k, c ≠ 34 ∧ c ≠ 92 ∧ 32 ≤ c

/-- A JSON text that a `*json.RawMessage` field carries through Marshal and Unmarshal
unchanged up to insignificant white space: a valid text with fewer than maxNestingDepth
arrays and objects inside one another (the message adds one object around it), other than
the value null, and without a byte that compaction escapes. -/
def plain (v : Bytes) : Prop :=
  validWithin (maxNestingDepth - 1) v = true ∧
    stripInsignificant false false v ≠ ofString "null" ∧ needsEscape v = false

/-- The member that Marshal writes for a field of type `*json.RawMessage` with omitempty
whose bytes are a plain text: none for nil, otherwise the name and the text without its
insignificant white space. -/
def rawMember (name : Bytes) (v : Option Bytes) : List (Bytes × Bytes) :=
  match v with
  | none => []
  | some raw => [(name, stripInsignificant false false raw)]

/-- The members that Marshal writes for a message without error whose raw fields are plain:
keys and values, in the order of the fields. -/
def membersOf (m : rpcMessage) : List (Bytes × Bytes) :=
  (ofString "jsonrpc", quote m.JSONRPC) ::
    (rawMember (ofString "id") m.ID
      ++ (if m.Method = [] then [] else [(ofString "method", quote m.Method)])
      ++ rawMember (ofString "params") m.Params
      ++ rawMember (ofString "result") m.Result)

end json

namespace utf8

/-- The loop of utf8.ValidString: no rune of the string is an encoding error. Every
iteration consumes at least one byte, so `fuel = len(s)` iterations suffice. -/
def validLoop : Nat → Bytes → Bool
  | _, [] => true
  | 0, _ :: _ => false
  | fuel + 1, b :: r =>
    if b < RuneSelf then validLoop fuel r
    else if (DecodeRuneInString (b :: r)).1 = RuneError ∧ (DecodeRuneInString (b :: r)).2 = 1 then
      false
    else validLoop fuel (r.drop ((DecodeRuneInString (b :: r)).2 - 1))

/-- The function utf8.ValidString: is `s` a sequence of valid UTF-8 encodings? -/
def ValidString (s : Bytes) : Bool := validLoop s.length s

end utf8

/-- An encoder of interface values that supports no value; it serves for messages without
error data, whose encoding does not call it. -/
def json.unsupportedValue : Bytes → Except Err Bytes :=
  fun _ => .error (.json "UnsupportedTypeError")

/-- A request whose params are a JSON string with the character `<`. -/
def htmlParamsMessage : rpcMessage :=
  { JSONRPC := ofString "2.0"
    ID := some (ofString "1")
    Method := ofString "example/echo"
    Params := some (ofString "\"a<b\"")
    Result := none
    Error := none }

/-- A request whose method is the single byte 0xFF, which is not valid UTF-8. -/
def invalidMethodMessage : rpcMessage :=
  { JSONRPC := ofString "2.0"
    ID := some (ofString "1")
    Method := [0xFF]
    Params := some (ofString "[]")
    Result := none
    Error := none }

end Lsp

/-! # internal/utils: the ring buffer of server-manager.go -/

namespace utils

/-- Run-time panics of slice and integer operations. -/
inductive Panic where
  /-- The panic "index out of range". -/
  | indexOutOfRange
  /-- The panic "integer divide by zero". -/
  | divideByZero
  /-- The panic "makeslice: len out of range". -/
  | makesliceLen
  deriving DecidableEq, Repr

/-- The struct RingBuffer. Lines are Go strings. The int fields are kept as integers: they
stay within a small multiple of the length of the slice, far from the bounds of int. -/
structure RingBuffer where
  /-- The field buffer. -/
  buffer : List Lsp.Bytes
  /-- The field size. -/
  size : Int
  /-- The field head. -/
  head : Int
  /-- The field count. -/
  count : Int
  deriving DecidableEq, Repr

/-- The function NewRingBuffer: `make([]string, size)` and zero head and count. -/
def NewRingBuffer (size : Int) : Except Panic RingBuffer :=
  if size < 0 then .error .makesliceLen
  else .ok { buffer := List.replicate size.toNat [], size := size, head := 0, count := 0 }

/-- The remainder `a % b` of Go: truncated towards zero, a panic for a zero divisor. -/
def rem (a b : Int) : Except Panic Int :=
  if b = 0 then .error .divideByZero else .ok (a.tmod b)

/-- The slice read `buffer[idx]`. -/
def index (buffer : List Lsp.Bytes) (idx : Int) : Except Panic Lsp.Bytes :=
  if 0 ≤ idx ∧ idx < buffer.length then .ok (buffer.getD idx.toNat []) else .error .indexOutOfRange

/-- The method RingBuffer.Add. -/
def RingBuffer.Add (rb : RingBuffer) (line : Lsp.Bytes) : Except Panic RingBuffer :=
  if 0 ≤ rb.head ∧ rb.head < rb.buffer.length then
    let buffer := rb.buffer.set rb.head.toNat line
    match rem (rb.head + 1) rb.size with
    | .error p => .error p
    | .ok head =>
      .ok { rb with buffer := buffer, head := head,
                    count := if rb.count < rb.size then rb.count + 1 else rb.count }
  else .error .indexOutOfRange

/-- The loop of GetAll and GetRecent over the values of `i`:
`idx := (rb.head - n + i + rb.size) % rb.size; result[i] = rb.buffer[idx]`. -/
def RingBuffer.readInto (rb : RingBuffer) (n : Int) : List Nat → Except Panic (List Lsp.Bytes)
  | [] => .ok []
  | i :: rest =>
    match rem (rb.head - n + (i : Int) + rb.size) rb.size with
    | .error p => .error p
    | .ok idx =>
      match index rb.buffer idx with
      | .error p => .error p
      | .ok line =>
        match RingBuffer.readInto rb n rest with
        | .error p => .error p
        | .ok lines => .ok (line :: lines)

/-- The method RingBuffer.GetAll. -/
def RingBuffer.GetAll (rb : RingBuffer) : Except Panic (List Lsp.Bytes) :=
  if rb.count < 0 then .error .makesliceLen
  else rb.readInto rb.count (List.range rb.count.toNat)

/-- The method RingBuffer.GetRecent. -/
def RingBuffer.GetRecent (rb : RingBuffer) (n : Int) : Except Panic (List Lsp.Bytes) :=
  let n := if n > rb.count then rb.count else n
  if n < 0 then .error .makesliceLen
  else rb.readInto n (List.range n.toNat)

/-- Successive calls of Add for a list of lines. -/
def RingBuffer.addAll : RingBuffer → List Lsp.Bytes → Except Panic RingBuffer
  | rb, [] => .ok rb
  | rb, line :: rest =>
    match rb.Add line with
    | .error p => .error p
    | .ok rb => RingBuffer.addAll rb rest

/-- The state of a ring buffer of size `s` to which the lines `lines` have been added: the
head is the number of lines modulo `s`, the count is that number capped at `s`, and each of
the last `s` lines sits at its position modulo `s`. -/
def RingBuffer.Holds (rb : RingBuffer) (s : Nat) (lines : List Lsp.Bytes) : Prop :=
  rb.size = s ∧ rb.buffer.length = s ∧ rb.head = ((lines.length % s : Nat) : Int) ∧
    rb.count = ((min lines.length s : Nat) : Int) ∧
    ∀ i, lines.length - s ≤ i → i < lines.length → rb.buffer[i % s]? = lines[i]?

end utils

/-! # internal/utils: helpers.go -/

namespace utils

/-- The errors that ValidateCommand builds. -/
inductive Err where
  /-- The error `fmt.Errorf("command not found: %s", command)`. -/
  | commandNotFound (command : Lsp.Bytes)
  /-- The error `fmt.Errorf("potentially dangerous argument detected: %s", arg)`. -/
  | dangerousArgument (arg : Lsp.Bytes)
  deriving DecidableEq, Repr

/-- What ValidateCommand asks the system it runs on: filepath.IsAbs of the platform and
exec.LookPath in the current environment (`none` is a non-nil error). -/
structure Host where
  /-- The function filepath.IsAbs. -/
  IsAbs : Lsp.Bytes → Bool
  /-- The function exec.LookPath. -/
  LookPath : Lsp.Bytes → Option Lsp.Bytes

/-- The function filepath.IsAbs on Unix: the path begins with a slash. -/
def filepath.IsAbs (path : Lsp.Bytes) : Bool := Lsp.strings.HasPrefix path (Lsp.ofString "/")

/-- The loop of ValidateCommand over the arguments. -/
def ValidateCommand.checkArgs : List Lsp.Bytes → Option Err
  | [] => none
  | arg :: rest =>
    if Lsp.strings.Contains arg (Lsp.ofString ";") || Lsp.strings.Contains arg (Lsp.ofString "&&")
        || Lsp.strings.Contains arg (Lsp.ofString "||") then
      some (.dangerousArgument arg)
    else if Lsp.strings.Contains arg (Lsp.ofString ">")
        || Lsp.strings.Contains arg (Lsp.ofString "<")
        || Lsp.strings.Contains arg (Lsp.ofString "|") then
      some (.dangerousArgument arg)
    else ValidateCommand.checkArgs rest

/-- The function ValidateCommand (`none` is nil). -/
def ValidateCommand (host : Host) (command : Lsp.Bytes) (args : List Lsp.Bytes) : Option Err :=
  if command ≠ Lsp.ofString "go" ∧ host.IsAbs command = false then
    match host.LookPath command with
    | none => some (.commandNotFound command)
    | some _ => ValidateCommand.checkArgs args
  else ValidateCommand.checkArgs args

/-- The substrings that ValidateCommand looks for in an argument. -/
def injectionPatterns : List Lsp.Bytes :=
  [Lsp.ofString ";", Lsp.ofString "&&", Lsp.ofString "||", Lsp.ofString ">", Lsp.ofString "<",
    Lsp.ofString "|"]

/-- The argument `arg` contains one of the patterns as a substring. -/
def containsPattern (arg : Lsp.Bytes) : Prop := ∃ pat ∈ injectionPatterns, pat <:+: arg

/-- A Unix system on which the only command that LookPath finds is golangci-lint, the
command of the tool go_lint. -/
def exampleHost : Host :=
  { IsAbs := filepath.IsAbs,
    LookPath := fun command =>
      if command = Lsp.ofString "golangci-lint" then
        some (Lsp.ofString "/usr/local/bin/golangci-lint")
      else none }

end utils

/-! # internal/resources: go-resources.go -/

namespace resources

/-- The map that parseGoMod returns: it has the keys "module", "go" and "require", with two
strings and a slice of strings as values. -/
structure GoModInfo where
  /-- The value of info["module"]. -/
  module : Lsp.Bytes
  /-- The value of info["go"]. -/
  go : Lsp.Bytes
  /-- The value of info["require"]. -/
  require : List Lsp.Bytes
  deriving DecidableEq, Repr

/-- The body of the loop of parseGoMod for one line. -/
def parseGoMod.line (info : GoModInfo) (line : Lsp.Bytes) : GoModInfo :=
  let line := Lsp.strings.TrimSpace line
  if Lsp.strings.HasPrefix line (Lsp.ofString "module ") then
    let parts := Lsp.strings.Fields line
    if parts.length > 1 then { info with module := parts.getD 1 [] } else info
  else if Lsp.strings.HasPrefix line (Lsp.ofString "go ") then
    let parts := Lsp.strings.Fields line
    if parts.length > 1 then { info with go := parts.getD 1 [] } else info
  else if Lsp.strings.HasPrefix line (Lsp.ofString "require ") then
    let parts := Lsp.strings.Fields line
    if parts.length > 1 then
      { info with require := info.require ++ [Lsp.strings.Join (parts.drop 1) (Lsp.ofString " ")] }
    else info
  else info

/-- The function parseGoMod. -/
def parseGoMod (content : Lsp.Bytes) : GoModInfo :=
  (Lsp.strings.Split content 10).foldl parseGoMod.line { module := [], go := [], require := [] }

/-- The go.mod of the test "simple go.mod": its requirement is listed in a block. -/
def blockGoMod : Lsp.Bytes :=
  Lsp.ofString "module example.com/test\n\ngo 1.24\n\nrequire (\n\tgithub.com/example/dep v1.0.0\n)"

/-- The go.mod of the test "go.mod with multiple requires": single-line directives. -/
def singleLineGoMod : Lsp.Bytes :=
  Lsp.ofString "module test\n\ngo 1.24\n\nrequire dep1 v1.0.0\nrequire dep2 v2.0.0"

end resources

/-! # internal/utils: pkg-docs.go -/

namespace utils

/-- The character class of the pattern of extractPackagePaths: ASCII letters and digits,
dot, underscore, slash and hyphen. -/
def pathChar (c : Nat) : Bool :=
  decide (97 ≤ c ∧ c ≤ 122) || decide (65 ≤ c ∧ c ≤ 90) || decide (48 ≤ c ∧ c ≤ 57)
    || decide (c = 46) || decide (c = 95) || decide (c = 47) || decide (c = 45)

/-- The literal text `href="/` with which the pattern begins. -/
def hrefLiteral : Lsp.Bytes := Lsp.ofString "href=\"/"

/-- A match of the pattern of extractPackagePaths (the literal, one or more bytes of the
class as the submatch, a double quote) that starts at the beginning of `s`:
the literal, the longest run of bytes of the class, which is not empty, and a double quote.
The quote is not in the class, so no shorter run is followed by one. Returns the submatch. -/
def matchHere (s : Lsp.Bytes) : Option Lsp.Bytes :=
  if Lsp.strings.HasPrefix s hrefLiteral then
    let t := s.drop hrefLiteral.length
    let g := t.takeWhile pathChar
    if g ≠ [] ∧ (t.dropWhile pathChar).head? = some 34 then some g else none
  else none

/-- The call re.FindAllStringSubmatch(html, -1) for that pattern: the successive leftmost
matches, which do not overlap, each as the slice of the whole match and the submatch.
The search goes on after the end of a match: `skip` is the number of bytes of the last
match that are still to be passed over. -/
def findAllSubmatch : Nat → Lsp.Bytes → List (List Lsp.Bytes)
  | _, [] => []
  | skip + 1, _ :: s => findAllSubmatch skip s
  | 0, c :: s =>
    match matchHere (c :: s) with
    | some g =>
      [hrefLiteral ++ g ++ [34], g] :: findAllSubmatch (hrefLiteral.length + g.length) s
    | none => findAllSubmatch 0 s

/-- The first path elements that isValidPackagePath accepts without a dot. -/
def standardRoots : List Lsp.Bytes :=
  [Lsp.ofString "net", Lsp.ofString "fmt", Lsp.ofString "os", Lsp.ofString "io",
    Lsp.ofString "strings", Lsp.ofString "bytes", Lsp.ofString "time",
    Lsp.ofString "encoding", Lsp.ofString "crypto", Lsp.ofString "database",
    Lsp.ofString "html", Lsp.ofString "image", Lsp.ofString "math",
    Lsp.ofString "path", Lsp.ofString "reflect", Lsp.ofString "runtime",
    Lsp.ofString "sort", Lsp.ofString "sync", Lsp.ofString "testing",
    Lsp.ofString "text", Lsp.ofString "unicode", Lsp.ofString "unsafe"]

/-- The function isValidPackagePath. -/
def isValidPackagePath (path : Lsp.Bytes) : Bool :=
  if path = [] then false
  else if Lsp.strings.Contains path (Lsp.ofString "?")
      || Lsp.strings.Contains path (Lsp.ofString "#") then false
  else if Lsp.strings.HasPrefix path (Lsp.ofString "http://")
      || Lsp.strings.HasPrefix path (Lsp.ofString "https://") then false
  else if Lsp.strings.HasPrefix path (Lsp.ofString "/") then false
  else
    let parts := Lsp.strings.Split path 47
    if parts.length = 0 then false
    else
      let firstPart := parts.getD 0 []
      if firstPart = [] then false
      else if Lsp.strings.Contains firstPart (Lsp.ofString ".") then true
      else if firstPart ∈ standardRoots then true
      else false

/-- The body of the loop of extractPackagePaths for one match; the state is the slice
`packages` and the keys of the map `seen` that are set to true. -/
def extractPackagePaths.step (st : List Lsp.Bytes × List Lsp.Bytes) (m : List Lsp.Bytes) :
    List Lsp.Bytes × List Lsp.Bytes :=
  if m.length < 2 then st
  else
    let pkgPath := m.getD 1 []
    if pkgPath = [] ∨ pkgPath = Lsp.ofString "search" ∨ pkgPath = Lsp.ofString "about" then st
    else if Lsp.strings.HasPrefix pkgPath (Lsp.ofString "search")
        || Lsp.strings.HasPrefix pkgPath (Lsp.ofString "about") then st
    else if Lsp.strings.Contains pkgPath (Lsp.ofString "?")
        || Lsp.strings.Contains pkgPath (Lsp.ofString "#") then st
    else if !isValidPackagePath pkgPath then st
    else if pkgPath ∉ st.2 then (st.1 ++ [pkgPath], pkgPath :: st.2)
    else st

/-- The function extractPackagePaths. -/
def extractPackagePaths (html : Lsp.Bytes) : List Lsp.Bytes :=
  ((findAllSubmatch 0 html).foldl extractPackagePaths.step ([], [])).1

/-- The tests of the claim on a path: isValidPackagePath accepts it and it begins neither
with "search" nor with "about". -/
def isPackageLink (p : Lsp.Bytes) : Bool :=
  isValidPackagePath p && !Lsp.strings.HasPrefix p (Lsp.ofString "search")
    && !Lsp.strings.HasPrefix p (Lsp.ofString "about")

/-- The paths of the links `href="/<path>"` of a text, in the order of the text. -/
def linkPaths (html : Lsp.Bytes) : List Lsp.Bytes :=
  (findAllSubmatch 0 html).map (fun m => m.getD 1 [])

/-- The bytes that may occur in the path of a link: ASCII letters and digits, dot,
underscore, slash and hyphen. -/
def isPathByte (c : Nat) : Prop :=
  ('a'.toNat ≤ c ∧ c ≤ 'z'.toNat) ∨ ('A'.toNat ≤ c ∧ c ≤ 'Z'.toNat) ∨
    ('0'.toNat ≤ c ∧ c ≤ '9'.toNat) ∨ c = '.'.toNat ∨ c = '_'.toNat ∨ c = '/'.toNat ∨
    c = '-'.toNat

/-- The text `s` begins with a link to the path `p`: the text `href="/`, the path, which
is not empty and consists of path bytes, and a double quote. -/
def linkStarts (s p : Lsp.Bytes) : Prop :=
  ∃ back, s = Lsp.ofString "href=\"/" ++ p ++ '"'.toNat :: back ∧ p ≠ [] ∧
    ∀ c ∈ p, isPathByte c

/-- At the offset `i` of the text `html` there is a link to the path `p`. -/
def linkAt (html : Lsp.Bytes) (i : Nat) (p : Lsp.Bytes) : Prop := linkStarts (html.drop i) p

/-- In the text `html` a link to `a` occurs before every link to `b`. -/
def linkedBefore (html a b : Lsp.Bytes) : Prop :=
  ∃ i, linkAt html i a ∧ ∀ j, linkAt html j b → i < j

/-- In the list `l` the element `a` occurs before any occurrence of `b`: the first occurrence
of `a` comes before the first occurrence of `b`, if `b` occurs at all. -/
def firstBefore (l : List Lsp.Bytes) (a b : Lsp.Bytes) : Prop :=
  ∃ front back, l = front ++ a :: back ∧ b ∉ front ∧ b ≠ a

/-- The HTML of the test "filter out non-package links", with a repeated link added. -/
def exampleHTML : Lsp.Bytes :=
  Lsp.ofString ("<a href=\"/search?q=test\">search</a><a href=\"/about\">about</a>"
    ++ "<a href=\"/net/http\">net/http</a><a href=\"/github.com/gin-gonic/gin\">gin</a>"
    ++ "<a href=\"/net/http\">net/http</a>")

end utils

namespace Lsp

/-! ## Facts about the library helpers -/

namespace strconv

theorem formatBits_spec : ∀ (fuel n : Nat) (acc : Bytes), n < fuel →
    ∃ ds : Bytes, formatBits fuel n acc = ds ++ acc ∧ ds ≠ [] ∧ ds.all isDigit = true ∧
      ds.foldl (fun a c => a * 10 + (c - 48)) 0 = n := by
  intro fuel
  induction fuel with
  | zero => intro n acc h; omega
  | succ f ih =>
    intro n acc h
    by_cases h10 : n < 10
    · refine ⟨[48 + n], ?_, by simp, ?_, ?_⟩
      · simp [formatBits, h10]
      · simp [isDigit]; omega
      · simp
    · have hlt : n / 10 < f := by omega
      obtain ⟨ds, hds, hne, hall, hval⟩ := ih (n / 10) ((48 + n % 10) :: acc) hlt
      refine ⟨ds ++ [48 + n % 10], ?_, by simp, ?_, ?_⟩
      · simp [formatBits, h10, hds]
      · simp only [List.all_append, hall, Bool.true_and]
        simp [isDigit]; omega
      · simp only [List.foldl_append, hval, List.foldl_cons, List.foldl_nil]
        omega

theorem formatUint_spec (n : Nat) :
    ∃ d ds, formatUint n = d :: ds ∧ isDigit d = true ∧ ds.all isDigit = true ∧
      (d :: ds).foldl (fun a c => a * 10 + (c - 48)) 0 = n := by
  obtain ⟨ds, hds, hne, hall, hval⟩ := formatBits_spec (n + 1) n [] (by omega)
  cases ds with
  | nil => exact absurd rfl hne
  | cons d ds =>
    refine ⟨d, ds, by simpa [formatUint] using hds, ?_, ?_, hval⟩
    · simp only [List.all_cons, Bool.and_eq_true] at hall; exact hall.1
    · simp only [List.all_cons, Bool.and_eq_true] at hall; exact hall.2

theorem FormatInt_natCast (n : Nat) : FormatInt (n : Int) = formatUint n := by
  simp [FormatInt]

theorem parseDigits_formatUint (n : Nat) : parseDigits (formatUint n) = some n := by
  obtain ⟨d, ds, h, hd, hds, hval⟩ := formatUint_spec n
  simp [parseDigits, h, hd, hds] at hval ⊢
  exact hval

/-- Atoi reads back what FormatInt printed, for every value of a 64-bit int. -/
theorem Atoi_FormatInt (i : Int) (hlo : -(2 ^ 63 : Int) ≤ i) (hhi : i < 2 ^ 63) :
    Atoi (FormatInt i) = some i := by
  by_cases hneg : i < 0
  · have hp := parseDigits_formatUint i.natAbs
    obtain ⟨d, ds, h, hd, hds, hval⟩ := formatUint_spec i.natAbs
    have hle : i.natAbs ≤ 2 ^ 63 := by omega
    have hcast : -((i.natAbs : Nat) : Int) = i := by omega
    simp only [FormatInt, hneg, if_true, Atoi]
    rw [hp]
    simp only [List.cons_ne_nil, h, if_false, hle, if_true, hcast, reduceCtorEq]
  · have hp := parseDigits_formatUint i.toNat
    obtain ⟨d, ds, h, hd, hds, hval⟩ := formatUint_spec i.toNat
    have hlt : i.toNat < 2 ^ 63 := by omega
    have hd43 : d ≠ 43 := by intro hh; subst hh; simp [isDigit] at hd
    have hd45 : d ≠ 45 := by intro hh; subst hh; simp [isDigit] at hd
    simp only [FormatInt, hneg, if_false, Atoi]
    have hsplit : (match formatUint i.toNat with
        | 43 :: r => (false, r)
        | 45 :: r => (true, r)
        | _ => (false, formatUint i.toNat)) = (false, formatUint i.toNat) := by
      rw [h]
      split
      · rename_i heq; simp at heq; exact absurd heq.1 hd43
      · rename_i heq; simp at heq; exact absurd heq.1 hd45
      · rfl
    rw [hsplit]
    simp only [hp]
    simp [h, hlt]
    omega

end strconv

namespace strings

theorem trimRightRev_append (cut : Bytes) (c : Nat) (hc : c ∉ cut) (y : Bytes) :
    ∀ x : Bytes, trimRightRev cut (x ++ c :: y) = trimRightRev cut x ++ c :: y
  | [] => by simp [trimRightRev, hc]
  | d :: x => by
    by_cases hd : d ∈ cut
    · simp [trimRightRev, hd, trimRightRev_append cut c hc y x]
    · simp [trimRightRev, hd]

/-- TrimRight never reaches past a byte that is not in the cutset. -/
theorem TrimRight_append (cut : Bytes) (c : Nat) (hc : c ∉ cut) (a b : Bytes) :
    TrimRight (a ++ c :: b) cut = a ++ c :: TrimRight b cut := by
  simp [TrimRight, trimRightRev_append cut c hc]

theorem span_ne_append (sep : Nat) (w : Bytes) :
    ∀ k : Bytes, sep ∉ k → (k ++ sep :: w).span (fun c => c != sep) = (k, sep :: w)
  | [], _ => by simp [List.span_eq_take_drop]
  | d :: k, h => by
    have hd : d ≠ sep := by intro e; exact h (by simp [e])
    have hk : sep ∉ k := by intro e; exact h (by simp [e])
    have ih := span_ne_append sep w k hk
    simp only [List.span_eq_take_drop, Prod.mk.injEq] at ih ⊢
    simp [List.takeWhile_cons, List.dropWhile_cons, hd, ih.1, ih.2]

theorem span_ne_nil (sep : Nat) :
    ∀ s : Bytes, sep ∉ s → s.span (fun c => c != sep) = (s, [])
  | [], _ => by simp [List.span_eq_take_drop]
  | d :: k, h => by
    have hd : d ≠ sep := by intro e; exact h (by simp [e])
    have hk : sep ∉ k := by intro e; exact h (by simp [e])
    have ih := span_ne_nil sep k hk
    simp only [List.span_eq_take_drop, Prod.mk.injEq] at ih ⊢
    simp [List.takeWhile_cons, List.dropWhile_cons, hd, ih.1, ih.2]

theorem SplitN_cut (sep : Nat) (k w : Bytes) (h : sep ∉ k) :
    SplitN (k ++ sep :: w) sep = [k, w] := by
  unfold SplitN
  rw [span_ne_append sep w k h]

theorem SplitN_none (sep : Nat) (s : Bytes) (h : sep ∉ s) : SplitN s sep = [s] := by
  unfold SplitN
  rw [span_ne_nil sep s h]

/-- TrimSpace leaves alone a string that starts and ends with an ASCII byte that is no space. -/
theorem TrimSpace_ascii_ends (a b : Nat) (mid : Bytes)
    (ha : a < 128) (has : asciiSpace a = false) (hb : b < 128) (hbs : asciiSpace b = false) :
    TrimSpace (a :: (mid ++ [b])) = a :: (mid ++ [b]) := by
  have hrev : (a :: (mid ++ [b])).reverse = b :: (mid.reverse ++ [a]) := by simp
  have ha' : ¬ a ≥ utf8.RuneSelf := by simp [utf8.RuneSelf]; omega
  have hb' : ¬ b ≥ utf8.RuneSelf := by simp [utf8.RuneSelf]; omega
  simp only [TrimSpace, trimSpaceStart, ha', has, if_false, hrev, trimSpaceStop, hb', hbs,
    Bool.false_eq_true]
  simp

theorem TrimSpace_single (a : Nat) (ha : a < 128) (has : asciiSpace a = false) :
    TrimSpace [a] = [a] := by
  have ha' : ¬ a ≥ utf8.RuneSelf := by simp [utf8.RuneSelf]; omega
  simp [TrimSpace, trimSpaceStart, trimSpaceStop, ha', has]

/-- TrimSpace leaves alone a non-empty string of ASCII bytes that starts and ends with a
byte that is no space. -/
theorem TrimSpace_of_ends (s : Bytes) (hne : s ≠ [])
    (hh : ∀ a ∈ s.head?, a < 128 ∧ asciiSpace a = false)
    (hl : ∀ b ∈ s.getLast?, b < 128 ∧ asciiSpace b = false) : TrimSpace s = s := by
  cases s with
  | nil => exact absurd rfl hne
  | cons a r =>
    have ha := hh a (by simp)
    rcases List.eq_nil_or_concat r with hr | ⟨mid, b, hr⟩
    · subst hr; exact TrimSpace_single a ha.1 ha.2
    · subst hr
      rw [List.concat_eq_append] at hl ⊢
      have hlast : (a :: (mid ++ [b])).getLast? = some b := by
        rw [← List.cons_append, List.getLast?_append]; simp
      have hb := hl b (by rw [hlast]; rfl)
      exact TrimSpace_ascii_ends a b mid ha.1 ha.2 hb.1 hb.2

theorem isDigit_ascii {c : Nat} (h : strconv.isDigit c = true) :
    c < 128 ∧ asciiSpace c = false := by
  simp [strconv.isDigit] at h
  refine ⟨by omega, ?_⟩
  simp [asciiSpace]; omega

/-- TrimSpace removes the blank in front of a decimal number. -/
theorem TrimSpace_space_digits (ds : Bytes) (hne : ds ≠ [])
    (hall : ds.all strconv.isDigit = true) : TrimSpace (32 :: ds) = ds := by
  have hmem : ∀ c ∈ ds, c < 128 ∧ asciiSpace c = false := by
    intro c hc
    exact isDigit_ascii (List.all_eq_true.mp hall c hc)
  have h1 : TrimSpace (32 :: ds) = TrimSpace ds := by
    cases ds with
    | nil => exact absurd rfl hne
    | cons d r => simp [TrimSpace, trimSpaceStart, utf8.RuneSelf, asciiSpace]
  rw [h1]
  apply TrimSpace_of_ends ds hne
  · intro a ha; exact hmem a (List.mem_of_mem_head? ha)
  · intro b hb; exact hmem b (List.mem_of_mem_getLast? hb)

theorem EqualFold_forall₂ : ∀ s t : Bytes, EqualFold s t = true →
    List.Forall₂ (fun a b => a < 128 ∧ foldEq a b = true) s t
  | [], [], _ => List.Forall₂.nil
  | [], _ :: _, h => by simp [EqualFold] at h
  | _ :: _, [], h => by simp [EqualFold] at h
  | a :: s, b :: t, h => by
    simp only [EqualFold, utf8.RuneSelf] at h
    by_cases ha : a ≥ 128
    · simp [ha] at h
    · by_cases hf : foldEq a b = true
      · simp only [ha, hf, if_false, if_true] at h
        exact List.Forall₂.cons ⟨by omega, hf⟩ (EqualFold_forall₂ s t h)
      · simp [ha, hf] at h

end strings

namespace bufio

/-- ReadString returns the first line and leaves what follows it. -/
theorem ReadString_line (delim : Nat) (rest : Bytes) :
    ∀ l : Bytes, delim ∉ l → ReadString delim (l ++ delim :: rest) = (l ++ [delim], none, rest)
  | [], _ => by simp [ReadString]
  | c :: l, h => by
    have hc : c ≠ delim := by intro e; exact h (by simp [e])
    have hl : delim ∉ l := by intro e; exact h (by simp [e])
    simp [ReadString, hc, ReadString_line delim rest l hl]

/-- A successful ReadString consumes at least one byte. -/
theorem ReadString_length (delim : Nat) :
    ∀ (r line rest : Bytes), ReadString delim r = (line, none, rest) → rest.length < r.length
  | [], line, rest, h => by simp [ReadString] at h
  | c :: r, line, rest, h => by
    by_cases hc : c = delim
    · simp [ReadString, hc] at h
      simp [h.2]
    · simp only [ReadString, hc, if_false] at h
      have ih := ReadString_length delim r (ReadString delim r).1 rest
      rcases hrs : ReadString delim r with ⟨l1, e1, r1⟩
      rw [hrs] at h ih
      simp only [Prod.mk.injEq] at h
      obtain ⟨-, he, hr⟩ := h
      subst he; subst hr
      have := ih rfl
      simp; omega

/-- After an error ReadString has consumed the whole input. -/
theorem ReadString_error (delim : Nat) :
    ∀ (r line rest : Bytes) (e : Err), ReadString delim r = (line, some e, rest) →
      e = .EOF ∧ rest = [] ∧ delim ∉ r
  | [], line, rest, e, h => by
    simp [ReadString] at h
    obtain ⟨-, rfl, rfl⟩ := h
    simp
  | c :: r, line, rest, e, h => by
    by_cases hc : c = delim
    · simp [ReadString, hc] at h
    · simp only [ReadString, hc, if_false] at h
      rcases hrs : ReadString delim r with ⟨l1, e1, r1⟩
      rw [hrs] at h
      simp only [Prod.mk.injEq] at h
      obtain ⟨-, he, hr⟩ := h
      subst he; subst hr
      obtain ⟨h1, h2, h3⟩ := ReadString_error delim r l1 r1 e hrs
      refine ⟨h1, h2, ?_⟩
      simp [h3]
      exact fun a => hc a.symm

end bufio

namespace transport

/-- The header loop does not depend on the fuel once it covers the input. -/
theorem readHeaders_fuel : ∀ (f1 f2 : Nat) (cl : Int) (r : Bytes),
    r.length ≤ f1 → r.length ≤ f2 → readHeaders f1 cl r = readHeaders f2 cl r := by
  intro f1
  induction f1 with
  | zero =>
    intro f2 cl r h1 h2
    have hr : r = [] := List.length_eq_zero.mp (by omega)
    subst hr
    cases f2 <;> simp [readHeaders, bufio.ReadString]
  | succ f1 ih =>
    intro f2 cl r h1 h2
    cases f2 with
    | zero =>
      have hr : r = [] := List.length_eq_zero.mp (by omega)
      subst hr
      simp [readHeaders, bufio.ReadString]
    | succ f2 =>
      simp only [readHeaders]
      rcases hrs : bufio.ReadString 10 r with ⟨line, e, rest⟩
      cases e with
      | some e => rfl
      | none =>
        have hlen := bufio.ReadString_length 10 r line rest hrs
        simp only
        cases transport.headerLine line with
        | done => rfl
        | skip => exact ih f2 cl rest (by omega) (by omega)
        | length n => exact ih f2 n rest (by omega) (by omega)
        | invalid v => rfl

/-- The header loop on an input that starts with a complete line. -/
theorem readHeaders_line (fuel : Nat) (cl : Int) (l rest : Bytes) (hl : 10 ∉ l)
    (hf : (l ++ 10 :: rest).length ≤ fuel) :
    readHeaders fuel cl (l ++ 10 :: rest) =
      match headerLine (l ++ [10]) with
      | .done => (.ok cl, rest)
      | .skip => readHeaders rest.length cl rest
      | .length n => readHeaders rest.length n rest
      | .invalid val => (.error (.invalidContentLength val), rest) := by
  cases fuel with
  | zero => simp at hf
  | succ f =>
    have hlen : rest.length ≤ f := by simp at hf; omega
    simp only [readHeaders, bufio.ReadString_line 10 rest l hl]
    cases headerLine (l ++ [10]) with
    | done => rfl
    | skip => exact readHeaders_fuel f rest.length cl rest hlen (le_refl _)
    | length n => exact readHeaders_fuel f rest.length n rest hlen (le_refl _)
    | invalid v => rfl

end transport

namespace strings

theorem trimRightRev_sublist (cut : Bytes) : ∀ x : Bytes, ∀ c ∈ trimRightRev cut x, c ∈ x
  | [], c, h => by simp [trimRightRev] at h
  | d :: x, c, h => by
    by_cases hd : d ∈ cut
    · simp only [trimRightRev, hd, if_true] at h
      exact List.mem_cons_of_mem _ (trimRightRev_sublist cut x c h)
    · simpa [trimRightRev, hd] using h

theorem mem_of_mem_TrimRight (s cut : Bytes) (c : Nat) (h : c ∈ TrimRight s cut) : c ∈ s := by
  have := trimRightRev_sublist cut s.reverse c (by simpa [TrimRight] using h)
  simpa using this

theorem trimRightRev_all (cut : Bytes) : ∀ x : Bytes, (∀ c ∈ x, c ∈ cut) → trimRightRev cut x = []
  | [], _ => rfl
  | d :: x, h => by
    have hd : d ∈ cut := h d (by simp)
    simp only [trimRightRev, hd, if_true]
    exact trimRightRev_all cut x (fun c hc => h c (List.mem_cons_of_mem _ hc))

theorem TrimRight_all (s cut : Bytes) (h : ∀ c ∈ s, c ∈ cut) : TrimRight s cut = [] := by
  simp [TrimRight, trimRightRev_all cut s.reverse (by simpa using h)]

end strings

namespace transport

theorem crlf_eq : ofString "\r\n" = [13, 10] := by decide

theorem contentLength_eq :
    ofString "Content-Length" = [67, 111, 110, 116, 101, 110, 116, 45, 76, 101, 110, 103, 116, 104] := by
  decide

/-- A line made of carriage returns only ends the header block. -/
theorem headerLine_blank (b : Bytes) (hb : ∀ c ∈ b, c = 13) : headerLine (b ++ [10]) = .done := by
  have : strings.TrimRight (b ++ [10]) (ofString "\r\n") = [] := by
    apply strings.TrimRight_all
    intro c hc
    rw [crlf_eq]
    rcases List.mem_append.mp hc with h | h
    · simp [hb c h]
    · simp at h; simp [h]
  simp [headerLine, this]

/-- A non-blank line without a colon is ignored. -/
theorem headerLine_nocolon (l : Bytes) (hc : 58 ∉ l)
    (hnb : strings.TrimRight (l ++ [10]) (ofString "\r\n") ≠ []) : headerLine (l ++ [10]) = .skip := by
  have h58 : 58 ∉ strings.TrimRight (l ++ [10]) (ofString "\r\n") := by
    intro h
    have := strings.mem_of_mem_TrimRight _ _ _ h
    simp at this
    exact hc this
  simp only [headerLine, hnb, if_false, strings.SplitN_none 58 _ h58]

/-- A line with a colon: the key is what stands before the first colon, the value what
stands after it, both trimmed. -/
theorem headerLine_colon (k v : Bytes) (hk : 58 ∉ k) :
    headerLine ((k ++ 58 :: v) ++ [10]) =
      if strings.EqualFold (strings.TrimSpace k) (ofString "Content-Length") then
        match strconv.Atoi (strings.TrimSpace (strings.TrimRight (v ++ [10]) (ofString "\r\n"))) with
        | some n =>
          if n < 0 then
            .invalid (strings.TrimSpace (strings.TrimRight (v ++ [10]) (ofString "\r\n")))
          else .length n
        | none => .invalid (strings.TrimSpace (strings.TrimRight (v ++ [10]) (ofString "\r\n")))
      else .skip := by
  have h58 : (58 : Nat) ∉ ofString "\r\n" := by decide
  have ht : strings.TrimRight ((k ++ 58 :: v) ++ [10]) (ofString "\r\n")
      = k ++ 58 :: strings.TrimRight (v ++ [10]) (ofString "\r\n") := by
    have : (k ++ 58 :: v) ++ [10] = k ++ 58 :: (v ++ [10]) := by simp
    rw [this, strings.TrimRight_append _ 58 h58]
  have hne : k ++ 58 :: strings.TrimRight (v ++ [10]) (ofString "\r\n") ≠ [] := by simp
  simp only [headerLine, ht, hne, if_false, strings.SplitN_cut 58 k _ hk]

/-- The first line of the header that Send writes declares the body length. -/
theorem headerLine_sent (n : Nat) (hn : n < 2 ^ 63) :
    headerLine (ofString "Content-Length: " ++ strconv.FormatInt n ++ [13] ++ [10]) = .length n := by
  obtain ⟨d, ds, hfmt, hd, hds, -⟩ := strconv.formatUint_spec n
  have hall : (strconv.formatUint n).all strconv.isDigit = true := by
    rw [hfmt]; simp [hd, hds]
  have hne : strconv.formatUint n ≠ [] := by rw [hfmt]; simp
  have hpre : ofString "Content-Length: " = ofString "Content-Length" ++ 58 :: [32] := by decide
  have hshape : ofString "Content-Length: " ++ strconv.FormatInt n ++ [13] ++ [10]
      = (ofString "Content-Length" ++ 58 :: (32 :: strconv.formatUint n ++ [13])) ++ [10] := by
    rw [hpre, strconv.FormatInt_natCast]; simp
  have hk : (58 : Nat) ∉ ofString "Content-Length" := by decide
  rw [hshape, headerLine_colon _ _ hk]
  have hkey : strings.TrimSpace (ofString "Content-Length") = ofString "Content-Length" := by decide
  have hfold : strings.EqualFold (ofString "Content-Length") (ofString "Content-Length") = true := by
    decide
  have hval : strings.TrimRight ((32 :: strconv.formatUint n ++ [13]) ++ [10]) (ofString "\r\n")
      = 32 :: strconv.formatUint n := by
    rcases List.eq_nil_or_concat (strconv.formatUint n) with h | ⟨init, lst, h⟩
    · exact absurd h hne
    · have hlst : strconv.isDigit lst = true :=
        List.all_eq_true.mp hall lst (by rw [h]; simp)
      have hnot : lst ∉ ofString "\r\n" := by
        rw [crlf_eq]
        simp [strconv.isDigit] at hlst
        simp; omega
      have e1 : (32 :: strconv.formatUint n ++ [13]) ++ [10] = (32 :: init) ++ lst :: [13, 10] := by
        rw [h]; simp
      rw [e1, strings.TrimRight_append _ lst hnot, h]
      have : strings.TrimRight [13, 10] (ofString "\r\n") = [] := by decide
      rw [this]; simp
  rw [hkey, hfold, hval, strings.TrimSpace_space_digits _ hne hall]
  have hat := strconv.Atoi_FormatInt (n : Int) (by omega) (by exact_mod_cast hn)
  rw [strconv.FormatInt_natCast] at hat
  simp [hat]

end transport

namespace transport

theorem contentLengthHeader_shape (n : Nat) :
    contentLengthHeader n
      = (ofString "Content-Length: " ++ strconv.FormatInt n ++ [13]) ++ 10 :: ([13] ++ 10 :: []) := by
  have : ofString "\r\n\r\n" = [13, 10, 13, 10] := by decide
  simp [contentLengthHeader, this]

theorem not_lf_mem_sent_line (n : Nat) :
    10 ∉ ofString "Content-Length: " ++ strconv.FormatInt n ++ [13] := by
  obtain ⟨d, ds, hfmt, hd, hds, -⟩ := strconv.formatUint_spec n
  have hall : ∀ c ∈ strconv.formatUint n, strconv.isDigit c = true := by
    intro c hc
    rw [hfmt] at hc
    rcases List.mem_cons.mp hc with h | h
    · rw [h]; exact hd
    · exact List.all_eq_true.mp hds c h
  have hpre : (10 : Nat) ∉ ofString "Content-Length: " := by decide
  rw [strconv.FormatInt_natCast]
  intro h
  rcases List.mem_append.mp h with h | h
  · rcases List.mem_append.mp h with h | h
    · exact hpre h
    · have := hall 10 h
      simp [strconv.isDigit] at this
  · simp at h

/-- The header that Send writes is a header block declaring `n` bytes. -/
theorem readHeaders_sent (n : Nat) (hn : n < 2 ^ 63) (cl : Int) (rest : Bytes) (fuel : Nat)
    (hf : (contentLengthHeader n ++ rest).length ≤ fuel) :
    readHeaders fuel cl (contentLengthHeader n ++ rest) = (.ok (n : Int), rest) := by
  have hshape : contentLengthHeader n ++ rest
      = (ofString "Content-Length: " ++ strconv.FormatInt n ++ [13]) ++ 10 :: ([13] ++ 10 :: rest) := by
    rw [contentLengthHeader_shape]; simp
  rw [hshape] at hf ⊢
  rw [readHeaders_line fuel cl _ _ (not_lf_mem_sent_line n) hf, headerLine_sent n hn]
  simp only
  rw [readHeaders_line _ _ [13] rest (by simp) (le_refl _),
    headerLine_blank [13] (by simp)]

theorem declares_contentLengthHeader (n : Nat) (hn : n < 2 ^ 63) :
    declares (contentLengthHeader n) n := by
  intro rest
  exact readHeaders_sent n hn 0 rest _ (le_refl _)

/-- Read on an input that starts with a frame as Send writes it: the body goes to
json.Unmarshal and the input after the frame is left in the reader. -/
theorem Read_frame (J : JsonCodec) (t : transport) (body rest : Bytes) (hne : body ≠ [])
    (hmax : body.length ≤ runtime.maxAlloc)
    (hr : t.reader = contentLengthHeader body.length ++ body ++ rest) :
    Read J t =
      (match J.Unmarshal body with
        | .error err => .error (.wrap "unmarshal rpc message" err)
        | .ok msg => .ok msg,
       { t with reader := rest }) := by
  have hpos : 0 < body.length := List.length_pos.mpr hne
  have hlen : body.length < 2 ^ 63 :=
    Nat.lt_of_le_of_lt hmax (by simp only [runtime.maxAlloc]; norm_num)
  have hh := readHeaders_sent body.length hlen 0 (body ++ rest)
    (contentLengthHeader body.length ++ (body ++ rest)).length (le_refl _)
  have hnot : ¬ ((body.length : Int) ≤ 0) := by omega
  have hfull : io.ReadFull (body ++ rest) body.length = (body, none, rest) := by
    simp [io.ReadFull]
  unfold Read
  rw [hr, List.append_assoc, hh]
  have hfit : ¬ (body.length > runtime.maxAlloc) := by omega
  simp only [hnot, if_false, Int.toNat_ofNat, hfit, hfull]
  cases J.Unmarshal body <;> rfl

end transport

theorem digitChar_toNat (d : Nat) (hd : d < 10) : (Nat.digitChar d).toNat = 48 + d := by
  interval_cases d <;> rfl

theorem formatBits_toDigitsCore : ∀ (fuel n : Nat) (acc : List Char),
    strconv.formatBits fuel n (acc.map Char.toNat)
      = (Nat.toDigitsCore 10 fuel n acc).map Char.toNat := by
  intro fuel
  induction fuel with
  | zero => intro n acc; simp [strconv.formatBits, Nat.toDigitsCore]
  | succ f ih =>
    intro n acc
    have hd := digitChar_toNat (n % 10) (Nat.mod_lt _ (by decide))
    by_cases h10 : n < 10
    · have h0 : n / 10 = 0 := by omega
      have hm : n % 10 = n := by omega
      simp only [strconv.formatBits, Nat.toDigitsCore, h10, h0, if_true, List.map_cons, hd, hm]
      rw [hm] at hd
      rw [hd]
    · have h0 : n / 10 ≠ 0 := by omega
      have := ih (n / 10) (Nat.digitChar (n % 10) :: acc)
      simp only [List.map_cons, hd] at this
      simp [strconv.formatBits, Nat.toDigitsCore, h10, h0, this]

/-- The number printed by the verb %d is the decimal numeral. -/
theorem FormatInt_eq_decimal (n : Nat) : strconv.FormatInt n = decimal n := by
  rw [strconv.FormatInt_natCast]
  have := formatBits_toDigitsCore (n + 1) n []
  simpa [strconv.formatUint, decimal, Nat.toDigits] using this

namespace transport

theorem Send_ok (J : JsonCodec) (s : transport) (m : rpcMessage) (body : Bytes)
    (hm : J.Marshal m = .ok body) (hopen : s.rw.closed = false) :
    Send J s m =
      ({ s with rw := { data := s.rw.data ++ contentLengthHeader body.length ++ body,
                        closed := false } }, none) := by
  unfold Send
  rw [hm]
  simp [io.Pipe.Write, hopen]

theorem headerLine_ne_done (l : Bytes) (h : isHeaderLine l) : headerLine (l ++ [10]) ≠ .done := by
  unfold headerLine
  simp only [h.2, if_false]
  split
  · split
    · split
      · split <;> simp
      · simp
    · simp
  · simp

theorem exists_first_colon : ∀ p : Bytes, 58 ∈ p → ∃ k v, p = k ++ 58 :: v ∧ 58 ∉ k
  | [], h => by simp at h
  | c :: p, h => by
    by_cases hc : c = 58
    · exact ⟨[], p, by simp [hc], by simp⟩
    · have hp : 58 ∈ p := by
        rcases List.mem_cons.mp h with h | h
        · exact absurd h.symm hc
        · exact h
      obtain ⟨k, v, hkv, hk⟩ := exists_first_colon p hp
      refine ⟨c :: k, v, by simp [hkv], ?_⟩
      simp only [List.mem_cons, not_or]
      exact ⟨fun e => hc e.symm, hk⟩

theorem headerLine_colon_value (k v : Bytes) (hk : 58 ∉ k) :
    headerLine ((k ++ 58 :: v) ++ [10]) =
      if strings.EqualFold (strings.TrimSpace k) (ofString "Content-Length") then
        match strconv.Atoi (lineValue v) with
        | some n => if n < 0 then .invalid (lineValue v) else .length n
        | none => .invalid (lineValue v)
      else .skip := headerLine_colon k v hk

/-- A line with a bad Content-Length is rejected with its value. -/
theorem headerLine_bad (k v : Bytes) (hk : 58 ∉ k)
    (hkey : strings.EqualFold (strings.TrimSpace k) (ofString "Content-Length") = true)
    (hbad : ∀ n, strconv.Atoi (lineValue v) = some n → n < 0) :
    headerLine ((k ++ 58 :: v) ++ [10]) = .invalid (lineValue v) := by
  rw [headerLine_colon_value k v hk, hkey]
  simp only [if_true]
  cases hat : strconv.Atoi (lineValue v) with
  | none => rfl
  | some n => simp [hbad n hat]

/-- Only a bad Content-Length line is rejected. -/
theorem isBadLengthLine_of_invalid (p val : Bytes) (hp : isHeaderLine p)
    (h : headerLine (p ++ [10]) = .invalid val) : isBadLengthLine p := by
  by_cases hc : 58 ∈ p
  · obtain ⟨k, v, hkv, hk⟩ := exists_first_colon p hc
    subst hkv
    rw [headerLine_colon_value k v hk] at h
    by_cases hkey : strings.EqualFold (strings.TrimSpace k) (ofString "Content-Length") = true
    · refine ⟨k, v, rfl, hk, hkey, ?_⟩
      intro n hn
      simp only [hkey, if_true, hn] at h
      by_contra hneg
      simp [hneg] at h
    · simp [hkey] at h
  · rw [headerLine_nocolon p hc hp.2] at h
    simp at h

/-- A line with another key is skipped. -/
theorem headerLine_otherKey (l : Bytes) (h : isOtherKeyLine l) : headerLine (l ++ [10]) = .skip := by
  obtain ⟨-, k, v, hkv, hk, hkey⟩ := h
  subst hkv
  rw [headerLine_colon_value k v hk, hkey]
  simp

theorem headerLine_other (l : Bytes) (h : isOtherLine l) :
    10 ∉ l ∧ headerLine (l ++ [10]) = .skip := by
  rcases h with h | ⟨h, hc⟩
  · exact ⟨h.1, headerLine_otherKey l h⟩
  · exact ⟨h.1, headerLine_nocolon l hc h.2⟩

theorem headerLines_cons (l : Bytes) (ls : List Bytes) (A : Bytes) :
    headerLines (l :: ls) ++ A = l ++ 10 :: (headerLines ls ++ A) := by
  simp [headerLines]

/-- Lines that are skipped do not change the outcome of the header loop. -/
theorem readHeaders_skip (ls : List Bytes) (A : Bytes)
    (h : ∀ l ∈ ls, 10 ∉ l ∧ headerLine (l ++ [10]) = .skip) (cl : Int) :
    readHeaders (headerLines ls ++ A).length cl (headerLines ls ++ A)
      = readHeaders A.length cl A := by
  induction ls with
  | nil => simp [headerLines]
  | cons l ls ih =>
    have hl := h l (by simp)
    rw [headerLines_cons, readHeaders_line _ cl l _ hl.1 (le_refl _), hl.2]
    exact ih (fun p hp => h p (List.mem_cons_of_mem _ hp))

/-- Header lines in front of two inputs on which the loop agrees leave it in agreement. -/
theorem readHeaders_pre_agree (pre : List Bytes) (hpre : ∀ p ∈ pre, isHeaderLine p) (A B : Bytes)
    (h : ∀ cl, agree (readHeaders A.length cl A) (readHeaders B.length cl B)) :
    ∀ cl, agree (readHeaders (headerLines pre ++ A).length cl (headerLines pre ++ A))
      (readHeaders (headerLines pre ++ B).length cl (headerLines pre ++ B)) := by
  induction pre with
  | nil => simpa [headerLines] using h
  | cons l ls ih =>
    intro cl
    have hl := hpre l (by simp)
    have ih' := ih (fun p hp => hpre p (List.mem_cons_of_mem _ hp))
    rw [headerLines_cons, headerLines_cons, readHeaders_line _ cl l _ hl.1 (le_refl _),
      readHeaders_line _ cl l _ hl.1 (le_refl _)]
    cases hh : headerLine (l ++ [10]) with
    | done => exact absurd hh (headerLine_ne_done l hl)
    | skip => exact ih' cl
    | length n => exact ih' n
    | invalid v => exact ⟨rfl, fun n hn => by simp at hn⟩

/-- Read is determined by the outcome of the header loop. -/
theorem Read_sameOutcome (J : JsonCodec) (t : transport) (A B : Bytes)
    (h : agree (readHeaders A.length 0 A) (readHeaders B.length 0 B)) :
    sameOutcome (Read J { t with reader := A }) (Read J { t with reader := B }) := by
  obtain ⟨h1, h2⟩ := h
  unfold Read
  simp only
  rcases hA : readHeaders A.length 0 A with ⟨ra, sa⟩
  rcases hB : readHeaders B.length 0 B with ⟨rb, sb⟩
  rw [hA, hB] at h1
  rw [hA] at h2
  simp only at h1 h2
  subst h1
  cases ra with
  | error e => exact ⟨rfl, fun m hm => by simp at hm⟩
  | ok n =>
    have := h2 n rfl
    rw [hB] at this
    simp only at this
    subst this
    exact ⟨rfl, fun _ _ => rfl⟩

/-- A bad Content-Length line after header lines makes the loop fail. -/
theorem readHeaders_pre_invalid (pre : List Bytes) (hpre : ∀ p ∈ pre, isHeaderLine p) (A : Bytes)
    (h : ∀ cl, ∃ val, (readHeaders A.length cl A).1 = .error (.invalidContentLength val)) :
    ∀ cl, ∃ val, (readHeaders (headerLines pre ++ A).length cl (headerLines pre ++ A)).1
      = .error (.invalidContentLength val) := by
  induction pre with
  | nil => simpa [headerLines] using h
  | cons l ls ih =>
    intro cl
    have hl := hpre l (by simp)
    have ih' := ih (fun p hp => hpre p (List.mem_cons_of_mem _ hp))
    rw [headerLines_cons, readHeaders_line _ cl l _ hl.1 (le_refl _)]
    cases hh : headerLine (l ++ [10]) with
    | done => exact absurd hh (headerLine_ne_done l hl)
    | skip => exact ih' cl
    | length n => exact ih' n
    | invalid v => exact ⟨v, rfl⟩

/-- Header lines none of which is bad are passed, whatever length they declare. -/
theorem readHeaders_pre_pass (pre : List Bytes) (hpre : ∀ p ∈ pre, isHeaderLine p)
    (hgood : ∀ p ∈ pre, ¬ isBadLengthLine p) (A : Bytes) :
    ∀ cl, ∃ cl', readHeaders (headerLines pre ++ A).length cl (headerLines pre ++ A)
      = readHeaders A.length cl' A := by
  induction pre with
  | nil => intro cl; exact ⟨cl, by simp [headerLines]⟩
  | cons l ls ih =>
    intro cl
    have hl := hpre l (by simp)
    have ih' := ih (fun p hp => hpre p (List.mem_cons_of_mem _ hp))
      (fun p hp => hgood p (List.mem_cons_of_mem _ hp))
    rw [headerLines_cons, readHeaders_line _ cl l _ hl.1 (le_refl _)]
    cases hh : headerLine (l ++ [10]) with
    | done => exact absurd hh (headerLine_ne_done l hl)
    | skip => exact ih' cl
    | length n => exact ih' n
    | invalid v => exact absurd (isBadLengthLine_of_invalid l v hl hh) (hgood l (by simp))

end transport

namespace transport

/-- The bytes written by sendAll are appended to what the stream already holds. -/
theorem sendAll_data (J : JsonCodec) : ∀ (ms : List rpcMessage) (s : transport),
    s.rw.closed = false →
    (sendAll J s ms).1.rw.data
        = s.rw.data ++ (sendAll J { s with rw := ⟨[], false⟩ } ms).1.rw.data ∧
      (sendAll J s ms).2 = (sendAll J { s with rw := ⟨[], false⟩ } ms).2
  | [], s, _ => by simp [sendAll]
  | m :: ms, s, hopen => by
    cases hm : J.Marshal m with
    | error e => simp [sendAll, Send, hm]
    | ok body =>
      have h1 := Send_ok J s m body hm hopen
      have h2 := Send_ok J { s with rw := ⟨[], false⟩ } m body hm rfl
      simp only [sendAll, h1, h2]
      have ih1 := sendAll_data J ms
        { s with rw := { data := s.rw.data ++ contentLengthHeader body.length ++ body,
                         closed := false } } rfl
      have ih2 := sendAll_data J ms
        { s with rw := { data := ([] : Bytes) ++ contentLengthHeader body.length ++ body,
                         closed := false } } rfl
      simp only at ih1 ih2
      refine ⟨?_, ?_⟩
      · rw [ih1.1, ih2.1]; simp
      · rw [ih1.2, ih2.2]

/-- The bytes written for a message followed by further messages. -/
theorem sendAll_cons_data (J : JsonCodec) (s : transport) (m : rpcMessage) (ms : List rpcMessage)
    (body : Bytes) (hm : J.Marshal m = .ok body) (hopen : s.rw.closed = false)
    (hfresh : s.rw.data = []) :
    (sendAll J s (m :: ms)).1.rw.data
        = contentLengthHeader body.length ++ body ++ (sendAll J s ms).1.rw.data ∧
      (sendAll J s (m :: ms)).2 = (sendAll J s ms).2 := by
  have h1 := Send_ok J s m body hm hopen
  have hs : ({ s with rw := ⟨[], false⟩ } : transport) = s := by
    cases s with
    | mk rw reader =>
      cases rw with
      | mk data closed =>
        simp only at hopen hfresh
        subst hopen; subst hfresh; rfl
  have ih := sendAll_data J ms
    { s with rw := { data := s.rw.data ++ contentLengthHeader body.length ++ body,
                     closed := false } } rfl
  simp only [hs] at ih
  simp only [sendAll, h1]
  refine ⟨?_, ih.2⟩
  rw [ih.1, hfresh]; simp

end transport

namespace transport

theorem foldEq_contentLength_byte (a b : Nat) (ha : a < 128)
    (hb : b ∈ ofString "Content-Length") (hf : strings.foldEq a b = true) :
    strings.asciiSpace a = false ∧ a ≠ 58 ∧ a ≠ 10 := by
  rw [contentLength_eq] at hb
  simp only [strings.foldEq, Bool.or_eq_true, decide_eq_true_eq] at hf
  simp only [strings.asciiSpace, Bool.or_eq_false_iff, decide_eq_false_iff_not]
  simp only [List.mem_cons, List.mem_singleton, List.not_mem_nil, or_false] at hb
  rcases hb with h | h | h | h | h | h | h | h | h | h | h | h | h | h <;> subst h <;>
    (rcases hf with hf | hf <;> omega)

theorem forall₂_left_mem {α β : Type} {R : α → β → Prop} :
    ∀ {s : List α} {t : List β}, List.Forall₂ R s t → ∀ a ∈ s, ∃ b ∈ t, R a b
  | _, _, .nil, a, h => by simp at h
  | _, _, .cons hab htl, a, h => by
    rcases List.mem_cons.mp h with h | h
    · subst h; exact ⟨_, by simp, hab⟩
    · obtain ⟨b, hb, hr⟩ := forall₂_left_mem htl a h
      exact ⟨b, List.mem_cons_of_mem _ hb, hr⟩

/-- A spelling of Content-Length in any letter case has no colon, no line feed and no
white space around it. -/
theorem contentLength_spelling (k : Bytes)
    (hk : strings.EqualFold k (ofString "Content-Length") = true) :
    58 ∉ k ∧ 10 ∉ k ∧ strings.TrimSpace k = k := by
  have hall := strings.EqualFold_forall₂ k _ hk
  have hmem : ∀ a ∈ k, a < 128 ∧ strings.asciiSpace a = false ∧ a ≠ 58 ∧ a ≠ 10 := by
    intro a ha
    obtain ⟨b, hb, hlt, hf⟩ := forall₂_left_mem hall a ha
    exact ⟨hlt, foldEq_contentLength_byte a b hlt hb hf⟩
  have hne : k ≠ [] := by
    intro h
    subst h
    rw [contentLength_eq] at hk
    simp [strings.EqualFold] at hk
  refine ⟨fun h => (hmem 58 h).2.2.1 rfl, fun h => (hmem 10 h).2.2.2 rfl, ?_⟩
  apply strings.TrimSpace_of_ends k hne
  · intro a ha
    have := hmem a (List.mem_of_mem_head? ha)
    exact ⟨this.1, this.2.1⟩
  · intro b hb
    have := hmem b (List.mem_of_mem_getLast? hb)
    exact ⟨this.1, this.2.1⟩

end transport

/-! ## Facts about tables and channels -/

namespace Table

theorem mem_of_get? {ν : Type} : ∀ (m : Table ν) (k : Bytes) (v : ν),
    Table.get? m k = some v → (k, v) ∈ m
  | [], _, _, h => by simp [Table.get?] at h
  | (k', v') :: rest, k, v, h => by
    by_cases hk : k' = k
    · simp [Table.get?, hk] at h
      simp [hk, h]
    · simp only [Table.get?, hk, if_false] at h
      exact List.mem_cons_of_mem _ (mem_of_get? rest k v h)

theorem get?_eq_none {ν : Type} : ∀ (m : Table ν) (k : Bytes),
    Table.get? m k = none ↔ ∀ e ∈ m, e.1 ≠ k
  | [], _ => by simp [Table.get?]
  | (k', v') :: rest, k => by
    by_cases hk : k' = k
    · simp [Table.get?, hk]
    · simp [Table.get?, hk, get?_eq_none rest k]

theorem mem_delete {ν : Type} : ∀ (m : Table ν) (k : Bytes) (e : Bytes × ν),
    e ∈ Table.delete m k ↔ e ∈ m ∧ e.1 ≠ k
  | [], _, _ => by simp [Table.delete]
  | (a, v) :: rest, k, e => by
    by_cases ha : a = k
    · simp only [Table.delete, ha, if_true, mem_delete rest k e, List.mem_cons]
      constructor
      · rintro ⟨h1, h2⟩; exact ⟨Or.inr h1, h2⟩
      · rintro ⟨h1 | h1, h2⟩
        · rw [h1] at h2; exact absurd rfl h2
        · exact ⟨h1, h2⟩
    · simp only [Table.delete, ha, if_false, List.mem_cons, mem_delete rest k e]
      constructor
      · rintro (h1 | ⟨h1, h2⟩)
        · rw [h1]; exact ⟨Or.inl rfl, ha⟩
        · exact ⟨Or.inr h1, h2⟩
      · rintro ⟨h1 | h1, h2⟩
        · exact Or.inl h1
        · exact Or.inr ⟨h1, h2⟩

theorem get?_delete_ne {ν : Type} : ∀ (m : Table ν) (k k' : Bytes), k' ≠ k →
    Table.get? (Table.delete m k) k' = Table.get? m k'
  | [], _, _, _ => by simp [Table.delete, Table.get?]
  | (a, v) :: rest, k, k', h => by
    have ih := get?_delete_ne rest k k' h
    by_cases ha : a = k
    · have hak : a ≠ k' := by rw [ha]; exact fun e => h e.symm
      simp only [Table.delete, ha, if_true, Table.get?, ih]
      rw [← ha]; simp [hak]
    · by_cases hb : a = k'
      · subst hb
        simp [Table.delete, h, Table.get?]
      · simp [Table.delete, ha, Table.get?, hb, ih]

theorem get?_delete_self {ν : Type} (m : Table ν) (k : Bytes) :
    Table.get? (Table.delete m k) k = none := by
  rw [get?_eq_none]
  intro e he
  exact ((mem_delete m k e).mp he).2

theorem delete_sublist {ν : Type} : ∀ (m : Table ν) (k : Bytes), (Table.delete m k).Sublist m
  | [], _ => by simp [Table.delete]
  | (a, v) :: rest, k => by
    by_cases ha : a = k
    · simp only [Table.delete, ha, if_true]
      exact (delete_sublist rest k).cons _
    · simp only [Table.delete, ha, if_false]
      exact (delete_sublist rest k).cons₂ _

theorem delete_eq_self {ν : Type} : ∀ (m : Table ν) (k : Bytes), Table.get? m k = none →
    Table.delete m k = m
  | [], _, _ => by simp [Table.delete]
  | (a, v) :: rest, k, h => by
    by_cases ha : a = k
    · simp [Table.get?, ha] at h
    · simp only [Table.get?, ha, if_false] at h
      simp [Table.delete, ha, delete_eq_self rest k h]

end Table

theorem closeChan_open (chans : List Chan) (ch : ChanRef) (b : Option rpcMessage)
    (h : chans[ch]? = some { buf := b, closed := false }) :
    closeChan chans ch = .ok (chans.set ch { buf := b, closed := true }) := by
  simp [closeChan, h]

theorem trySend_open_empty (chans : List Chan) (ch : ChanRef) (msg : rpcMessage)
    (h : chans[ch]? = some { buf := none, closed := false }) :
    trySend chans ch msg = .ok (chans.set ch { buf := some msg, closed := false }, true) := by
  simp [trySend, h]

theorem getElem?_set_self (chans : List Chan) (ch : ChanRef) (s t : Chan)
    (h : chans[ch]? = some s) : (chans.set ch t)[ch]? = some t := by
  have hlt : ch < chans.length := by
    by_contra hge
    have hle : chans.length ≤ ch := Nat.le_of_not_lt hge
    rw [List.getElem?_eq_none hle] at h
    simp at h
  simp [List.getElem?_set, hlt]

theorem getElem?_set_other (chans : List Chan) (ch ch' : ChanRef) (t : Chan) (h : ch ≠ ch') :
    (chans.set ch t)[ch']? = chans[ch']? := by
  simp [List.getElem?_set, h]

/-- The loop of Shutdown closes every pending channel once, without panic. -/
theorem closeAll_ok : ∀ (m : Table ChanRef) (chans : List Chan),
    (∀ e ∈ m, chans[e.2]? = some { buf := none, closed := false }) →
    (m.map Prod.snd).Nodup →
    ∃ chans' evs, closeAll m chans = .ok (chans', evs) ∧
      (∀ ch, ch ∉ m.map Prod.snd → chans'[ch]? = chans[ch]?) ∧
      (∀ ch, ch ∈ m.map Prod.snd → chans'[ch]? = some { buf := none, closed := true }) ∧
      (∀ ch, deliveries ch evs = 0) ∧ issuedIds evs = [] ∧ registrations evs = 0
  | [], chans, _, _ => ⟨chans, [], rfl, fun _ _ => rfl, by simp, fun _ => rfl, rfl, rfl⟩
  | (id, ch) :: rest, chans, hopen, hnd => by
    have hch := hopen (id, ch) (by simp)
    simp only [List.map_cons, List.nodup_cons] at hnd
    have hrest : ∀ e ∈ rest, (chans.set ch { buf := none, closed := true })[e.2]?
        = some { buf := none, closed := false } := by
      intro e he
      have hne : ch ≠ e.2 := by
        intro heq
        exact hnd.1 (by rw [heq]; exact List.mem_map_of_mem _ he)
      rw [getElem?_set_other _ _ _ _ hne]
      exact hopen e (List.mem_cons_of_mem _ he)
    obtain ⟨chans', evs, hrun, hsame, hclosed, hdel, hiss, hreg⟩ :=
      closeAll_ok rest _ hrest hnd.2
    refine ⟨chans', .closedChan ch :: .removed id :: evs, ?_, ?_, ?_, ?_, ?_, ?_⟩
    · simp [closeAll, closeChan_open chans ch none hch, hrun]
    · intro ch' hch'
      simp only [List.map_cons, List.mem_cons, not_or] at hch'
      rw [hsame ch' hch'.2, getElem?_set_other _ _ _ _ (fun e => hch'.1 e.symm)]
    · intro ch' hch'
      simp only [List.map_cons, List.mem_cons] at hch'
      by_cases hmem : ch' ∈ rest.map Prod.snd
      · exact hclosed ch' hmem
      · have : ch' = ch := by
          rcases hch' with h | h
          · exact h
          · exact absurd h hmem
        subst this
        rw [hsame ch' hmem]
        exact getElem?_set_self _ _ _ _ hch
    · intro ch'; simp [deliveries, hdel ch']
    · simp [issuedIds, hiss]
    · simp [registrations, hreg]

/-! ## The invariant of the pending table -/

theorem getElem?_lt_of_some (chans : List Chan) (ch : Nat) (s : Chan) (h : chans[ch]? = some s) :
    ch < chans.length := by
  by_contra hge
  rw [List.getElem?_eq_none (Nat.le_of_not_lt hge)] at h
  simp at h

theorem closed_set (chans : List Chan) (i ch : Nat) (t : Chan)
    (ht : ∀ s, chans[i]? = some s → s.closed = true → t.closed = true)
    (h : ∃ s, chans[ch]? = some s ∧ s.closed = true) :
    ∃ s, (chans.set i t)[ch]? = some s ∧ s.closed = true := by
  obtain ⟨s, hs, hc⟩ := h
  by_cases hi : i = ch
  · subst hi
    exact ⟨t, getElem?_set_self chans i s t hs, ht s hs hc⟩
  · exact ⟨s, by rw [getElem?_set_other _ _ _ _ hi]; exact hs, hc⟩

theorem Inv_congr (c c' : Client) (hp : c'.pending = c.pending) (hc : c'.chans = c.chans)
    (h : c.Inv) : c'.Inv := by
  unfold Client.Inv at *
  rw [hp, hc]
  exact h

theorem Inv_delete (c c' : Client) (k : Bytes) (hp : c'.pending = Table.delete c.pending k)
    (hc : c'.chans = c.chans) (h : c.Inv) : c'.Inv := by
  unfold Client.Inv at *
  rw [hp, hc]
  refine ⟨fun e he => h.1 e ((Table.mem_delete _ _ _).mp he).1, ?_⟩
  exact h.2.sublist ((Table.delete_sublist c.pending k).map _)

/-- Storing a fresh channel under a key keeps the invariant. -/
theorem Inv_register (c c' : Client) (k : Bytes)
    (hp : c'.pending = Table.set c.pending k c.chans.length)
    (hc : c'.chans = c.chans ++ [{ buf := none, closed := false }]) (h : c.Inv) : c'.Inv := by
  unfold Client.Inv at *
  rw [hp, hc]
  have hold : ∀ e ∈ Table.delete c.pending k,
      c.chans[e.2]? = some { buf := none, closed := false } :=
    fun e he => h.1 e ((Table.mem_delete _ _ _).mp he).1
  constructor
  · intro e he
    simp only [Table.set, List.mem_cons] at he
    rcases he with he | he
    · subst he
      simp
    · have := hold e he
      have hlt := getElem?_lt_of_some _ _ _ this
      rw [List.getElem?_append_left hlt]
      exact this
  · simp only [Table.set, List.map_cons, List.nodup_cons]
    constructor
    · intro hmem
      obtain ⟨e, he, heq⟩ := List.mem_map.mp hmem
      have hlt := getElem?_lt_of_some _ _ _ (hold e he)
      rw [heq] at hlt
      exact absurd hlt (lt_irrefl _)
    · exact h.2.sublist ((Table.delete_sublist c.pending k).map _)

/-- Completing the pending request of a key keeps the invariant. -/
theorem Inv_deliver (c c' : Client) (k : Bytes) (ch : ChanRef) (t : Chan)
    (hget : Table.get? c.pending k = some ch)
    (hp : c'.pending = Table.delete c.pending k)
    (hc : c'.chans = c.chans.set ch t) (h : c.Inv) : c'.Inv := by
  unfold Client.Inv at *
  rw [hp, hc]
  have hmem := Table.mem_of_get? _ _ _ hget
  constructor
  · intro e he
    obtain ⟨he1, he2⟩ := (Table.mem_delete _ _ _).mp he
    have hne : ch ≠ e.2 := by
      intro heq
      have := List.inj_on_of_nodup_map h.2 hmem he1 heq
      rw [← this] at he2
      exact he2 rfl
    rw [getElem?_set_other _ _ _ _ hne]
    exact h.1 e he1
  · exact h.2.sublist ((Table.delete_sublist c.pending k).map _)

theorem deliveries_append (ch : ChanRef) : ∀ (a b : List Event),
    deliveries ch (a ++ b) = deliveries ch a + deliveries ch b
  | [], b => by simp [deliveries]
  | e :: a, b => by
    cases e <;> simp [deliveries, deliveries_append ch a b]
    omega

theorem issuedIds_append : ∀ (a b : List Event), issuedIds (a ++ b) = issuedIds a ++ issuedIds b
  | [], b => by simp [issuedIds]
  | e :: a, b => by
    cases e <;> simp [issuedIds, issuedIds_append a b]

theorem registrations_append : ∀ (a b : List Event),
    registrations (a ++ b) = registrations a + registrations b
  | [], b => by simp [registrations]
  | e :: a, b => by
    cases e <;> simp [registrations, registrations_append a b]
    omega

/-- Every step keeps the invariant, never panics, never reopens a channel and hands at
most one message to a channel, which it closes. -/
theorem Client.step_inv (c : Client) (a : Action) (h : c.Inv) :
    ∃ c' evs, c.step a = .ok (c', evs) ∧ c'.Inv ∧
      (∀ ch, c.chanClosed ch → c'.chanClosed ch) ∧
      (∀ ch, deliveries ch evs ≤ 1) ∧
      (∀ ch, 0 < deliveries ch evs → ¬ c.chanClosed ch ∧ c'.chanClosed ch) := by
  cases a with
  | start =>
    refine ⟨_, _, rfl, ?_, ?_, ?_, ?_⟩
    · apply Inv_congr c _ _ _ h <;> (simp only [Client.Start]; split <;> rfl)
    · intro ch hc
      have : (Client.Start c).1.chans = c.chans := by simp only [Client.Start]; split <;> rfl
      simpa [Client.chanClosed, this] using hc
    · intro ch; simp only [Client.Start]; split <;> simp [deliveries]
    · intro ch; simp only [Client.Start]; split <;> simp [deliveries]
  | request method params =>
    refine ⟨_, _, rfl, ?_, ?_, ?_, ?_⟩
    · simp only [Client.Request.register]
      split
      · exact h
      · split
        · exact h
        · split
          · exact Inv_congr c _ rfl rfl h
          · exact Inv_register { c with nextID := atomic.AddInt64 c.nextID 1 } _ _ rfl rfl
              (Inv_congr c _ rfl rfl h)
    · intro ch hc
      simp only [Client.Request.register]
      split
      · exact hc
      · split
        · exact hc
        · split
          · exact hc
          · obtain ⟨s, hs, hcl⟩ := hc
            refine ⟨s, ?_, hcl⟩
            simp only
            rw [List.getElem?_append_left (getElem?_lt_of_some _ _ _ hs)]
            exact hs
    · intro ch
      simp only [Client.Request.register]
      split
      · simp [deliveries]
      · split
        · simp [deliveries]
        · split <;> simp [deliveries]
    · intro ch
      simp only [Client.Request.register]
      split
      · simp [deliveries]
      · split
        · simp [deliveries]
        · split <;> simp [deliveries]
  | abandon idStr =>
    refine ⟨_, _, rfl, Inv_delete c _ idStr rfl rfl h, fun ch hc => hc, ?_, ?_⟩
    · intro ch; simp [Client.Request.cleanup, deliveries]
    · intro ch; simp [Client.Request.cleanup, deliveries]
  | receive ch =>
    refine ⟨_, _, rfl, ?_, ?_, fun _ => by simp [deliveries], fun _ => by simp [deliveries]⟩
    · simp only [Client.Request.receive]
      split
      · exact h
      · rename_i s hs
        split
        · rename_i m hm
          refine ⟨?_, h.2⟩
          intro e he
          have hopen := h.1 e he
          have hne : ch ≠ e.2 := by
            intro heq
            rw [← heq, hs] at hopen
            simp only [Option.some.injEq] at hopen
            rw [hopen] at hm
            simp at hm
          simp only
          rw [getElem?_set_other _ _ _ _ hne]
          exact hopen
        · split <;> exact h
    · intro ch' hc
      simp only [Client.Request.receive]
      split
      · exact hc
      · rename_i s hs
        split
        · exact closed_set c.chans ch ch' _
            (fun s' hs' hcl => by rw [hs] at hs'; simp only [Option.some.injEq] at hs'; rw [hs']; exact hcl)
            hc
        · split <;> exact hc
  | frame msg =>
    simp only [Client.step, Client.route]
    cases hid : msg.ID with
    | none =>
      simp only
      split
      · split
        · exact ⟨c, _, rfl, h, fun _ hc => hc, fun _ => by simp [deliveries],
            fun _ => by simp [deliveries]⟩
        · exact ⟨c, _, rfl, h, fun _ hc => hc, fun _ => by simp [deliveries],
            fun _ => by simp [deliveries]⟩
      · exact ⟨c, _, rfl, h, fun _ hc => hc, fun _ => by simp [deliveries],
          fun _ => by simp [deliveries]⟩
    | some idKey =>
      simp only
      cases hget : Table.get? c.pending idKey with
      | none =>
        exact ⟨c, _, rfl, h, fun _ hc => hc, fun _ => by simp [deliveries],
          fun _ => by simp [deliveries]⟩
      | some ch =>
        have hopen := h.1 (idKey, ch) (Table.mem_of_get? _ _ _ hget)
        simp only at hopen
        have hsend := trySend_open_empty c.chans ch msg hopen
        have hclose := closeChan_open (c.chans.set ch { buf := some msg, closed := false }) ch
          (some msg) (getElem?_set_self _ _ _ _ hopen)
        simp only [hsend, hclose, List.set_set, if_true]
        refine ⟨_, _, rfl, Inv_deliver c _ idKey ch _ hget rfl rfl h, ?_, ?_, ?_⟩
        · intro ch' hc
          exact closed_set c.chans ch ch' _ (fun _ _ _ => rfl) hc
        · intro ch'
          simp only [deliveries]
          split <;> simp
        · intro ch' hpos
          have hch : ch = ch' := by
            by_contra hne
            simp [deliveries, hne] at hpos
          subst hch
          constructor
          · rintro ⟨s, hs, hcl⟩
            rw [hopen] at hs
            simp only [Option.some.injEq] at hs
            rw [← hs] at hcl
            simp at hcl
          · exact ⟨_, getElem?_set_self _ _ _ _ hopen, rfl⟩
  | shutdown =>
    simp only [Client.step, Client.Shutdown]
    by_cases hcl : c.closed = true
    · simp only [hcl, if_true]
      exact ⟨c, _, rfl, h, fun _ hc => hc, fun _ => by simp [deliveries],
        fun _ => by simp [deliveries]⟩
    · simp only [hcl, if_false]
      obtain ⟨chans', evs, hrun, hsame, hclosed, hdel, -, -⟩ :=
        closeAll_ok c.pending c.chans h.1 h.2
      simp only [Bool.false_eq_true, if_false, hrun]
      refine ⟨_, _, rfl, ⟨by simp, by simp⟩, ?_, ?_, ?_⟩
      · rintro ch ⟨s, hs, hc⟩
        by_cases hmem : ch ∈ c.pending.map Prod.snd
        · exact ⟨_, hclosed ch hmem, rfl⟩
        · exact ⟨s, by simp only; rw [hsame ch hmem]; exact hs, hc⟩
      · intro ch; simp [deliveries, hdel ch]
      · intro ch; simp [deliveries, hdel ch]
  | registerHandler method handler =>
    exact ⟨_, _, rfl, Inv_congr c _ rfl rfl h, fun _ hc => hc, fun _ => by simp [deliveries],
      fun _ => by simp [deliveries]⟩

/-- A run from a state with the invariant never panics, keeps the invariant and hands at
most one message to every channel, none to a channel that was closed before. -/
theorem Client.run_inv : ∀ (as : List Action) (c : Client), c.Inv →
    ∃ c' evs, c.run as = .ok (c', evs) ∧ c'.Inv ∧
      (∀ ch, c.chanClosed ch → c'.chanClosed ch) ∧
      (∀ ch, deliveries ch evs ≤ 1) ∧
      (∀ ch, c.chanClosed ch → deliveries ch evs = 0)
  | [], c, h => ⟨c, [], rfl, h, fun _ hc => hc, fun _ => by simp [deliveries], fun _ _ => rfl⟩
  | a :: as, c, h => by
    obtain ⟨c1, e1, hstep, hinv1, hmono1, hle1, hpos1⟩ := Client.step_inv c a h
    obtain ⟨c2, e2, hrun, hinv2, hmono2, hle2, hzero2⟩ := Client.run_inv as c1 hinv1
    refine ⟨c2, e1 ++ e2, by simp [Client.run, hstep, hrun], hinv2,
      fun ch hc => hmono2 ch (hmono1 ch hc), ?_, ?_⟩
    · intro ch
      rw [deliveries_append]
      by_cases hp : 0 < deliveries ch e1
      · have := hzero2 ch (hpos1 ch hp).2
        have := hle1 ch
        omega
      · have := hle2 ch
        omega
    · intro ch hc
      rw [deliveries_append]
      have h1 : deliveries ch e1 = 0 := by
        by_contra hne
        exact (hpos1 ch (by omega)).1 hc
      rw [h1, hzero2 ch (hmono1 ch hc)]

theorem NewClient_Inv (rw : io.Pipe) (reader : Bytes) (opts : ClientOptions) :
    (NewClient rw reader opts).Inv := by
  simp [NewClient, Client.Inv]

/-! ## Correlation ids -/

theorem FormatInt_injective (i j : Int) (hi : -(2 ^ 63 : Int) ≤ i ∧ i < 2 ^ 63)
    (hj : -(2 ^ 63 : Int) ≤ j ∧ j < 2 ^ 63) (h : strconv.FormatInt i = strconv.FormatInt j) :
    i = j := by
  have h1 := strconv.Atoi_FormatInt i hi.1 hi.2
  have h2 := strconv.Atoi_FormatInt j hj.1 hj.2
  rw [h, h2] at h1
  exact (Option.some.inj h1).symm

theorem AddInt64_one (v : Int) (h0 : 0 ≤ v) (h : v + 1 < 2 ^ 63) : atomic.AddInt64 v 1 = v + 1 := by
  have e63 : (2 : Int) ^ 63 = 9223372036854775808 := by norm_num
  have e64 : (2 : Int) ^ 64 = 18446744073709551616 := by norm_num
  simp only [atomic.AddInt64, wrapInt64]
  rw [e63, e64]
  rw [e63] at h
  omega

theorem KeysIssued_delete (c c' : Client) (k : Bytes) (hp : c'.pending = Table.delete c.pending k)
    (hn : c'.nextID = c.nextID) (h : c.KeysIssued) : c'.KeysIssued := by
  unfold Client.KeysIssued at *
  rw [hp, hn]
  exact ⟨h.1, fun e he => h.2.1 e ((Table.mem_delete _ _ _).mp he).1,
    h.2.2.sublist ((Table.delete_sublist c.pending k).map _)⟩

/-- What a step does to the counter and to the keys of the pending table. -/
theorem Client.step_keys (c : Client) (a : Action) (c' : Client) (evs : List Event)
    (h : c.KeysIssued) (hb : c.nextID + 1 < 2 ^ 63) (hstep : c.step a = .ok (c', evs)) :
    c'.KeysIssued ∧
    ((issuedIds evs = [] ∧ c'.nextID = c.nextID) ∨
      (issuedIds evs = [c.nextID + 1] ∧ c'.nextID = c.nextID + 1)) ∧
    (∀ key ch replaced, Event.registered key ch replaced ∈ evs →
      replaced = none ∧ key = strconv.FormatInt (c.nextID + 1) ∧ issuedIds evs = [c.nextID + 1]) ∧
    (a.keepsPending = true → c'.pending.length = c.pending.length + registrations evs) := by
  have hadd := AddInt64_one c.nextID h.1 hb
  have h0 : 0 ≤ c.nextID := h.1
  cases a with
  | start =>
    simp only [Client.step, Except.ok.injEq, Prod.mk.injEq] at hstep
    obtain ⟨hc, he⟩ := hstep
    subst hc; subst he
    simp only [Client.Start]
    split
    · exact ⟨h, Or.inl ⟨rfl, rfl⟩, by simp, by simp [registrations]⟩
    · exact ⟨h, Or.inl ⟨rfl, rfl⟩, by simp, by simp [registrations]⟩
  | request method params =>
    simp only [Client.step, Except.ok.injEq, Prod.mk.injEq] at hstep
    obtain ⟨hc, he⟩ := hstep
    subst hc; subst he
    have hnext : c.KeysIssued → (∀ (p : Table ChanRef), p = c.pending →
        ({ c with nextID := c.nextID + 1, pending := p } : Client).KeysIssued) := by
      intro hk p hp
      subst hp
      refine ⟨by simp only; omega, ?_, hk.2.2⟩
      intro e he
      obtain ⟨j, h1, h2, h3⟩ := hk.2.1 e he
      exact ⟨j, h1, by simp only; omega, h3⟩
    simp only [Client.Request.register, hadd]
    split
    · exact ⟨h, Or.inl ⟨rfl, rfl⟩, by simp, by simp [registrations]⟩
    · split
      · exact ⟨h, Or.inl ⟨rfl, rfl⟩, by simp, by simp [registrations]⟩
      · split
        · refine ⟨hnext h c.pending rfl, Or.inr ⟨by simp [issuedIds], rfl⟩, by simp,
            by simp [registrations]⟩
        · have hfresh : Table.get? c.pending (strconv.FormatInt (c.nextID + 1)) = none := by
            rw [Table.get?_eq_none]
            intro e he heq
            obtain ⟨j, h1, h2, h3⟩ := h.2.1 e he
            rw [h3] at heq
            have := FormatInt_injective j (c.nextID + 1) ⟨by omega, by omega⟩
              ⟨by omega, by omega⟩ heq
            omega
          have hdel := Table.delete_eq_self _ _ hfresh
          refine ⟨?_, Or.inr ⟨by simp [issuedIds], rfl⟩, ?_, ?_⟩
          · refine ⟨by simp only; omega, ?_, ?_⟩
            · intro e he
              simp only [Table.set, hdel, List.mem_cons] at he
              rcases he with he | he
              · exact ⟨c.nextID + 1, by omega, by simp only; omega, by rw [he]⟩
              · obtain ⟨j, h1, h2, h3⟩ := h.2.1 e he
                exact ⟨j, h1, by simp only; omega, h3⟩
            · simp only [Table.set, hdel, List.map_cons, List.nodup_cons]
              refine ⟨?_, h.2.2⟩
              intro hmem
              obtain ⟨e, he, heq⟩ := List.mem_map.mp hmem
              exact (Table.get?_eq_none _ _).mp hfresh e he heq
          · intro key ch replaced hmem
            simp only [List.mem_cons, Event.registered.injEq, List.mem_singleton,
              List.not_mem_nil, or_false, reduceCtorEq, false_or] at hmem
            obtain ⟨h1, -, h3⟩ := hmem
            exact ⟨by rw [h3]; exact hfresh, h1, by simp [issuedIds]⟩
          · intro _
            simp [Table.set, hdel, registrations]
  | abandon idStr =>
    simp only [Client.step, Client.Request.cleanup, Except.ok.injEq, Prod.mk.injEq] at hstep
    obtain ⟨hc, he⟩ := hstep
    subst hc; subst he
    exact ⟨KeysIssued_delete c _ idStr rfl rfl h, Or.inl ⟨by simp [issuedIds], rfl⟩, by simp,
      by simp [Action.keepsPending]⟩
  | receive ch =>
    simp only [Client.step, Except.ok.injEq, Prod.mk.injEq] at hstep
    obtain ⟨hc, he⟩ := hstep
    subst hc; subst he
    have hp : (Client.Request.receive c ch).1.pending = c.pending := by
      simp only [Client.Request.receive]
      split
      · rfl
      · split
        · rfl
        · split <;> rfl
    have hn : (Client.Request.receive c ch).1.nextID = c.nextID := by
      simp only [Client.Request.receive]
      split
      · rfl
      · split
        · rfl
        · split <;> rfl
    refine ⟨?_, Or.inl ⟨rfl, hn⟩, by simp, by simp [Action.keepsPending]⟩
    unfold Client.KeysIssued at *
    rw [hp, hn]
    exact h
  | frame msg =>
    refine ⟨?_, ?_, ?_, by simp [Action.keepsPending]⟩
    all_goals
      simp only [Client.step, Client.route] at hstep
      split at hstep
      · split at hstep
        · split at hstep
          · simp at hstep
          · split at hstep
            · simp at hstep
            · simp only [Except.ok.injEq, Prod.mk.injEq] at hstep
              obtain ⟨hc, he⟩ := hstep
              subst hc; subst he
              first
                | exact KeysIssued_delete c _ _ rfl rfl h
                | exact Or.inl ⟨by split <;> simp [issuedIds], rfl⟩
                | (intro key ch replaced hmem; split at hmem <;> simp at hmem)
        · simp only [Except.ok.injEq, Prod.mk.injEq] at hstep
          obtain ⟨hc, he⟩ := hstep
          subst hc; subst he
          first
            | exact h
            | exact Or.inl ⟨by simp [issuedIds], rfl⟩
            | (intro key ch replaced hmem; simp at hmem)
      · split at hstep
        · split at hstep <;>
          · simp only [Except.ok.injEq, Prod.mk.injEq] at hstep
            obtain ⟨hc, he⟩ := hstep
            subst hc; subst he
            first
              | exact h
              | exact Or.inl ⟨by simp [issuedIds], rfl⟩
              | (intro key ch replaced hmem; simp at hmem)
        · simp only [Except.ok.injEq, Prod.mk.injEq] at hstep
          obtain ⟨hc, he⟩ := hstep
          subst hc; subst he
          first
            | exact h
            | exact Or.inl ⟨by simp [issuedIds], rfl⟩
            | (intro key ch replaced hmem; simp at hmem)
  | shutdown =>
    simp only [Client.step, Client.Shutdown] at hstep
    split at hstep
    · simp at hstep
    · rename_i c1 o evs1 hsd
      simp only [Except.ok.injEq, Prod.mk.injEq] at hstep
      obtain ⟨hc, he⟩ := hstep
      subst hc; subst he
      split at hsd
      · simp only [Except.ok.injEq, Prod.mk.injEq] at hsd
        obtain ⟨hc, -, he⟩ := hsd
        subst hc; subst he
        exact ⟨h, Or.inl ⟨rfl, rfl⟩, by simp, by simp [Action.keepsPending]⟩
      · split at hsd
        · simp at hsd
        · rename_i chans evs2 hca
          simp only [Except.ok.injEq, Prod.mk.injEq] at hsd
          obtain ⟨hc, -, he⟩ := hsd
          subst hc; subst he
          have hev : issuedIds evs2 = [] ∧ ∀ key ch replaced,
              Event.registered key ch replaced ∉ evs2 := by
            clear h hb hadd
            generalize c.chans = ch0 at hca
            generalize c.pending = m at hca
            induction m generalizing ch0 chans evs2 with
            | nil =>
              simp only [closeAll, Except.ok.injEq, Prod.mk.injEq] at hca
              rw [← hca.2]; simp [issuedIds]
            | cons e m ih =>
              obtain ⟨id, chn⟩ := e
              simp only [closeAll] at hca
              split at hca
              · simp at hca
              · split at hca
                · simp at hca
                · rename_i chans2 evs3 hrec
                  simp only [Except.ok.injEq, Prod.mk.injEq] at hca
                  obtain ⟨-, he⟩ := hca
                  have := ih _ _ _ hrec
                  rw [← he]
                  simp [issuedIds, this.1, this.2]
          refine ⟨⟨h.1, by simp, by simp⟩, Or.inl ⟨by simp [issuedIds, hev.1], rfl⟩, ?_,
            by simp [Action.keepsPending]⟩
          intro key ch replaced hmem
          simp only [List.mem_cons, reduceCtorEq, false_or] at hmem
          exact absurd hmem (hev.2 key ch replaced)
  | registerHandler method handler =>
    simp only [Client.step, Client.RegisterNotificationHandler, Except.ok.injEq,
      Prod.mk.injEq] at hstep
    obtain ⟨hc, he⟩ := hstep
    subst hc; subst he
    exact ⟨h, Or.inl ⟨rfl, rfl⟩, by simp, by simp [registrations]⟩

theorem run_cons_ok (c : Client) (a : Action) (as : List Action) (c' : Client) (evs : List Event)
    (h : c.run (a :: as) = .ok (c', evs)) :
    ∃ c1 e1 e2, c.step a = .ok (c1, e1) ∧ c1.run as = .ok (c', e2) ∧ evs = e1 ++ e2 := by
  simp only [Client.run] at h
  split at h
  · simp at h
  · rename_i c1 e1 hstep
    split at h
    · simp at h
    · rename_i c2 e2 hrun
      simp only [Except.ok.injEq, Prod.mk.injEq] at h
      exact ⟨c1, e1, e2, hstep, by rw [hrun, h.1], h.2.symm⟩

/-- Along a run the requests take consecutive ids, and no registration replaces an entry. -/
theorem Client.run_keys : ∀ (as : List Action) (c c' : Client) (evs : List Event),
    c.KeysIssued → c.nextID + as.length < 2 ^ 63 → c.run as = .ok (c', evs) →
    c'.KeysIssued ∧
    issuedIds evs = (List.range (issuedIds evs).length).map (fun (i : Nat) => c.nextID + 1 + (i : Int)) ∧
    c'.nextID = c.nextID + (issuedIds evs).length ∧
    (issuedIds evs).length ≤ as.length ∧
    (∀ key ch replaced, Event.registered key ch replaced ∈ evs →
      replaced = none ∧ ∃ id ∈ issuedIds evs, key = strconv.FormatInt id) ∧
    ((∀ a ∈ as, a.keepsPending = true) →
      c'.pending.length = c.pending.length + registrations evs)
  | [], c, c', evs, h, _, hrun => by
    simp only [Client.run, Except.ok.injEq, Prod.mk.injEq] at hrun
    obtain ⟨hc, he⟩ := hrun
    subst hc; subst he
    exact ⟨h, by simp [issuedIds], by simp [issuedIds], by simp [issuedIds], by simp,
      by simp [registrations]⟩
  | a :: as, c, c', evs, h, hb, hrun => by
    obtain ⟨c1, e1, e2, hstep, hrest, hevs⟩ := run_cons_ok c a as c' evs hrun
    subst hevs
    simp only [List.length_cons, Nat.cast_add, Nat.cast_one] at hb
    obtain ⟨hk1, hids1, hreg1, hlen1⟩ := Client.step_keys c a c1 e1 h (by omega) hstep
    have hb1 : c1.nextID + as.length < 2 ^ 63 := by
      rcases hids1 with ⟨-, hn⟩ | ⟨-, hn⟩ <;> rw [hn] <;> omega
    obtain ⟨hk2, hids2, hn2, hle2, hreg2, hlen2⟩ := Client.run_keys as c1 c' e2 hk1 hb1 hrest
    rw [issuedIds_append]
    refine ⟨hk2, ?_, ?_, ?_, ?_, ?_⟩
    · rcases hids1 with ⟨hi, hn⟩ | ⟨hi, hn⟩
      · rw [hi, List.nil_append, ← hn]; exact hids2
      · rw [hi, List.singleton_append, List.length_cons, List.range_succ_eq_map, List.map_cons,
          List.map_map]
        simp only [Nat.cast_zero, add_zero, List.cons.injEq, true_and]
        rw [hn] at hids2
        conv_lhs => rw [hids2]
        apply List.map_congr_left
        intro i _
        simp only [Function.comp, Nat.cast_succ]
        omega
    · rcases hids1 with ⟨hi, hn⟩ | ⟨hi, hn⟩
      · rw [hi, List.nil_append, hn2, hn]
      · rw [hi, List.singleton_append, List.length_cons, hn2, hn]
        push_cast; omega
    · rcases hids1 with ⟨hi, hn⟩ | ⟨hi, hn⟩
      · rw [hi]; simp; omega
      · rw [hi]; simp; omega
    · intro key ch replaced hmem
      rcases List.mem_append.mp hmem with hm | hm
      · obtain ⟨h1, h2, h3⟩ := hreg1 key ch replaced hm
        exact ⟨h1, c.nextID + 1, by rw [h3]; simp, h2⟩
      · obtain ⟨h1, id, hid, h2⟩ := hreg2 key ch replaced hm
        exact ⟨h1, id, List.mem_append_right _ hid, h2⟩
    · intro hall
      rw [hlen2 (fun a' ha' => hall a' (List.mem_cons_of_mem _ ha')),
        hlen1 (hall a (by simp)), registrations_append]
      omega

theorem NewClient_KeysIssued (rw : io.Pipe) (reader : Bytes) (opts : ClientOptions) :
    (NewClient rw reader opts).KeysIssued := by
  simp [NewClient, Client.KeysIssued]

/-- Routing a frame whose id is pending, in a state with the invariant. -/
theorem Client.route_pending (c : Client) (h : c.Inv) (msg : rpcMessage) (key : Bytes)
    (ch : ChanRef) (hid : msg.ID = some key) (hget : Table.get? c.pending key = some ch) :
    c.route msg =
      .ok ({ c with chans := c.chans.set ch { buf := some msg, closed := true },
                    pending := Table.delete c.pending key },
        [.delivered key ch msg, .closedChan ch, .removed key]) ∧
    c.chans[ch]? = some { buf := none, closed := false } := by
  have hopen := h.1 (key, ch) (Table.mem_of_get? _ _ _ hget)
  simp only at hopen
  have hsend := trySend_open_empty c.chans ch msg hopen
  have hclose := closeChan_open (c.chans.set ch { buf := some msg, closed := false }) ch
    (some msg) (getElem?_set_self _ _ _ _ hopen)
  refine ⟨?_, hopen⟩
  simp only [Client.route, hid, hget, hsend, hclose, List.set_set, if_true]

/-- Routing a frame whose id is not pending. -/
theorem Client.route_unknown (c : Client) (msg : rpcMessage) (key : Bytes)
    (hid : msg.ID = some key) (hget : Table.get? c.pending key = none) :
    c.route msg = .ok (c, [.discarded msg]) := by
  simp only [Client.route, hid, hget]

/-- What a Request that registers has done: its key is the decimal string of the counter
after the atomic add, it is the id of the message, and the pending table maps it to the
channel of the request. -/
theorem Client.Request.register_ok (c : Client) (method : Bytes)
    (params : Option (Except Err Bytes)) (msg : rpcMessage) (idStr : Bytes) (ch : ChanRef)
    (h : (Client.Request.register c method params).2.1 = .ok (msg, idStr, ch)) :
    idStr = strconv.FormatInt (atomic.AddInt64 c.nextID 1) ∧ msg.ID = some idStr ∧
    (Client.Request.register c method params).1.nextID = atomic.AddInt64 c.nextID 1 ∧
    Table.get? (Client.Request.register c method params).1.pending idStr = some ch := by
  revert h
  simp only [Client.Request.register]
  split
  · intro h; simp at h
  · split
    · intro h; simp at h
    · split
      · intro h; simp at h
      · intro h
        simp only [Except.ok.injEq, Prod.mk.injEq] at h
        obtain ⟨h1, h2, h3⟩ := h
        subst h1; subst h2; subst h3
        simp [Table.set, Table.get?]

/-! ## More facts about tables -/

namespace Table

theorem delete_delete {ν : Type} (m : Table ν) (k : Bytes) :
    Table.delete (Table.delete m k) k = Table.delete m k :=
  delete_eq_self _ _ (get?_delete_self m k)

theorem get?_set_self {ν : Type} (m : Table ν) (k : Bytes) (v : ν) :
    Table.get? (Table.set m k v) k = some v := by
  simp [Table.set, Table.get?]

theorem get?_set_ne {ν : Type} (m : Table ν) (k k' : Bytes) (v : ν) (h : k' ≠ k) :
    Table.get? (Table.set m k v) k' = Table.get? m k' := by
  have hk : ¬ k = k' := fun e => h e.symm
  simp only [Table.set, Table.get?, hk, if_false]
  exact get?_delete_ne m k k' h

theorem set_set {ν : Type} (m : Table ν) (k : Bytes) (v w : ν) :
    Table.set (Table.set m k v) k w = Table.set m k w := by
  simp [Table.set, Table.delete, delete_delete]

theorem filter_delete {ν : Type} : ∀ (m : Table ν) (k : Bytes),
    (Table.delete m k).filter (fun e => decide (e.1 = k)) = []
  | [], _ => by simp [Table.delete]
  | (a, v) :: rest, k => by
    by_cases ha : a = k
    · simp [Table.delete, ha, filter_delete rest k]
    · simp [Table.delete, ha, List.filter_cons, filter_delete rest k]

theorem delete_set_of_fresh {ν : Type} (m : Table ν) (k : Bytes) (v : ν)
    (h : Table.get? m k = none) : Table.delete (Table.set m k v) k = m := by
  simp [Table.set, Table.delete, delete_delete, delete_eq_self m k h]

end Table

/-! ## Facts about the rest of the client -/

/-- In a state that a new client reaches with room left in the counter, the key of the next
request is not in the pending table. -/
theorem reachable_fresh_key (rw : io.Pipe) (reader : Bytes) (opts : ClientOptions)
    (as : List Action) (c : Client) (evs : List Event)
    (hrun : (NewClient rw reader opts).run as = .ok (c, evs)) (hlen : as.length + 1 < 2 ^ 63) :
    Table.get? c.pending (strconv.FormatInt (atomic.AddInt64 c.nextID 1)) = none := by
  have hN : ((as.length : Nat) : Int) + 1 < 2 ^ 63 := by
    have : (((as.length + 1 : Nat)) : Int) < ((2 ^ 63 : Nat) : Int) := by exact_mod_cast hlen
    have h2 : ((2 ^ 63 : Nat) : Int) = 2 ^ 63 := by norm_num
    push_cast at this
    omega
  have hb : (NewClient rw reader opts).nextID + (as.length : Int) < 2 ^ 63 := by
    have : (NewClient rw reader opts).nextID = 0 := rfl
    rw [this]; omega
  obtain ⟨hk, -, hn, hle, -, -⟩ :=
    Client.run_keys as (NewClient rw reader opts) c evs (NewClient_KeysIssued rw reader opts)
      hb hrun
  have hzero : (NewClient rw reader opts).nextID = 0 := rfl
  rw [hzero] at hn
  have hle' : ((issuedIds evs).length : Int) ≤ (as.length : Int) := by exact_mod_cast hle
  have hnext : c.nextID + 1 < 2 ^ 63 := by omega
  rw [AddInt64_one c.nextID hk.1 hnext, Table.get?_eq_none]
  intro e he heq
  obtain ⟨j, h1, h2, h3⟩ := hk.2.1 e he
  rw [h3] at heq
  have := FormatInt_injective j (c.nextID + 1) ⟨by omega, by omega⟩ ⟨by omega, by omega⟩ heq
  omega

/-- What a Request that registers leaves in the pending table. -/
theorem Client.Request.register_pending (c c1 : Client) (method : Bytes)
    (params : Option (Except Err Bytes)) (msg : rpcMessage) (idStr : Bytes) (ch : ChanRef)
    (evs : List Event)
    (h : Client.Request.register c method params = (c1, .ok (msg, idStr, ch), evs)) :
    idStr = strconv.FormatInt (atomic.AddInt64 c.nextID 1) ∧
    c1.pending = Table.set c.pending idStr ch := by
  revert h
  simp only [Client.Request.register]
  split
  · intro h; simp at h
  · split
    · intro h; simp at h
    · split
      · intro h; simp at h
      · intro h
        simp only [Prod.mk.injEq, Except.ok.injEq] at h
        obtain ⟨h1, ⟨-, h2, h3⟩, -⟩ := h
        subst h1; subst h2; subst h3
        exact ⟨rfl, rfl⟩

/-- Routing a frame does not read from the stream. -/
theorem Client.route_reader (c c' : Client) (msg : rpcMessage) (evs : List Event)
    (h : c.route msg = .ok (c', evs)) : c'.reader = c.reader := by
  simp only [Client.route] at h
  split at h
  · split at h
    · split at h
      · simp at h
      · split at h
        · simp at h
        · simp only [Except.ok.injEq, Prod.mk.injEq] at h
          rw [← h.1]
    · simp only [Except.ok.injEq, Prod.mk.injEq] at h
      rw [← h.1]
  · split at h
    · split at h <;>
      · simp only [Except.ok.injEq, Prod.mk.injEq] at h
        rw [← h.1]
    · simp only [Except.ok.injEq, Prod.mk.injEq] at h
      rw [← h.1]

namespace transport

/-- The header loop never leaves more input than it was given. -/
theorem readHeaders_length : ∀ (fuel : Nat) (cl : Int) (r : Bytes),
    (readHeaders fuel cl r).2.length ≤ r.length := by
  intro fuel
  induction fuel with
  | zero => intro cl r; simp [readHeaders]
  | succ f ih =>
    intro cl r
    simp only [readHeaders]
    rcases hrs : bufio.ReadString 10 r with ⟨line, e, rest⟩
    cases e with
    | some e =>
      obtain ⟨-, h2, -⟩ := bufio.ReadString_error 10 r line rest e hrs
      simp [h2]
    | none =>
      have hlen := bufio.ReadString_length 10 r line rest hrs
      simp only
      cases transport.headerLine line with
      | done => simp only; omega
      | skip => have := ih cl rest; simp only; omega
      | length n => have := ih n rest; simp only; omega
      | invalid v => simp only; omega

/-- A Read that returns a message has consumed at least one byte. -/
theorem Read_consumes (J : JsonCodec) (t : transport) (m : rpcMessage)
    (h : (Read J t).1 = .ok m) : (Read J t).2.reader.length < t.reader.length := by
  have hlen := readHeaders_length t.reader.length 0 t.reader
  revert h
  unfold Read
  rcases hh : readHeaders t.reader.length 0 t.reader with ⟨res, r⟩
  rw [hh] at hlen
  simp only at hlen
  cases res with
  | error e => intro h; simp at h
  | ok cl =>
    simp only
    by_cases hcl : cl ≤ 0
    · simp [hcl]
    · by_cases hbig : cl.toNat > runtime.maxAlloc
      · simp [hcl, hbig]
      · simp only [hcl, if_false, hbig, io.ReadFull]
        by_cases hn : cl.toNat ≤ r.length
        · simp only [hn, if_true]
          cases J.Unmarshal (List.take cl.toNat r) with
          | error e => intro h; simp at h
          | ok msg =>
            intro _
            simp only [List.length_drop]
            omega
        · simp only [hn, if_false]
          by_cases hr : r = [] <;> simp [hr]

end transport

/-- A pass of the receive loop that goes on has consumed at least one byte. -/
theorem Client.receiveLoop.iteration_consumes (J : JsonCodec) (c c' : Client) (evs : List Event)
    (h : Client.receiveLoop.iteration J c = .ok (c', evs, true)) :
    c'.reader.length < c.reader.length := by
  simp only [Client.receiveLoop.iteration] at h
  split at h
  · simp at h
  · have hcons := transport.Read_consumes J ⟨c.rw, c.reader⟩
    split at h
    · simp at h
    · simp at h
    · rename_i msg t hread
      rw [hread] at hcons
      have hlt := hcons msg rfl
      simp only at hlt
      split at h
      · simp at h
      · rename_i c2 evs2 hroute
        simp only [Except.ok.injEq, Prod.mk.injEq] at h
        have := Client.route_reader _ _ _ _ hroute
        rw [← h.1, this]
        exact hlt

/-- The receive loop does not depend on the fuel once it exceeds the input left. -/
theorem Client.receiveLoop_fuel (J : JsonCodec) (run : Handler → Bytes → CallOutcome) :
    ∀ (f1 f2 : Nat) (c : Client), c.reader.length < f1 → c.reader.length < f2 →
      Client.receiveLoop J run f1 c = Client.receiveLoop J run f2 c := by
  intro f1
  induction f1 with
  | zero => intro f2 c h; omega
  | succ f1 ih =>
    intro f2 c h1 h2
    cases f2 with
    | zero => omega
    | succ f2 =>
      simp only [Client.receiveLoop]
      rcases hit : Client.receiveLoop.iteration J c with p | ⟨c', evs, goOn⟩
      · rfl
      · simp only
        cases firstCrash run evs with
        | some h => rfl
        | none =>
          simp only
          cases goOn with
          | false => rfl
          | true =>
            have := Client.receiveLoop.iteration_consumes J c c' evs hit
            rw [ih f2 c' (by omega) (by omega)]

/-! ## Drops and closes of a run -/

theorem drops_append : ∀ (a b : List Event), drops (a ++ b) = drops a + drops b
  | [], b => by simp [drops]
  | e :: a, b => by
    cases e <;> simp [drops, drops_append a b, Nat.add_assoc]

theorem closes_append (ch : ChanRef) : ∀ (a b : List Event),
    closes ch (a ++ b) = closes ch a + closes ch b
  | [], b => by simp [closes]
  | e :: a, b => by
    cases e <;> simp [closes, closes_append ch a b, Nat.add_assoc]

/-- The loop of Shutdown drops nothing and closes each channel as often as it is stored. -/
theorem closeAll_closes : ∀ (m : Table ChanRef) (chans chans' : List Chan) (evs : List Event),
    closeAll m chans = .ok (chans', evs) →
    drops evs = 0 ∧ ∀ ch, closes ch evs = (m.map Prod.snd).count ch
  | [], chans, chans', evs, h => by
    simp only [closeAll, Except.ok.injEq, Prod.mk.injEq] at h
    rw [← h.2]
    simp [drops, closes]
  | (id, ch) :: rest, chans, chans', evs, h => by
    simp only [closeAll] at h
    split at h
    · simp at h
    · rename_i chans1 _
      split at h
      · simp at h
      · rename_i chans2 evs2 hrest
        simp only [Except.ok.injEq, Prod.mk.injEq] at h
        obtain ⟨hd, hc⟩ := closeAll_closes rest chans1 chans2 evs2 hrest
        rw [← h.2]
        refine ⟨by simp [drops, hd], ?_⟩
        intro ch'
        simp only [closes, hc ch', List.map_cons, List.count_cons]
        by_cases heq : ch = ch'
        · simp [heq]; omega
        · simp [heq]

/-- A step from a state with the invariant drops no frame and closes a channel at most once,
and only a channel that was open. -/
theorem Client.step_closes (c : Client) (a : Action) (h : c.Inv) (c' : Client)
    (evs : List Event) (hstep : c.step a = .ok (c', evs)) :
    drops evs = 0 ∧ ∀ ch, closes ch evs ≤ 1 ∧
      (0 < closes ch evs → ¬ c.chanClosed ch ∧ c'.chanClosed ch) := by
  cases a with
  | start =>
    simp only [Client.step, Except.ok.injEq, Prod.mk.injEq] at hstep
    rw [← hstep.2]
    simp only [Client.Start]
    split <;> simp [drops, closes]
  | request method params =>
    simp only [Client.step, Except.ok.injEq, Prod.mk.injEq] at hstep
    rw [← hstep.2]
    simp only [Client.Request.register]
    split
    · simp [drops, closes]
    · split
      · simp [drops, closes]
      · split <;> simp [drops, closes]
  | abandon idStr =>
    simp only [Client.step, Client.Request.cleanup, Except.ok.injEq, Prod.mk.injEq] at hstep
    rw [← hstep.2]
    simp [drops, closes]
  | receive ch =>
    simp only [Client.step, Except.ok.injEq, Prod.mk.injEq] at hstep
    rw [← hstep.2]
    simp [drops, closes]
  | registerHandler method handler =>
    simp only [Client.step, Except.ok.injEq, Prod.mk.injEq] at hstep
    rw [← hstep.2]
    simp [drops, closes]
  | frame msg =>
    simp only [Client.step] at hstep
    cases hid : msg.ID with
    | none =>
      simp only [Client.route, hid] at hstep
      split at hstep
      · split at hstep <;>
          (simp only [Except.ok.injEq, Prod.mk.injEq] at hstep
           rw [← hstep.2]
           simp [drops, closes])
      · simp only [Except.ok.injEq, Prod.mk.injEq] at hstep
        rw [← hstep.2]
        simp [drops, closes]
    | some key =>
      cases hget : Table.get? c.pending key with
      | none =>
        rw [Client.route_unknown c msg key hid hget] at hstep
        simp only [Except.ok.injEq, Prod.mk.injEq] at hstep
        rw [← hstep.2]
        simp [drops, closes]
      | some ch =>
        obtain ⟨hroute, hopen⟩ := Client.route_pending c h msg key ch hid hget
        rw [hroute] at hstep
        simp only [Except.ok.injEq, Prod.mk.injEq] at hstep
        rw [← hstep.2, ← hstep.1]
        refine ⟨by simp [drops], ?_⟩
        intro ch'
        by_cases heq : ch = ch'
        · subst heq
          refine ⟨by simp [closes], fun _ => ⟨?_, ?_⟩⟩
          · rintro ⟨s, hs, hcl⟩
            rw [hopen] at hs
            simp only [Option.some.injEq] at hs
            rw [← hs] at hcl
            simp at hcl
          · exact ⟨_, getElem?_set_self _ _ _ _ hopen, rfl⟩
        · simp [closes, heq]
  | shutdown =>
    simp only [Client.step, Client.Shutdown] at hstep
    by_cases hcl : c.closed = true
    · simp only [hcl, if_true, Except.ok.injEq, Prod.mk.injEq] at hstep
      rw [← hstep.2]
      simp [drops, closes]
    · simp only [hcl, if_false] at hstep
      obtain ⟨chans', evs', hrun, hsame, hclosed, -, -, -⟩ :=
        closeAll_ok c.pending c.chans h.1 h.2
      simp only [Bool.false_eq_true, if_false, hrun, Except.ok.injEq, Prod.mk.injEq] at hstep
      obtain ⟨hd, hc⟩ := closeAll_closes c.pending c.chans chans' evs' hrun
      rw [← hstep.2, ← hstep.1]
      refine ⟨by simp [drops, hd], ?_⟩
      intro ch
      have hcount : closes ch (Event.streamClosed :: evs') = (c.pending.map Prod.snd).count ch := by
        simp [closes, hc ch]
      rw [hcount]
      refine ⟨List.nodup_iff_count_le_one.mp h.2 ch, fun hpos => ?_⟩
      have hmem : ch ∈ c.pending.map Prod.snd := List.count_pos_iff.mp hpos
      constructor
      · rintro ⟨s, hs, hcl'⟩
        obtain ⟨e, he, hech⟩ := List.mem_map.mp hmem
        have hopen := h.1 e he
        rw [hech, hs] at hopen
        simp only [Option.some.injEq] at hopen
        rw [hopen] at hcl'
        simp at hcl'
      · exact ⟨_, hclosed ch hmem, rfl⟩

/-- A run from a state with the invariant drops no frame and closes every channel at most
once, none that was closed before. -/
theorem Client.run_closes : ∀ (as : List Action) (c : Client), c.Inv →
    ∀ (c' : Client) (evs : List Event), c.run as = .ok (c', evs) →
    drops evs = 0 ∧ (∀ ch, closes ch evs ≤ 1) ∧ (∀ ch, c.chanClosed ch → closes ch evs = 0)
  | [], c, _, c', evs, hrun => by
    simp only [Client.run, Except.ok.injEq, Prod.mk.injEq] at hrun
    rw [← hrun.2]
    simp [drops, closes]
  | a :: as, c, h, c', evs, hrun => by
    obtain ⟨c1, e1, hstep, hinv1, hmono1, -, -⟩ := Client.step_inv c a h
    simp only [Client.run, hstep] at hrun
    split at hrun
    · simp at hrun
    · rename_i c2 e2 hrun2
      simp only [Except.ok.injEq, Prod.mk.injEq] at hrun
      obtain ⟨hd1, hc1⟩ := Client.step_closes c a h c1 e1 hstep
      obtain ⟨hd2, hle2, hz2⟩ := Client.run_closes as c1 hinv1 c2 e2 hrun2
      rw [← hrun.2]
      refine ⟨by rw [drops_append, hd1, hd2], ?_, ?_⟩
      · intro ch
        rw [closes_append]
        by_cases hp : 0 < closes ch e1
        · have := hz2 ch ((hc1 ch).2 hp).2
          have := (hc1 ch).1
          omega
        · have := hle2 ch
          omega
      · intro ch hc
        rw [closes_append]
        have h1 : closes ch e1 = 0 := by
          by_contra hne
          exact ((hc1 ch).2 (by omega)).1 hc
        rw [h1, hz2 ch (hmono1 ch hc)]

theorem not_mem_of_drops_zero : ∀ (evs : List Event), drops evs = 0 →
    ∀ key ch msg, Event.dropped key ch msg ∉ evs
  | [], _, _, _, _ => by simp
  | e :: evs, h, key, ch, msg => by
    cases e <;> simp only [drops] at h <;>
      first
      | omega
      | (simp only [List.mem_cons, not_or]
         exact ⟨by simp, not_mem_of_drops_zero evs h key ch msg⟩)

/-- A state that a new client reaches has the invariant of the pending table. -/
theorem reachable_inv (rw : io.Pipe) (reader : Bytes) (opts : ClientOptions)
    (as : List Action) (c : Client) (evs : List Event)
    (hrun : (NewClient rw reader opts).run as = .ok (c, evs)) : c.Inv := by
  obtain ⟨c0, evs0, hrun0, hinv, -, -, -⟩ :=
    Client.run_inv as (NewClient rw reader opts) (NewClient_Inv rw reader opts)
  rw [hrun] at hrun0
  simp only [Except.ok.injEq, Prod.mk.injEq] at hrun0
  rw [hrun0.1]
  exact hinv

namespace transport

/-- A Content-Length line with a valid value sets contentLen. -/
theorem headerLine_lengthLine (l : Bytes) (n : Int) (h : isLengthLine l n) :
    10 ∉ l ∧ headerLine (l ++ [10]) = .length n := by
  obtain ⟨h10, k, v, hkv, hk, hkey, hat, hn⟩ := h
  refine ⟨h10, ?_⟩
  subst hkv
  rw [headerLine_colon_value k v hk, hkey]
  simp only [if_true, hat]
  have : ¬ n < 0 := by omega
  simp [this]

/-- Header lines each of which is skipped or sets a valid length are passed. -/
theorem readHeaders_valid_pre (pre : List Bytes)
    (hpre : ∀ p ∈ pre, isOtherLine p ∨ ∃ n, isLengthLine p n) (A : Bytes) :
    ∀ cl, ∃ cl', readHeaders (headerLines pre ++ A).length cl (headerLines pre ++ A)
      = readHeaders A.length cl' A := by
  induction pre with
  | nil => intro cl; exact ⟨cl, by simp [headerLines]⟩
  | cons l ls ih =>
    intro cl
    have ih' := ih (fun p hp => hpre p (List.mem_cons_of_mem _ hp))
    rcases hpre l (by simp) with ho | ⟨n, hn⟩
    · obtain ⟨h10, hs⟩ := headerLine_other l ho
      rw [headerLines_cons, readHeaders_line _ cl l _ h10 (le_refl _), hs]
      exact ih' cl
    · obtain ⟨h10, hs⟩ := headerLine_lengthLine l n hn
      rw [headerLines_cons, readHeaders_line _ cl l _ h10 (le_refl _), hs]
      exact ih' n

end transport

namespace strings

theorem HasPrefix_append (pre s : Bytes) : HasPrefix (pre ++ s) pre = true := by
  simp [HasPrefix]

theorem TrimPrefix_append (pre s : Bytes) : TrimPrefix (pre ++ s) pre = s := by
  simp [TrimPrefix, HasPrefix_append]

theorem HasPrefix_iff (s pre : Bytes) : HasPrefix s pre = true ↔ ∃ t, s = pre ++ t := by
  constructor
  · intro h
    simp only [HasPrefix, Bool.and_eq_true, decide_eq_true_eq] at h
    refine ⟨s.drop pre.length, ?_⟩
    conv_lhs => rw [← List.take_append_drop pre.length s]
    rw [h.2]
  · rintro ⟨t, rfl⟩
    exact HasPrefix_append pre t

end strings

namespace strings

theorem indexFrom_nonneg_iff (substr : Bytes) : ∀ (s : Bytes) (i : Int), 0 ≤ i →
    (0 ≤ indexFrom substr s i ↔ substr <:+: s)
  | [], i, hi => by
    simp only [indexFrom, List.infix_nil]
    split
    · rename_i h; simp [h, hi]
    · rename_i h; simp [h]
  | c :: s, i, hi => by
    simp only [indexFrom, List.infix_cons_iff]
    split
    · rename_i h
      obtain ⟨t, ht⟩ := (HasPrefix_iff _ _).mp h
      simp only [hi, true_iff]
      exact Or.inl ⟨t, ht.symm⟩
    · rename_i h
      rw [indexFrom_nonneg_iff substr s (i + 1) (by omega)]
      constructor
      · exact Or.inr
      · rintro (⟨t, ht⟩ | h')
        · exact absurd ((HasPrefix_iff _ _).mpr ⟨t, ht.symm⟩) h
        · exact h'

/-- The function strings.Contains decides whether `substr` occurs in `s`. -/
theorem Contains_iff (s substr : Bytes) : Contains s substr = true ↔ substr <:+: s := by
  simp only [Contains, Index, decide_eq_true_eq, ge_iff_le]
  exact indexFrom_nonneg_iff substr s 0 (le_refl _)

end strings

/-! ## encoding/json: the scanner, the string encoder and the round trip of a message -/

namespace json

theorem scanString_nil (esc : Bool) (st : Nat) : scanString esc st [] = none := by
  simp [scanString]

theorem map_prepend_eq_some {x : Option (Bytes × Bytes)} {p k r : Bytes} :
    x.map (fun x => (p ++ x.1, x.2)) = some (k, r) ↔ ∃ a, x = some (a, r) ∧ k = p ++ a := by
  cases x with
  | none => simp
  | some y =>
    obtain ⟨a, b⟩ := y
    simp only [Option.map_some', Option.some.injEq, Prod.mk.injEq]
    constructor
    · rintro ⟨rfl, rfl⟩; exact ⟨a, ⟨rfl, rfl⟩, rfl⟩
    · rintro ⟨a', ⟨rfl, rfl⟩, rfl⟩; simp

theorem map_cons_eq_some {x : Option (Bytes × Bytes)} {c : Nat} {k r : Bytes} :
    x.map (fun x => (c :: x.1, x.2)) = some (k, r) ↔ ∃ a, x = some (a, r) ∧ k = c :: a :=
  map_prepend_eq_some (p := [c])

theorem scanString_hex2 (esc : Bool) (c : Nat) (r : Bytes) :
    scanString esc 2 (c :: r)
      = if isHex c then (scanString esc 0 r).map (fun x => (c :: x.1, x.2)) else none := by
  simp [scanString]

theorem scanString_hex (esc : Bool) (n c : Nat) (r : Bytes) (hn : n ≤ 2) :
    scanString esc (n + 3) (c :: r)
      = if isHex c then (scanString esc (n + 2) r).map (fun x => (c :: x.1, x.2)) else none := by
  interval_cases n <;> simp [scanString]

theorem scanString_false_spec : ∀ (s : Bytes) (st : Nat) (k r : Bytes), st ≤ 5 →
    scanString false st s = some (k, r) →
    s = k ++ 34 :: r ∧ ∀ t, scanString false st (k ++ 34 :: t) = some (k, t)
  | [], st, k, r, _, h => by simp [scanString_nil] at h
  | c :: s, st, k, r, hst, h => by
    have IH := scanString_false_spec s
    interval_cases st
    · simp only [scanString, Bool.false_and, Bool.false_eq_true, if_false] at h
      split_ifs at h with h1 h2 h3
      · simp at h
        obtain ⟨rfl, rfl⟩ := h
        subst h1
        simp [scanString]
      · obtain ⟨a, ha, rfl⟩ := map_cons_eq_some.1 h
        obtain ⟨rfl, h'⟩ := IH 1 a r (by omega) ha
        subst h2
        refine ⟨rfl, fun t => ?_⟩
        simp [scanString, h']
      · obtain ⟨a, ha, rfl⟩ := map_cons_eq_some.1 h
        obtain ⟨rfl, h'⟩ := IH 0 a r (by omega) ha
        refine ⟨rfl, fun t => ?_⟩
        simp [scanString, h', h1, h2, h3]
    · simp only [scanString] at h
      split_ifs at h with h1 h2
      · obtain ⟨a, ha, rfl⟩ := map_cons_eq_some.1 h
        obtain ⟨rfl, h'⟩ := IH 0 a r (by omega) ha
        refine ⟨rfl, fun t => ?_⟩
        simp [scanString, h1, h']
      · obtain ⟨a, ha, rfl⟩ := map_cons_eq_some.1 h
        obtain ⟨rfl, h'⟩ := IH 5 a r (by omega) ha
        refine ⟨rfl, fun t => ?_⟩
        simp [scanString, h1, h2, h']
    · rw [scanString_hex2] at h
      split_ifs at h with h1
      obtain ⟨a, ha, rfl⟩ := map_cons_eq_some.1 h
      obtain ⟨rfl, h'⟩ := IH _ a r (by simp) ha
      refine ⟨rfl, fun t => ?_⟩
      rw [List.cons_append, scanString_hex2, if_pos h1, h']; rfl
    all_goals
      rw [scanString_hex _ _ _ _ (by omega)] at h
      split_ifs at h with h1
      obtain ⟨a, ha, rfl⟩ := map_cons_eq_some.1 h
      obtain ⟨rfl, h'⟩ := IH _ a r (by simp) ha
      refine ⟨rfl, fun t => ?_⟩
      rw [List.cons_append, scanString_hex _ _ _ _ (by omega), if_pos h1, h']; rfl

end json

namespace json

theorem isHex_ne {c : Nat} (h : isHex c = true) : c ≠ 92 ∧ c ≠ 34 := by
  simp only [isHex, Bool.or_eq_true, decide_eq_true_eq] at h
  omega

theorem scanString_false_strip : ∀ (s : Bytes) (st : Nat) (k r : Bytes), st ≤ 5 →
    scanString false st s = some (k, r) →
    ∀ t, stripInsignificant true (decide (st = 1)) (k ++ 34 :: t)
      = k ++ 34 :: stripInsignificant false false t
  | [], st, k, r, _, h => by simp [scanString_nil] at h
  | c :: s, st, k, r, hst, h => by
    have IH := scanString_false_strip s
    interval_cases st
    · simp only [scanString, Bool.false_and, Bool.false_eq_true, if_false] at h
      split_ifs at h with h1 h2 h3
      · simp at h
        obtain ⟨rfl, rfl⟩ := h
        intro t
        simp [stripInsignificant]
      · obtain ⟨a, ha, rfl⟩ := map_cons_eq_some.1 h
        intro t
        have := IH 1 a r (by omega) ha t
        simp only [decide_True] at this
        simp [stripInsignificant, this]
      · obtain ⟨a, ha, rfl⟩ := map_cons_eq_some.1 h
        intro t
        have := IH 0 a r (by omega) ha t
        simp only [zero_ne_one, decide_False] at this
        simp [stripInsignificant, this, h1, h2]
    · simp only [scanString] at h
      split_ifs at h with h1 h2
      · obtain ⟨a, ha, rfl⟩ := map_cons_eq_some.1 h
        intro t
        have := IH 0 a r (by omega) ha t
        simp only [zero_ne_one, decide_False] at this
        simp [stripInsignificant, this]
      · obtain ⟨a, ha, rfl⟩ := map_cons_eq_some.1 h
        intro t
        have := IH 5 a r (by omega) ha t
        simp only [show decide (5 = 1) = false from rfl] at this
        simp [stripInsignificant, this]
    · rw [scanString_hex2] at h
      split_ifs at h with h1
      obtain ⟨a, ha, rfl⟩ := map_cons_eq_some.1 h
      intro t
      have := IH 0 a r (by omega) ha t
      simp only [zero_ne_one, decide_False] at this
      simp [stripInsignificant, this, isHex_ne h1]
    all_goals
      rw [scanString_hex _ _ _ _ (by omega)] at h
      split_ifs at h with h1
      obtain ⟨a, ha, rfl⟩ := map_cons_eq_some.1 h
      intro t
      have := IH _ a r (by simp) ha t
      simp only [Nat.reduceAdd, Nat.reduceEqDiff, decide_False] at this
      simp [stripInsignificant, this, isHex_ne h1]

end json

namespace json

theorem needsEscape_cons {c : Nat} {r : Bytes} (h : needsEscape (c :: r) = false) :
    c ≠ 60 ∧ c ≠ 62 ∧ c ≠ 38 ∧
    (decide (c = 226) && (decide (r.take 2 = [128, 168]) || decide (r.take 2 = [128, 169])))
      = false ∧ needsEscape r = false := by
  simp only [needsEscape, Bool.or_eq_false_iff, decide_eq_false_iff_not] at h
  obtain ⟨⟨⟨⟨h1, h2⟩, h3⟩, h4⟩, h5⟩ := h
  exact ⟨h1, h2, h3, h4, h5⟩

theorem needsEscape_suffix : ∀ (a b : Bytes), needsEscape (a ++ b) = false →
    needsEscape b = false
  | [], _, h => h
  | _ :: a, b, h => needsEscape_suffix a b (needsEscape_cons h).2.2.2.2

theorem scanString_esc_eq : ∀ (s : Bytes) (st : Nat), st ≤ 5 → needsEscape s = false →
    scanString true st s = scanString false st s
  | [], st, _, _ => by simp [scanString_nil]
  | c :: s, st, hst, h => by
    have IH := scanString_esc_eq s
    obtain ⟨h1, h2, h3, h4, h5⟩ := needsEscape_cons h
    interval_cases st
    · simp only [scanString, Bool.false_and, Bool.true_and, h1, h2, h3, decide_False,
        Bool.or_self, Bool.false_eq_true, if_false, IH 0 (by omega) h5, IH 1 (by omega) h5]
      simp only [Bool.and_eq_false_imp, decide_eq_true_eq] at h4
      by_cases hc : c = 226
      · have := h4 hc
        simp [this]
      · simp [hc]
    · simp only [scanString, IH 0 (by omega) h5, IH 5 (by omega) h5]
    · rw [scanString_hex2, scanString_hex2, IH 0 (by omega) h5]
    all_goals
      rw [scanString_hex _ _ _ _ (by omega), scanString_hex _ _ _ _ (by omega),
        IH _ (by omega) h5]

end json

namespace json

theorem next_delim (st : NumState) {c : Nat} (h : c = 44 ∨ c = 93 ∨ c = 125) :
    st.next c = none := by
  cases st <;> simp only [NumState.next] <;> split_ifs <;> first | rfl | omega

theorem next_plain {st st' : NumState} {c : Nat} (h : st.next c = some st') :
    isWhitespace c = false ∧ c ≠ 34 := by
  have : c ≠ 32 ∧ c ≠ 9 ∧ c ≠ 10 ∧ c ≠ 13 ∧ c ≠ 34 := by
    cases st <;> simp only [NumState.next] at h <;> split_ifs at h <;> omega
  simp [isWhitespace, this]

theorem strip_plain : ∀ (o : Bytes) (b : Bool) (t : Bytes),
    (∀ c ∈ o, isWhitespace c = false ∧ c ≠ 34) →
    stripInsignificant false b (o ++ t) = o ++ stripInsignificant false false t
  | [], b, t, _ => by cases t <;> simp [stripInsignificant]
  | c :: o, b, t, h => by
    have hc := h c (List.mem_cons_self _ _)
    have ih := strip_plain o false t (fun x hx => h x (List.mem_cons_of_mem _ hx))
    simp [stripInsignificant, hc.1, hc.2, ih]

theorem scanNumber_spec : ∀ (s : Bytes) (st : NumState) (o r : Bytes),
    scanNumber st s = some (o, r) →
    s = o ++ r ∧ (∀ c ∈ o, isWhitespace c = false ∧ c ≠ 34) ∧
      ∀ t, endsValue t → scanNumber st (o ++ t) = some (o, t)
  | [], st, o, r, h => by
    simp only [scanNumber] at h
    split_ifs at h with h1
    simp only [Option.some.injEq, Prod.mk.injEq] at h
    obtain ⟨rfl, rfl⟩ := h
    refine ⟨rfl, by simp, fun t ht => ?_⟩
    cases t with
    | nil => simp [scanNumber, h1]
    | cons c t =>
      have := next_delim st (ht c (by simp))
      simp [scanNumber, h1, this]
  | c :: s, st, o, r, h => by
    simp only [scanNumber] at h
    split at h
    · rename_i st' hst
      obtain ⟨a, ha, rfl⟩ := map_cons_eq_some.1 h
      obtain ⟨rfl, hp, h'⟩ := scanNumber_spec s st' a r ha
      refine ⟨rfl, ?_, fun t ht => ?_⟩
      · intro x hx
        rcases List.mem_cons.1 hx with rfl | hx
        · exact next_plain hst
        · exact hp x hx
      · simp [scanNumber, hst, h' t ht]
    · rename_i hst
      split_ifs at h with h1
      simp only [Option.some.injEq, Prod.mk.injEq] at h
      obtain ⟨rfl, rfl⟩ := h
      refine ⟨rfl, by simp, fun t ht => ?_⟩
      cases t with
      | nil => simp [scanNumber, h1]
      | cons c t =>
        have := next_delim st (ht c (by simp))
        simp [scanNumber, h1, this]

theorem scanNumber_start_ne_nil {s o r : Bytes} (h : scanNumber .start s = some (o, r)) :
    ∃ c o', o = c :: o' ∧ s.head? = some c ∧ isWhitespace c = false ∧ c ≠ 93 ∧ c ≠ 125
      ∧ c ≠ 34 ∧ c ≠ 110 := by
  cases s with
  | nil => simp [scanNumber, NumState.accepting] at h
  | cons c s =>
    simp only [scanNumber] at h
    split at h
    · rename_i st' hst
      obtain ⟨a, ha, rfl⟩ := map_cons_eq_some.1 h
      refine ⟨c, a, rfl, rfl, (next_plain hst).1, ?_, ?_, (next_plain hst).2, ?_⟩ <;>
      · simp only [NumState.next] at hst
        split_ifs at hst <;> omega
    · simp [NumState.accepting] at h

theorem scanLiteral_spec {s o r : Bytes} (h : scanLiteral s = some (o, r)) :
    s = o ++ r ∧ (∀ c ∈ o, isWhitespace c = false ∧ c ≠ 34) ∧
      (∀ t, scanLiteral (o ++ t) = some (o, t)) ∧
      (o = ofString "true" ∨ o = ofString "false" ∨ o = ofString "null") := by
  simp only [scanLiteral] at h
  split_ifs at h with h1 h2 h3
  · obtain ⟨t, rfl⟩ := (strings.HasPrefix_iff _ _).1 h1
    simp only [Option.some.injEq, Prod.mk.injEq] at h
    obtain ⟨rfl, rfl⟩ := h
    refine ⟨by simp [ofString], by decide, fun t => ?_, Or.inl rfl⟩
    simp [scanLiteral, strings.HasPrefix, ofString]
  · obtain ⟨t, rfl⟩ := (strings.HasPrefix_iff _ _).1 h2
    simp only [Option.some.injEq, Prod.mk.injEq] at h
    obtain ⟨rfl, rfl⟩ := h
    refine ⟨by simp [ofString], by decide, fun t => ?_, Or.inr (Or.inl rfl)⟩
    simp [scanLiteral, strings.HasPrefix, ofString]
  · obtain ⟨t, rfl⟩ := (strings.HasPrefix_iff _ _).1 h3
    simp only [Option.some.injEq, Prod.mk.injEq] at h
    obtain ⟨rfl, rfl⟩ := h
    refine ⟨by simp [ofString], by decide, fun t => ?_, Or.inr (Or.inr rfl)⟩
    simp [scanLiteral, strings.HasPrefix, ofString]

end json

namespace json

theorem skipSpace_of_head {c : Nat} (r : Bytes) (h : isWhitespace c = false) :
    skipSpace (c :: r) = c :: r := by
  simp [skipSpace, h]

theorem skipSpace_spec : ∀ r : Bytes,
    ∃ ws, (∀ c ∈ ws, isWhitespace c = true) ∧ r = ws ++ skipSpace r
  | [] => ⟨[], by simp, by simp [skipSpace]⟩
  | c :: r => by
    by_cases h : isWhitespace c = true
    · obtain ⟨ws, hws, hr⟩ := skipSpace_spec r
      refine ⟨c :: ws, ?_, ?_⟩
      · intro x hx
        rcases List.mem_cons.1 hx with rfl | hx
        · exact h
        · exact hws x hx
      · simp only [skipSpace, h, if_true, List.cons_append]
        rw [← hr]
    · exact ⟨[], by simp, by simp [skipSpace, h]⟩

theorem strip_false_flag (b : Bool) (x : Bytes) :
    stripInsignificant false b x = stripInsignificant false false x := by
  cases x <;> simp [stripInsignificant]

theorem strip_ws : ∀ (ws : Bytes) (b : Bool) (x : Bytes), (∀ c ∈ ws, isWhitespace c = true) →
    stripInsignificant false b (ws ++ x) = stripInsignificant false false x
  | [], b, x, _ => strip_false_flag b x
  | c :: ws, b, x, h => by
    have ih := strip_ws ws false x (fun y hy => h y (List.mem_cons_of_mem _ hy))
    simp [stripInsignificant, h c (List.mem_cons_self _ _), ih]

theorem scan_value_obj_empty (esc : Bool) (f d : Nat) (t : Bytes) (hd : d ≠ 0) :
    scan esc (f + 1) d .value (123 :: 125 :: t) = some ([123, 125], t) := by
  simp [scan, hd, skipSpace, isWhitespace]

theorem scan_value_obj (esc : Bool) (f d c : Nat) (x : Bytes) (hd : d ≠ 0)
    (hc : isWhitespace c = false) (h125 : c ≠ 125) :
    scan esc (f + 1) d .value (123 :: c :: x)
      = (scan esc f (d - 1) .members (c :: x)).map (fun y => (123 :: y.1, y.2)) := by
  simp only [scan, if_true, if_neg hd, skipSpace_of_head x hc]
  split
  · rename_i heq
    simp only [List.cons.injEq] at heq
    exact absurd heq.1 h125
  · rfl

theorem scan_value_arr_empty (esc : Bool) (f d : Nat) (t : Bytes) (hd : d ≠ 0) :
    scan esc (f + 1) d .value (91 :: 93 :: t) = some ([91, 93], t) := by
  simp [scan, hd, skipSpace, isWhitespace]

theorem scan_value_arr (esc : Bool) (f d c : Nat) (x : Bytes) (hd : d ≠ 0)
    (hc : isWhitespace c = false) (h93 : c ≠ 93) :
    scan esc (f + 1) d .value (91 :: c :: x)
      = (scan esc f (d - 1) .elements (c :: x)).map (fun y => (91 :: y.1, y.2)) := by
  simp only [scan, if_true, show ¬ (91 = 123) by decide, if_false, if_neg hd,
    skipSpace_of_head x hc]
  split
  · rename_i heq
    simp only [List.cons.injEq] at heq
    exact absurd heq.1 h93
  · rfl

theorem scan_value_string (esc : Bool) (f d : Nat) (x : Bytes) :
    scan esc (f + 1) d .value (34 :: x)
      = (scanString esc 0 x).map (fun y => (34 :: (y.1 ++ [34]), y.2)) := by
  simp [scan]

theorem scan_elements_comma (esc : Bool) (f d c : Nat) (s ov x : Bytes)
    (hv : scan esc f d .value s = some (ov, 44 :: c :: x)) (hc : isWhitespace c = false) :
    scan esc (f + 1) d .elements s
      = (scan esc f d .elements (c :: x)).map (fun y => (ov ++ 44 :: y.1, y.2)) := by
  simp only [scan, hv, skipSpace_of_head (c :: x) (show isWhitespace 44 = false by decide),
    skipSpace_of_head x hc]

theorem scan_elements_end (esc : Bool) (f d : Nat) (s ov x : Bytes)
    (hv : scan esc f d .value s = some (ov, 93 :: x)) :
    scan esc (f + 1) d .elements s = some (ov ++ [93], x) := by
  simp [scan, hv, skipSpace, isWhitespace]

theorem scan_members_comma (esc : Bool) (f d c c' : Nat) (r0 k ov x y : Bytes)
    (hk : scanString esc 0 r0 = some (k, 58 :: c :: x)) (hc : isWhitespace c = false)
    (hv : scan esc f d .value (c :: x) = some (ov, 44 :: c' :: y))
    (hc' : isWhitespace c' = false) :
    scan esc (f + 1) d .members (34 :: r0)
      = (scan esc f d .members (c' :: y)).map
          (fun z => (34 :: (k ++ 34 :: 58 :: (ov ++ 44 :: z.1)), z.2)) := by
  simp only [scan, hk, hv, skipSpace_of_head (c :: x) (show isWhitespace 58 = false by decide),
    skipSpace_of_head x hc, skipSpace_of_head (c' :: y) (show isWhitespace 44 = false by decide),
    skipSpace_of_head y hc']

theorem scan_members_end (esc : Bool) (f d c : Nat) (r0 k ov x y : Bytes)
    (hk : scanString esc 0 r0 = some (k, 58 :: c :: x)) (hc : isWhitespace c = false)
    (hv : scan esc f d .value (c :: x) = some (ov, 125 :: y)) :
    scan esc (f + 1) d .members (34 :: r0) = some (34 :: (k ++ 34 :: 58 :: (ov ++ [125])), y) := by
  simp only [scan, hk, hv, skipSpace_of_head (c :: x) (show isWhitespace 58 = false by decide),
    skipSpace_of_head x hc, skipSpace_of_head y (show isWhitespace 125 = false by decide)]

end json

namespace json

theorem scan_false_spec : ∀ (f d : Nat) (md : Mode) (s o r : Bytes),
    scan false f d md s = some (o, r) →
    (∃ consumed, s = consumed ++ r ∧ ∀ (b : Bool) (t : Bytes),
      stripInsignificant false b (consumed ++ t) = o ++ stripInsignificant false false t) ∧
    (∃ c o', o = c :: o' ∧ isWhitespace c = false ∧ c ≠ 93 ∧ c ≠ 125 ∧
      (md = .value → s.head? = some c)) ∧
    (∀ t, endsValue t → ∀ f' d', 2 * o.length + 1 ≤ f' → d ≤ d' →
      scan false f' d' md (o ++ t) = some (o, t))
  | 0, _, _, _, _, _, h => by simp [scan] at h
  | f + 1, d, .value, s, o, r, h => by
    have IH := scan_false_spec f
    cases s with
    | nil => simp [scan] at h
    | cons c r0 =>
      simp only [scan] at h
      by_cases h1 : c = 123
      · subst h1
        simp only [if_true] at h
        by_cases hd : d = 0
        · simp [hd] at h
        · simp only [if_neg hd] at h
          obtain ⟨ws, hws, hr0⟩ := skipSpace_spec r0
          split at h
          · rename_i r' heq
            simp only [Option.some.injEq, Prod.mk.injEq] at h
            obtain ⟨rfl, rfl⟩ := h
            rw [heq] at hr0
            refine ⟨⟨123 :: (ws ++ [125]), by simp [hr0], fun b t => ?_⟩,
              ⟨123, [125], rfl, by decide, by decide, by decide, fun _ => rfl⟩,
              fun t _ f' d' hf hd' => ?_⟩
            · have := strip_ws ws false (125 :: t) hws
              simp [stripInsignificant, isWhitespace, this]
            · obtain ⟨f'', rfl⟩ : ∃ f'', f' = f'' + 1 := ⟨f' - 1, by omega⟩
              exact scan_value_obj_empty false f'' d' t (by omega)
          · rename_i hne
            obtain ⟨om, hom, rfl⟩ := map_cons_eq_some.1 h
            obtain ⟨⟨cm, hcm, hstrip⟩, ⟨c', om', rfl, hc'1, hc'2, hc'3, _⟩, hidem⟩ :=
              IH (d - 1) .members _ om r hom
            refine ⟨⟨123 :: (ws ++ cm), by rw [hr0, hcm]; simp, fun b t => ?_⟩,
              ⟨123, c' :: om', rfl, by decide, by decide, by decide, fun _ => rfl⟩,
              fun t ht f' d' hf hd' => ?_⟩
            · have := strip_ws ws false (cm ++ t) hws
              simp [stripInsignificant, isWhitespace, this, hstrip]
            · obtain ⟨f'', rfl⟩ : ∃ f'', f' = f'' + 1 := ⟨f' - 1, by omega⟩
              have := hidem t ht f'' (d' - 1) (by simp at hf ⊢; omega) (by omega)
              simp only [List.cons_append] at this ⊢
              rw [scan_value_obj false f'' d' c' _ (by omega) hc'1 hc'3, this]
              rfl
      · by_cases h2 : c = 91
        · subst h2
          simp only [show ¬ (91 = 123) by decide, if_false, if_true] at h
          by_cases hd : d = 0
          · simp [hd] at h
          · simp only [if_neg hd] at h
            obtain ⟨ws, hws, hr0⟩ := skipSpace_spec r0
            split at h
            · rename_i r' heq
              simp only [Option.some.injEq, Prod.mk.injEq] at h
              obtain ⟨rfl, rfl⟩ := h
              rw [heq] at hr0
              refine ⟨⟨91 :: (ws ++ [93]), by simp [hr0], fun b t => ?_⟩,
                ⟨91, [93], rfl, by decide, by decide, by decide, fun _ => rfl⟩,
                fun t _ f' d' hf hd' => ?_⟩
              · have := strip_ws ws false (93 :: t) hws
                simp [stripInsignificant, isWhitespace, this]
              · obtain ⟨f'', rfl⟩ : ∃ f'', f' = f'' + 1 := ⟨f' - 1, by omega⟩
                exact scan_value_arr_empty false f'' d' t (by omega)
            · rename_i hne
              obtain ⟨om, hom, rfl⟩ := map_cons_eq_some.1 h
              obtain ⟨⟨cm, hcm, hstrip⟩, ⟨c', om', rfl, hc'1, hc'2, hc'3, _⟩, hidem⟩ :=
                IH (d - 1) .elements _ om r hom
              refine ⟨⟨91 :: (ws ++ cm), by rw [hr0, hcm]; simp, fun b t => ?_⟩,
                ⟨91, c' :: om', rfl, by decide, by decide, by decide, fun _ => rfl⟩,
                fun t ht f' d' hf hd' => ?_⟩
              · have := strip_ws ws false (cm ++ t) hws
                simp [stripInsignificant, isWhitespace, this, hstrip]
              · obtain ⟨f'', rfl⟩ : ∃ f'', f' = f'' + 1 := ⟨f' - 1, by omega⟩
                have := hidem t ht f'' (d' - 1) (by simp at hf ⊢; omega) (by omega)
                simp only [List.cons_append] at this ⊢
                rw [scan_value_arr false f'' d' c' _ (by omega) hc'1 hc'2, this]
                rfl
        · simp only [if_neg h1, if_neg h2] at h
          by_cases h3 : c = 34
          · subst h3
            simp only [if_true] at h
            cases hk : scanString false 0 r0 with
            | none => simp [hk] at h
            | some kr =>
              obtain ⟨k, r'⟩ := kr
              simp only [hk, Option.map_some', Option.some.injEq, Prod.mk.injEq] at h
              obtain ⟨rfl, rfl⟩ := h
              obtain ⟨hr0, hidem⟩ := scanString_false_spec r0 0 k r' (by omega) hk
              have hstrip := scanString_false_strip r0 0 k r' (by omega) hk
              refine ⟨⟨34 :: (k ++ [34]), by simp [hr0], fun b t => ?_⟩,
                ⟨34, k ++ [34], rfl, by decide, by decide, by decide, fun _ => rfl⟩,
                fun t _ f' d' hf hd' => ?_⟩
              · have := hstrip t
                simp only [zero_ne_one, decide_False] at this
                simp [stripInsignificant, isWhitespace, this]
              · obtain ⟨f'', rfl⟩ : ∃ f'', f' = f'' + 1 := ⟨f' - 1, by omega⟩
                rw [List.cons_append, scan_value_string, List.append_assoc, List.singleton_append,
                  hidem t]
                rfl
          · simp only [if_neg h3] at h
            by_cases h4 : c = 116 ∨ c = 102 ∨ c = 110
            · simp only [if_pos h4] at h
              obtain ⟨hs, hplain, hidem, hlit⟩ := scanLiteral_spec h
              refine ⟨⟨o, hs, fun b t => strip_plain o b t hplain⟩, ?_, fun t _ f' d' hf hd' => ?_⟩
              · rcases hlit with rfl | rfl | rfl
                · simp only [show ofString "true" = [116, 114, 117, 101] from rfl,
                    List.cons_append, List.cons.injEq] at hs
                  exact ⟨116, [114, 117, 101], rfl, by decide, by decide, by decide,
                    fun _ => by simp [hs.1]⟩
                · simp only [show ofString "false" = [102, 97, 108, 115, 101] from rfl,
                    List.cons_append, List.cons.injEq] at hs
                  exact ⟨102, [97, 108, 115, 101], rfl, by decide, by decide, by decide,
                    fun _ => by simp [hs.1]⟩
                · simp only [show ofString "null" = [110, 117, 108, 108] from rfl,
                    List.cons_append, List.cons.injEq] at hs
                  exact ⟨110, [117, 108, 108], rfl, by decide, by decide, by decide,
                    fun _ => by simp [hs.1]⟩
              · obtain ⟨f'', rfl⟩ : ∃ f'', f' = f'' + 1 := ⟨f' - 1, by omega⟩
                have := hidem t
                rcases hlit with rfl | rfl | rfl
                · rw [show ofString "true" = [116, 114, 117, 101] from rfl] at this ⊢
                  simp only [List.cons_append, List.nil_append] at this ⊢
                  simp [scan, this]
                · rw [show ofString "false" = [102, 97, 108, 115, 101] from rfl] at this ⊢
                  simp only [List.cons_append, List.nil_append] at this ⊢
                  simp [scan, this]
                · rw [show ofString "null" = [110, 117, 108, 108] from rfl] at this ⊢
                  simp only [List.cons_append, List.nil_append] at this ⊢
                  simp [scan, this]
            · simp only [if_neg h4] at h
              obtain ⟨hs, hplain, hidem⟩ := scanNumber_spec _ _ _ _ h
              obtain ⟨c', o', rfl, hhead, hw, h93, h125, h34, _⟩ := scanNumber_start_ne_nil h
              simp only [List.head?_cons, Option.some.injEq] at hhead
              subst hhead
              refine ⟨⟨c :: o', hs, fun b t => strip_plain _ b t hplain⟩,
                ⟨c, o', rfl, hw, h93, h125, fun _ => rfl⟩, fun t ht f' d' hf hd' => ?_⟩
              obtain ⟨f'', rfl⟩ : ∃ f'', f' = f'' + 1 := ⟨f' - 1, by omega⟩
              have := hidem t ht
              simp only [List.cons_append] at this ⊢
              simp only [scan, if_neg h1, if_neg h2, if_neg h3, if_neg h4, this]
  | f + 1, d, .elements, s, o, r, h => by
    have IH := scan_false_spec f
    simp only [scan] at h
    cases hv : scan false f d .value s with
    | none => simp [hv] at h
    | some x =>
      obtain ⟨ov, r1⟩ := x
      simp only [hv] at h
      obtain ⟨⟨cv, hcv, hstripv⟩, ⟨c, ov', rfl, hc1, hc2, hc3, _⟩, hidemv⟩ :=
        IH d .value s ov r1 hv
      obtain ⟨ws, hws, hr1⟩ := skipSpace_spec r1
      split at h
      · rename_i r' heq
        rw [heq] at hr1
        obtain ⟨ws', hws', hr'⟩ := skipSpace_spec r'
        cases he : scan false f d .elements (skipSpace r') with
        | none => simp [he] at h
        | some y =>
          obtain ⟨oe, r2⟩ := y
          simp only [he, Option.map_some', Option.some.injEq, Prod.mk.injEq] at h
          obtain ⟨rfl, rfl⟩ := h
          obtain ⟨⟨ce, hce, hstripe⟩, ⟨c2, oe', rfl, hd1, hd2, hd3, _⟩, hideme⟩ :=
            IH d .elements _ oe r2 he
          refine ⟨⟨cv ++ (ws ++ 44 :: (ws' ++ ce)), ?_, fun b t => ?_⟩,
            ⟨c, ov' ++ 44 :: c2 :: oe', by simp, hc1, hc2, hc3, nofun⟩,
            fun t ht f' d' hf hd' => ?_⟩
          · rw [hcv, hr1, hr', hce]; simp
          · have h1 := hstripv b (ws ++ 44 :: (ws' ++ (ce ++ t)))
            have h2 := strip_ws ws false (44 :: (ws' ++ (ce ++ t))) hws
            have h3 := strip_ws ws' false (ce ++ t) hws'
            have h4 := hstripe false t
            simp only [List.append_assoc, List.cons_append] at h1 ⊢
            rw [h1, h2]
            simp [stripInsignificant, isWhitespace, h3, h4]
          · obtain ⟨f'', rfl⟩ : ∃ f'', f' = f'' + 1 := ⟨f' - 1, by omega⟩
            simp only [List.length_append, List.length_cons] at hf
            have hv' := hidemv (44 :: c2 :: (oe' ++ t)) (by simp [endsValue]) f'' d'
              (by simp only [List.length_cons]; omega) hd'
            have he' := hideme t ht f'' d' (by simp only [List.length_cons]; omega) hd'
            have hl : (c :: ov' ++ 44 :: c2 :: oe') ++ t = c :: ov' ++ 44 :: c2 :: (oe' ++ t) := by
              simp
            rw [hl, scan_elements_comma false f'' d' c2 _ _ _ hv' hd1]
            simp only [List.cons_append] at he'
            rw [he']
            simp
      · rename_i r' heq
        rw [heq] at hr1
        simp only [Option.some.injEq, Prod.mk.injEq] at h
        obtain ⟨rfl, rfl⟩ := h
        refine ⟨⟨cv ++ (ws ++ [93]), ?_, fun b t => ?_⟩,
          ⟨c, ov' ++ [93], by simp, hc1, hc2, hc3, nofun⟩,
          fun t _ f' d' hf hd' => ?_⟩
        · rw [hcv, hr1]; simp
        · have h1 := hstripv b (ws ++ 93 :: t)
          have h2 := strip_ws ws false (93 :: t) hws
          simp only [List.append_assoc, List.cons_append, List.nil_append] at h1 ⊢
          rw [h1, h2]
          simp [stripInsignificant, isWhitespace]
        · obtain ⟨f'', rfl⟩ : ∃ f'', f' = f'' + 1 := ⟨f' - 1, by omega⟩
          simp only [List.length_append, List.length_cons] at hf
          have hv' := hidemv (93 :: t) (by simp [endsValue]) f'' d'
            (by simp only [List.length_cons]; omega) hd'
          have hl : (c :: ov' ++ [93]) ++ t = c :: ov' ++ 93 :: t := by simp
          rw [hl, scan_elements_end false f'' d' _ _ _ hv']
      · simp at h
  | f + 1, d, .members, s, o, r, h => by
    have IH := scan_false_spec f
    simp only [scan] at h
    split at h
    · rename_i r0
      cases hk : scanString false 0 r0 with
      | none => simp [hk] at h
      | some x =>
        obtain ⟨k, r1⟩ := x
        simp only [hk] at h
        obtain ⟨hr0, hidemk⟩ := scanString_false_spec r0 0 k r1 (by omega) hk
        have hstripk := scanString_false_strip r0 0 k r1 (by omega) hk
        simp only [zero_ne_one, decide_False] at hstripk
        obtain ⟨ws1, hws1, hr1⟩ := skipSpace_spec r1
        split at h
        · rename_i r2 heq
          rw [heq] at hr1
          obtain ⟨ws2, hws2, hr2⟩ := skipSpace_spec r2
          cases hv : scan false f d .value (skipSpace r2) with
          | none => simp [hv] at h
          | some y =>
            obtain ⟨ov, r3⟩ := y
            simp only [hv] at h
            obtain ⟨⟨cv, hcv, hstripv⟩, ⟨c, ov', rfl, hc1, hc2, hc3, _⟩, hidemv⟩ :=
              IH d .value _ ov r3 hv
            obtain ⟨ws3, hws3, hr3⟩ := skipSpace_spec r3
            split at h
            · rename_i r' heq3
              rw [heq3] at hr3
              obtain ⟨ws4, hws4, hr'⟩ := skipSpace_spec r'
              cases hm : scan false f d .members (skipSpace r') with
              | none => simp [hm] at h
              | some z =>
                obtain ⟨om, r4⟩ := z
                simp only [hm, Option.map_some', Option.some.injEq, Prod.mk.injEq] at h
                obtain ⟨rfl, rfl⟩ := h
                obtain ⟨⟨cm, hcm, hstripm⟩, ⟨c2, om', rfl, hd1, hd2, hd3, _⟩, hidemm⟩ :=
                  IH d .members _ om r4 hm
                refine ⟨⟨34 :: (k ++ 34 :: (ws1 ++ 58 :: (ws2 ++ (cv ++ (ws3 ++ 44 ::
                    (ws4 ++ cm)))))), ?_, fun b t => ?_⟩,
                  ⟨34, _, rfl, by decide, by decide, by decide, nofun⟩,
                  fun t ht f' d' hf hd' => ?_⟩
                · rw [hr0, hr1, hr2, hcv, hr3, hr', hcm]; simp
                · have h1 := hstripk (ws1 ++ 58 :: (ws2 ++ (cv ++ (ws3 ++ 44 :: (ws4 ++ (cm ++ t))))))
                  have h2 := strip_ws ws1 false (58 :: (ws2 ++ (cv ++ (ws3 ++ 44 ::
                    (ws4 ++ (cm ++ t)))))) hws1
                  have h3 := strip_ws ws2 false (cv ++ (ws3 ++ 44 :: (ws4 ++ (cm ++ t)))) hws2
                  have h4 := hstripv false (ws3 ++ 44 :: (ws4 ++ (cm ++ t)))
                  have h5 := strip_ws ws3 false (44 :: (ws4 ++ (cm ++ t))) hws3
                  have h6 := strip_ws ws4 false (cm ++ t) hws4
                  have h7 := hstripm false t
                  simp only [List.append_assoc, List.cons_append] at h1 h4 ⊢
                  simp only [stripInsignificant, show isWhitespace 34 = false from rfl,
                    Bool.false_eq_true, if_false, if_true, h1, h2]
                  simp only [stripInsignificant, show isWhitespace 58 = false from rfl,
                    Bool.false_eq_true, if_false, show ¬ (58 = 34) by decide, h3, h4, h5]
                  simp only [stripInsignificant, show isWhitespace 44 = false from rfl,
                    Bool.false_eq_true, if_false, show ¬ (44 = 34) by decide, h6, h7]
                  simp
                · obtain ⟨f'', rfl⟩ : ∃ f'', f' = f'' + 1 := ⟨f' - 1, by omega⟩
                  simp only [List.length_append, List.length_cons] at hf
                  have hk' := hidemk (58 :: c :: (ov' ++ 44 :: c2 :: (om' ++ t)))
                  have hv' := hidemv (44 :: c2 :: (om' ++ t)) (by simp [endsValue]) f'' d'
                    (by simp only [List.length_cons]; omega) hd'
                  have hm' := hidemm t ht f'' d' (by simp only [List.length_cons]; omega) hd'
                  have hl : (34 :: (k ++ 34 :: 58 :: (c :: ov' ++ 44 :: c2 :: om'))) ++ t
                      = 34 :: (k ++ 34 :: 58 :: c :: (ov' ++ 44 :: c2 :: (om' ++ t))) := by
                    simp
                  simp only [List.cons_append] at hv' hm'
                  rw [hl, scan_members_comma false f'' d' c c2 _ k (c :: ov') _ _ hk' hc1 hv' hd1,
                    hm']
                  simp
            · rename_i r' heq3
              rw [heq3] at hr3
              simp only [Option.some.injEq, Prod.mk.injEq] at h
              obtain ⟨rfl, rfl⟩ := h
              refine ⟨⟨34 :: (k ++ 34 :: (ws1 ++ 58 :: (ws2 ++ (cv ++ (ws3 ++ [125]))))), ?_,
                  fun b t => ?_⟩,
                ⟨34, _, rfl, by decide, by decide, by decide, nofun⟩,
                fun t _ f' d' hf hd' => ?_⟩
              · rw [hr0, hr1, hr2, hcv, hr3]; simp
              · have h1 := hstripk (ws1 ++ 58 :: (ws2 ++ (cv ++ (ws3 ++ 125 :: t))))
                have h2 := strip_ws ws1 false (58 :: (ws2 ++ (cv ++ (ws3 ++ 125 :: t)))) hws1
                have h3 := strip_ws ws2 false (cv ++ (ws3 ++ 125 :: t)) hws2
                have h4 := hstripv false (ws3 ++ 125 :: t)
                have h5 := strip_ws ws3 false (125 :: t) hws3
                simp only [List.append_assoc, List.cons_append, List.nil_append] at h1 h4 ⊢
                simp only [stripInsignificant, show isWhitespace 34 = false from rfl,
                  Bool.false_eq_true, if_false, if_true, h1, h2]
                simp only [stripInsignificant, show isWhitespace 58 = false from rfl,
                  Bool.false_eq_true, if_false, show ¬ (58 = 34) by decide, h3, h4, h5]
                simp only [stripInsignificant, show isWhitespace 125 = false from rfl,
                  Bool.false_eq_true, if_false, show ¬ (125 = 34) by decide]
              · obtain ⟨f'', rfl⟩ : ∃ f'', f' = f'' + 1 := ⟨f' - 1, by omega⟩
                simp only [List.length_append, List.length_cons] at hf
                have hk' := hidemk (58 :: c :: (ov' ++ 125 :: t))
                have hv' := hidemv (125 :: t) (by simp [endsValue]) f'' d'
                  (by simp only [List.length_cons]; omega) hd'
                have hl : (34 :: (k ++ 34 :: 58 :: (c :: ov' ++ [125]))) ++ t
                    = 34 :: (k ++ 34 :: 58 :: c :: (ov' ++ 125 :: t)) := by
                  simp
                simp only [List.cons_append] at hv'
                rw [hl, scan_members_end false f'' d' c _ k (c :: ov') _ _ hk' hc1 hv']
            · simp at h
        · simp at h
    · simp at h

end json

namespace json

theorem needsEscape_of_suffix {a b : Bytes} (h : b <:+ a) (ha : needsEscape a = false) :
    needsEscape b = false := by
  obtain ⟨p, rfl⟩ := h
  exact needsEscape_suffix p b ha

theorem skipSpace_suffix (r : Bytes) : skipSpace r <:+ r := by
  obtain ⟨ws, _, h⟩ := skipSpace_spec r
  exact ⟨ws, h.symm⟩

theorem scan_value_eq (esc : Bool) (f d c : Nat) (r0 : Bytes) :
    scan esc (f + 1) d .value (c :: r0) =
      if c = 123 then
        if d = 0 then none
        else if (skipSpace r0).head? = some 125 then some ([123, 125], (skipSpace r0).tail)
        else (scan esc f (d - 1) .members (skipSpace r0)).map (fun x => (123 :: x.1, x.2))
      else if c = 91 then
        if d = 0 then none
        else if (skipSpace r0).head? = some 93 then some ([91, 93], (skipSpace r0).tail)
        else (scan esc f (d - 1) .elements (skipSpace r0)).map (fun x => (91 :: x.1, x.2))
      else if c = 34 then (scanString esc 0 r0).map (fun x => (34 :: (x.1 ++ [34]), x.2))
      else if c = 116 ∨ c = 102 ∨ c = 110 then scanLiteral (c :: r0)
      else scanNumber .start (c :: r0) := by
  simp only [scan]
  by_cases h1 : c = 123
  · simp only [if_pos h1]
    by_cases hd : d = 0
    · simp only [if_pos hd]
    · simp only [if_neg hd]
      split
      · rename_i heq; simp [heq]
      · rename_i hne
        rw [if_neg]
        intro hh
        cases hs : skipSpace r0 with
        | nil => simp [hs] at hh
        | cons x xs =>
          simp only [hs, List.head?_cons, Option.some.injEq] at hh
          exact hne xs (by rw [hs, hh])
  · simp only [if_neg h1]
    by_cases h2 : c = 91
    · simp only [if_pos h2]
      by_cases hd : d = 0
      · simp only [if_pos hd]
      · simp only [if_neg hd]
        split
        · rename_i heq; simp [heq]
        · rename_i hne
          rw [if_neg]
          intro hh
          cases hs : skipSpace r0 with
          | nil => simp [hs] at hh
          | cons x xs =>
            simp only [hs, List.head?_cons, Option.some.injEq] at hh
            exact hne xs (by rw [hs, hh])
    · simp only [if_neg h2]

theorem scan_elements_eq (esc : Bool) (f d : Nat) (s : Bytes) :
    scan esc (f + 1) d .elements s =
      match scan esc f d .value s with
      | none => none
      | some (o, r) =>
        if (skipSpace r).head? = some 44 then
          (scan esc f d .elements (skipSpace (skipSpace r).tail)).map
            (fun x => (o ++ 44 :: x.1, x.2))
        else if (skipSpace r).head? = some 93 then some (o ++ [93], (skipSpace r).tail)
        else none := by
  simp only [scan]
  cases hv : scan esc f d .value s with
  | none => rfl
  | some x =>
    obtain ⟨o, r⟩ := x
    simp only
    cases hs : skipSpace r with
    | nil => simp
    | cons y ys =>
      by_cases h1 : y = 44
      · subst h1; simp
      · by_cases h2 : y = 93
        · subst h2; simp
        · simp only [List.head?_cons, Option.some.injEq, if_neg h1, if_neg h2]
          split
          · rename_i heq; simp at heq; exact absurd heq.1 h1
          · rename_i heq; simp at heq; exact absurd heq.1 h2
          · rfl

theorem scan_members_eq (esc : Bool) (f d : Nat) (r0 : Bytes) :
    scan esc (f + 1) d .members (34 :: r0) =
      match scanString esc 0 r0 with
      | none => none
      | some (k, r) =>
        if (skipSpace r).head? = some 58 then
          match scan esc f d .value (skipSpace (skipSpace r).tail) with
          | none => none
          | some (o, r) =>
            if (skipSpace r).head? = some 44 then
              (scan esc f d .members (skipSpace (skipSpace r).tail)).map
                (fun x => (34 :: (k ++ 34 :: 58 :: (o ++ 44 :: x.1)), x.2))
            else if (skipSpace r).head? = some 125 then
              some (34 :: (k ++ 34 :: 58 :: (o ++ [125])), (skipSpace r).tail)
            else none
        else none := by
  simp only [scan]
  cases hk : scanString esc 0 r0 with
  | none => rfl
  | some x =>
    obtain ⟨k, r⟩ := x
    simp only
    cases hs : skipSpace r with
    | nil => simp
    | cons y ys =>
      by_cases h1 : y = 58
      · subst h1
        simp only [List.head?_cons, if_true, List.tail_cons]
        cases hv : scan esc f d .value (skipSpace ys) with
        | none => rfl
        | some z =>
          obtain ⟨o, r'⟩ := z
          simp only
          cases hs' : skipSpace r' with
          | nil => simp
          | cons w ws =>
            by_cases h2 : w = 44
            · subst h2; simp
            · by_cases h3 : w = 125
              · subst h3; simp
              · simp only [List.head?_cons, Option.some.injEq, if_neg h2, if_neg h3]
                split
                · rename_i heq; simp at heq; exact absurd heq.1 h2
                · rename_i heq; simp at heq; exact absurd heq.1 h3
                · rfl
      · simp only [List.head?_cons, Option.some.injEq, if_neg h1]
        split
        · rename_i heq; simp at heq; exact absurd heq.1 h1
        · rfl

theorem scan_members_ne (esc : Bool) (f d : Nat) (s : Bytes) (h : s.head? ≠ some 34) :
    scan esc (f + 1) d .members s = none := by
  simp only [scan]
  split
  · simp at h
  · rfl

end json

namespace json

theorem needsEscape_skip_tail {r : Bytes} (h : needsEscape r = false) :
    needsEscape (skipSpace (skipSpace r).tail) = false :=
  needsEscape_of_suffix
    ((skipSpace_suffix _).trans ((List.tail_suffix _).trans (skipSpace_suffix r))) h

theorem scan_esc_eq : ∀ (f d : Nat) (md : Mode) (s : Bytes), needsEscape s = false →
    scan true f d md s = scan false f d md s
  | 0, _, _, _, _ => by simp [scan]
  | f + 1, d, .value, [], _ => by simp [scan]
  | f + 1, d, .value, c :: r0, h => by
    have hr0 := (needsEscape_cons h).2.2.2.2
    have hsk := needsEscape_of_suffix (skipSpace_suffix r0) hr0
    rw [scan_value_eq, scan_value_eq, scan_esc_eq f _ .members _ hsk,
      scan_esc_eq f _ .elements _ hsk, scanString_esc_eq r0 0 (by omega) hr0]
  | f + 1, d, .elements, s, h => by
    rw [scan_elements_eq, scan_elements_eq, scan_esc_eq f d .value s h]
    cases hv : scan false f d .value s with
    | none => rfl
    | some x =>
      obtain ⟨o, r⟩ := x
      obtain ⟨⟨cv, hcv, _⟩, _, _⟩ := scan_false_spec _ _ _ _ _ _ hv
      have hr : needsEscape r = false := needsEscape_suffix cv r (hcv ▸ h)
      simp only [scan_esc_eq f d .elements _ (needsEscape_skip_tail hr)]
  | f + 1, d, .members, s, h => by
    by_cases hs : s.head? = some 34
    · cases s with
      | nil => simp at hs
      | cons c r0 =>
        simp only [List.head?_cons, Option.some.injEq] at hs
        subst hs
        have hr0 := (needsEscape_cons h).2.2.2.2
        rw [scan_members_eq, scan_members_eq, scanString_esc_eq r0 0 (by omega) hr0]
        cases hk : scanString false 0 r0 with
        | none => rfl
        | some x =>
          obtain ⟨k, r1⟩ := x
          obtain ⟨hk1, _⟩ := scanString_false_spec _ _ _ _ (by omega) hk
          have hr1 : needsEscape r1 = false :=
            needsEscape_of_suffix ⟨k ++ [34], by simp [hk1]⟩ hr0
          have hr2 := needsEscape_skip_tail hr1
          simp only [scan_esc_eq f d .value _ hr2]
          cases hv : scan false f d .value (skipSpace (skipSpace r1).tail) with
          | none => rfl
          | some y =>
            obtain ⟨o, r3⟩ := y
            obtain ⟨⟨cv, hcv, _⟩, _, _⟩ := scan_false_spec _ _ _ _ _ _ hv
            have hr3 : needsEscape r3 = false := needsEscape_suffix cv r3 (hcv ▸ hr2)
            simp only [scan_esc_eq f d .members _ (needsEscape_skip_tail hr3)]
    · rw [scan_members_ne _ _ _ _ hs, scan_members_ne _ _ _ _ hs]

theorem scan_depth_mono (esc : Bool) : ∀ (f d d' : Nat) (md : Mode) (s : Bytes)
    (x : Bytes × Bytes), d ≤ d' → scan esc f d md s = some x → scan esc f d' md s = some x
  | 0, _, _, _, _, _, _, h => by simp [scan] at h
  | f + 1, d, d', .value, [], _, _, h => by simp [scan] at h
  | f + 1, d, d', .value, c :: r0, x, hd, h => by
    rw [scan_value_eq] at h ⊢
    by_cases h1 : c = 123
    · simp only [if_pos h1] at h ⊢
      by_cases hd0 : d = 0
      · simp [hd0] at h
      · rw [if_neg hd0] at h
        rw [if_neg (by omega)]
        split_ifs at h ⊢ with h2
        · exact h
        · cases hm : scan esc f (d - 1) .members (skipSpace r0) with
          | none => simp [hm] at h
          | some y =>
            rw [scan_depth_mono esc f (d - 1) (d' - 1) _ _ y (by omega) hm]
            rw [hm] at h
            exact h
    · simp only [if_neg h1] at h ⊢
      by_cases h2 : c = 91
      · simp only [if_pos h2] at h ⊢
        by_cases hd0 : d = 0
        · simp [hd0] at h
        · rw [if_neg hd0] at h
          rw [if_neg (by omega)]
          split_ifs at h ⊢ with h2
          · exact h
          · cases hm : scan esc f (d - 1) .elements (skipSpace r0) with
            | none => simp [hm] at h
            | some y =>
              rw [scan_depth_mono esc f (d - 1) (d' - 1) _ _ y (by omega) hm]
              rw [hm] at h
              exact h
      · simp only [if_neg h2] at h ⊢
        exact h
  | f + 1, d, d', .elements, s, x, hd, h => by
    rw [scan_elements_eq] at h ⊢
    cases hv : scan esc f d .value s with
    | none => simp [hv] at h
    | some y =>
      rw [scan_depth_mono esc f d d' _ _ y hd hv]
      rw [hv] at h
      obtain ⟨o, r⟩ := y
      simp only at h ⊢
      split_ifs at h ⊢ with h1 h2
      · cases he : scan esc f d .elements (skipSpace (skipSpace r).tail) with
        | none => simp [he] at h
        | some z =>
          rw [scan_depth_mono esc f d d' _ _ z hd he]
          rw [he] at h
          exact h
      · exact h
  | f + 1, d, d', .members, s, x, hd, h => by
    by_cases hs : s.head? = some 34
    · cases s with
      | nil => simp at hs
      | cons c r0 =>
        simp only [List.head?_cons, Option.some.injEq] at hs
        subst hs
        rw [scan_members_eq] at h ⊢
        cases hk : scanString esc 0 r0 with
        | none => simp [hk] at h
        | some y =>
          obtain ⟨k, r1⟩ := y
          simp only [hk] at h ⊢
          split_ifs at h ⊢ with h1
          cases hv : scan esc f d .value (skipSpace (skipSpace r1).tail) with
          | none => simp [hv] at h
          | some z =>
            rw [scan_depth_mono esc f d d' _ _ z hd hv]
            rw [hv] at h
            obtain ⟨o, r3⟩ := z
            simp only at h ⊢
            split_ifs at h ⊢ with h2 h3
            · cases hm : scan esc f d .members (skipSpace (skipSpace r3).tail) with
              | none => simp [hm] at h
              | some w =>
                rw [scan_depth_mono esc f d d' _ _ w hd hm]
                rw [hm] at h
                exact h
            · exact h
    · rw [scan_members_ne _ _ _ _ hs] at h
      simp at h

end json

namespace json

theorem strip_ws_nil (ws : Bytes) (h : ∀ c ∈ ws, isWhitespace c = true) :
    stripInsignificant false false ws = [] := by
  have := strip_ws ws false [] h
  simpa [stripInsignificant] using this

theorem validWithin_spec {d : Nat} {v : Bytes} (hv : validWithin d v = true) :
    ∃ rest, scan false (fuelFor v) d .value (skipSpace v)
        = some (stripInsignificant false false v, rest) ∧ skipSpace rest = [] := by
  simp only [validWithin] at hv
  cases hs : scan false (fuelFor v) d .value (skipSpace v) with
  | none => simp [hs] at hv
  | some x =>
    obtain ⟨o, rest⟩ := x
    simp only [hs, decide_eq_true_eq] at hv
    refine ⟨rest, ?_, hv⟩
    obtain ⟨⟨cv, hcv, hstrip⟩, _, _⟩ := scan_false_spec _ _ _ _ _ _ hs
    obtain ⟨ws, hws, hv1⟩ := skipSpace_spec v
    obtain ⟨ws', hws', hr⟩ := skipSpace_spec rest
    rw [hv] at hr
    have : stripInsignificant false false v = o := by
      conv_lhs => rw [hv1, hcv, hr]
      rw [strip_ws ws false _ hws, hstrip false, List.append_nil, strip_ws_nil ws' hws']
      simp
    rw [this]

theorem compact_of_valid {d : Nat} {v : Bytes} (hv : validWithin d v = true)
    (hd : d ≤ maxNestingDepth) (he : needsEscape v = false) :
    compact v = some (stripInsignificant false false v) := by
  obtain ⟨rest, hs, hrest⟩ := validWithin_spec hv
  have h1 := scan_depth_mono false _ _ _ _ _ _ hd hs
  rw [← scan_esc_eq _ _ _ _ (needsEscape_of_suffix (skipSpace_suffix v) he)] at h1
  simp [compact, h1, hrest]

theorem scan_strip_of_valid {d : Nat} {v : Bytes} (hv : validWithin d v = true) (t : Bytes)
    (ht : endsValue t) (f' d' : Nat)
    (hf : 2 * (stripInsignificant false false v).length + 1 ≤ f') (hd : d ≤ d') :
    scan false f' d' .value (stripInsignificant false false v ++ t)
      = some (stripInsignificant false false v, t) := by
  obtain ⟨rest, hs, _⟩ := validWithin_spec hv
  exact (scan_false_spec _ _ _ _ _ _ hs).2.2 t ht f' d' hf hd

theorem strip_head_of_valid {d : Nat} {v : Bytes} (hv : validWithin d v = true) :
    ∃ c o', stripInsignificant false false v = c :: o' ∧ isWhitespace c = false ∧ c ≠ 93 ∧
      c ≠ 125 ∧ (c = 110 → stripInsignificant false false v = ofString "null") := by
  obtain ⟨rest, hs, _⟩ := validWithin_spec hv
  obtain ⟨_, ⟨c, o', ho, h1, h2, h3, h4⟩, _⟩ := scan_false_spec _ _ _ _ _ _ hs
  refine ⟨c, o', ho, h1, h2, h3, fun hc => ?_⟩
  subst hc
  have hh := h4 rfl
  cases hsk : skipSpace v with
  | nil => simp [hsk] at hh
  | cons x xs =>
    simp only [hsk, List.head?_cons, Option.some.injEq] at hh
    subst hh
    rw [hsk, show fuelFor v = (2 * v.length + 1) + 1 from rfl, scan_value_eq] at hs
    simp only [show ¬ (110 = 123) by decide, show ¬ (110 = 91) by decide,
      show ¬ (110 = 34) by decide, if_false, show (110 = 116 ∨ 110 = 102 ∨ 110 = 110) by decide,
      if_true] at hs
    obtain ⟨_, _, _, hlit⟩ := scanLiteral_spec hs
    rcases hlit with h | h | h
    · rw [h] at ho; simp [ofString] at ho
    · rw [h] at ho; simp [ofString] at ho
    · exact h

theorem strip_strip_of_valid {d : Nat} {v : Bytes} (hv : validWithin d v = true) :
    stripInsignificant false false (stripInsignificant false false v)
      = stripInsignificant false false v := by
  have h := scan_strip_of_valid hv [] (by simp [endsValue]) _ d (le_refl _) (le_refl _)
  obtain ⟨⟨cv, hcv, hstrip⟩, _, _⟩ := scan_false_spec _ _ _ _ _ _ h
  simp only [List.append_nil] at hcv
  have := hstrip false []
  rw [← hcv] at this
  simpa [stripInsignificant] using this

end json

namespace json

theorem decode2 (b s1 : Nat) (x : Bytes) (h1 : 0xC2 ≤ b) (h2 : b ≤ 0xDF) (h3 : 0x80 ≤ s1)
    (h4 : s1 ≤ 0xBF) :
    utf8.DecodeRuneInString (b :: s1 :: x) = ((b % 32) * 64 + s1 % 64, 2) := by
  simp only [utf8.DecodeRuneInString, utf8.inRange]
  rw [if_neg (by omega), if_neg (by omega), if_pos (by omega)]
  simp [h3, h4]

theorem decode3 (b s1 s2 : Nat) (x : Bytes) (h1 : 0xE0 ≤ b) (h2 : b ≤ 0xEF)
    (h3 : (if b = 0xE0 then 0xA0 else 0x80) ≤ s1) (h4 : s1 ≤ (if b = 0xED then 0x9F else 0xBF))
    (h5 : 0x80 ≤ s2) (h6 : s2 ≤ 0xBF) :
    utf8.DecodeRuneInString (b :: s1 :: s2 :: x)
      = ((b % 16) * 4096 + (s1 % 64) * 64 + s2 % 64, 3) := by
  simp only [utf8.DecodeRuneInString, utf8.inRange]
  rw [if_neg (by omega), if_neg (by omega), if_neg (by omega), if_pos (by omega)]
  simp [h3, h4, h5, h6]

theorem decode4 (b s1 s2 s3 : Nat) (x : Bytes) (h1 : 0xF0 ≤ b) (h2 : b ≤ 0xF4)
    (h3 : (if b = 0xF0 then 0x90 else 0x80) ≤ s1) (h4 : s1 ≤ (if b = 0xF4 then 0x8F else 0xBF))
    (h5 : 0x80 ≤ s2) (h6 : s2 ≤ 0xBF) (h7 : 0x80 ≤ s3) (h8 : s3 ≤ 0xBF) :
    utf8.DecodeRuneInString (b :: s1 :: s2 :: s3 :: x)
      = ((b % 8) * 262144 + (s1 % 64) * 4096 + (s2 % 64) * 64 + s3 % 64, 4) := by
  simp only [utf8.DecodeRuneInString, utf8.inRange]
  rw [if_neg (by omega), if_neg (by omega), if_neg (by omega), if_neg (by omega),
    if_pos (by omega)]
  simp [h3, h4, h5, h6, h7, h8]

theorem decode_cases (b : Nat) (r : Bytes) (hb : ¬ b < 0x80)
    (hv : ¬ ((utf8.DecodeRuneInString (b :: r)).1 = utf8.RuneError
      ∧ (utf8.DecodeRuneInString (b :: r)).2 = 1)) :
    (∃ s1 x, r = s1 :: x ∧ 0xC2 ≤ b ∧ b ≤ 0xDF ∧ 0x80 ≤ s1 ∧ s1 ≤ 0xBF) ∨
    (∃ s1 s2 x, r = s1 :: s2 :: x ∧ 0xE0 ≤ b ∧ b ≤ 0xEF ∧
      (if b = 0xE0 then 0xA0 else 0x80) ≤ s1 ∧ s1 ≤ (if b = 0xED then 0x9F else 0xBF) ∧
      0x80 ≤ s2 ∧ s2 ≤ 0xBF) ∨
    (∃ s1 s2 s3 x, r = s1 :: s2 :: s3 :: x ∧ 0xF0 ≤ b ∧ b ≤ 0xF4 ∧
      (if b = 0xF0 then 0x90 else 0x80) ≤ s1 ∧ s1 ≤ (if b = 0xF4 then 0x8F else 0xBF) ∧
      0x80 ≤ s2 ∧ s2 ≤ 0xBF ∧ 0x80 ≤ s3 ∧ s3 ≤ 0xBF) := by
  simp only [utf8.DecodeRuneInString, utf8.inRange] at hv
  rw [if_neg hb] at hv
  by_cases h1 : b < 0xC2
  · rw [if_pos h1] at hv; exact absurd ⟨rfl, rfl⟩ hv
  rw [if_neg h1] at hv
  by_cases h2 : b ≤ 0xDF
  · rw [if_pos h2] at hv
    left
    rcases r with _ | ⟨s1, x⟩
    · exact absurd ⟨rfl, rfl⟩ hv
    · simp only at hv
      split_ifs at hv with h3
      · simp only [Bool.and_eq_true, decide_eq_true_eq] at h3
        exact ⟨s1, x, rfl, by omega, h2, h3.1, h3.2⟩
      · exact absurd ⟨rfl, rfl⟩ hv
  rw [if_neg h2] at hv
  by_cases h3 : b ≤ 0xEF
  · rw [if_pos h3] at hv
    right; left
    rcases r with _ | ⟨s1, _ | ⟨s2, x⟩⟩
    · exact absurd ⟨rfl, rfl⟩ hv
    · exact absurd ⟨rfl, rfl⟩ hv
    · simp only at hv
      generalize (if b = 224 then 160 else 128) = lo at hv ⊢
      generalize (if b = 237 then 159 else 191) = hi at hv ⊢
      split_ifs at hv with h4 h5
      · simp only [Bool.and_eq_true, decide_eq_true_eq] at h4 h5
        exact ⟨s1, s2, x, rfl, by omega, h3, h4.1, h4.2, h5.1, h5.2⟩
      · exact absurd ⟨rfl, rfl⟩ hv
      · exact absurd ⟨rfl, rfl⟩ hv
  rw [if_neg h3] at hv
  by_cases h4 : b ≤ 0xF4
  · rw [if_pos h4] at hv
    right; right
    rcases r with _ | ⟨s1, _ | ⟨s2, _ | ⟨s3, x⟩⟩⟩
    · exact absurd ⟨rfl, rfl⟩ hv
    · exact absurd ⟨rfl, rfl⟩ hv
    · exact absurd ⟨rfl, rfl⟩ hv
    · simp only at hv
      generalize (if b = 240 then 144 else 128) = lo at hv ⊢
      generalize (if b = 244 then 143 else 191) = hi at hv ⊢
      split_ifs at hv with h5 h6 h7
      · simp only [Bool.and_eq_true, decide_eq_true_eq] at h5 h6 h7
        exact ⟨s1, s2, s3, x, rfl, by omega, h4, h5.1, h5.2, h6.1, h6.2, h7.1, h7.2⟩
      · exact absurd ⟨rfl, rfl⟩ hv
      · exact absurd ⟨rfl, rfl⟩ hv
      · exact absurd ⟨rfl, rfl⟩ hv
  rw [if_neg h4] at hv
  exact absurd ⟨rfl, rfl⟩ hv

end json

namespace json

theorem decodeRune_valid (b : Nat) (r : Bytes) (hb : ¬ b < utf8.RuneSelf)
    (hv : ¬ ((utf8.DecodeRuneInString (b :: r)).1 = utf8.RuneError
      ∧ (utf8.DecodeRuneInString (b :: r)).2 = 1)) :
    ∃ bytes rest, b :: r = bytes ++ rest ∧
      bytes.length = (utf8.DecodeRuneInString (b :: r)).2 ∧
      2 ≤ bytes.length ∧
      encodeRune (utf8.DecodeRuneInString (b :: r)).1 = bytes ∧
      (∀ c ∈ bytes, 128 ≤ c) ∧
      ∀ x, utf8.DecodeRuneInString (bytes ++ x) = utf8.DecodeRuneInString (b :: r) := by
  simp only [utf8.RuneSelf] at hb
  rcases decode_cases b r hb hv with ⟨s1, x, rfl, h1, h2, h3, h4⟩ |
    ⟨s1, s2, x, rfl, h1, h2, h3, h4, h5, h6⟩ |
    ⟨s1, s2, s3, x, rfl, h1, h2, h3, h4, h5, h6, h7, h8⟩
  · refine ⟨[b, s1], x, rfl, ?_, by simp, ?_, ?_, fun y => ?_⟩
    · rw [decode2 b s1 x h1 h2 h3 h4]; rfl
    · rw [decode2 b s1 x h1 h2 h3 h4]
      simp only [encodeRune]
      rw [if_neg (by omega), if_pos (by omega)]
      simp only [List.cons.injEq, and_true]
      omega
    · intro c hc
      simp only [List.mem_cons, List.mem_singleton, List.not_mem_nil, or_false] at hc
      omega
    · rw [decode2 b s1 x h1 h2 h3 h4]
      exact decode2 b s1 y h1 h2 h3 h4
  · refine ⟨[b, s1, s2], x, rfl, ?_, by simp, ?_, ?_, fun y => ?_⟩
    · rw [decode3 b s1 s2 x h1 h2 h3 h4 h5 h6]; rfl
    · rw [decode3 b s1 s2 x h1 h2 h3 h4 h5 h6]
      simp only [encodeRune]
      split_ifs at h3 h4 <;>
      · rw [if_neg (by omega), if_neg (by omega), if_neg (by omega), if_pos (by omega)]
        simp only [List.cons.injEq, and_true]
        omega
    · intro c hc
      simp only [List.mem_cons, List.mem_singleton, List.not_mem_nil, or_false] at hc
      split_ifs at h3 <;> omega
    · rw [decode3 b s1 s2 x h1 h2 h3 h4 h5 h6]
      exact decode3 b s1 s2 y h1 h2 h3 h4 h5 h6
  · refine ⟨[b, s1, s2, s3], x, rfl, ?_, by simp, ?_, ?_, fun y => ?_⟩
    · rw [decode4 b s1 s2 s3 x h1 h2 h3 h4 h5 h6 h7 h8]; rfl
    · rw [decode4 b s1 s2 s3 x h1 h2 h3 h4 h5 h6 h7 h8]
      simp only [encodeRune]
      split_ifs at h3 h4 <;>
      · rw [if_neg (by omega), if_neg (by omega), if_neg (by omega), if_neg (by omega)]
        simp only [List.cons.injEq, and_true]
        omega
    · intro c hc
      simp only [List.mem_cons, List.mem_singleton, List.not_mem_nil, or_false] at hc
      split_ifs at h3 <;> omega
    · rw [decode4 b s1 s2 s3 x h1 h2 h3 h4 h5 h6 h7 h8]
      exact decode4 b s1 s2 s3 y h1 h2 h3 h4 h5 h6 h7 h8

end json

namespace json

theorem scanString_plain (c : Nat) (x : Bytes) (h1 : c ≠ 34) (h2 : c ≠ 92) (h3 : ¬ c < 32) :
    scanString false 0 (c :: x) = (scanString false 0 x).map (fun y => (c :: y.1, y.2)) := by
  simp [scanString, h1, h2, h3]

theorem scanString_plain_list : ∀ (p x : Bytes), (∀ c ∈ p, 128 ≤ c) →
    scanString false 0 (p ++ x) = (scanString false 0 x).map (fun y => (p ++ y.1, y.2))
  | [], x, _ => by simp
  | c :: p, x, h => by
    have hc := h c (List.mem_cons_self _ _)
    rw [List.cons_append, scanString_plain c _ (by omega) (by omega) (by omega),
      scanString_plain_list p x (fun y hy => h y (List.mem_cons_of_mem _ hy))]
    cases scanString false 0 x <;> simp

theorem scanString_esc2 (e : Nat) (x : Bytes)
    (he : e = 34 ∨ e = 92 ∨ e = 47 ∨ e = 98 ∨ e = 102 ∨ e = 110 ∨ e = 114 ∨ e = 116) :
    scanString false 0 (92 :: e :: x)
      = (scanString false 0 x).map (fun y => ([92, e] ++ y.1, y.2)) := by
  simp only [scanString, show ¬ (92 = 34) by decide, if_false, if_true, if_pos he]
  cases scanString false 0 x <;> simp

theorem scanString_u (a b c d : Nat) (x : Bytes) (ha : isHex a = true) (hb : isHex b = true)
    (hc : isHex c = true) (hd : isHex d = true) :
    scanString false 0 (92 :: 117 :: a :: b :: c :: d :: x)
      = (scanString false 0 x).map (fun y => ([92, 117, a, b, c, d] ++ y.1, y.2)) := by
  simp only [scanString, show ¬ (92 = 34) by decide, if_false, if_true,
    show ¬ (117 = 34 ∨ 117 = 92 ∨ 117 = 47 ∨ 117 = 98 ∨ 117 = 102 ∨ 117 = 110 ∨ 117 = 114
      ∨ 117 = 116) by decide]
  simp only [ha, hb, hc, hd, if_true]
  cases scanString false 0 x <;> simp

theorem isHex_hexDigit (n : Nat) (h : n < 16) : isHex (hexDigit n) = true := by
  simp only [isHex, hexDigit, Bool.or_eq_true, decide_eq_true_eq]
  split_ifs <;> omega

theorem hexValue_hexDigit (n : Nat) (h : n < 16) : hexValue (hexDigit n) = n := by
  simp only [hexValue, hexDigit]
  split_ifs <;> omega

theorem unquote_succ (fuel c : Nat) (r : Bytes) :
    unquote (fuel + 1) (c :: r) =
    if c = 92 then
      match r with
      | [] => none
      | e :: r' =>
        if e = 34 ∨ e = 92 ∨ e = 47 ∨ e = 39 then (unquote fuel r').map (fun x => e :: x)
        else if e = 98 then (unquote fuel r').map (fun x => 8 :: x)
        else if e = 102 then (unquote fuel r').map (fun x => 12 :: x)
        else if e = 110 then (unquote fuel r').map (fun x => 10 :: x)
        else if e = 114 then (unquote fuel r').map (fun x => 13 :: x)
        else if e = 116 then (unquote fuel r').map (fun x => 9 :: x)
        else if e = 117 then
          match getu4 (c :: r) with
          | none => none
          | some rr =>
            if 0xD800 ≤ rr ∧ rr < 0xE000 then
              match getu4 (r'.drop 4) with
              | some rr1 =>
                if rr < 0xDC00 ∧ 0xDC00 ≤ rr1 ∧ rr1 < 0xE000 then
                  (unquote fuel (r'.drop 10)).map
                    (fun x => encodeRune ((rr - 0xD800) * 1024 + (rr1 - 0xDC00) + 0x10000) ++ x)
                else (unquote fuel (r'.drop 4)).map (fun x => encodeRune 0xFFFD ++ x)
              | none => (unquote fuel (r'.drop 4)).map (fun x => encodeRune 0xFFFD ++ x)
            else (unquote fuel (r'.drop 4)).map (fun x => encodeRune rr ++ x)
        else none
    else if c = 34 ∨ c < 32 then none
    else if c < utf8.RuneSelf then (unquote fuel r).map (fun x => c :: x)
    else
      (unquote fuel (r.drop ((utf8.DecodeRuneInString (c :: r)).2 - 1))).map
        (fun x => encodeRune (utf8.DecodeRuneInString (c :: r)).1 ++ x) := by
  rfl

theorem unquote_plain (f c : Nat) (x : Bytes) (h1 : c ≠ 34) (h2 : c ≠ 92) (h3 : ¬ c < 32)
    (h4 : c < utf8.RuneSelf) :
    unquote (f + 1) (c :: x) = (unquote f x).map (fun y => c :: y) := by
  rw [unquote_succ, if_neg h2, if_neg (by omega), if_pos h4]

theorem unquote_multi (f c : Nat) (x : Bytes) (h4 : ¬ c < utf8.RuneSelf) :
    unquote (f + 1) (c :: x)
      = (unquote f (x.drop ((utf8.DecodeRuneInString (c :: x)).2 - 1))).map
          (fun y => encodeRune (utf8.DecodeRuneInString (c :: x)).1 ++ y) := by
  simp only [utf8.RuneSelf] at h4
  rw [unquote_succ, if_neg (by omega), if_neg (by omega),
    if_neg (by simpa [utf8.RuneSelf] using h4)]

theorem unquote_u (f a b c d : Nat) (x : Bytes) (ha : isHex a = true) (hb : isHex b = true)
    (hc : isHex c = true) (hd : isHex d = true)
    (hs : ¬ (0xD800 ≤ ((hexValue a * 16 + hexValue b) * 16 + hexValue c) * 16 + hexValue d
      ∧ ((hexValue a * 16 + hexValue b) * 16 + hexValue c) * 16 + hexValue d < 0xE000)) :
    unquote (f + 1) (92 :: 117 :: a :: b :: c :: d :: x)
      = (unquote f x).map (fun y =>
          encodeRune (((hexValue a * 16 + hexValue b) * 16 + hexValue c) * 16 + hexValue d)
            ++ y) := by
  rw [unquote_succ]
  simp only [if_true, show ¬ (117 = 34 ∨ 117 = 92 ∨ 117 = 47 ∨ 117 = 39) by decide,
    show ¬ (117 = 98) by decide, show ¬ (117 = 102) by decide, show ¬ (117 = 110) by decide,
    show ¬ (117 = 114) by decide, show ¬ (117 = 116) by decide, if_false, getu4, ha, hb, hc, hd,
    Bool.and_self, if_neg hs]
  rfl

end json

namespace json

theorem appendString_succ (fuel b : Nat) (r : Bytes) :
    appendString (fuel + 1) (b :: r) =
    if b < utf8.RuneSelf then
      if htmlSafe b then b :: appendString fuel r
      else
        (if b = 92 ∨ b = 34 then [92, b]
         else if b = 8 then [92, 98]
         else if b = 12 then [92, 102]
         else if b = 10 then [92, 110]
         else if b = 13 then [92, 114]
         else if b = 9 then [92, 116]
         else escapeByte b) ++ appendString fuel r
    else
      if (utf8.DecodeRuneInString (b :: r)).1 = utf8.RuneError
          ∧ (utf8.DecodeRuneInString (b :: r)).2 = 1 then
        [92, 117, 102, 102, 102, 100] ++ appendString fuel r
      else if (utf8.DecodeRuneInString (b :: r)).1 = 0x2028
          ∨ (utf8.DecodeRuneInString (b :: r)).1 = 0x2029 then
        [92, 117, 50, 48, 50, hexDigit ((utf8.DecodeRuneInString (b :: r)).1 % 16)]
          ++ appendString fuel (r.drop ((utf8.DecodeRuneInString (b :: r)).2 - 1))
      else
        (b :: r).take (utf8.DecodeRuneInString (b :: r)).2
          ++ appendString fuel (r.drop ((utf8.DecodeRuneInString (b :: r)).2 - 1)) := by
  rfl

theorem unquote_nil (f : Nat) : unquote f [] = some [] := by
  cases f <;> rfl

theorem encodes_step (p q app s' : Bytes)
    (hscan : ∀ x, scanString false 0 (p ++ x)
      = (scanString false 0 x).map (fun y => (p ++ y.1, y.2)))
    (hunq : ∀ f x, unquote (f + 1) (p ++ x) = (unquote f x).map (fun y => q ++ y))
    (hp : p ≠ [])
    (h1 : ∀ t, scanString false 0 (app ++ 34 :: t) = some (app, t))
    (h2 : ∀ f, app.length ≤ f → unquote f app = some s') :
    (∀ t, scanString false 0 ((p ++ app) ++ 34 :: t) = some (p ++ app, t)) ∧
    (∀ f, (p ++ app).length ≤ f → unquote f (p ++ app) = some (q ++ s')) := by
  refine ⟨fun t => ?_, fun f hf => ?_⟩
  · rw [List.append_assoc, hscan, h1 t]; rfl
  · have : 1 ≤ p.length := by
      cases p with
      | nil => exact absurd rfl hp
      | cons _ _ => simp
    simp only [List.length_append] at hf
    obtain ⟨f', rfl⟩ : ∃ f', f = f' + 1 := ⟨f - 1, by omega⟩
    rw [hunq, h2 f' (by omega)]; rfl

theorem unquote_esc2 (f e v : Nat) (x : Bytes)
    (h : (e = 34 ∧ v = 34) ∨ (e = 92 ∧ v = 92) ∨ (e = 98 ∧ v = 8) ∨ (e = 102 ∧ v = 12) ∨
      (e = 110 ∧ v = 10) ∨ (e = 114 ∧ v = 13) ∨ (e = 116 ∧ v = 9)) :
    unquote (f + 1) ([92, e] ++ x) = (unquote f x).map (fun y => [v] ++ y) := by
  rw [List.cons_append, List.cons_append, List.nil_append, unquote_succ]
  rcases h with ⟨rfl, rfl⟩ | ⟨rfl, rfl⟩ | ⟨rfl, rfl⟩ | ⟨rfl, rfl⟩ | ⟨rfl, rfl⟩ | ⟨rfl, rfl⟩ |
    ⟨rfl, rfl⟩ <;> simp

end json

namespace json

theorem validLoop_ascii (n b : Nat) (r : Bytes) (hb : b < utf8.RuneSelf) :
    utf8.validLoop (n + 1) (b :: r) = utf8.validLoop n r := by
  simp [utf8.validLoop, hb]

theorem validLoop_multi (n b : Nat) (r : Bytes) (hb : ¬ b < utf8.RuneSelf)
    (hv : ¬ ((utf8.DecodeRuneInString (b :: r)).1 = utf8.RuneError
      ∧ (utf8.DecodeRuneInString (b :: r)).2 = 1)) :
    utf8.validLoop (n + 1) (b :: r)
      = utf8.validLoop n (r.drop ((utf8.DecodeRuneInString (b :: r)).2 - 1)) := by
  simp only [utf8.validLoop, if_neg hb, if_neg hv]

theorem appendString_spec : ∀ (n : Nat) (s : Bytes), s.length ≤ n →
    (∀ t, scanString false 0 (appendString n s ++ 34 :: t) = some (appendString n s, t)) ∧
    ∃ s', (∀ f, (appendString n s).length ≤ f → unquote f (appendString n s) = some s') ∧
      (utf8.validLoop n s = true → s' = s)
  | 0, s, h => by
    have : s = [] := List.length_eq_zero.1 (by omega)
    subst this
    exact ⟨fun t => by simp [appendString, scanString], [],
      fun f _ => by simp [appendString, unquote_nil], fun _ => rfl⟩
  | n + 1, [], _ =>
    ⟨fun t => by simp [appendString, scanString], [],
      fun f _ => by simp [appendString, unquote_nil], fun _ => rfl⟩
  | n + 1, b :: r, h => by
    have hlen : r.length ≤ n := by simpa using h
    rw [appendString_succ]
    by_cases hb : b < utf8.RuneSelf
    · rw [if_pos hb]
      obtain ⟨ih1, s', ih2, ih3⟩ := appendString_spec n r hlen
      have hb128 : b < 128 := hb
      have key : ∀ p : Bytes, p ≠ [] →
          (∀ x, scanString false 0 (p ++ x)
            = (scanString false 0 x).map (fun y => (p ++ y.1, y.2))) →
          (∀ f x, unquote (f + 1) (p ++ x) = (unquote f x).map (fun y => [b] ++ y)) →
          (∀ t, scanString false 0 ((p ++ appendString n r) ++ 34 :: t)
            = some (p ++ appendString n r, t)) ∧
          ∃ s', (∀ f, (p ++ appendString n r).length ≤ f →
              unquote f (p ++ appendString n r) = some s') ∧
            (utf8.validLoop (n + 1) (b :: r) = true → s' = b :: r) := by
        intro p hp hscan hunq
        obtain ⟨k1, k2⟩ := encodes_step p [b] _ s' hscan hunq hp ih1 ih2
        refine ⟨k1, [b] ++ s', k2, fun hv => ?_⟩
        rw [validLoop_ascii n b r hb] at hv
        rw [ih3 hv]; rfl
      by_cases hs : htmlSafe b = true
      · rw [if_pos hs]
        have hb' : 32 ≤ b ∧ b ≠ 34 ∧ b ≠ 92 := by
          simp only [htmlSafe, Bool.and_eq_true, decide_eq_true_eq, Bool.not_eq_true',
            Bool.or_eq_false_iff, decide_eq_false_iff_not] at hs
          omega
        exact key [b] (by simp)
          (fun x => scanString_plain b x hb'.2.1 hb'.2.2 (by omega))
          (fun f x => unquote_plain f b x hb'.2.1 hb'.2.2 (by omega) hb)
      · rw [if_neg hs]
        by_cases h1 : b = 92 ∨ b = 34
        · rw [if_pos h1]
          refine key [92, b] (by simp) (fun x => scanString_esc2 b x (by omega))
            (fun f x => unquote_esc2 f b b x (by omega))
        rw [if_neg h1]
        by_cases h2 : b = 8
        · rw [if_pos h2]
          exact key [92, 98] (by simp) (fun x => scanString_esc2 98 x (by omega))
            (fun f x => unquote_esc2 f 98 b x (by omega))
        rw [if_neg h2]
        by_cases h3 : b = 12
        · rw [if_pos h3]
          exact key [92, 102] (by simp) (fun x => scanString_esc2 102 x (by omega))
            (fun f x => unquote_esc2 f 102 b x (by omega))
        rw [if_neg h3]
        by_cases h4 : b = 10
        · rw [if_pos h4]
          exact key [92, 110] (by simp) (fun x => scanString_esc2 110 x (by omega))
            (fun f x => unquote_esc2 f 110 b x (by omega))
        rw [if_neg h4]
        by_cases h5 : b = 13
        · rw [if_pos h5]
          exact key [92, 114] (by simp) (fun x => scanString_esc2 114 x (by omega))
            (fun f x => unquote_esc2 f 114 b x (by omega))
        rw [if_neg h5]
        by_cases h6 : b = 9
        · rw [if_pos h6]
          exact key [92, 116] (by simp) (fun x => scanString_esc2 116 x (by omega))
            (fun f x => unquote_esc2 f 116 b x (by omega))
        rw [if_neg h6]
        have hx1 : isHex 48 = true := by decide
        have hx2 := isHex_hexDigit (b / 16) (by omega)
        have hx3 := isHex_hexDigit (b % 16) (by omega)
        refine key (escapeByte b) (by simp [escapeByte])
          (fun x => scanString_u 48 48 _ _ x hx1 hx1 hx2 hx3) (fun f x => ?_)
        have hval : ((hexValue 48 * 16 + hexValue 48) * 16 + hexValue (hexDigit (b / 16))) * 16
            + hexValue (hexDigit (b % 16)) = b := by
          rw [hexValue_hexDigit _ (by omega), hexValue_hexDigit _ (by omega),
            show hexValue 48 = 0 from rfl]
          omega
        have := unquote_u f 48 48 (hexDigit (b / 16)) (hexDigit (b % 16)) x hx1 hx1 hx2 hx3
          (by rw [hval]; omega)
        rw [hval] at this
        simp only [escapeByte, List.cons_append, List.nil_append]
        rw [this]
        simp only [encodeRune]
        rw [if_pos (by omega)]
        rfl
    · rw [if_neg hb]
      by_cases hv : (utf8.DecodeRuneInString (b :: r)).1 = utf8.RuneError
          ∧ (utf8.DecodeRuneInString (b :: r)).2 = 1
      · rw [if_pos hv]
        obtain ⟨ih1, s', ih2, ih3⟩ := appendString_spec n r hlen
        have hx : isHex 102 = true ∧ isHex 100 = true := by decide
        obtain ⟨k1, k2⟩ := encodes_step [92, 117, 102, 102, 102, 100] (encodeRune 0xFFFD) _ s'
          (fun x => scanString_u 102 102 102 100 x hx.1 hx.1 hx.1 hx.2)
          (fun f x => unquote_u f 102 102 102 100 x hx.1 hx.1 hx.1 hx.2 (by decide))
          (by simp) ih1 ih2
        refine ⟨k1, _, k2, fun hvl => ?_⟩
        simp [utf8.validLoop, hb, hv] at hvl
      · rw [if_neg hv]
        obtain ⟨bytes, rest, hsplit, hbl, hb2, henc, hge, hdec⟩ := decodeRune_valid b r hb hv
        have hdrop : r.drop ((utf8.DecodeRuneInString (b :: r)).2 - 1) = rest := by
          have : (b :: r).drop bytes.length = rest := by rw [hsplit]; simp
          rw [← hbl, ← this]
          obtain ⟨k, hk⟩ : ∃ k, bytes.length = k + 1 := ⟨bytes.length - 1, by omega⟩
          rw [hk]; rfl
        have htake : (b :: r).take (utf8.DecodeRuneInString (b :: r)).2 = bytes := by
          rw [← hbl, hsplit]; simp
        have hrl : rest.length ≤ n := by
          have := congrArg List.length hsplit
          simp only [List.length_cons, List.length_append] at this
          omega
        rw [hdrop, htake]
        obtain ⟨ih1, s', ih2, ih3⟩ := appendString_spec n rest hrl
        have hvalid : utf8.validLoop (n + 1) (b :: r) = true → bytes ++ s' = b :: r := by
          intro hvl
          rw [validLoop_multi n b r hb hv, hdrop] at hvl
          rw [ih3 hvl, hsplit]
        by_cases hl : (utf8.DecodeRuneInString (b :: r)).1 = 0x2028
            ∨ (utf8.DecodeRuneInString (b :: r)).1 = 0x2029
        · rw [if_pos hl]
          have hx : isHex 50 = true ∧ isHex 48 = true := by decide
          have hx3 := isHex_hexDigit ((utf8.DecodeRuneInString (b :: r)).1 % 16) (by omega)
          have hval : ((hexValue 50 * 16 + hexValue 48) * 16 + hexValue 50) * 16
              + hexValue (hexDigit ((utf8.DecodeRuneInString (b :: r)).1 % 16))
              = (utf8.DecodeRuneInString (b :: r)).1 := by
            rw [hexValue_hexDigit _ (by omega), show hexValue 50 = 2 from rfl,
              show hexValue 48 = 0 from rfl]
            omega
          obtain ⟨k1, k2⟩ := encodes_step
            [92, 117, 50, 48, 50, hexDigit ((utf8.DecodeRuneInString (b :: r)).1 % 16)]
            bytes _ s'
            (fun x => scanString_u 50 48 50 _ x hx.1 hx.2 hx.1 hx3)
            (fun f x => by
              have := unquote_u f 50 48 50 _ x hx.1 hx.2 hx.1 hx3 (by rw [hval]; omega)
              rw [hval, henc] at this
              exact this)
            (by simp) ih1 ih2
          exact ⟨k1, _, k2, hvalid⟩
        · rw [if_neg hl]
          obtain ⟨k1, k2⟩ := encodes_step bytes bytes _ s'
            (fun x => scanString_plain_list bytes x hge)
            (fun f x => by
              obtain ⟨c0, bytes', rfl⟩ : ∃ c0 bytes', bytes = c0 :: bytes' := by
                cases bytes with
                | nil => simp at hb2
                | cons c0 bytes' => exact ⟨c0, bytes', rfl⟩
              have hc0 : ¬ c0 < utf8.RuneSelf := by
                have := hge c0 (List.mem_cons_self _ _)
                simp only [utf8.RuneSelf]; omega
              rw [List.cons_append, unquote_multi f c0 _ hc0]
              have := hdec x
              rw [List.cons_append] at this
              rw [this, henc, ← hbl]
              simp)
            (by intro hnil; rw [hnil] at hb2; simp at hb2) ih1 ih2
          exact ⟨k1, _, k2, hvalid⟩

end json

namespace json

theorem scanString_plainKey : ∀ (k : Bytes), plainKey k →
    ∀ x, scanString false 0 (k ++ 34 :: x) = some (k, x)
  | [], _, x => by simp [scanString]
  | c :: k, h, x => by
    have hc := h c (List.mem_cons_self _ _)
    rw [List.cons_append, scanString_plain c _ hc.1 hc.2.1 (by omega),
      scanString_plainKey k (fun y hy => h y (List.mem_cons_of_mem _ hy)) x]
    rfl

theorem quote_stable (s : Bytes) : Stable 0 (quote s) := by
  refine ⟨⟨34, _, rfl, by decide⟩, fun t _ f d' hf _ => ?_⟩
  obtain ⟨f', rfl⟩ : ∃ f', f = f' + 1 := ⟨f - 1, by omega⟩
  have := (appendString_spec s.length s (le_refl _)).1 t
  simp only [quote, List.cons_append, List.append_assoc, List.singleton_append]
  rw [scan_value_string, List.nil_append, this]
  simp

theorem strip_stable_of_valid {d : Nat} {v : Bytes} (hv : validWithin d v = true) :
    Stable d (stripInsignificant false false v) := by
  obtain ⟨c, o', h1, h2, _⟩ := strip_head_of_valid hv
  exact ⟨⟨c, o', h1, h2⟩, fun t ht f d' hf hd => scan_strip_of_valid hv t ht f d' hf hd⟩

theorem Stable.mono {d d' : Nat} {v : Bytes} (h : Stable d v) (hd : d ≤ d') : Stable d' v :=
  ⟨h.1, fun t ht f d'' hf hd' => h.2 t ht f d'' hf (le_trans hd hd')⟩

theorem membersText_head : ∀ (kvs : List (Bytes × Bytes)), kvs ≠ [] →
    ∃ y, membersText kvs = 34 :: y
  | [], h => absurd rfl h
  | [_], _ => ⟨_, rfl⟩
  | _ :: _ :: _, _ => ⟨_, rfl⟩

theorem scan_membersText {d : Nat} : ∀ (kvs : List (Bytes × Bytes)), kvs ≠ [] →
    (∀ kv ∈ kvs, plainKey kv.1 ∧ Stable d kv.2) →
    ∀ (t : Bytes) (f d' : Nat), 2 * (membersText kvs).length + 1 ≤ f → d ≤ d' →
    scan false f d' .members (membersText kvs ++ t) = some (membersText kvs, t)
  | [], h, _, _, _, _, _, _ => absurd rfl h
  | [kv], _, hkv, t, f, d', hf, hd => by
    obtain ⟨hk, ⟨c, o, hv, hc⟩, hs⟩ := hkv kv (List.mem_singleton_self _)
    obtain ⟨f', rfl⟩ : ∃ f', f = f' + 1 := ⟨f - 1, by omega⟩
    simp only [membersText, List.length_cons, List.length_append] at hf
    have h1 := scanString_plainKey kv.1 hk (58 :: c :: (o ++ 125 :: t))
    have h2 := hs (125 :: t) (by simp [endsValue]) f' d' (by omega) hd
    rw [hv] at h2
    simp only [List.cons_append] at h2
    have hl : membersText [kv] ++ t = 34 :: (kv.1 ++ 34 :: 58 :: c :: (o ++ 125 :: t)) := by
      simp [membersText, hv]
    rw [hl, scan_members_end false f' d' c _ kv.1 (c :: o) _ _ h1 hc h2]
    simp [membersText, hv]
  | kv :: kv' :: rest, _, hkv, t, f, d', hf, hd => by
    obtain ⟨hk, ⟨c, o, hv, hc⟩, hs⟩ := hkv kv (List.mem_cons_self _ _)
    obtain ⟨f', rfl⟩ : ∃ f', f = f' + 1 := ⟨f - 1, by omega⟩
    obtain ⟨y, hy⟩ := membersText_head (kv' :: rest) (by simp)
    have hm : membersText (kv :: kv' :: rest)
        = 34 :: (kv.1 ++ 34 :: 58 :: (kv.2 ++ 44 :: membersText (kv' :: rest))) := rfl
    rw [hm] at hf ⊢
    simp only [List.length_cons, List.length_append] at hf
    have ih := scan_membersText (kv' :: rest) (by simp)
      (fun x hx => hkv x (List.mem_cons_of_mem _ hx)) t f' d' (by omega) hd
    have h1 := scanString_plainKey kv.1 hk (58 :: c :: (o ++ 44 :: 34 :: (y ++ t)))
    have h2 := hs (44 :: 34 :: (y ++ t)) (by simp [endsValue]) f' d' (by omega) hd
    rw [hv] at h2
    simp only [List.cons_append] at h2
    have hl : 34 :: (kv.1 ++ 34 :: 58 :: (kv.2 ++ 44 :: membersText (kv' :: rest))) ++ t
        = 34 :: (kv.1 ++ 34 :: 58 :: c :: (o ++ 44 :: 34 :: (y ++ t))) := by
      simp [hv, hy]
    rw [hy, List.cons_append] at ih
    rw [hl, scan_members_comma false f' d' c 34 _ kv.1 (c :: o) _ _ h1 hc h2 (by decide), ih]
    simp [hv, hy]

end json

namespace json

theorem members_comma (f c c' : Nat) (r0 k v ov y : Bytes)
    (hk : scanString false 0 r0 = some (k, 58 :: c :: (v ++ 44 :: c' :: y)))
    (hc : isWhitespace c = false)
    (hv : scan false (fuelFor (c :: (v ++ 44 :: c' :: y))) maxNestingDepth .value
      (c :: (v ++ 44 :: c' :: y)) = some (ov, 44 :: c' :: y))
    (hc' : isWhitespace c' = false) :
    members (f + 1) (34 :: r0) = (members f (c' :: y)).map (fun z => (k, c :: v) :: z) := by
  have ht : (c :: (v ++ 44 :: c' :: y)).take
      ((c :: (v ++ 44 :: c' :: y)).length - (44 :: c' :: y).length) = c :: v := by
    have : (c :: (v ++ 44 :: c' :: y)).length - (44 :: c' :: y).length = (c :: v).length := by
      simp only [List.length_cons, List.length_append]; omega
    rw [this, ← List.cons_append, List.take_left]
  simp only [members, hk, skipSpace_of_head _ (show isWhitespace 58 = false by decide),
    skipSpace_of_head _ hc, hv, skipSpace_of_head _ (show isWhitespace 44 = false by decide),
    skipSpace_of_head _ hc', ht]

theorem members_end (f c : Nat) (r0 k v ov y : Bytes)
    (hk : scanString false 0 r0 = some (k, 58 :: c :: (v ++ 125 :: y)))
    (hc : isWhitespace c = false)
    (hv : scan false (fuelFor (c :: (v ++ 125 :: y))) maxNestingDepth .value
      (c :: (v ++ 125 :: y)) = some (ov, 125 :: y)) :
    members (f + 1) (34 :: r0) = some [(k, c :: v)] := by
  have ht : (c :: (v ++ 125 :: y)).take
      ((c :: (v ++ 125 :: y)).length - (125 :: y).length) = c :: v := by
    have : (c :: (v ++ 125 :: y)).length - (125 :: y).length = (c :: v).length := by
      simp only [List.length_cons, List.length_append]; omega
    rw [this, ← List.cons_append, List.take_left]
  simp only [members, hk, skipSpace_of_head _ (show isWhitespace 58 = false by decide),
    skipSpace_of_head _ hc, hv, skipSpace_of_head _ (show isWhitespace 125 = false by decide),
    ht]

theorem members_membersText {d : Nat} (hd : d ≤ maxNestingDepth) :
    ∀ (kvs : List (Bytes × Bytes)), kvs ≠ [] →
    (∀ kv ∈ kvs, plainKey kv.1 ∧ Stable d kv.2) →
    ∀ (t : Bytes) (f : Nat), kvs.length ≤ f → members f (membersText kvs ++ t) = some kvs
  | [], h, _, _, _, _ => absurd rfl h
  | [kv], _, hkv, t, f, hf => by
    obtain ⟨hk, ⟨c, o, hv, hc⟩, hs⟩ := hkv kv (List.mem_singleton_self _)
    obtain ⟨f', rfl⟩ : ∃ f', f = f' + 1 := ⟨f - 1, by simp at hf; omega⟩
    have h1 := scanString_plainKey kv.1 hk (58 :: c :: (o ++ 125 :: t))
    have h2 := hs (125 :: t) (by simp [endsValue]) (fuelFor (c :: (o ++ 125 :: t)))
      maxNestingDepth (by simp [fuelFor, hv]; omega) hd
    rw [hv] at h2
    simp only [List.cons_append] at h2
    have hl : membersText [kv] ++ t = 34 :: (kv.1 ++ 34 :: 58 :: c :: (o ++ 125 :: t)) := by
      simp [membersText, hv]
    rw [hl, members_end f' c _ kv.1 o (c :: o) _ h1 hc h2, ← hv]
  | kv :: kv' :: rest, _, hkv, t, f, hf => by
    obtain ⟨hk, ⟨c, o, hv, hc⟩, hs⟩ := hkv kv (List.mem_cons_self _ _)
    obtain ⟨f', rfl⟩ : ∃ f', f = f' + 1 := ⟨f - 1, by simp at hf; omega⟩
    obtain ⟨y, hy⟩ := membersText_head (kv' :: rest) (by simp)
    have hm : membersText (kv :: kv' :: rest)
        = 34 :: (kv.1 ++ 34 :: 58 :: (kv.2 ++ 44 :: membersText (kv' :: rest))) := rfl
    have ih := members_membersText hd (kv' :: rest) (by simp)
      (fun x hx => hkv x (List.mem_cons_of_mem _ hx)) t f' (by simp at hf ⊢; omega)
    have h1 := scanString_plainKey kv.1 hk (58 :: c :: (o ++ 44 :: 34 :: (y ++ t)))
    have h2 := hs (44 :: 34 :: (y ++ t)) (by simp [endsValue])
      (fuelFor (c :: (o ++ 44 :: 34 :: (y ++ t)))) maxNestingDepth
      (by simp [fuelFor, hv]; omega) hd
    rw [hv] at h2
    simp only [List.cons_append] at h2
    have hl : membersText (kv :: kv' :: rest) ++ t
        = 34 :: (kv.1 ++ 34 :: 58 :: c :: (o ++ 44 :: 34 :: (y ++ t))) := by
      rw [hm]; simp [hv, hy]
    rw [hy, List.cons_append] at ih
    rw [hl, members_comma f' c 34 _ kv.1 o (c :: o) _ h1 hc h2 (by decide), ih, ← hv]
    rfl

end json

namespace json

theorem membersText_eq : ∀ (kv : Bytes × Bytes) (rest : List (Bytes × Bytes)),
    membersText (kv :: rest) = 34 :: (kv.1 ++ 34 :: 58 :: kv.2)
      ++ (rest.map (fun kv => 44 :: 34 :: (kv.1 ++ 34 :: 58 :: kv.2))).flatten ++ [125]
  | kv, [] => by simp [membersText]
  | kv, kv' :: rest => by
    have hm : membersText (kv :: kv' :: rest)
        = 34 :: (kv.1 ++ 34 :: 58 :: (kv.2 ++ 44 :: membersText (kv' :: rest))) := rfl
    rw [hm, membersText_eq kv' rest]
    simp

theorem membersText_length : ∀ (kvs : List (Bytes × Bytes)),
    kvs.length ≤ (membersText kvs).length
  | [] => by simp
  | [kv] => by simp [membersText]
  | kv :: kv' :: rest => by
    have hm : membersText (kv :: kv' :: rest)
        = 34 :: (kv.1 ++ 34 :: 58 :: (kv.2 ++ 44 :: membersText (kv' :: rest))) := rfl
    have := membersText_length (kv' :: rest)
    rw [hm]
    simp only [List.length_cons, List.length_append] at this ⊢
    omega

theorem marshalRaw_plain (name : Bytes) (v : Option Bytes) (h : ∀ raw ∈ v, plain raw) :
    marshalRaw name v = .ok
      ((rawMember name v).map (fun kv => 44 :: 34 :: (kv.1 ++ 34 :: 58 :: kv.2))).flatten := by
  cases v with
  | none => rfl
  | some raw =>
    obtain ⟨h1, _, h3⟩ := h raw rfl
    simp [marshalRaw, rawMember, compact_of_valid h1 (Nat.sub_le _ _) h3]

theorem Marshal_eq (ev : Bytes → Except Err Bytes) (m : rpcMessage)
    (hid : ∀ raw ∈ m.ID, plain raw) (hp : ∀ raw ∈ m.Params, plain raw)
    (hr : ∀ raw ∈ m.Result, plain raw) (herr : m.Error = none) :
    Marshal ev m = .ok (123 :: membersText (membersOf m)) := by
  simp only [Marshal, marshalRaw_plain _ _ hid, marshalRaw_plain _ _ hp,
    marshalRaw_plain _ _ hr, herr, marshalError, membersOf, membersText_eq]
  have : ofString "\x7b\"jsonrpc\":" = 123 :: 34 :: (ofString "jsonrpc" ++ [34, 58]) := by
    decide
  rw [this]
  by_cases hm : m.Method = []
  · simp [hm]
  · have h2 : ofString ",\"method\":" = 44 :: 34 :: (ofString "method" ++ [34, 58]) := by
      decide
    simp [hm, h2]

end json

namespace json

theorem checkValid_membersText (kvs : List (Bytes × Bytes)) (hne : kvs ≠ [])
    (h : ∀ kv ∈ kvs, plainKey kv.1 ∧ Stable (maxNestingDepth - 1) kv.2) :
    checkValid (123 :: membersText kvs) = true := by
  obtain ⟨y, hy⟩ := membersText_head kvs hne
  have hs := scan_membersText kvs hne h [] (2 * (membersText kvs).length + 3)
    (maxNestingDepth - 1) (by omega) (le_refl _)
  rw [List.append_nil, hy] at hs
  have hf : fuelFor (123 :: membersText kvs) = (2 * (membersText kvs).length + 3) + 1 := by
    simp only [fuelFor, List.length_cons]; omega
  simp only [checkValid, hf, skipSpace_of_head _ (show isWhitespace 123 = false by decide)]
  rw [hy, scan_value_obj false _ _ 34 y (by decide) (by decide) (by decide), hs]
  simp [skipSpace]

theorem objectMembers_membersText (kvs : List (Bytes × Bytes)) (hne : kvs ≠ [])
    (h : ∀ kv ∈ kvs, plainKey kv.1 ∧ Stable (maxNestingDepth - 1) kv.2) :
    objectMembers (123 :: membersText kvs) = some kvs := by
  obtain ⟨y, hy⟩ := membersText_head kvs hne
  have hm := members_membersText (Nat.sub_le _ _) kvs hne h [] (membersText kvs).length
    (membersText_length kvs)
  rw [List.append_nil] at hm
  simp only [objectMembers]
  rw [hy, skipSpace_of_head _ (show isWhitespace 34 = false by decide), ← hy]
  split
  · rename_i heq
    rw [hy] at heq
    simp at heq
  · exact hm

theorem Unmarshal_membersText (kvs : List (Bytes × Bytes)) (hne : kvs ≠ [])
    (h : ∀ kv ∈ kvs, plainKey kv.1 ∧ Stable (maxNestingDepth - 1) kv.2) :
    Unmarshal (123 :: membersText kvs)
      = assignAll { JSONRPC := [], ID := none, Method := [], Params := none, Result := none,
                    Error := none } kvs := by
  simp only [Unmarshal, checkValid_membersText kvs hne h, if_true,
    skipSpace_of_head _ (show isWhitespace 123 = false by decide),
    objectMembers_membersText kvs hne h]

theorem decodeString_quote (s : Bytes) :
    ∃ s', decodeString (quote s) = .ok (some s') ∧ (utf8.ValidString s = true → s' = s) := by
  obtain ⟨_, s', h2, h3⟩ := appendString_spec s.length s (le_refl _)
  refine ⟨s', ?_, h3⟩
  simp only [quote, decodeString, List.dropLast_concat]
  rw [h2 _ (by simp)]

theorem decodeRaw_plain {v : Bytes} (h : plain v) :
    decodeRaw (stripInsignificant false false v) = some (stripInsignificant false false v) := by
  obtain ⟨c, o, h1, _, _, _, h5⟩ := strip_head_of_valid h.1
  rw [h1]
  simp only [decodeRaw]
  split
  · rename_i heq
    simp only [List.cons.injEq] at heq
    exact absurd (h5 heq.1) h.2.1
  · rfl

theorem assignAll_append (m : rpcMessage) (a b : List (Bytes × Bytes)) :
    assignAll m (a ++ b) =
      match assignAll m a with
      | .error err => .error err
      | .ok m' => assignAll m' b := by
  induction a generalizing m with
  | nil => rfl
  | cons kv a ih =>
    simp only [List.cons_append, assignAll]
    cases assign m kv with
    | error err => rfl
    | ok m' => exact ih m'

theorem assign_jsonrpc (m : rpcMessage) (v : Bytes) :
    assign m (ofString "jsonrpc", v) =
      match decodeString v with
      | .error err => .error err
      | .ok none => .ok m
      | .ok (some s) => .ok { m with JSONRPC := s } := by
  rfl

theorem assign_method (m : rpcMessage) (v : Bytes) :
    assign m (ofString "method", v) =
      match decodeString v with
      | .error err => .error err
      | .ok none => .ok m
      | .ok (some s) => .ok { m with Method := s } := by
  rfl

theorem assign_id (m : rpcMessage) (v : Bytes) :
    assign m (ofString "id", v) = .ok { m with ID := decodeRaw v } := by
  rfl

theorem assign_params (m : rpcMessage) (v : Bytes) :
    assign m (ofString "params", v) = .ok { m with Params := decodeRaw v } := by
  rfl

theorem assign_result (m : rpcMessage) (v : Bytes) :
    assign m (ofString "result", v) = .ok { m with Result := decodeRaw v } := by
  rfl

end json

namespace json

theorem membersOf_ok (m : rpcMessage)
    (hid : ∀ raw ∈ m.ID, plain raw) (hp : ∀ raw ∈ m.Params, plain raw)
    (hr : ∀ raw ∈ m.Result, plain raw) :
    ∀ kv ∈ membersOf m, plainKey kv.1 ∧ Stable (maxNestingDepth - 1) kv.2 := by
  have hraw : ∀ (name : Bytes) (v : Option Bytes), plainKey name → (∀ raw ∈ v, plain raw) →
      ∀ kv ∈ rawMember name v, plainKey kv.1 ∧ Stable (maxNestingDepth - 1) kv.2 := by
    intro name v hn hv kv hkv
    cases v with
    | none => simp [rawMember] at hkv
    | some raw =>
      simp only [rawMember, List.mem_singleton] at hkv
      subst hkv
      exact ⟨hn, strip_stable_of_valid (hv raw rfl).1⟩
  intro kv hkv
  simp only [membersOf, List.mem_cons, List.mem_append] at hkv
  rcases hkv with rfl | ((h | h) | h) | h
  · exact ⟨by simp only [plainKey]; decide, (quote_stable _).mono (Nat.zero_le _)⟩
  · exact hraw _ _ (by simp only [plainKey]; decide) hid kv h
  · split_ifs at h with hm
    · simp at h
    · simp only [List.mem_singleton] at h
      subst h
      exact ⟨by simp only [plainKey]; decide, (quote_stable _).mono (Nat.zero_le _)⟩
  · exact hraw _ _ (by simp only [plainKey]; decide) hp kv h
  · exact hraw _ _ (by simp only [plainKey]; decide) hr kv h

theorem assignAll_membersOf (m : rpcMessage)
    (hid : ∀ raw ∈ m.ID, plain raw) (hp : ∀ raw ∈ m.Params, plain raw)
    (hr : ∀ raw ∈ m.Result, plain raw) :
    ∃ ver meth,
      assignAll { JSONRPC := [], ID := none, Method := [], Params := none, Result := none,
                  Error := none } (membersOf m)
        = .ok { JSONRPC := ver
                ID := m.ID.map (stripInsignificant false false)
                Method := meth
                Params := m.Params.map (stripInsignificant false false)
                Result := m.Result.map (stripInsignificant false false)
                Error := none } ∧
      (utf8.ValidString m.JSONRPC = true → ver = m.JSONRPC) ∧
      (utf8.ValidString m.Method = true → meth = m.Method) := by
  obtain ⟨ver, hver, hver'⟩ := decodeString_quote m.JSONRPC
  obtain ⟨meth, hmeth, hmeth'⟩ := decodeString_quote m.Method
  have hidr : ∀ m0 : rpcMessage, assignAll m0 (rawMember (ofString "id") m.ID)
      = .ok (match m.ID with
        | none => m0
        | some raw => { m0 with ID := some (stripInsignificant false false raw) }) := by
    intro m0
    cases h : m.ID with
    | none => rfl
    | some raw =>
      simp only [rawMember, assignAll, assign_id, decodeRaw_plain (hid raw (by simp [h]))]
  have hpr : ∀ m0 : rpcMessage, assignAll m0 (rawMember (ofString "params") m.Params)
      = .ok (match m.Params with
        | none => m0
        | some raw => { m0 with Params := some (stripInsignificant false false raw) }) := by
    intro m0
    cases h : m.Params with
    | none => rfl
    | some raw =>
      simp only [rawMember, assignAll, assign_params, decodeRaw_plain (hp raw (by simp [h]))]
  have hrr : ∀ m0 : rpcMessage, assignAll m0 (rawMember (ofString "result") m.Result)
      = .ok (match m.Result with
        | none => m0
        | some raw => { m0 with Result := some (stripInsignificant false false raw) }) := by
    intro m0
    cases h : m.Result with
    | none => rfl
    | some raw =>
      simp only [rawMember, assignAll, assign_result, decodeRaw_plain (hr raw (by simp [h]))]
  refine ⟨ver, if m.Method = [] then [] else meth, ?_, hver', fun hv => ?_⟩
  · simp only [membersOf, assignAll, assign_jsonrpc, hver, assignAll_append, hidr, hpr, hrr]
    by_cases hm : m.Method = []
    · simp only [if_pos hm, assignAll]
      cases m.ID <;> cases m.Params <;> cases m.Result <;> rfl
    · simp only [if_neg hm, assignAll, assign_method, hmeth]
      cases m.ID <;> cases m.Params <;> cases m.Result <;> rfl
  · by_cases hm : m.Method = []
    · rw [if_pos hm, hm]
    · rw [if_neg hm, hmeth' hv]

theorem Unmarshal_Marshal (ev : Bytes → Except Err Bytes) (m : rpcMessage)
    (hid : ∀ raw ∈ m.ID, plain raw) (hp : ∀ raw ∈ m.Params, plain raw)
    (hr : ∀ raw ∈ m.Result, plain raw) (herr : m.Error = none) :
    ∃ body ver meth, Marshal ev m = .ok body ∧ body ≠ [] ∧
      Unmarshal body
        = .ok { JSONRPC := ver
                ID := m.ID.map (stripInsignificant false false)
                Method := meth
                Params := m.Params.map (stripInsignificant false false)
                Result := m.Result.map (stripInsignificant false false)
                Error := none } ∧
      (utf8.ValidString m.JSONRPC = true → ver = m.JSONRPC) ∧
      (utf8.ValidString m.Method = true → meth = m.Method) := by
  obtain ⟨ver, meth, h1, h2, h3⟩ := assignAll_membersOf m hid hp hr
  refine ⟨_, ver, meth, Marshal_eq ev m hid hp hr herr, by simp, ?_, h2, h3⟩
  rw [Unmarshal_membersText _ (by simp [membersOf]) (membersOf_ok m hid hp hr), h1]

end json

/-! ### The model of encoding/json on the example messages -/

/-- On the request of the round-trip test the library written out agrees with the table
`exampleCodec`. -/
theorem json_codec_on_exampleMessage :
    json.Marshal json.unsupportedValue exampleMessage = .ok exampleBody ∧
    json.Unmarshal exampleBody = .ok exampleMessage :=
  ⟨rfl, rfl⟩

/-- On the request with params null the library written out agrees with the table
`nullParamsCodec`: the JSON null is read back as a nil pointer. -/
theorem json_codec_on_nullParamsMessage :
    json.Marshal json.unsupportedValue nullParamsMessage = .ok nullParamsBody ∧
    json.Unmarshal nullParamsBody = .ok { nullParamsMessage with Params := none } :=
  ⟨rfl, rfl⟩

/-- A `<` inside the params comes back as the escape `\u003c`: the params read back are
not the params sent, also modulo white space. -/
theorem round_trip_escapes_html :
    (transport.Read (json.codec json.unsupportedValue)
        { (⟨⟨[], false⟩, []⟩ : transport) with
          reader := (transport.Send (json.codec json.unsupportedValue) ⟨⟨[], false⟩, []⟩
            htmlParamsMessage).1.rw.data }).1
      = .ok { htmlParamsMessage with Params := some (ofString "\"a\\u003cb\"") } ∧
    ¬ json.equalModuloWhitespace (some (ofString "\"a\\u003cb\"")) htmlParamsMessage.Params :=
  ⟨rfl, by unfold json.equalModuloWhitespace; decide⟩

/-- A method that is not valid UTF-8 comes back with U+FFFD in place of the invalid
byte. -/
theorem round_trip_replaces_invalid_utf8 :
    (transport.Read (json.codec json.unsupportedValue)
        { (⟨⟨[], false⟩, []⟩ : transport) with
          reader := (transport.Send (json.codec json.unsupportedValue) ⟨⟨[], false⟩, []⟩
            invalidMethodMessage).1.rw.data }).1
      = .ok { invalidMethodMessage with Method := [0xEF, 0xBF, 0xBD] } :=
  rfl

/-- The library written out reads a message without error, with plain raw fields and a
body within the limit of the allocator, back from its own encoding with the raw fields
stripped of their insignificant white space; the strings are those of the message when they
are valid UTF-8. -/
theorem json.codec_decodes (encodeValue : Bytes → Except Err Bytes) (m : rpcMessage)
    (hid : ∀ raw ∈ m.ID, json.plain raw) (hparams : ∀ raw ∈ m.Params, json.plain raw)
    (hresult : ∀ raw ∈ m.Result, json.plain raw) (herror : m.Error = none)
    (hversion : utf8.ValidString m.JSONRPC = true) (hmethod : utf8.ValidString m.Method = true)
    (hmax : ∀ body, json.Marshal encodeValue m = .ok body → body.length ≤ runtime.maxAlloc) :
    (json.codec encodeValue).decodes m
      { m with ID := m.ID.map (json.stripInsignificant false false)
               Params := m.Params.map (json.stripInsignificant false false)
               Result := m.Result.map (json.stripInsignificant false false) } := by
  obtain ⟨body, ver, meth, hm, hne, hu, hver, hmeth⟩ :=
    json.Unmarshal_Marshal encodeValue m hid hparams hresult herror
  refine ⟨body, hm, hne, hmax body hm, ?_⟩
  show json.Unmarshal body = _
  rw [hu, hver hversion, hmeth hmethod, herror]

/-! ## The frame codec: claims C1 to C7 -/

/-- C1, as amended. Round trip of the frame codec, with encoding/json written out. Let `m`
be a message without error whose id, params and result, where present, are plain JSON
texts (valid, nested less than 10000 deep, not the value null, and without `<`, `>`, `&`,
U+2028 and U+2029), whose method is valid UTF-8, and whose encoding is within the limit of
the allocator. Then Send on a fresh open endpoint succeeds, and Read on the paired endpoint,
whose input is what Send wrote, returns without error and leaves no input behind. The
message it returns has the id, the params and the result of `m` with their insignificant
white space removed (so they equal those of `m` modulo insignificant white space, and
absent ones are absent), the method of `m`, no error, and the version string of `m` when
that is valid UTF-8; when the id is written without insignificant white space it is the id
of `m` byte for byte. -/
theorem send_then_read_round_trip (encodeValue : Bytes → Except Err Bytes) (s r : transport)
    (m : rpcMessage)
    (hopen : s.rw.closed = false) (hfresh : s.rw.data = [])
    (hid : ∀ raw ∈ m.ID, json.plain raw) (hparams : ∀ raw ∈ m.Params, json.plain raw)
    (hresult : ∀ raw ∈ m.Result, json.plain raw) (herror : m.Error = none)
    (hmethod : utf8.ValidString m.Method = true)
    (hmax : ∀ body, json.Marshal encodeValue m = .ok body → body.length ≤ runtime.maxAlloc) :
    (transport.Send (json.codec encodeValue) s m).2 = none ∧
    ∃ got, transport.Read (json.codec encodeValue)
          { r with reader := (transport.Send (json.codec encodeValue) s m).1.rw.data }
        = (.ok got, { r with reader := [] }) ∧
      got.ID = m.ID.map (json.stripInsignificant false false) ∧
      got.Method = m.Method ∧
      got.Params = m.Params.map (json.stripInsignificant false false) ∧
      got.Result = m.Result.map (json.stripInsignificant false false) ∧
      got.Error = none ∧
      (utf8.ValidString m.JSONRPC = true → got.JSONRPC = m.JSONRPC) ∧
      json.equalModuloWhitespace got.ID m.ID ∧
      json.equalModuloWhitespace got.Params m.Params ∧
      json.equalModuloWhitespace got.Result m.Result ∧
      ((∀ raw ∈ m.ID, json.stripInsignificant false false raw = raw) →
        fieldsPreserved m got) := by
  obtain ⟨body, ver, meth, hm, hne, hu, hver, hmeth⟩ :=
    json.Unmarshal_Marshal encodeValue m hid hparams hresult herror
  have hm' : (json.codec encodeValue).Marshal m = .ok body := hm
  have hu' : (json.codec encodeValue).Unmarshal body = _ := hu
  have hread := transport.Read_frame (json.codec encodeValue)
    { r with reader := contentLengthHeader body.length ++ body ++ [] } body [] hne
    (hmax body hm) rfl
  simp only [List.append_nil] at hread
  have hmod : ∀ v : Option Bytes, (∀ raw ∈ v, json.plain raw) →
      json.equalModuloWhitespace (v.map (json.stripInsignificant false false)) v := by
    intro v hv
    cases v with
    | none => rfl
    | some raw =>
      simp only [json.equalModuloWhitespace, Option.map_some', Option.some.injEq]
      exact json.strip_strip_of_valid (hv raw rfl).1
  rw [transport.Send_ok _ s m body hm' hopen]
  refine ⟨rfl,
    { JSONRPC := ver
      ID := m.ID.map (json.stripInsignificant false false)
      Method := meth
      Params := m.Params.map (json.stripInsignificant false false)
      Result := m.Result.map (json.stripInsignificant false false)
      Error := none },
    ?_, rfl, hmeth hmethod, rfl, rfl, rfl, hver, hmod _ hid, hmod _ hparams,
    hmod _ hresult, fun hc => ?_⟩
  · simp only [hfresh, List.nil_append]
    rw [hread, hu']
  · refine ⟨?_, hmeth hmethod, hmod _ hparams, fun h => ?_, fun _ => rfl⟩
    · show m.ID.map (json.stripInsignificant false false) = m.ID
      cases h : m.ID with
      | none => rfl
      | some raw => simp only [Option.map_some', hc raw (by simp [h])]
    · show m.Result.map (json.stripInsignificant false false) = none
      rw [h]; rfl

/-- C1 at the request of the round-trip test, sent on a fresh pipe: Read returns the
request itself. -/
theorem send_then_read_round_trip_witness :
    transport.Read (json.codec json.unsupportedValue)
        { (⟨⟨[], false⟩, []⟩ : transport) with
          reader := (transport.Send (json.codec json.unsupportedValue) ⟨⟨[], false⟩, []⟩
            exampleMessage).1.rw.data }
      = (.ok exampleMessage, ⟨⟨[], false⟩, []⟩) ∧
    ((transport.Send (json.codec json.unsupportedValue) ⟨⟨[], false⟩, []⟩ exampleMessage).2
        = none ∧
      ∃ got, transport.Read (json.codec json.unsupportedValue)
            { (⟨⟨[], false⟩, []⟩ : transport) with
              reader := (transport.Send (json.codec json.unsupportedValue) ⟨⟨[], false⟩, []⟩
                exampleMessage).1.rw.data }
          = (.ok got, { (⟨⟨[], false⟩, []⟩ : transport) with reader := [] }) ∧
        got.ID = exampleMessage.ID.map (json.stripInsignificant false false) ∧
        got.Method = exampleMessage.Method ∧
        got.Params = exampleMessage.Params.map (json.stripInsignificant false false) ∧
        got.Result = exampleMessage.Result.map (json.stripInsignificant false false) ∧
        got.Error = none ∧
        (utf8.ValidString exampleMessage.JSONRPC = true →
          got.JSONRPC = exampleMessage.JSONRPC) ∧
        json.equalModuloWhitespace got.ID exampleMessage.ID ∧
        json.equalModuloWhitespace got.Params exampleMessage.Params ∧
        json.equalModuloWhitespace got.Result exampleMessage.Result ∧
        ((∀ raw ∈ exampleMessage.ID, json.stripInsignificant false false raw = raw) →
          fieldsPreserved exampleMessage got)) :=
  ⟨rfl,
    send_then_read_round_trip json.unsupportedValue ⟨⟨[], false⟩, []⟩ ⟨⟨[], false⟩, []⟩
      exampleMessage rfl rfl
      (fun raw h => by
        simp only [exampleMessage, Option.mem_def, Option.some.injEq] at h
        subst h
        exact ⟨rfl, by decide, rfl⟩)
      (fun raw h => by
        simp only [exampleMessage, Option.mem_def, Option.some.injEq] at h
        subst h
        exact ⟨rfl, by decide, rfl⟩)
      (fun raw h => by simp [exampleMessage] at h)
      rfl rfl
      (fun body h => by
        have hb : json.Marshal json.unsupportedValue exampleMessage = .ok exampleBody := rfl
        rw [hb] at h
        injection h with h
        subst h
        decide)⟩

/-- C1, counterexample. A request with an id, a method and the valid JSON params `null` is
sent and read back on the paired endpoint: Read succeeds, but the message it returns has no
params (encoding/json decodes the JSON null into a nil pointer), so its params bytes are
not those of the message sent. -/
theorem round_trip_loses_null_params :
    ¬ ∃ got, (transport.Read nullParamsCodec
        { (⟨⟨[], false⟩, []⟩ : transport) with
          reader := (transport.Send nullParamsCodec ⟨⟨[], false⟩, []⟩ nullParamsMessage).1.rw.data }).1
        = .ok got ∧ fieldsPreserved nullParamsMessage got := by
  have h : (transport.Read nullParamsCodec
      { (⟨⟨[], false⟩, []⟩ : transport) with
        reader := (transport.Send nullParamsCodec ⟨⟨[], false⟩, []⟩ nullParamsMessage).1.rw.data }).1
      = .ok { nullParamsMessage with Params := none } := rfl
  rintro ⟨got, hgot, hp⟩
  rw [h] at hgot
  injection hgot with hgot
  subst hgot
  have := hp.2.2.1
  simp [json.equalModuloWhitespace, nullParamsMessage] at this

/-- C2. Wire format of Send. When the message serializes to a body `b` and the stream
accepts the writes (the pipe is open), Send returns nil and has appended to the stream
exactly "Content-Length: ", the decimal numeral of the byte length of `b`, "\r\n\r\n" and
`b`; nothing else of the transport changes. -/
theorem send_wire_format (J : JsonCodec) (s : transport) (m : rpcMessage) (b : Bytes)
    (hm : J.Marshal m = .ok b) (hopen : s.rw.closed = false) :
    transport.Send J s m =
      ({ s with rw := { s.rw with
          data := s.rw.data ++
            (ofString "Content-Length: " ++ decimal b.length ++ ofString "\r\n\r\n" ++ b) } },
       none) := by
  rw [transport.Send_ok J s m b hm hopen, ← FormatInt_eq_decimal]
  simp [contentLengthHeader, hopen]

/-- C2 at the request of the round-trip test, sent on a fresh pipe. -/
theorem send_wire_format_witness :
    transport.Send exampleCodec ⟨⟨[], false⟩, []⟩ exampleMessage =
      ({ (⟨⟨[], false⟩, []⟩ : transport) with rw := { (⟨[], false⟩ : io.Pipe) with
          data := [] ++
            (ofString "Content-Length: " ++ decimal exampleBody.length ++ ofString "\r\n\r\n"
              ++ exampleBody) } },
       none) :=
  send_wire_format exampleCodec ⟨⟨[], false⟩, []⟩ exampleMessage exampleBody rfl rfl
/-- C3, as amended. Frame-by-frame decoding. Let the messages `ms` be written by
successive Sends on a fresh open endpoint, each of them being read back by encoding/json
from its own encoding as the corresponding message of `decoded` (the message itself when
the library reads it back unchanged). Then all Sends succeed and, on a reader that holds
the written bytes followed by any `rest`, the first `k` calls of Read (for every `k` up to
the number of messages) return the first `k` decoded messages in wire order and leave in the
reader exactly the encodings of the remaining messages followed by `rest`: every Read
consumes one header block and the declared number of body bytes. -/
theorem reads_return_frames_in_order (J : JsonCodec) (s r : transport)
    (ms decoded : List rpcMessage) (rest : Bytes)
    (hopen : s.rw.closed = false) (hfresh : s.rw.data = [])
    (hjson : List.Forall₂ J.decodes ms decoded) :
    (transport.sendAll J s ms).2 = none ∧
    ∀ k, k ≤ ms.length →
      transport.readN J k { r with reader := (transport.sendAll J s ms).1.rw.data ++ rest }
        = ((decoded.take k).map ReadResult.ok,
           { r with reader := (transport.sendAll J s (ms.drop k)).1.rw.data ++ rest }) := by
  induction hjson with
  | nil =>
    refine ⟨rfl, ?_⟩
    intro k hk
    have : k = 0 := by simpa using hk
    subst this
    simp [transport.readN, transport.sendAll]
  | @cons m m' ms decoded hd _ ih =>
    obtain ⟨body, hm, hne, hlen, hu⟩ := hd
    obtain ⟨hdata, herr⟩ := transport.sendAll_cons_data J s m ms body hm hopen hfresh
    refine ⟨by rw [herr]; exact ih.1, ?_⟩
    intro k hk
    cases k with
    | zero => simp [transport.readN]
    | succ k =>
      have hk' : k ≤ ms.length := by simpa using hk
      have hread := transport.Read_frame J
        { r with reader := (transport.sendAll J s (m :: ms)).1.rw.data ++ rest } body
        ((transport.sendAll J s ms).1.rw.data ++ rest) hne hlen
        (by simp only [hdata]; simp)
      simp only [transport.readN, hread, hu, ih.2 k hk']
      simp

/-- C3 for two frames followed by three stray bytes. -/
theorem reads_return_frames_in_order_witness :
    (transport.sendAll exampleCodec ⟨⟨[], false⟩, []⟩ [exampleMessage, exampleMessage]).2 = none ∧
    ∀ k, k ≤ [exampleMessage, exampleMessage].length →
      transport.readN exampleCodec k
          { (⟨⟨[], false⟩, []⟩ : transport) with
            reader := (transport.sendAll exampleCodec ⟨⟨[], false⟩, []⟩
              [exampleMessage, exampleMessage]).1.rw.data ++ [1, 2, 3] }
        = (([exampleMessage, exampleMessage].take k).map ReadResult.ok,
           { (⟨⟨[], false⟩, []⟩ : transport) with
             reader := (transport.sendAll exampleCodec ⟨⟨[], false⟩, []⟩
               ([exampleMessage, exampleMessage].drop k)).1.rw.data ++ [1, 2, 3] }) :=
  reads_return_frames_in_order exampleCodec ⟨⟨[], false⟩, []⟩ ⟨⟨[], false⟩, []⟩
    [exampleMessage, exampleMessage] [exampleMessage, exampleMessage] [1, 2, 3] rfl rfl
    (List.Forall₂.cons ⟨exampleBody, rfl, by decide, by decide, rfl⟩
      (List.Forall₂.cons ⟨exampleBody, rfl, by decide, by decide, rfl⟩ List.Forall₂.nil))

/-- C3, counterexample. The stream holds the Send encoding of one message, a request whose
params are the JSON value null. The Read of that frame succeeds and consumes it, but the
message it returns is not the message sent: it has no params. -/
theorem reads_do_not_return_null_params :
    (transport.sendAll nullParamsCodec ⟨⟨[], false⟩, []⟩ [nullParamsMessage]).2 = none ∧
    transport.readN nullParamsCodec 1
        ⟨⟨[], false⟩,
          (transport.sendAll nullParamsCodec ⟨⟨[], false⟩, []⟩ [nullParamsMessage]).1.rw.data⟩
      = ([.ok { nullParamsMessage with Params := none }], ⟨⟨[], false⟩, []⟩) ∧
    (transport.readN nullParamsCodec 1
        ⟨⟨[], false⟩,
          (transport.sendAll nullParamsCodec ⟨⟨[], false⟩, []⟩ [nullParamsMessage]).1.rw.data⟩).1
      ≠ [.ok nullParamsMessage] := by
  have h : transport.readN nullParamsCodec 1
      ⟨⟨[], false⟩,
        (transport.sendAll nullParamsCodec ⟨⟨[], false⟩, []⟩ [nullParamsMessage]).1.rw.data⟩
      = ([.ok { nullParamsMessage with Params := none }], ⟨⟨[], false⟩, []⟩) := by rfl
  refine ⟨by rfl, h, ?_⟩
  rw [h]
  decide

/-- C4. Malformed length header. Let the reader hold header lines `pre` (complete, not
blank), then a line whose key is Content-Length and whose value is not a decimal integer or
is negative, then any bytes `after`. Then Read fails with the error "invalid Content-Length:
..." whatever follows; and when no earlier line is such a bad line, the error carries the
value of this line and Read stops right behind it: nothing of `after` is consumed. -/
theorem read_rejects_malformed_content_length (J : JsonCodec) (t : transport)
    (pre : List Bytes) (l after : Bytes)
    (hpre : ∀ p ∈ pre, isHeaderLine p) (hl : 10 ∉ l) (hbad : isBadLengthLine l)
    (hr : t.reader = headerLines pre ++ (l ++ 10 :: after)) :
    (∃ val, (transport.Read J t).1 = .error (.invalidContentLength val)) ∧
    ((∀ p ∈ pre, ¬ isBadLengthLine p) →
      ∃ k v, l = k ++ 58 :: v ∧ 58 ∉ k ∧
        transport.Read J t
          = (.error (.invalidContentLength (transport.lineValue v)), { t with reader := after })) := by
  obtain ⟨k, v, hkv, hk, hkey, hval⟩ := hbad
  have hline : transport.headerLine (l ++ [10]) = .invalid (transport.lineValue v) := by
    rw [hkv]; exact transport.headerLine_bad k v hk hkey hval
  have hA : ∀ cl, transport.readHeaders (l ++ 10 :: after).length cl (l ++ 10 :: after)
      = (.error (.invalidContentLength (transport.lineValue v)), after) := by
    intro cl
    rw [transport.readHeaders_line _ cl l after hl (le_refl _), hline]
  constructor
  · obtain ⟨val, hv⟩ := transport.readHeaders_pre_invalid pre hpre (l ++ 10 :: after)
      (fun cl => ⟨_, by rw [hA cl]⟩) 0
    refine ⟨val, ?_⟩
    unfold transport.Read
    rw [hr]
    rcases hh : transport.readHeaders (headerLines pre ++ (l ++ 10 :: after)).length 0
      (headerLines pre ++ (l ++ 10 :: after)) with ⟨res, left⟩
    rw [hh] at hv
    simp only at hv
    subst hv
    rfl
  · intro hgood
    obtain ⟨cl', hpass⟩ := transport.readHeaders_pre_pass pre hpre hgood (l ++ 10 :: after) 0
    refine ⟨k, v, hkv, hk, ?_⟩
    unfold transport.Read
    rw [hr, hpass, hA cl']

/-- C4 at the input of the malformed-header test, after one other header. -/
theorem read_rejects_malformed_content_length_witness :
    (∃ val, (transport.Read exampleCodec
        ⟨⟨[], false⟩, headerLines [ofString "Host: a\r"] ++
          (ofString "Content-Length: abc\r" ++ 10 :: ofString "\r\nxyz")⟩).1
        = .error (.invalidContentLength val)) ∧
    ((∀ p ∈ [ofString "Host: a\r"], ¬ isBadLengthLine p) →
      ∃ k v, ofString "Content-Length: abc\r" = k ++ 58 :: v ∧ 58 ∉ k ∧
        transport.Read exampleCodec
            ⟨⟨[], false⟩, headerLines [ofString "Host: a\r"] ++
              (ofString "Content-Length: abc\r" ++ 10 :: ofString "\r\nxyz")⟩
          = (.error (.invalidContentLength (transport.lineValue v)),
             { (⟨⟨[], false⟩, headerLines [ofString "Host: a\r"] ++
                 (ofString "Content-Length: abc\r" ++ 10 :: ofString "\r\nxyz")⟩ : transport)
               with reader := ofString "\r\nxyz" })) :=
  read_rejects_malformed_content_length exampleCodec _ [ofString "Host: a\r"]
    (ofString "Content-Length: abc\r") (ofString "\r\nxyz")
    (by
      intro p hp
      have : p = ofString "Host: a\r" := by simpa using hp
      subst this
      exact ⟨by decide, by decide⟩)
    (by decide)
    ⟨ofString "Content-Length", ofString " abc\r", by decide, by decide, by decide,
      by
        intro n hn
        have : strconv.Atoi (transport.lineValue (ofString " abc\r")) = none := by decide
        rw [this] at hn
        exact absurd hn (by simp)⟩
    rfl

/-- C5. Mandatory length header. Let the reader hold header lines none of which carries a
Content-Length (each has another key or no colon; there may be none), then a blank line,
then any bytes `rest`. Then Read fails with the error "missing or invalid Content-Length",
returns no message and leaves `rest` untouched. -/
theorem read_requires_content_length (J : JsonCodec) (t : transport)
    (ls : List Bytes) (b rest : Bytes)
    (hls : ∀ l ∈ ls, isOtherLine l) (hb : ∀ c ∈ b, c = 13)
    (hr : t.reader = headerLines ls ++ (b ++ 10 :: rest)) :
    transport.Read J t
      = (.error (.msg "missing or invalid Content-Length"), { t with reader := rest }) := by
  have hskip := transport.readHeaders_skip ls (b ++ 10 :: rest)
    (fun l hl => transport.headerLine_other l (hls l hl)) 0
  have hb10 : 10 ∉ b := by
    intro h
    have := hb 10 h
    omega
  unfold transport.Read
  rw [hr, hskip, transport.readHeaders_line _ 0 b rest hb10 (le_refl _),
    transport.headerLine_blank b hb]
  simp

/-- C5 for a header block with another header and a line without colon. -/
theorem read_requires_content_length_witness :
    transport.Read exampleCodec
        ⟨⟨[], false⟩, headerLines [ofString "Content-Type: x\r", ofString "garbage\r"] ++
          ([13] ++ 10 :: exampleBody)⟩
      = (.error (.msg "missing or invalid Content-Length"),
         { (⟨⟨[], false⟩, headerLines [ofString "Content-Type: x\r", ofString "garbage\r"] ++
             ([13] ++ 10 :: exampleBody)⟩ : transport) with reader := exampleBody }) :=
  read_requires_content_length exampleCodec _
    [ofString "Content-Type: x\r", ofString "garbage\r"] [13] exampleBody
    (by
      intro l hl
      simp only [List.mem_cons, List.mem_singleton, List.not_mem_nil, or_false] at hl
      rcases hl with h | h
      · subst h
        exact Or.inl ⟨by decide, ofString "Content-Type", ofString " x\r", by decide, by decide,
          by decide⟩
      · subst h
        exact Or.inr ⟨⟨by decide, by decide⟩, by decide⟩)
    (by simp)
    rfl

/-- C6, as amended. Truncated body. Let the reader hold a header block that declares
`n > 0` body bytes, with `n` within the limit of the allocator, followed by only `k < n`
body bytes before the stream ends. Then Read returns no message and consumes the input.
Its error wraps io.ErrUnexpectedEOF when some body bytes arrived (`0 < k`), and io.EOF when
none did (`k = 0`); in both cases it is the "read body" error, not the "unmarshal rpc
message" error of a malformed body. -/
theorem read_truncated_body (J : JsonCodec) (t : transport) (hdr body : Bytes) (n : Int)
    (hdecl : transport.declares hdr n) (hn : 0 < n) (hmax : n ≤ (runtime.maxAlloc : Int))
    (hk : (body.length : Int) < n) (hr : t.reader = hdr ++ body) :
    (body ≠ [] → transport.Read J t
        = (.error (.wrap "read body" .ErrUnexpectedEOF), { t with reader := [] })) ∧
    (body = [] → transport.Read J t
        = (.error (.wrap "read body" .EOF), { t with reader := [] })) ∧
    (∀ e, (transport.Read J t).1 ≠ .error (.wrap "unmarshal rpc message" e)) ∧
    (∀ m, (transport.Read J t).1 ≠ .ok m) ∧
    (∀ p, (transport.Read J t).1 ≠ .panicked p) := by
  have hh := hdecl body
  have hnot : ¬ n ≤ 0 := by omega
  have hfit : ¬ n.toNat > runtime.maxAlloc := by omega
  have hlt : ¬ n.toNat ≤ body.length := by omega
  have hread : transport.Read J t
      = (.error (.wrap "read body" (if body = [] then .EOF else .ErrUnexpectedEOF)),
         { t with reader := [] }) := by
    unfold transport.Read
    rw [hr, hh]
    simp only [hnot, if_false, hfit, io.ReadFull, hlt]
    by_cases hb : body = [] <;> simp [hb]
  refine ⟨?_, ?_, ?_, ?_, ?_⟩
  · intro hb; rw [hread]; simp [hb]
  · intro hb; rw [hread]; simp [hb]
  · intro e; rw [hread]; simp
  · intro m; rw [hread]; simp
  · intro p; rw [hread]; simp

/-- C6 for a header that declares five bytes, followed by two. -/
theorem read_truncated_body_witness :
    (ofString "ab" ≠ [] → transport.Read exampleCodec
        ⟨⟨[], false⟩, contentLengthHeader 5 ++ ofString "ab"⟩
        = (.error (.wrap "read body" .ErrUnexpectedEOF),
           { (⟨⟨[], false⟩, contentLengthHeader 5 ++ ofString "ab"⟩ : transport)
             with reader := [] })) ∧
    (ofString "ab" = [] → transport.Read exampleCodec
        ⟨⟨[], false⟩, contentLengthHeader 5 ++ ofString "ab"⟩
        = (.error (.wrap "read body" .EOF),
           { (⟨⟨[], false⟩, contentLengthHeader 5 ++ ofString "ab"⟩ : transport)
             with reader := [] })) ∧
    (∀ e, (transport.Read exampleCodec
        ⟨⟨[], false⟩, contentLengthHeader 5 ++ ofString "ab"⟩).1
        ≠ .error (.wrap "unmarshal rpc message" e)) ∧
    (∀ m, (transport.Read exampleCodec
        ⟨⟨[], false⟩, contentLengthHeader 5 ++ ofString "ab"⟩).1 ≠ .ok m) ∧
    (∀ p, (transport.Read exampleCodec
        ⟨⟨[], false⟩, contentLengthHeader 5 ++ ofString "ab"⟩).1 ≠ .panicked p) :=
  read_truncated_body exampleCodec _ (contentLengthHeader 5) (ofString "ab") 5
    (transport.declares_contentLengthHeader 5 (by decide)) (by decide) (by decide) (by decide)
    rfl

/-- C6, counterexample. The header "Content-Length: 5" declares five body bytes and the
stream ends right after the blank line, with none of them: Read fails, but its error is
io.EOF (wrapped as "read body"), and errors.Is(err, io.ErrUnexpectedEOF) is false. -/
theorem read_truncated_without_body_is_not_unexpected_eof :
    ¬ ∃ e, (transport.Read exampleCodec
        ⟨⟨[], false⟩, ofString "Content-Length: 5\r\n\r\n"⟩).1 = .error e ∧
      e.Is .ErrUnexpectedEOF = true := by
  have h : (transport.Read exampleCodec
      ⟨⟨[], false⟩, ofString "Content-Length: 5\r\n\r\n"⟩).1
      = .error (.wrap "read body" .EOF) := rfl
  rintro ⟨e, he, hi⟩
  rw [h] at he
  injection he with he
  subst he
  exact absurd hi (by decide)

/-- C7. Header insensitivity. In front of any input `rest`, after header lines `pre`
(complete, not blank): inserting or removing a header line with a key other than
Content-Length does not change the outcome of Read, and neither does replacing the key of a
header line by another spelling of Content-Length that differs in letter case only. The
outcome is the message or the error and, after a message, the input left in the reader. -/
theorem read_header_insensitive (J : JsonCodec) (t : transport) (pre : List Bytes) (rest : Bytes)
    (hpre : ∀ p ∈ pre, isHeaderLine p) :
    (∀ l, isOtherKeyLine l →
      sameOutcome (transport.Read J { t with reader := headerLines pre ++ (l ++ 10 :: rest) })
        (transport.Read J { t with reader := headerLines pre ++ rest })) ∧
    (∀ k k' v, strings.EqualFold k (ofString "Content-Length") = true →
      strings.EqualFold k' (ofString "Content-Length") = true → 10 ∉ v →
      sameOutcome
        (transport.Read J { t with reader := headerLines pre ++ ((k ++ 58 :: v) ++ 10 :: rest) })
        (transport.Read J { t with reader := headerLines pre ++ ((k' ++ 58 :: v) ++ 10 :: rest) })) := by
  constructor
  · intro l hl
    apply transport.Read_sameOutcome
    apply transport.readHeaders_pre_agree pre hpre
    intro cl
    rw [transport.readHeaders_line _ cl l rest hl.1 (le_refl _), transport.headerLine_otherKey l hl]
    exact ⟨rfl, fun _ _ => rfl⟩
  · intro k k' v hk hk' hv
    apply transport.Read_sameOutcome
    apply transport.readHeaders_pre_agree pre hpre
    intro cl
    obtain ⟨hk1, hk2, hk3⟩ := transport.contentLength_spelling k hk
    obtain ⟨hk1', hk2', hk3'⟩ := transport.contentLength_spelling k' hk'
    have h10 : 10 ∉ k ++ 58 :: v := by
      simp only [List.mem_append, List.mem_cons, not_or]
      exact ⟨hk2, by decide, hv⟩
    have h10' : 10 ∉ k' ++ 58 :: v := by
      simp only [List.mem_append, List.mem_cons, not_or]
      exact ⟨hk2', by decide, hv⟩
    rw [transport.readHeaders_line _ cl _ rest h10 (le_refl _),
      transport.readHeaders_line _ cl _ rest h10' (le_refl _),
      transport.headerLine_colon_value k v hk1, transport.headerLine_colon_value k' v hk1',
      hk3, hk3', hk, hk']
    exact ⟨rfl, fun _ _ => rfl⟩

/-- C7 after one other header, in front of a body. -/
theorem read_header_insensitive_witness :
    (∀ l, isOtherKeyLine l →
      sameOutcome
        (transport.Read exampleCodec { (⟨⟨[], false⟩, []⟩ : transport) with
          reader := headerLines [ofString "Host: a\r"] ++ (l ++ 10 :: exampleBody) })
        (transport.Read exampleCodec { (⟨⟨[], false⟩, []⟩ : transport) with
          reader := headerLines [ofString "Host: a\r"] ++ exampleBody })) ∧
    (∀ k k' v, strings.EqualFold k (ofString "Content-Length") = true →
      strings.EqualFold k' (ofString "Content-Length") = true → 10 ∉ v →
      sameOutcome
        (transport.Read exampleCodec { (⟨⟨[], false⟩, []⟩ : transport) with
          reader := headerLines [ofString "Host: a\r"] ++ ((k ++ 58 :: v) ++ 10 :: exampleBody) })
        (transport.Read exampleCodec { (⟨⟨[], false⟩, []⟩ : transport) with
          reader := headerLines [ofString "Host: a\r"] ++ ((k' ++ 58 :: v) ++ 10 :: exampleBody) })) :=
  read_header_insensitive exampleCodec ⟨⟨[], false⟩, []⟩ [ofString "Host: a\r"] exampleBody
    (by
      intro p hp
      have : p = ofString "Host: a\r" := by simpa using hp
      subst this
      exact ⟨by decide, by decide⟩)

/-! ## The client: claims C8 to C10 -/

/-- C8. Correlation uniqueness. Take any sequence of fewer than 2^63 steps of one client
(calls of Start, Request, RegisterNotificationHandler and Shutdown, routed frames, requests
giving up) from a new client. It runs without panic, and the ids taken by the requests that
pass the closed/started checks are 1, 2, 3, ... in this order: each is the previous counter
value plus one, so greater than all ids before it, and the counter ends at their number
(in any state a Request that registers takes the decimal string of the counter after the
atomic add as its key and as the id of its message).
Their decimal strings, the keys, are pairwise distinct; every registration stores its entry
under the decimal string of an id just issued and replaces no existing entry; the keys of the
pending table are pairwise distinct; and as long as no response has arrived and no request
has ended, the table holds exactly as many entries as requests were registered. -/
theorem request_ids_are_unique (rw : io.Pipe) (reader : Bytes) (opts : ClientOptions)
    (as : List Action) (hlen : as.length < 2 ^ 63) :
    ∃ c' evs, (NewClient rw reader opts).run as = .ok (c', evs) ∧
      issuedIds evs = (List.range (issuedIds evs).length).map (fun (i : Nat) => (i : Int) + 1) ∧
      c'.nextID = (issuedIds evs).length ∧
      ((issuedIds evs).map strconv.FormatInt).Nodup ∧
      (∀ key ch replaced, Event.registered key ch replaced ∈ evs →
        replaced = none ∧ ∃ id ∈ issuedIds evs, key = strconv.FormatInt id) ∧
      (c'.pending.map Prod.fst).Nodup ∧
      ((∀ a ∈ as, a.keepsPending = true) → c'.pending.length = registrations evs) ∧
      (∀ (c : Client) method params msg idStr ch,
        (Client.Request.register c method params).2.1 = .ok (msg, idStr, ch) →
        idStr = strconv.FormatInt (atomic.AddInt64 c.nextID 1) ∧ msg.ID = some idStr ∧
        (Client.Request.register c method params).1.nextID = atomic.AddInt64 c.nextID 1 ∧
        Table.get? (Client.Request.register c method params).1.pending idStr = some ch) := by
  obtain ⟨c', evs, hrun, -, -, -, -⟩ :=
    Client.run_inv as (NewClient rw reader opts) (NewClient_Inv rw reader opts)
  have hb : (NewClient rw reader opts).nextID + (as.length : Int) < 2 ^ 63 := by
    have : (NewClient rw reader opts).nextID = 0 := rfl
    rw [this]
    have : ((as.length : Nat) : Int) < ((2 ^ 63 : Nat) : Int) := by exact_mod_cast hlen
    simpa using this
  obtain ⟨hk, hids, hn, hle, hreg, hcount⟩ :=
    Client.run_keys as (NewClient rw reader opts) c' evs (NewClient_KeysIssued rw reader opts)
      hb hrun
  have hzero : (NewClient rw reader opts).nextID = 0 := rfl
  have hp0 : (NewClient rw reader opts).pending.length = 0 := rfl
  rw [hzero] at hids hn
  have hids' : issuedIds evs = (List.range (issuedIds evs).length).map (fun (i : Nat) => (i : Int) + 1) := by
    conv_lhs => rw [hids]
    apply List.map_congr_left
    intro i _
    omega
  refine ⟨c', evs, hrun, hids', by simpa using hn, ?_, hreg, hk.2.2, ?_,
    Client.Request.register_ok⟩
  · rw [hids', List.map_map]
    apply List.Nodup.map_on _ (List.nodup_range _)
    intro i hi j hj heq
    simp only [Function.comp] at heq
    have hi' := List.mem_range.mp hi
    have hj' := List.mem_range.mp hj
    have hlt : ((issuedIds evs).length : Int) < 2 ^ 63 := by
      have : ((as.length : Nat) : Int) < ((2 ^ 63 : Nat) : Int) := by exact_mod_cast hlen
      have h2 : ((2 ^ 63 : Nat) : Int) = 2 ^ 63 := by norm_num
      omega
    have := FormatInt_injective ((i : Int) + 1) ((j : Int) + 1) ⟨by omega, by omega⟩
      ⟨by omega, by omega⟩ heq
    omega
  · intro hall
    rw [hcount hall, hp0]
    omega

/-- C8 for a Start followed by two Requests. -/
theorem request_ids_are_unique_witness :
    ∃ c' evs, (NewClient ⟨[], false⟩ [] ⟨0, false⟩).run
        [.start, .request (ofString "initialize") none,
          .request (ofString "shutdown") (some (.ok (ofString "null")))] = .ok (c', evs) ∧
      issuedIds evs = (List.range (issuedIds evs).length).map (fun (i : Nat) => (i : Int) + 1) ∧
      c'.nextID = (issuedIds evs).length ∧
      ((issuedIds evs).map strconv.FormatInt).Nodup ∧
      (∀ key ch replaced, Event.registered key ch replaced ∈ evs →
        replaced = none ∧ ∃ id ∈ issuedIds evs, key = strconv.FormatInt id) ∧
      (c'.pending.map Prod.fst).Nodup ∧
      ((∀ a ∈ [Action.start, .request (ofString "initialize") none,
          .request (ofString "shutdown") (some (.ok (ofString "null")))],
          a.keepsPending = true) → c'.pending.length = registrations evs) ∧
      (∀ (c : Client) method params msg idStr ch,
        (Client.Request.register c method params).2.1 = .ok (msg, idStr, ch) →
        idStr = strconv.FormatInt (atomic.AddInt64 c.nextID 1) ∧ msg.ID = some idStr ∧
        (Client.Request.register c method params).1.nextID = atomic.AddInt64 c.nextID 1 ∧
        Table.get? (Client.Request.register c method params).1.pending idStr = some ch) :=
  request_ids_are_unique ⟨[], false⟩ [] ⟨0, false⟩
    [.start, .request (ofString "initialize") none,
      .request (ofString "shutdown") (some (.ok (ofString "null")))] (by decide)

/-- C9. Deliver-then-delete. Let `c` be a state that a new client reaches by some sequence
of steps, and let the receive loop route a frame whose id is a key of the pending table,
with slot `ch`. Then the step does not panic; the frame is handed to `ch` (the send is
taken, not dropped), which was open and empty and now holds the frame and is closed; the
entry of the key is removed; every other entry keeps its key, its slot and the state of its
slot, no other channel changes, and neither do the handlers, the counter and the closed
flag. -/
theorem deliver_then_delete (rw : io.Pipe) (reader : Bytes) (opts : ClientOptions)
    (as : List Action) (c : Client) (evs : List Event) (msg : rpcMessage) (key : Bytes)
    (ch : ChanRef)
    (hrun : (NewClient rw reader opts).run as = .ok (c, evs))
    (hid : msg.ID = some key) (hget : Table.get? c.pending key = some ch) :
    ∃ c', c.route msg = .ok (c', [.delivered key ch msg, .closedChan ch, .removed key]) ∧
      c.chans[ch]? = some { buf := none, closed := false } ∧
      c'.chans[ch]? = some { buf := some msg, closed := true } ∧
      c'.pending = Table.delete c.pending key ∧
      Table.get? c'.pending key = none ∧
      (∀ k, k ≠ key → Table.get? c'.pending k = Table.get? c.pending k) ∧
      (∀ e ∈ c.pending, e.1 ≠ key → e ∈ c'.pending ∧ e.2 ≠ ch ∧ c'.chans[e.2]? = c.chans[e.2]?) ∧
      (∀ ch', ch' ≠ ch → c'.chans[ch']? = c.chans[ch']?) ∧
      c'.handlers = c.handlers ∧ c'.nextID = c.nextID ∧ c'.closed = c.closed := by
  obtain ⟨c0, evs0, hrun0, hinv, -, -, -⟩ :=
    Client.run_inv as (NewClient rw reader opts) (NewClient_Inv rw reader opts)
  rw [hrun] at hrun0
  simp only [Except.ok.injEq, Prod.mk.injEq] at hrun0
  obtain ⟨hc, -⟩ := hrun0
  subst hc
  obtain ⟨hroute, hopen⟩ := Client.route_pending c hinv msg key ch hid hget
  refine ⟨_, hroute, hopen, getElem?_set_self _ _ _ _ hopen, rfl, Table.get?_delete_self _ _,
    fun k hk => Table.get?_delete_ne _ _ _ hk, ?_, ?_, rfl, rfl, rfl⟩
  · intro e he hne
    have hmem := Table.mem_of_get? _ _ _ hget
    have hch : e.2 ≠ ch := by
      intro heq
      have := List.inj_on_of_nodup_map hinv.2 he hmem heq
      rw [this] at hne
      exact hne rfl
    exact ⟨(Table.mem_delete _ _ _).mpr ⟨he, hne⟩, hch,
      getElem?_set_other _ _ _ _ (fun h => hch h.symm)⟩
  · intro ch' hne
    exact getElem?_set_other _ _ _ _ (fun h => hne h.symm)

/-- C9 for the response to the first request of a started client. -/
theorem deliver_then_delete_witness :
    ∃ c', exampleClient.route exampleResponse
        = .ok (c', [.delivered (ofString "1") 0 exampleResponse, .closedChan 0,
            .removed (ofString "1")]) ∧
      exampleClient.chans[(0 : ChanRef)]? = some { buf := none, closed := false } ∧
      c'.chans[(0 : ChanRef)]? = some { buf := some exampleResponse, closed := true } ∧
      c'.pending = Table.delete exampleClient.pending (ofString "1") ∧
      Table.get? c'.pending (ofString "1") = none ∧
      (∀ k, k ≠ ofString "1" → Table.get? c'.pending k = Table.get? exampleClient.pending k) ∧
      (∀ e ∈ exampleClient.pending, e.1 ≠ ofString "1" →
        e ∈ c'.pending ∧ e.2 ≠ 0 ∧ c'.chans[e.2]? = exampleClient.chans[e.2]?) ∧
      (∀ ch', ch' ≠ 0 → c'.chans[ch']? = exampleClient.chans[ch']?) ∧
      c'.handlers = exampleClient.handlers ∧ c'.nextID = exampleClient.nextID ∧
      c'.closed = exampleClient.closed :=
  deliver_then_delete ⟨[], false⟩ [] ⟨0, false⟩ [.start, .request (ofString "initialize") none]
    exampleClient [.loopStarted, .issued 1, .registered (ofString "1") 0 none]
    exampleResponse (ofString "1") 0 rfl rfl rfl

/-- C10. At-most-one delivery. Whatever sequence of steps a new client takes (frames routed
by the receive loop, in any order and with any ids, among calls of its methods), it runs
without panic and every channel, that is every pending request, is handed at most one
message. A frame whose id is not in the pending table is discarded: routing it returns
the client unchanged (pending table, handler table and all) with no handler invoked, and the
pass of the receive loop that read it reports that the loop goes on. This is what happens
to a second frame with the id of a request that was just completed. -/
theorem at_most_one_delivery (rw : io.Pipe) (reader : Bytes) (opts : ClientOptions)
    (as : List Action) :
    (∃ c' evs, (NewClient rw reader opts).run as = .ok (c', evs) ∧
      (∀ ch, deliveries ch evs ≤ 1) ∧
      (∀ msg msg' key, msg.ID = some key → msg'.ID = some key →
        ∀ c1 e1, c'.route msg = .ok (c1, e1) → c1.route msg' = .ok (c1, [.discarded msg']))) ∧
    (∀ (c : Client) (msg : rpcMessage) (key : Bytes),
      msg.ID = some key → Table.get? c.pending key = none →
      c.route msg = .ok (c, [.discarded msg]) ∧
      ∀ (J : JsonCodec) (t : transport), c.closed = false →
        transport.Read J ⟨c.rw, c.reader⟩ = (.ok msg, t) →
        Client.receiveLoop.iteration J c
          = .ok ({ c with reader := t.reader }, [.discarded msg], true)) := by
  constructor
  · obtain ⟨c', evs, hrun, hinv, -, hle, -⟩ :=
      Client.run_inv as (NewClient rw reader opts) (NewClient_Inv rw reader opts)
    refine ⟨c', evs, hrun, hle, ?_⟩
    intro msg msg' key hid hid' c1 e1 hroute
    cases hget : Table.get? c'.pending key with
    | none =>
      rw [Client.route_unknown c' msg key hid hget] at hroute
      simp only [Except.ok.injEq, Prod.mk.injEq] at hroute
      rw [← hroute.1]
      exact Client.route_unknown c' msg' key hid' hget
    | some ch =>
      rw [(Client.route_pending c' hinv msg key ch hid hget).1] at hroute
      simp only [Except.ok.injEq, Prod.mk.injEq] at hroute
      rw [← hroute.1]
      exact Client.route_unknown _ msg' key hid' (Table.get?_delete_self _ _)
  · intro c msg key hid hget
    refine ⟨Client.route_unknown c msg key hid hget, ?_⟩
    intro J t hcl hread
    have hroute := Client.route_unknown { c with reader := t.reader } msg key hid hget
    unfold Client.receiveLoop.iteration
    rw [hread]
    simp only [hcl, Bool.false_eq_true, if_false]
    rw [hcl] at hroute
    rw [hroute]

/-! ## The client: claims C11 to C19 -/

/-- C11, as amended. Notification dispatch. Let the receive loop route a frame that carries
a method and no id. If a (non-nil) handler is registered for the method and the frame
carries params, the loop starts that handler exactly once, on the params payload of the
frame; if no handler is registered for the method, or the registered func is nil, or the
frame carries no params, nothing is invoked. In both cases the client is left as it was. -/
theorem notification_dispatch (c : Client) (msg : rpcMessage)
    (hid : msg.ID = none) (hm : msg.Method ≠ []) :
    (∀ h p, Table.get? c.handlers msg.Method = some (some h) → msg.Params = some p →
      c.route msg = .ok (c, [.invoked h p])) ∧
    ((Table.get? c.handlers msg.Method = none ∨ Table.get? c.handlers msg.Method = some none ∨
        msg.Params = none) → c.route msg = .ok (c, [])) := by
  constructor
  · intro h p hh hp
    simp [Client.route, hid, hm, hh, hp]
  · intro hno
    simp only [Client.route, hid, hm, ne_eq, not_false_eq_true, if_true]
    rcases hno with h | h | h
    · simp [h]
    · simp [h]
    · rw [h]
      cases (Table.get? c.handlers msg.Method).join <;> rfl

/-- C11 for a notification with params and the handler registered for its method. -/
theorem notification_dispatch_witness :
    (∀ h p, Table.get? exampleHandlerClient.handlers
          ({ exampleNotification with Params := some (ofString "0") } : rpcMessage).Method
          = some (some h) →
        ({ exampleNotification with Params := some (ofString "0") } : rpcMessage).Params = some p →
      exampleHandlerClient.route { exampleNotification with Params := some (ofString "0") }
        = .ok (exampleHandlerClient, [.invoked h p])) ∧
    ((Table.get? exampleHandlerClient.handlers
          ({ exampleNotification with Params := some (ofString "0") } : rpcMessage).Method = none ∨
        Table.get? exampleHandlerClient.handlers
          ({ exampleNotification with Params := some (ofString "0") } : rpcMessage).Method
          = some none ∨
        ({ exampleNotification with Params := some (ofString "0") } : rpcMessage).Params = none) →
      exampleHandlerClient.route { exampleNotification with Params := some (ofString "0") }
        = .ok (exampleHandlerClient, [])) :=
  notification_dispatch exampleHandlerClient
    { exampleNotification with Params := some (ofString "0") } rfl (by decide)

/-- C11, counterexample. A handler is registered for the method "exit" and the receive loop
routes the notification "exit", which has no id and no params: no handler is invoked. -/
theorem notification_without_params_is_not_dispatched :
    ¬ (Table.get? exampleHandlerClient.handlers exampleNotification.Method = some (some 7) →
      exampleNotification.ID = none →
      ∃ c' evs p, exampleHandlerClient.route exampleNotification = .ok (c', evs) ∧
        Event.invoked 7 p ∈ evs) := by
  intro h
  obtain ⟨c', evs, p, hroute, hmem⟩ := h rfl rfl
  have hr : exampleHandlerClient.route exampleNotification = .ok (exampleHandlerClient, []) := rfl
  rw [hr] at hroute
  simp only [Except.ok.injEq, Prod.mk.injEq] at hroute
  rw [← hroute.2] at hmem
  simp at hmem

/-- C13. Closed is terminal and fails fast. Shutdown leaves the closed flag set, and in
every state with the flag set Start, Request and Notify return at their first check with
an error that says the client is closed; the client is left exactly as it was (nothing is
written to the stream, the counter and the pending table are unchanged, the flag stays set)
and no event happens: no id is issued, no entry registered, no receive loop started. -/
theorem closed_fails_fast (J : JsonCodec) (c : Client) (method : Bytes)
    (params : Option (Except Err Bytes)) (hclosed : c.closed = true) :
    c.Start = (c, some (.msg "client already closed"), []) ∧
    Client.Request.issue J c method params = (c, .error (.msg "client is closed"), []) ∧
    Client.Notify J c method params = (c, some (.msg "client is closed")) ∧
    (∀ (c0 c1 : Client) e evs, c0.Shutdown = .ok (c1, e, evs) → c1.closed = true) := by
  refine ⟨by simp [Client.Start, hclosed], by simp [Client.Request.issue, Client.Request.register, hclosed],
    by simp [Client.Notify, hclosed], ?_⟩
  intro c0 c1 e evs h
  simp only [Client.Shutdown] at h
  split at h
  · rename_i hc
    simp only [Except.ok.injEq, Prod.mk.injEq] at h
    rw [← h.1]; exact hc
  · split at h
    · simp at h
    · simp only [Except.ok.injEq, Prod.mk.injEq] at h
      rw [← h.1]

/-- C13 for the example client after its Shutdown. -/
theorem closed_fails_fast_witness :
    Client.Start exampleClosedClient
      = (exampleClosedClient, some (.msg "client already closed"), []) ∧
    Client.Request.issue exampleCodec exampleClosedClient
        (ofString "initialize") none
      = (exampleClosedClient, .error (.msg "client is closed"), []) ∧
    Client.Notify exampleCodec exampleClosedClient (ofString "initialize") none
      = (exampleClosedClient, some (.msg "client is closed")) ∧
    (∀ (c0 c1 : Client) e evs, c0.Shutdown = .ok (c1, e, evs) → c1.closed = true) :=
  closed_fails_fast exampleCodec exampleClosedClient (ofString "initialize")
    none rfl

/-- C14. Shutdown is idempotent. Whenever a call of Shutdown returns, it returns nil, and a
second call returns nil as well, leaves the client exactly as the first call left it
(pending table, handler table and all) and does nothing: in particular it does not close
the stream again. And in every state that a new client reaches a call of Shutdown does
return. -/
theorem shutdown_idempotent (c c1 : Client) (e1 : Option Err) (evs1 : List Event)
    (h : c.Shutdown = .ok (c1, e1, evs1)) :
    e1 = none ∧ c1.Shutdown = .ok (c1, none, []) ∧
    (∀ rw reader opts as (c' : Client) evs, (NewClient rw reader opts).run as = .ok (c', evs) →
      ∃ c2 evs2, c'.Shutdown = .ok (c2, none, evs2)) := by
  have hcl : c1.closed = true ∧ e1 = none := by
    simp only [Client.Shutdown] at h
    split at h
    · rename_i hc
      simp only [Except.ok.injEq, Prod.mk.injEq] at h
      rw [← h.1]; exact ⟨hc, h.2.1.symm⟩
    · split at h
      · simp at h
      · simp only [Except.ok.injEq, Prod.mk.injEq] at h
        rw [← h.1]; exact ⟨rfl, h.2.1.symm⟩
  refine ⟨hcl.2, by simp [Client.Shutdown, hcl.1], ?_⟩
  intro rw reader opts as c' evs hrun
  obtain ⟨c0, evs0, hrun0, hinv, -, -, -⟩ :=
    Client.run_inv as (NewClient rw reader opts) (NewClient_Inv rw reader opts)
  rw [hrun] at hrun0
  simp only [Except.ok.injEq, Prod.mk.injEq] at hrun0
  obtain ⟨hc, -⟩ := hrun0
  subst hc
  by_cases hc : c'.closed = true
  · exact ⟨c', [], by simp [Client.Shutdown, hc]⟩
  · obtain ⟨chans', evs', hca, -⟩ := closeAll_ok c'.pending c'.chans hinv.1 hinv.2
    refine ⟨{ c' with closed := true, rw := c'.rw.Close, chans := chans', pending := [] },
      .streamClosed :: evs', ?_⟩
    simp [Client.Shutdown, hc, hca]

/-- C14 for the Shutdown of the example client. -/
theorem shutdown_idempotent_witness :
    (none : Option Err) = none ∧
    Client.Shutdown
        exampleClosedClient
      = .ok (exampleClosedClient, none, []) ∧
    (∀ rw reader opts as (c' : Client) evs, (NewClient rw reader opts).run as = .ok (c', evs) →
      ∃ c2 evs2, c'.Shutdown = .ok (c2, none, evs2)) :=
  shutdown_idempotent exampleClient
    exampleClosedClient
    none [.streamClosed, .closedChan 0, .removed (ofString "1")] rfl

/-- C18. Last registration wins. After RegisterNotificationHandler(m, h1) followed by
RegisterNotificationHandler(m, h2) the client is in the state that the second registration
alone would give: the handler table maps `m` to `h2` and has no other entry for `m`, the
handlers of every other method are as before, and so are the pending table, the counter,
the closed flag, the transport, the channels and the stream. -/
theorem last_registration_wins (c : Client) (m : Bytes) (h1 h2 : Option Handler) :
    (c.RegisterNotificationHandler m h1).RegisterNotificationHandler m h2
      = c.RegisterNotificationHandler m h2 ∧
    Table.get? ((c.RegisterNotificationHandler m h1).RegisterNotificationHandler m h2).handlers m
      = some h2 ∧
    ((c.RegisterNotificationHandler m h1).RegisterNotificationHandler m h2).handlers.filter
      (fun e => decide (e.1 = m)) = [(m, h2)] ∧
    (∀ k, k ≠ m →
      Table.get? ((c.RegisterNotificationHandler m h1).RegisterNotificationHandler m h2).handlers k
        = Table.get? c.handlers k) ∧
    ((c.RegisterNotificationHandler m h1).RegisterNotificationHandler m h2).pending = c.pending ∧
    ((c.RegisterNotificationHandler m h1).RegisterNotificationHandler m h2).nextID = c.nextID ∧
    ((c.RegisterNotificationHandler m h1).RegisterNotificationHandler m h2).closed = c.closed ∧
    ((c.RegisterNotificationHandler m h1).RegisterNotificationHandler m h2).hasTransport
      = c.hasTransport ∧
    ((c.RegisterNotificationHandler m h1).RegisterNotificationHandler m h2).chans = c.chans ∧
    ((c.RegisterNotificationHandler m h1).RegisterNotificationHandler m h2).rw = c.rw := by
  have heq : (c.RegisterNotificationHandler m h1).RegisterNotificationHandler m h2
      = c.RegisterNotificationHandler m h2 := by
    simp only [Client.RegisterNotificationHandler, Table.set_set]
  rw [heq]
  refine ⟨rfl, Table.get?_set_self _ _ _, ?_, fun k hk => Table.get?_set_ne _ _ _ _ hk,
    rfl, rfl, rfl, rfl, rfl, rfl⟩
  simp [Client.RegisterNotificationHandler, Table.set, List.filter_cons, Table.filter_delete]

/-- C12. Shutdown releases waiters. In a state that a new client reaches and that is not
closed, Shutdown returns nil and leaves the client closed with an empty pending table; every
slot that was pending is now closed and holds no value. A Request that waits on such a slot
and whose receive is taken gets `(nil, false)` and returns the error "response channel
closed", decoding no result; and whichever case of its select is taken, it returns an error
and decodes no result. -/
theorem shutdown_releases_waiters (rw : io.Pipe) (reader : Bytes) (opts : ClientOptions)
    (as : List Action) (c : Client) (evs : List Event)
    (hrun : (NewClient rw reader opts).run as = .ok (c, evs)) (hopen : c.closed = false) :
    ∃ c' evs', c.Shutdown = .ok (c', none, evs') ∧ c'.closed = true ∧ c'.pending = [] ∧
      ∀ e ∈ c.pending,
        c'.chans[e.2]? = some { buf := none, closed := true } ∧
        (∀ result unmarshal,
          Client.Request.finish c' e.1 e.2 result unmarshal .recv
            = (c', some { err := some (.msg "response channel closed"), decoded := none }, [])) ∧
        (∀ result unmarshal w, ∃ err,
          (Client.Request.finish c' e.1 e.2 result unmarshal w).2.1
            = some { err := some err, decoded := none }) := by
  obtain ⟨c0, evs0, hrun0, hinv, -, -, -⟩ :=
    Client.run_inv as (NewClient rw reader opts) (NewClient_Inv rw reader opts)
  rw [hrun] at hrun0
  simp only [Except.ok.injEq, Prod.mk.injEq] at hrun0
  obtain ⟨hc, -⟩ := hrun0
  subst hc
  obtain ⟨chans', evs', hca, -, hclosed, -, -, -⟩ := closeAll_ok c.pending c.chans hinv.1 hinv.2
  refine ⟨{ c with closed := true, rw := c.rw.Close, chans := chans', pending := [] },
    .streamClosed :: evs', by simp [Client.Shutdown, hopen, hca], rfl, rfl, ?_⟩
  intro e he
  have hch := hclosed e.2 (List.mem_map_of_mem _ he)
  have hrecv : ∀ result unmarshal,
      Client.Request.finish
          { c with closed := true, rw := c.rw.Close, chans := chans', pending := [] }
          e.1 e.2 result unmarshal .recv
        = ({ c with closed := true, rw := c.rw.Close, chans := chans', pending := [] },
           some { err := some (.msg "response channel closed"), decoded := none }, []) := by
    intro result unmarshal
    simp [Client.Request.finish, Client.Request.receive, hch]
  refine ⟨hch, hrecv, ?_⟩
  intro result unmarshal w
  cases w with
  | ctxDone err => exact ⟨err, rfl⟩
  | recv => exact ⟨_, by rw [hrecv]⟩

/-- C12 for the Shutdown of the example client, which has one request in flight. -/
theorem shutdown_releases_waiters_witness :
    ∃ c' evs', exampleClient.Shutdown = .ok (c', none, evs') ∧ c'.closed = true ∧
      c'.pending = [] ∧
      ∀ e ∈ exampleClient.pending,
        c'.chans[e.2]? = some { buf := none, closed := true } ∧
        (∀ result unmarshal,
          Client.Request.finish c' e.1 e.2 result unmarshal .recv
            = (c', some { err := some (.msg "response channel closed"), decoded := none }, [])) ∧
        (∀ result unmarshal w, ∃ err,
          (Client.Request.finish c' e.1 e.2 result unmarshal w).2.1
            = some { err := some err, decoded := none }) :=
  shutdown_releases_waiters ⟨[], false⟩ [] ⟨0, false⟩
    [.start, .request (ofString "initialize") none] exampleClient
    [.loopStarted, .issued 1, .registered (ofString "1") 0 none] rfl rfl

/-- C15. Notification isolation. However the calls of the handlers end, by a return or by a
panic, every handler goroutine returns normally (its deferred function recovers), and the
receive loop runs exactly as it does when all handlers return: the same frames are
delivered, dropped and discarded, the same entries removed, the same final state, and the
loop is never ended by a handler. With fuel above the number of bytes left in the reader
the loop has run until it returns by itself, whatever the fuel. -/
theorem handler_panics_are_isolated (J : JsonCodec) (run : Handler → Bytes → CallOutcome)
    (fuel : Nat) (c : Client) :
    (∀ h p, handlerGoroutine run h p = .returned) ∧
    Client.receiveLoop J run fuel c = Client.receiveLoop J (fun _ _ => .returned) fuel c ∧
    (∀ h, Client.receiveLoop J run fuel c ≠ .error (.handler h)) ∧
    (∀ f1 f2, c.reader.length < f1 → c.reader.length < f2 →
      Client.receiveLoop J run f1 c = Client.receiveLoop J run f2 c) := by
  have hret : ∀ (r : Handler → Bytes → CallOutcome) h p, handlerGoroutine r h p = .returned := by
    intro r h p
    simp only [handlerGoroutine]
    cases r h p <;> rfl
  have hcrash : ∀ (r : Handler → Bytes → CallOutcome) evs, firstCrash r evs = none := by
    intro r evs
    induction evs with
    | nil => rfl
    | cons e evs ih =>
      cases e <;> simp [firstCrash, ih, hret]
  have hloop : ∀ (r : Handler → Bytes → CallOutcome) f (c : Client),
      (∀ h, Client.receiveLoop J r f c ≠ .error (.handler h)) ∧
      Client.receiveLoop J r f c = Client.receiveLoop J (fun _ _ => .returned) f c := by
    intro r f
    induction f with
    | zero => intro c; exact ⟨fun h => by simp [Client.receiveLoop], rfl⟩
    | succ f ih =>
      intro c
      simp only [Client.receiveLoop, hcrash]
      rcases hit : Client.receiveLoop.iteration J c with p | ⟨c', evs, goOn⟩
      · exact ⟨fun h => by simp, rfl⟩
      · simp only
        cases goOn with
        | false => exact ⟨fun h => by simp, rfl⟩
        | true =>
          simp only [if_true]
          obtain ⟨h1, h2⟩ := ih c'
          rw [← h2]
          refine ⟨?_, rfl⟩
          intro h
          rcases hr : Client.receiveLoop J r f c' with e | ⟨c2, more⟩
          · simp only
            intro heq
            injection heq with heq
            exact h1 h (by rw [hr, heq])
          · simp
  exact ⟨hret run, (hloop run fuel c).2, (hloop run fuel c).1,
    fun f1 f2 => Client.receiveLoop_fuel J run f1 f2 c⟩

/-- C16. Request failure cleanup. Let a new client have reached a state with room left in
the counter, and let a Request be called there. If its send fails, Request returns the
send error wrapped as "send request" and the pending table is again the table before the
call, without the key of the request. If the send succeeds and the wait context is then
done, Request returns the error of the context, decodes nothing, and the pending table is
again the table before the call. And in whatever state the context is done, the entry of
the request is removed, every other entry is as it was, and the error of the context is
returned. -/
theorem request_failure_cleanup (J : JsonCodec) (rw : io.Pipe) (reader : Bytes)
    (opts : ClientOptions) (as : List Action) (c : Client) (evs : List Event) (method : Bytes)
    (params : Option (Except Err Bytes))
    (hrun : (NewClient rw reader opts).run as = .ok (c, evs)) (hlen : as.length + 1 < 2 ^ 63) :
    (∀ c1 msg idStr ch evs1 t err,
      Client.Request.register c method params = (c1, .ok (msg, idStr, ch), evs1) →
      transport.Send J ⟨c1.rw, c1.reader⟩ msg = (t, some err) →
      ∃ c2 evs2, Client.Request.issue J c method params
          = (c2, .error (.wrap "send request" err), evs2) ∧
        c2.pending = c.pending ∧ Table.get? c2.pending idStr = none) ∧
    (∀ c1 idStr ch evs1, Client.Request.issue J c method params = (c1, .ok (idStr, ch), evs1) →
      ∀ result unmarshal err,
        Client.Request.finish c1 idStr ch result unmarshal (.ctxDone err)
          = ({ c1 with pending := c.pending }, some { err := some err, decoded := none },
             [.removed idStr])) ∧
    (∀ (c' : Client) idStr ch result unmarshal err,
      (Client.Request.finish c' idStr ch result unmarshal (.ctxDone err)).2.1
        = some { err := some err, decoded := none } ∧
      Table.get? (Client.Request.finish c' idStr ch result unmarshal (.ctxDone err)).1.pending idStr
        = none ∧
      (∀ k, k ≠ idStr →
        Table.get? (Client.Request.finish c' idStr ch result unmarshal (.ctxDone err)).1.pending k
          = Table.get? c'.pending k) ∧
      (Client.Request.finish c' idStr ch result unmarshal (.ctxDone err)).1.chans = c'.chans) := by
  have hfresh := reachable_fresh_key rw reader opts as c evs hrun hlen
  refine ⟨?_, ?_, ?_⟩
  · intro c1 msg idStr ch evs1 t err hreg hsend
    obtain ⟨hid, hp⟩ := Client.Request.register_pending c c1 method params msg idStr ch evs1 hreg
    rw [← hid] at hfresh
    refine ⟨{ c1 with rw := t.rw, pending := Table.delete c1.pending idStr },
      evs1 ++ [.removed idStr],
      by simp only [Client.Request.issue, hreg, hsend, Client.Request.cleanup], ?_, ?_⟩
    · simp only [hp]
      exact Table.delete_set_of_fresh _ _ _ hfresh
    · simp only [hp]
      exact Table.get?_delete_self _ _
  · intro c1 idStr ch evs1 hissue result unmarshal err
    simp only [Client.Request.issue] at hissue
    split at hissue
    · simp at hissue
    · rename_i c0 msg idStr0 ch0 evs0 hreg
      obtain ⟨hid, hp⟩ := Client.Request.register_pending c c0 method params msg idStr0 ch0 evs0 hreg
      split at hissue
      · simp at hissue
      · simp only [Prod.mk.injEq, Except.ok.injEq] at hissue
        obtain ⟨h1, ⟨h2, h3⟩, -⟩ := hissue
        subst h1; subst h2; subst h3
        rw [← hid] at hfresh
        simp only [Client.Request.finish, Client.Request.cleanup, hp,
          Table.delete_set_of_fresh _ _ _ hfresh]
  · intro c' idStr ch result unmarshal err
    exact ⟨rfl, Table.get?_delete_self _ _, fun k hk => Table.get?_delete_ne _ _ _ hk, rfl⟩

/-- C16 for a Request on a started client whose message cannot be sent. -/
theorem request_failure_cleanup_witness :
    (∀ c1 msg idStr ch evs1 t err,
      Client.Request.register exampleStartedClient
          (ofString "initialize") none = (c1, .ok (msg, idStr, ch), evs1) →
      transport.Send exampleCodec ⟨c1.rw, c1.reader⟩ msg = (t, some err) →
      ∃ c2 evs2, Client.Request.issue exampleCodec
            exampleStartedClient
            (ofString "initialize") none
          = (c2, .error (.wrap "send request" err), evs2) ∧
        c2.pending = exampleStartedClient.pending ∧
        Table.get? c2.pending idStr = none) ∧
    (∀ c1 idStr ch evs1, Client.Request.issue exampleCodec
          exampleStartedClient
          (ofString "initialize") none = (c1, .ok (idStr, ch), evs1) →
      ∀ result unmarshal err,
        Client.Request.finish c1 idStr ch result unmarshal (.ctxDone err)
          = ({ c1 with pending :=
                exampleStartedClient.pending },
             some { err := some err, decoded := none }, [.removed idStr])) ∧
    (∀ (c' : Client) idStr ch result unmarshal err,
      (Client.Request.finish c' idStr ch result unmarshal (.ctxDone err)).2.1
        = some { err := some err, decoded := none } ∧
      Table.get? (Client.Request.finish c' idStr ch result unmarshal (.ctxDone err)).1.pending idStr
        = none ∧
      (∀ k, k ≠ idStr →
        Table.get? (Client.Request.finish c' idStr ch result unmarshal (.ctxDone err)).1.pending k
          = Table.get? c'.pending k) ∧
      (Client.Request.finish c' idStr ch result unmarshal (.ctxDone err)).1.chans = c'.chans) :=
  request_failure_cleanup exampleCodec ⟨[], false⟩ [] ⟨0, false⟩ [.start]
    exampleStartedClient
    [.loopStarted] (ofString "initialize") none rfl (by decide)

/-- C17. Protocol errors. Let the channel that a Request waits on hold a response that
carries an error object. When the Request receives it, it returns the error "rpc error:
code=... msg=..." with exactly the code and the message of that object and decodes no
result, whether or not the response also carries a result and whatever the caller passed as
result; the response is taken out of the channel and nothing else changes. -/
theorem rpc_error_response (c : Client) (idStr : Bytes) (ch : ChanRef) (resp : rpcMessage)
    (e : rpcError) (cl : Bool) (result : Bool) (unmarshal : Bytes → Option Err)
    (hch : c.chans[ch]? = some { buf := some resp, closed := cl })
    (herr : resp.Error = some e) :
    Client.Request.finish c idStr ch result unmarshal .recv
      = ({ c with chans := c.chans.set ch { buf := none, closed := cl } },
         some { err := some (.rpc e.code e.message), decoded := none }, []) := by
  simp [Client.Request.finish, Client.Request.receive, hch, herr]

/-- C17 for an error response that also carries a result. -/
theorem rpc_error_response_witness :
    Client.Request.finish exampleAnsweredClient (ofString "1") 0 true (fun _ => none) .recv
      = ({ exampleAnsweredClient with
             chans := exampleAnsweredClient.chans.set 0 { buf := none, closed := true } },
         some { err := some (.rpc (-32601) (ofString "method not found")), decoded := none }, []) :=
  rpc_error_response exampleAnsweredClient (ofString "1") 0 exampleErrorResponse
    { code := -32601, message := ofString "method not found", data := none } true true
    (fun _ => none) rfl rfl

/-- C19. Receive-loop death is not shutdown. Let the client not be closed and let
transport.Read return an error in a pass of the receive loop. Then the pass logs the error
if there is a logger and tells the loop to return, which it does; the client is left as it
was apart from the input that Read consumed: the closed flag is still unset, the pending
table, the channels (none closed, none filled) and the handlers are unchanged. -/
theorem read_error_ends_loop_only (J : JsonCodec) (c : Client) (err : Err) (t : transport)
    (hopen : c.closed = false)
    (hread : transport.Read J ⟨c.rw, c.reader⟩ = (.error err, t)) :
    Client.receiveLoop.iteration J c
      = .ok ({ c with reader := t.reader }, if c.opts.Logger then [.logged err] else [], false) ∧
    (∀ run fuel, Client.receiveLoop J run (fuel + 1) c
      = .ok ({ c with reader := t.reader }, if c.opts.Logger then [.logged err] else [])) ∧
    ({ c with reader := t.reader } : Client).closed = false ∧
    ({ c with reader := t.reader } : Client).pending = c.pending ∧
    ({ c with reader := t.reader } : Client).chans = c.chans ∧
    ({ c with reader := t.reader } : Client).handlers = c.handlers ∧
    ({ c with reader := t.reader } : Client).nextID = c.nextID ∧
    ({ c with reader := t.reader } : Client).rw = c.rw := by
  have hit : Client.receiveLoop.iteration J c
      = .ok ({ c with reader := t.reader }, if c.opts.Logger then [.logged err] else [], false) := by
    simp [Client.receiveLoop.iteration, hopen, hread]
  refine ⟨hit, ?_, hopen, rfl, rfl, rfl, rfl, rfl⟩
  intro run fuel
  have hcrash : firstCrash run (if c.opts.Logger then [.logged err] else []) = none := by
    split <;> rfl
  simp [Client.receiveLoop, hit, hcrash]

/-- C19 for the example client, whose stream has ended. -/
theorem read_error_ends_loop_only_witness :
    Client.receiveLoop.iteration exampleCodec exampleClient
      = .ok ({ exampleClient with reader := [] },
          if exampleClient.opts.Logger then [.logged (.wrap "read header line" .EOF)] else [],
          false) ∧
    (∀ run fuel, Client.receiveLoop exampleCodec run (fuel + 1) exampleClient
      = .ok ({ exampleClient with reader := [] },
          if exampleClient.opts.Logger then [.logged (.wrap "read header line" .EOF)] else [])) ∧
    ({ exampleClient with reader := [] } : Client).closed = false ∧
    ({ exampleClient with reader := [] } : Client).pending = exampleClient.pending ∧
    ({ exampleClient with reader := [] } : Client).chans = exampleClient.chans ∧
    ({ exampleClient with reader := [] } : Client).handlers = exampleClient.handlers ∧
    ({ exampleClient with reader := [] } : Client).nextID = exampleClient.nextID ∧
    ({ exampleClient with reader := [] } : Client).rw = exampleClient.rw :=
  read_error_ends_loop_only exampleCodec exampleClient (.wrap "read header line" .EOF)
    ⟨⟨[], false⟩, []⟩ rfl rfl

/-! ## The client: claims C27 and C28 -/

/-- C27. Pending-slot invariant. Whatever sequence of steps a new client takes (Request
registrations, frames routed by the receive loop, Requests that give up after a failed send
or a done context, Shutdown, among the other calls), the run does not panic and in the
state reached every slot stored in the pending table is open and empty. Consequently no
frame of the run fell into the drop branch, a frame whose id is pending in the state
reached is stored in its slot, and no slot was closed twice. -/
theorem pending_slots_open_and_empty (rw : io.Pipe) (reader : Bytes) (opts : ClientOptions)
    (as : List Action) :
    ∃ c evs, (NewClient rw reader opts).run as = .ok (c, evs) ∧
      (∀ e ∈ c.pending, c.chans[e.2]? = some { buf := none, closed := false }) ∧
      drops evs = 0 ∧ (∀ key ch msg, Event.dropped key ch msg ∉ evs) ∧
      (∀ ch, closes ch evs ≤ 1) ∧
      (∀ msg key ch, msg.ID = some key → Table.get? c.pending key = some ch →
        ∃ c', c.route msg = .ok (c', [.delivered key ch msg, .closedChan ch, .removed key]) ∧
          c'.chans[ch]? = some { buf := some msg, closed := true }) := by
  obtain ⟨c, evs, hrun, hinv, -, -, -⟩ :=
    Client.run_inv as (NewClient rw reader opts) (NewClient_Inv rw reader opts)
  obtain ⟨hd, hle, -⟩ :=
    Client.run_closes as (NewClient rw reader opts) (NewClient_Inv rw reader opts) c evs hrun
  refine ⟨c, evs, hrun, hinv.1, hd, not_mem_of_drops_zero evs hd, hle, ?_⟩
  intro msg key ch hid hget
  obtain ⟨hroute, hopen⟩ := Client.route_pending c hinv msg key ch hid hget
  exact ⟨_, hroute, getElem?_set_self _ _ _ _ hopen⟩

/-- C28. A frame carrying an id is routed only as a response. Let a new client have
reached a state and let the receive loop route a frame with an id, whether or not it also
carries a method and params and whatever handlers are registered. Then no handler is
invoked and the handler table is unchanged. If the id is pending, the frame is handed to
the slot of that request, which then holds it; and if the frame has neither result nor
error, the Request that receives it returns nil and decodes nothing. -/
theorem frame_with_id_is_a_response (rw : io.Pipe) (reader : Bytes) (opts : ClientOptions)
    (as : List Action) (c : Client) (evs : List Event) (msg : rpcMessage) (key : Bytes)
    (hrun : (NewClient rw reader opts).run as = .ok (c, evs)) (hid : msg.ID = some key) :
    (∃ c' evs', c.route msg = .ok (c', evs') ∧ (∀ h p, Event.invoked h p ∉ evs') ∧
      c'.handlers = c.handlers) ∧
    (∀ ch, Table.get? c.pending key = some ch →
      ∃ c', c.route msg = .ok (c', [.delivered key ch msg, .closedChan ch, .removed key]) ∧
        c'.chans[ch]? = some { buf := some msg, closed := true } ∧
        (msg.Error = none → msg.Result = none → ∀ result unmarshal,
          (Client.Request.finish c' key ch result unmarshal .recv).2
            = (some { err := none, decoded := none }, []))) := by
  have hinv := reachable_inv rw reader opts as c evs hrun
  constructor
  · cases hget : Table.get? c.pending key with
    | none =>
      exact ⟨c, _, Client.route_unknown c msg key hid hget, by simp, rfl⟩
    | some ch =>
      obtain ⟨hroute, -⟩ := Client.route_pending c hinv msg key ch hid hget
      exact ⟨_, _, hroute, by simp, rfl⟩
  · intro ch hget
    obtain ⟨hroute, hopen⟩ := Client.route_pending c hinv msg key ch hid hget
    refine ⟨_, hroute, getElem?_set_self _ _ _ _ hopen, ?_⟩
    intro herr hres result unmarshal
    have hch : (c.chans.set ch { buf := some msg, closed := true })[ch]?
        = some { buf := some msg, closed := true } := getElem?_set_self _ _ _ _ hopen
    simp only [Client.Request.finish, Client.Request.receive, hch, herr, hres]
    cases result <;> simp

/-- C28 for a frame with the id of the request in flight that also carries the method
"exit", for which a handler is registered. -/
theorem frame_with_id_is_a_response_witness :
    (∃ c' evs', exampleBusyClient.route examplePeerRequest = .ok (c', evs') ∧
      (∀ h p, Event.invoked h p ∉ evs') ∧ c'.handlers = exampleBusyClient.handlers) ∧
    (∀ ch, Table.get? exampleBusyClient.pending (ofString "1") = some ch →
      ∃ c', exampleBusyClient.route examplePeerRequest
          = .ok (c', [.delivered (ofString "1") ch examplePeerRequest, .closedChan ch,
              .removed (ofString "1")]) ∧
        c'.chans[ch]? = some { buf := some examplePeerRequest, closed := true } ∧
        (examplePeerRequest.Error = none → examplePeerRequest.Result = none →
          ∀ result unmarshal,
            (Client.Request.finish c' (ofString "1") ch result unmarshal .recv).2
              = (some { err := none, decoded := none }, []))) :=
  frame_with_id_is_a_response ⟨[], false⟩ [] ⟨0, false⟩
    [.start, .request (ofString "initialize") none,
      .registerHandler (ofString "exit") (some 7)]
    exampleBusyClient [.loopStarted, .issued 1, .registered (ofString "1") 0 none]
    examplePeerRequest (ofString "1") rfl rfl

/-! ## The frame codec: claim C29 -/

/-- C29, as amended. Zero-length frames are rejected. Let the reader hold header lines each
of which either carries no Content-Length or carries one with a valid value (not negative),
then a Content-Length line that declares 0, then lines without Content-Length, a blank line
and any bytes `rest`. Then Read fails with the error "missing or invalid Content-Length"
and leaves `rest` untouched: it reads no body and decodes nothing. And whenever Read
returns a message, its header loop ended with a declared length of at least 1. -/
theorem read_rejects_zero_length (J : JsonCodec) (t : transport) (pre post : List Bytes)
    (l b rest : Bytes)
    (hpre : ∀ p ∈ pre, isOtherLine p ∨ ∃ n, isLengthLine p n)
    (hl : isLengthLine l 0) (hpost : ∀ p ∈ post, isOtherLine p) (hb : ∀ c ∈ b, c = 13)
    (hr : t.reader = headerLines pre ++ (l ++ 10 :: (headerLines post ++ (b ++ 10 :: rest)))) :
    transport.Read J t
      = (.error (.msg "missing or invalid Content-Length"), { t with reader := rest }) ∧
    (∀ (t1 t2 : transport) (m : rpcMessage), transport.Read J t1 = (.ok m, t2) →
      ∃ n r, transport.readHeaders t1.reader.length 0 t1.reader = (.ok n, r) ∧ 1 ≤ n) := by
  constructor
  · obtain ⟨cl', hpass⟩ := transport.readHeaders_valid_pre pre hpre
      (l ++ 10 :: (headerLines post ++ (b ++ 10 :: rest))) 0
    obtain ⟨hl10, hlen⟩ := transport.headerLine_lengthLine l 0 hl
    have hskip := transport.readHeaders_skip post (b ++ 10 :: rest)
      (fun p hp => transport.headerLine_other p (hpost p hp)) 0
    have hb10 : 10 ∉ b := by
      intro h
      have := hb 10 h
      omega
    unfold transport.Read
    rw [hr, hpass, transport.readHeaders_line _ cl' l _ hl10 (le_refl _), hlen]
    simp only
    rw [hskip, transport.readHeaders_line _ 0 b rest hb10 (le_refl _),
      transport.headerLine_blank b hb]
    simp
  · intro t1 t2 m hread
    unfold transport.Read at hread
    split at hread
    · simp at hread
    · rename_i n r hh
      refine ⟨n, r, hh, ?_⟩
      by_contra hn
      have hle : n ≤ 0 := by omega
      simp [hle] at hread

/-- C29 for a header block with two Content-Length headers, the last of which declares 0. -/
theorem read_rejects_zero_length_witness :
    transport.Read exampleCodec
        ⟨⟨[], false⟩, headerLines [ofString "Content-Length: 5\r"] ++
          (ofString "Content-Length: 0\r" ++ 10 ::
            (headerLines [ofString "Content-Type: x\r"] ++ ([13] ++ 10 :: exampleBody)))⟩
      = (.error (.msg "missing or invalid Content-Length"),
         { (⟨⟨[], false⟩, headerLines [ofString "Content-Length: 5\r"] ++
             (ofString "Content-Length: 0\r" ++ 10 ::
               (headerLines [ofString "Content-Type: x\r"] ++ ([13] ++ 10 :: exampleBody)))⟩ :
             transport) with reader := exampleBody }) ∧
    (∀ (t1 t2 : transport) (m : rpcMessage), transport.Read exampleCodec t1 = (.ok m, t2) →
      ∃ n r, transport.readHeaders t1.reader.length 0 t1.reader = (.ok n, r) ∧ 1 ≤ n) :=
  read_rejects_zero_length exampleCodec _
    [ofString "Content-Length: 5\r"] [ofString "Content-Type: x\r"]
    (ofString "Content-Length: 0\r") [13] exampleBody
    (by
      intro p hp
      simp only [List.mem_singleton] at hp
      subst hp
      exact Or.inr ⟨5, by decide, ofString "Content-Length", ofString " 5\r", by decide,
        by decide, by decide, by decide, by decide⟩)
    ⟨by decide, ofString "Content-Length", ofString " 0\r", by decide, by decide, by decide,
      by decide, by decide⟩
    (by
      intro p hp
      simp only [List.mem_singleton] at hp
      subst hp
      exact Or.inl ⟨by decide, ofString "Content-Type", ofString " x\r", by decide, by decide,
        by decide⟩)
    (by simp)
    rfl

/-- C29, counterexample. The last Content-Length header of the block declares 0, but an
earlier one is malformed: Read fails in the header loop with the error of the malformed
value, not with "missing or invalid Content-Length". -/
theorem read_zero_length_after_malformed_header :
    (transport.Read exampleCodec
        ⟨⟨[], false⟩, ofString "Content-Length: -1\r\nContent-Length: 0\r\n\r\n"⟩).1
      = .error (.invalidContentLength (ofString "-1")) ∧
    (transport.Read exampleCodec
        ⟨⟨[], false⟩, ofString "Content-Length: -1\r\nContent-Length: 0\r\n\r\n"⟩).1
      ≠ .error (.msg "missing or invalid Content-Length") := by
  have h : (transport.Read exampleCodec
      ⟨⟨[], false⟩, ofString "Content-Length: -1\r\nContent-Length: 0\r\n\r\n"⟩).1
      = .error (.invalidContentLength (ofString "-1")) := by rfl
  refine ⟨h, ?_⟩
  rw [h]
  intro hne
  cases hne

/-! ## File paths and URIs: claim C26 -/

/-- C26, as amended. For every path `p` that does not begin with "file://",
`URIToFilePath(FilePathToURI(p))` succeeds and returns `p`. A path that begins with
"file://" is taken for a URI and left as it is by FilePathToURI, so the conversion back
succeeds and returns `p` without that leading "file://". -/
theorem uri_round_trip (p : Bytes) :
    (strings.HasPrefix p (ofString "file://") = false →
      FilePathToURI p = ofString "file://" ++ p ∧ URIToFilePath (FilePathToURI p) = .ok p) ∧
    (strings.HasPrefix p (ofString "file://") = true →
      FilePathToURI p = p ∧
      URIToFilePath (FilePathToURI p) = .ok (p.drop (ofString "file://").length)) := by
  constructor
  · intro h
    have huri : FilePathToURI p = ofString "file://" ++ p := by
      simp only [FilePathToURI, h, Bool.false_eq_true, if_false]
    refine ⟨huri, ?_⟩
    rw [huri]
    simp only [URIToFilePath, strings.HasPrefix_append, strings.TrimPrefix_append, if_true]
  · intro h
    have huri : FilePathToURI p = p := by
      simp only [FilePathToURI, h, if_true]
    refine ⟨huri, ?_⟩
    rw [huri]
    simp only [URIToFilePath, strings.TrimPrefix, h, if_true]

/-- C26, counterexample. The path "file:///tmp/a.go" is not converted back to itself: the
round trip returns "/tmp/a.go". -/
theorem uri_round_trip_loses_file_scheme :
    URIToFilePath (FilePathToURI (ofString "file:///tmp/a.go")) = .ok (ofString "/tmp/a.go") ∧
    URIToFilePath (FilePathToURI (ofString "file:///tmp/a.go"))
      ≠ .ok (ofString "file:///tmp/a.go") := by
  have h : URIToFilePath (FilePathToURI (ofString "file:///tmp/a.go"))
      = .ok (ofString "/tmp/a.go") := by rfl
  refine ⟨h, ?_⟩
  rw [h]
  intro hne
  have := Except.ok.inj hne
  revert this
  decide

end Lsp

namespace utils

theorem rem_of_nonneg (a : Int) (s : Nat) (hs : 0 < s) (ha : 0 ≤ a) :
    rem a (s : Int) = .ok (a % (s : Int)) := by
  have hs0 : (s : Int) ≠ 0 := by omega
  simp only [rem, hs0, if_false]
  rw [Int.tmod_eq_emod ha (by omega)]

theorem ring_index (n s k i : Nat) (hk : k ≤ n) :
    (((n % s : Nat) : Int) - (k : Int) + (i : Int) + (s : Int)) % (s : Int)
      = (((n - k + i) % s : Nat) : Int) := by
  have h1 : (((n % s : Nat) : Int) - (k : Int) + (i : Int) + (s : Int))
      = ((n - k + i : Nat) : Int) + (s : Int) * (1 - ((n / s : Nat) : Int)) := by
    have h2 : ((n % s : Nat) : Int) = (n : Int) - (s : Int) * ((n / s : Nat) : Int) := by
      push_cast
      exact Int.emod_def _ _
    have h4 : ((n - k + i : Nat) : Int) = (n : Int) - (k : Int) + (i : Int) := by omega
    rw [h2, h4]; ring
  rw [h1, Int.add_mul_emod_self_left]
  norm_cast

theorem NewRingBuffer_holds (s : Nat) :
    ∃ rb, NewRingBuffer (s : Int) = .ok rb ∧ rb.Holds s [] := by
  refine ⟨{ buffer := List.replicate s [], size := s, head := 0, count := 0 },
    by simp [NewRingBuffer], ?_⟩
  refine ⟨rfl, by simp, by simp, by simp, ?_⟩
  intro i _ hi
  simp at hi

theorem RingBuffer.Add_holds (rb : RingBuffer) (s : Nat) (lines : List Lsp.Bytes)
    (line : Lsp.Bytes) (hs : 0 < s) (h : rb.Holds s lines) :
    ∃ rb', rb.Add line = .ok rb' ∧ rb'.Holds s (lines ++ [line]) := by
  obtain ⟨hsize, hlen, hhead, hcount, hbuf⟩ := h
  have hmod : lines.length % s < s := Nat.mod_lt _ hs
  have hguard : 0 ≤ rb.head ∧ rb.head < (rb.buffer.length : Int) := by
    rw [hhead, hlen]; omega
  have hrem : rem (rb.head + 1) rb.size = .ok (((lines.length + 1) % s : Nat) : Int) := by
    rw [hsize, rem_of_nonneg _ s hs (by omega), hhead]
    congr 1
    norm_cast
    exact Nat.mod_add_mod _ _ _
  refine ⟨{ rb with buffer := rb.buffer.set rb.head.toNat line,
                    head := (((lines.length + 1) % s : Nat) : Int),
                    count := if rb.count < rb.size then rb.count + 1 else rb.count },
    by simp only [RingBuffer.Add, hguard, and_self, if_true, hrem], ?_⟩
  refine ⟨hsize, by simp [hlen], by simp, ?_, ?_⟩
  · simp only [hcount, hsize, List.length_append, List.length_singleton]
    split
    · rename_i hlt
      have : min lines.length s < s := by exact_mod_cast hlt
      have h1 : lines.length < s := by omega
      rw [Nat.min_eq_left (by omega), Nat.min_eq_left (by omega)]
      push_cast; rfl
    · rename_i hlt
      have : ¬ min lines.length s < s := by exact_mod_cast hlt
      have h1 : s ≤ lines.length := by omega
      rw [Nat.min_eq_right h1, Nat.min_eq_right (by omega)]
  · intro i hlo hhi
    simp only [List.length_append, List.length_singleton] at hlo hhi
    have hht : rb.head.toNat = lines.length % s := by rw [hhead, Int.toNat_ofNat]
    simp only [hht]
    by_cases hi : i = lines.length
    · subst hi
      rw [List.getElem?_set_self (by rw [hlen]; exact hmod)]
      simp
    · have hi2 : i < lines.length := by omega
      have hne : lines.length % s ≠ i % s := by
        intro heq
        have h1 : lines.length - i < s := by omega
        have h2 : (lines.length - i) % s = 0 := by
          have := Nat.sub_mod_eq_zero_of_mod_eq heq
          exact this
        have h3 := Nat.mod_eq_of_lt h1
        omega
      rw [List.getElem?_set_ne hne, List.getElem?_append_left hi2]
      exact hbuf i (by omega) hi2

theorem RingBuffer.addAll_holds (s : Nat) (hs : 0 < s) (ls : List Lsp.Bytes) :
    ∀ (rb : RingBuffer) (pre : List Lsp.Bytes), rb.Holds s pre →
      ∃ rb', rb.addAll ls = .ok rb' ∧ rb'.Holds s (pre ++ ls) := by
  induction ls with
  | nil => intro rb pre h; exact ⟨rb, rfl, by simpa using h⟩
  | cons l rest ih =>
    intro rb pre h
    obtain ⟨rb1, h1, hh1⟩ := RingBuffer.Add_holds rb s pre l hs h
    obtain ⟨rb2, h2, hh2⟩ := ih rb1 (pre ++ [l]) hh1
    refine ⟨rb2, by simp only [RingBuffer.addAll, h1, h2], ?_⟩
    simpa using hh2

theorem RingBuffer.readInto_holds (rb : RingBuffer) (s : Nat) (lines : List Lsp.Bytes)
    (hs : 0 < s) (h : rb.Holds s lines) (k : Nat) (hk : k ≤ min lines.length s) :
    ∀ is : List Nat, (∀ i ∈ is, i < k) →
      rb.readInto (k : Int) is
        = .ok (is.map (fun i => lines.getD (lines.length - k + i) [])) := by
  obtain ⟨hsize, hlen, hhead, hcount, hbuf⟩ := h
  intro is
  induction is with
  | nil => intro _; rfl
  | cons i rest ih =>
    intro hall
    have hi : i < k := hall i (List.mem_cons_self _ _)
    have hkn : k ≤ lines.length := by omega
    have hks : k ≤ s := by omega
    have hidx := ring_index lines.length s k i hkn
    have hlt : (lines.length - k + i) % s < s := Nat.mod_lt _ hs
    have hrem : rem (rb.head - (k : Int) + (i : Int) + rb.size) rb.size
        = .ok (((lines.length - k + i) % s : Nat) : Int) := by
      rw [hsize, hhead, rem_of_nonneg _ s hs (by omega), hidx]
    have hget : index rb.buffer (((lines.length - k + i) % s : Nat) : Int)
        = .ok (lines.getD (lines.length - k + i) []) := by
      have hg : 0 ≤ (((lines.length - k + i) % s : Nat) : Int) ∧
          (((lines.length - k + i) % s : Nat) : Int) < (rb.buffer.length : Int) := by
        rw [hlen]; omega
      simp only [index, hg, and_self, if_true, Int.toNat_ofNat]
      congr 1
      have := hbuf (lines.length - k + i) (by omega) (by omega)
      simp only [List.getD_eq_getElem?_getD, this]
    simp only [RingBuffer.readInto, hrem, hget,
      ih (fun j hj => hall j (List.mem_cons_of_mem _ hj)), List.map_cons]

theorem range_map_getD_eq_drop (lines : List Lsp.Bytes) (k : Nat) (hk : k ≤ lines.length) :
    (List.range k).map (fun i => lines.getD (lines.length - k + i) [])
      = lines.drop (lines.length - k) := by
  apply List.ext_getElem?
  intro i
  by_cases hi : i < k
  · rw [List.getElem?_map, List.getElem?_range hi, List.getElem?_drop]
    simp only [Option.map_some', List.getD_eq_getElem?_getD]
    have hlt : lines.length - k + i < lines.length := by omega
    rw [List.getElem?_eq_getElem hlt]
    simp
  · rw [List.getElem?_eq_none (by simp; omega), List.getElem?_eq_none (by simp; omega)]

/-- C20: for every size `s > 0` and every sequence of lines added with Add to a fresh
`NewRingBuffer(s)`, the constructor and all the calls of Add return without a panic, and
GetAll returns exactly the last `min(n, s)` of the `n` lines, oldest first. -/
theorem getAll_returns_last_lines (s : Nat) (lines : List Lsp.Bytes) (hs : 0 < s) :
    ∃ rb0 rb, NewRingBuffer (s : Int) = .ok rb0 ∧ rb0.addAll lines = .ok rb ∧
      rb.GetAll = .ok (lines.drop (lines.length - min lines.length s)) ∧
      (lines.drop (lines.length - min lines.length s)).length = min lines.length s := by
  obtain ⟨rb0, h0, hh0⟩ := NewRingBuffer_holds s
  obtain ⟨rb, h1, hh1⟩ := RingBuffer.addAll_holds s hs lines rb0 [] hh0
  simp only [List.nil_append] at hh1
  refine ⟨rb0, rb, h0, h1, ?_, by simp; omega⟩
  have hcount := hh1.2.2.2.1
  have hnn : ¬ rb.count < 0 := by rw [hcount]; omega
  simp only [RingBuffer.GetAll, hnn, if_false]
  rw [hcount, Int.toNat_ofNat,
    RingBuffer.readInto_holds rb s lines hs hh1 _ (le_refl _) _
      (fun i hi => List.mem_range.mp hi),
    range_map_getD_eq_drop lines _ (Nat.min_le_left _ _)]

theorem getAll_returns_last_lines_witness :
    0 < 3 ∧
    ∃ rb0 rb, NewRingBuffer ((3 : Nat) : Int) = .ok rb0 ∧
      rb0.addAll [Lsp.ofString "line1", Lsp.ofString "line2", Lsp.ofString "line3",
          Lsp.ofString "line4"] = .ok rb ∧
      rb.GetAll = .ok ([Lsp.ofString "line1", Lsp.ofString "line2", Lsp.ofString "line3",
          Lsp.ofString "line4"].drop
            ([Lsp.ofString "line1", Lsp.ofString "line2", Lsp.ofString "line3",
              Lsp.ofString "line4"].length
              - min [Lsp.ofString "line1", Lsp.ofString "line2", Lsp.ofString "line3",
                  Lsp.ofString "line4"].length 3)) ∧
      ([Lsp.ofString "line1", Lsp.ofString "line2", Lsp.ofString "line3",
          Lsp.ofString "line4"].drop
            ([Lsp.ofString "line1", Lsp.ofString "line2", Lsp.ofString "line3",
              Lsp.ofString "line4"].length
              - min [Lsp.ofString "line1", Lsp.ofString "line2", Lsp.ofString "line3",
                  Lsp.ofString "line4"].length 3)).length
        = min [Lsp.ofString "line1", Lsp.ofString "line2", Lsp.ofString "line3",
            Lsp.ofString "line4"].length 3 :=
  ⟨by decide, getAll_returns_last_lines 3 _ (by decide)⟩

end utils

namespace utils

theorem RingBuffer.addAll_zero (lines : List Lsp.Bytes) (rb0 rb : RingBuffer)
    (h0 : NewRingBuffer ((0 : Nat) : Int) = .ok rb0) (h1 : rb0.addAll lines = .ok rb) :
    lines = [] ∧ rb = { buffer := [], size := 0, head := 0, count := 0 } := by
  have e0 : rb0 = { buffer := [], size := 0, head := 0, count := 0 } := by
    simp [NewRingBuffer] at h0
    exact h0.symm
  subst e0
  cases lines with
  | nil =>
    simp only [RingBuffer.addAll, Except.ok.injEq] at h1
    exact ⟨rfl, h1.symm⟩
  | cons l rest =>
    simp [RingBuffer.addAll, RingBuffer.Add] at h1

theorem RingBuffer.GetAll_holds (rb : RingBuffer) (s : Nat) (lines : List Lsp.Bytes)
    (hs : 0 < s) (h : rb.Holds s lines) :
    rb.GetAll = .ok (lines.drop (lines.length - min lines.length s)) := by
  have hcount := h.2.2.2.1
  have hnn : ¬ rb.count < 0 := by rw [hcount]; omega
  simp only [RingBuffer.GetAll, hnn, if_false]
  rw [hcount, Int.toNat_ofNat,
    RingBuffer.readInto_holds rb s lines hs h _ (le_refl _) _
      (fun i hi => List.mem_range.mp hi),
    range_map_getD_eq_drop lines _ (Nat.min_le_left _ _)]

theorem RingBuffer.GetRecent_holds (rb : RingBuffer) (s : Nat) (lines : List Lsp.Bytes)
    (hs : 0 < s) (h : rb.Holds s lines) (n : Nat) :
    rb.GetRecent (n : Int)
      = .ok (lines.drop (lines.length - min n (min lines.length s))) := by
  have hcount := h.2.2.2.1
  have hclip : (if (n : Int) > rb.count then rb.count else (n : Int))
      = ((min n (min lines.length s) : Nat) : Int) := by
    rw [hcount]
    split
    · rename_i hgt
      have hlt : min lines.length s < n := by exact_mod_cast hgt
      rw [Nat.min_eq_right (Nat.le_of_lt hlt)]
    · rename_i hgt
      have hlt : ¬ min lines.length s < n := by exact_mod_cast hgt
      rw [Nat.min_eq_left (Nat.le_of_not_lt hlt)]
  simp only [RingBuffer.GetRecent, hclip]
  have hnn : ¬ ((min n (min lines.length s) : Nat) : Int) < 0 := by omega
  simp only [hnn, if_false]
  rw [Int.toNat_ofNat,
    RingBuffer.readInto_holds rb s lines hs h _ (Nat.min_le_right _ _) _
      (fun i hi => List.mem_range.mp hi),
    range_map_getD_eq_drop lines _ (by omega)]

theorem RingBuffer.reachable_holds (s : Nat) (lines : List Lsp.Bytes) (rb0 rb : RingBuffer)
    (hs : 0 < s) (h0 : NewRingBuffer (s : Int) = .ok rb0) (h1 : rb0.addAll lines = .ok rb) :
    rb.Holds s lines := by
  obtain ⟨rb0', h0', hh0⟩ := NewRingBuffer_holds s
  rw [h0] at h0'
  simp only [Except.ok.injEq] at h0'
  subst h0'
  obtain ⟨rb', h1', hh1⟩ := RingBuffer.addAll_holds s hs lines rb0 [] hh0
  rw [h1] at h1'
  simp only [Except.ok.injEq] at h1'
  subst h1'
  simpa using hh1

/-- C21: in every state of a ring buffer, reached from `NewRingBuffer(s)` by calls of Add,
GetAll returns `count` lines and, for every `n >= 0`, `GetRecent(n)` returns the last
`min(n, count)` of them in the same order; asking for at least as many lines as are stored
returns all of them. -/
theorem getRecent_returns_last_of_getAll (s : Nat) (lines : List Lsp.Bytes)
    (rb0 rb : RingBuffer) (h0 : NewRingBuffer (s : Int) = .ok rb0)
    (h1 : rb0.addAll lines = .ok rb) :
    ∃ all, rb.GetAll = .ok all ∧ rb.count = (all.length : Int) ∧
      (∀ n : Nat, rb.GetRecent (n : Int) = .ok (all.drop (all.length - min n all.length))) ∧
      (∀ n : Nat, all.length ≤ n → rb.GetRecent (n : Int) = .ok all) := by
  have key : ∃ all, rb.GetAll = .ok all ∧ rb.count = (all.length : Int) ∧
      (∀ n : Nat, rb.GetRecent (n : Int) = .ok (all.drop (all.length - min n all.length))) := by
    rcases Nat.eq_zero_or_pos s with hs | hs
    · subst hs
      obtain ⟨-, hrb⟩ := RingBuffer.addAll_zero lines rb0 rb h0 h1
      subst hrb
      refine ⟨[], rfl, rfl, ?_⟩
      intro n
      have hclip : (if (n : Int) > 0 then (0 : Int) else (n : Int)) = 0 := by
        split
        · rfl
        · omega
      simp only [RingBuffer.GetRecent, hclip]
      simp [RingBuffer.readInto]
    · have hh := RingBuffer.reachable_holds s lines rb0 rb hs h0 h1
      refine ⟨_, RingBuffer.GetAll_holds rb s lines hs hh, ?_, ?_⟩
      · rw [hh.2.2.2.1, List.length_drop]
        congr 1
        omega
      · intro n
        rw [RingBuffer.GetRecent_holds rb s lines hs hh n, List.drop_drop, List.length_drop]
        congr 2
        omega
  obtain ⟨all, hall, hc, hrec⟩ := key
  refine ⟨all, hall, hc, hrec, ?_⟩
  intro n hn
  rw [hrec n, Nat.min_eq_right hn, Nat.sub_self, List.drop_zero]

theorem getRecent_returns_last_of_getAll_witness :
    ∃ all, RingBuffer.GetAll
        { buffer := [Lsp.ofString "line3", Lsp.ofString "line2"], size := 2, head := 1,
          count := 2 } = .ok all ∧
      ({ buffer := [Lsp.ofString "line3", Lsp.ofString "line2"], size := 2, head := 1,
          count := 2 } : RingBuffer).count = (all.length : Int) ∧
      (∀ n : Nat, RingBuffer.GetRecent
          { buffer := [Lsp.ofString "line3", Lsp.ofString "line2"], size := 2, head := 1,
            count := 2 } (n : Int) = .ok (all.drop (all.length - min n all.length))) ∧
      (∀ n : Nat, all.length ≤ n → RingBuffer.GetRecent
          { buffer := [Lsp.ofString "line3", Lsp.ofString "line2"], size := 2, head := 1,
            count := 2 } (n : Int) = .ok all) :=
  getRecent_returns_last_of_getAll 2
    [Lsp.ofString "line1", Lsp.ofString "line2", Lsp.ofString "line3"]
    { buffer := [[], []], size := 2, head := 0, count := 0 }
    { buffer := [Lsp.ofString "line3", Lsp.ofString "line2"], size := 2, head := 1, count := 2 }
    rfl rfl

/-- C30: for every size `s > 0` and every sequence of lines added with Add to a fresh
`NewRingBuffer(s)` (so also after each call of the sequence), the calls return without a
panic and leave `0 <= head < s` and `count = min(number of Adds, s) <= s`, with a slice of
length `s`. In that state the index of the next Add is in range, GetAll and `GetRecent(n)`
for `n >= 0` return without a panic, and for every `k <= count` and `i < k` the expression
`head - k + i + size` is not negative and its remainder by `size` lies in `[0, s)`. -/
theorem ring_indices_in_range (s : Nat) (lines : List Lsp.Bytes) (hs : 0 < s) :
    ∃ rb0 rb, NewRingBuffer (s : Int) = .ok rb0 ∧ rb0.addAll lines = .ok rb ∧
      0 ≤ rb.head ∧ rb.head < (s : Int) ∧ rb.size = (s : Int) ∧ rb.buffer.length = s ∧
      rb.count = ((min lines.length s : Nat) : Int) ∧ rb.count ≤ (s : Int) ∧
      (∀ line, ∃ rb', rb.Add line = .ok rb') ∧
      (∃ all, rb.GetAll = .ok all) ∧
      (∀ n : Nat, ∃ recent, rb.GetRecent (n : Int) = .ok recent) ∧
      (∀ k i : Nat, (k : Int) ≤ rb.count → i < k →
        0 ≤ rb.head - (k : Int) + (i : Int) + rb.size ∧
        ∃ idx : Nat, rem (rb.head - (k : Int) + (i : Int) + rb.size) rb.size = .ok (idx : Int) ∧
          idx < s ∧ ∃ line, index rb.buffer (idx : Int) = .ok line) := by
  obtain ⟨rb0, h0, hh0⟩ := NewRingBuffer_holds s
  obtain ⟨rb, h1, hh1⟩ := RingBuffer.addAll_holds s hs lines rb0 [] hh0
  simp only [List.nil_append] at hh1
  have hh := hh1
  obtain ⟨hsize, hlen, hhead, hcount, hbuf⟩ := hh1
  have hmod : lines.length % s < s := Nat.mod_lt _ hs
  refine ⟨rb0, rb, h0, h1, by omega, by omega, hsize, hlen, hcount, by omega, ?_,
    ⟨_, RingBuffer.GetAll_holds rb s lines hs hh⟩,
    fun n => ⟨_, RingBuffer.GetRecent_holds rb s lines hs hh n⟩, ?_⟩
  · intro line
    obtain ⟨rb', h', -⟩ := RingBuffer.Add_holds rb s lines line hs hh
    exact ⟨rb', h'⟩
  · intro k i hk hi
    have hkc : k ≤ min lines.length s := by rw [hcount] at hk; exact_mod_cast hk
    have hnn : 0 ≤ rb.head - (k : Int) + (i : Int) + rb.size := by omega
    refine ⟨hnn, (lines.length - k + i) % s, ?_, Nat.mod_lt _ hs, ?_⟩
    · rw [hsize, rem_of_nonneg _ s hs (by omega), hhead,
        ring_index lines.length s k i (by omega)]
    · have hg : 0 ≤ (((lines.length - k + i) % s : Nat) : Int) ∧
          (((lines.length - k + i) % s : Nat) : Int) < (rb.buffer.length : Int) := by
        have := Nat.mod_lt (lines.length - k + i) hs
        rw [hlen]; omega
      exact ⟨rb.buffer.getD (((lines.length - k + i) % s : Nat) : Int).toNat [],
        by simp only [index, hg, and_self, if_true]⟩

theorem ring_indices_in_range_witness :
    0 < 2 ∧
    ∃ rb0 rb, NewRingBuffer ((2 : Nat) : Int) = .ok rb0 ∧
      rb0.addAll [Lsp.ofString "line1", Lsp.ofString "line2", Lsp.ofString "line3"] = .ok rb ∧
      0 ≤ rb.head ∧ rb.head < ((2 : Nat) : Int) ∧ rb.size = ((2 : Nat) : Int) ∧
      rb.buffer.length = 2 ∧
      rb.count = ((min [Lsp.ofString "line1", Lsp.ofString "line2",
        Lsp.ofString "line3"].length 2 : Nat) : Int) ∧
      rb.count ≤ ((2 : Nat) : Int) ∧
      (∀ line, ∃ rb', rb.Add line = .ok rb') ∧
      (∃ all, rb.GetAll = .ok all) ∧
      (∀ n : Nat, ∃ recent, rb.GetRecent (n : Int) = .ok recent) ∧
      (∀ k i : Nat, (k : Int) ≤ rb.count → i < k →
        0 ≤ rb.head - (k : Int) + (i : Int) + rb.size ∧
        ∃ idx : Nat, rem (rb.head - (k : Int) + (i : Int) + rb.size) rb.size = .ok (idx : Int) ∧
          idx < 2 ∧ ∃ line, index rb.buffer (idx : Int) = .ok line) :=
  ⟨by decide, ring_indices_in_range 2 _ (by decide)⟩

end utils

namespace utils

theorem ValidateCommand.checkArgs_cons (arg : Lsp.Bytes) (rest : List Lsp.Bytes) :
    ValidateCommand.checkArgs (arg :: rest)
      = if ((Lsp.strings.Contains arg (Lsp.ofString ";")
              || Lsp.strings.Contains arg (Lsp.ofString "&&")
              || Lsp.strings.Contains arg (Lsp.ofString "||"))
            || (Lsp.strings.Contains arg (Lsp.ofString ">")
              || Lsp.strings.Contains arg (Lsp.ofString "<")
              || Lsp.strings.Contains arg (Lsp.ofString "|"))) = true
        then some (.dangerousArgument arg) else ValidateCommand.checkArgs rest := by
  simp only [ValidateCommand.checkArgs]
  cases h1 : (Lsp.strings.Contains arg (Lsp.ofString ";")
      || Lsp.strings.Contains arg (Lsp.ofString "&&")
      || Lsp.strings.Contains arg (Lsp.ofString "||")) <;>
    cases h2 : (Lsp.strings.Contains arg (Lsp.ofString ">")
      || Lsp.strings.Contains arg (Lsp.ofString "<")
      || Lsp.strings.Contains arg (Lsp.ofString "|")) <;> simp

theorem containsPattern_iff (arg : Lsp.Bytes) :
    ((Lsp.strings.Contains arg (Lsp.ofString ";")
        || Lsp.strings.Contains arg (Lsp.ofString "&&")
        || Lsp.strings.Contains arg (Lsp.ofString "||"))
      || (Lsp.strings.Contains arg (Lsp.ofString ">")
        || Lsp.strings.Contains arg (Lsp.ofString "<")
        || Lsp.strings.Contains arg (Lsp.ofString "|"))) = true ↔ containsPattern arg := by
  simp only [containsPattern, injectionPatterns, Bool.or_eq_true, Lsp.strings.Contains_iff,
    List.mem_cons, List.mem_singleton, List.not_mem_nil, or_false, exists_eq_or_imp,
    exists_eq_left]
  tauto

/-- The loop over the arguments fails exactly when an argument contains a pattern. -/
theorem ValidateCommand.checkArgs_isSome : ∀ (args : List Lsp.Bytes),
    (∃ err, ValidateCommand.checkArgs args = some err) ↔ ∃ arg ∈ args, containsPattern arg
  | [] => by simp [ValidateCommand.checkArgs]
  | arg :: rest => by
    have ih := ValidateCommand.checkArgs_isSome rest
    rw [ValidateCommand.checkArgs_cons]
    split
    · rename_i hD
      constructor
      · intro _
        exact ⟨arg, List.mem_cons_self _ _, (containsPattern_iff arg).mp hD⟩
      · intro _
        exact ⟨_, rfl⟩
    · rename_i hD
      rw [ih]
      constructor
      · rintro ⟨a, ha, hp⟩
        exact ⟨a, List.mem_cons_of_mem _ ha, hp⟩
      · rintro ⟨a, ha, hp⟩
        rcases List.mem_cons.mp ha with heq | hmem
        · subst heq
          exact absurd ((containsPattern_iff a).mpr hp) hD
        · exact ⟨a, hmem, hp⟩

/-- C22: for the command "go" and every argument list, whatever the system, ValidateCommand
returns an error if and only if some argument contains one of ";", "&&", "||", ">", "<" or
"|"; an argument list free of these substrings is accepted (nil). -/
theorem validateCommand_rejects_injection (host : Host) (args : List Lsp.Bytes) :
    ((∃ err, ValidateCommand host (Lsp.ofString "go") args = some err) ↔
      ∃ arg ∈ args, ∃ pat ∈ [Lsp.ofString ";", Lsp.ofString "&&", Lsp.ofString "||",
        Lsp.ofString ">", Lsp.ofString "<", Lsp.ofString "|"], pat <:+: arg) ∧
    ((∀ arg ∈ args, ∀ pat ∈ [Lsp.ofString ";", Lsp.ofString "&&", Lsp.ofString "||",
        Lsp.ofString ">", Lsp.ofString "<", Lsp.ofString "|"], ¬ pat <:+: arg) →
      ValidateCommand host (Lsp.ofString "go") args = none) := by
  have hgo : ValidateCommand host (Lsp.ofString "go") args = ValidateCommand.checkArgs args := by
    simp [ValidateCommand]
  rw [hgo]
  have hiff := ValidateCommand.checkArgs_isSome args
  simp only [containsPattern, injectionPatterns] at hiff
  refine ⟨hiff, fun hfree => ?_⟩
  cases hc : ValidateCommand.checkArgs args with
  | none => rfl
  | some err =>
    obtain ⟨arg, harg, pat, hpat, hin⟩ := hiff.mp ⟨err, hc⟩
    exact absurd hin (hfree arg harg pat hpat)

/-- C23, the code at the failing input. The command "golangci-lint" is neither "go" nor
an absolute path; on a system where the PATH lookup finds it, ValidateCommand returns nil
for it with the argument "run". The same holds for every command that the lookup finds and
every argument list free of the patterns: the resolved path is not examined. Only a failed
lookup makes ValidateCommand return the error "command not found". -/
theorem validateCommand_accepts_command_on_path :
    Lsp.ofString "golangci-lint" ≠ Lsp.ofString "go" ∧
    exampleHost.IsAbs (Lsp.ofString "golangci-lint") = false ∧
    ValidateCommand exampleHost (Lsp.ofString "golangci-lint") [Lsp.ofString "run"] = none ∧
    (∀ (host : Host) (command path : Lsp.Bytes) (args : List Lsp.Bytes),
      command ≠ Lsp.ofString "go" → host.IsAbs command = false →
      host.LookPath command = some path → (∀ arg ∈ args, ¬ containsPattern arg) →
      ValidateCommand host command args = none) ∧
    (∀ (host : Host) (command : Lsp.Bytes) (args : List Lsp.Bytes),
      command ≠ Lsp.ofString "go" → host.IsAbs command = false →
      host.LookPath command = none →
      ValidateCommand host command args = some (.commandNotFound command)) := by
  refine ⟨by decide, by decide, by decide, ?_, ?_⟩
  · intro host command path args hgo habs hlook hfree
    have hv : ValidateCommand host command args = ValidateCommand.checkArgs args := by
      simp [ValidateCommand, hgo, habs, hlook]
    rw [hv]
    cases hc : ValidateCommand.checkArgs args with
    | none => rfl
    | some err =>
      obtain ⟨arg, harg, hin⟩ := (ValidateCommand.checkArgs_isSome args).mp ⟨err, hc⟩
      exact absurd hin (hfree arg harg)
  · intro host command args hgo habs hlook
    simp [ValidateCommand, hgo, habs, hlook]

end utils

namespace resources

/-- C24, the code at the failing input. For the go.mod of the test that lists its
requirement in a block, parseGoMod finds the module path and the go version, but its
"require" is the single entry "(": the line `require (` is taken for a single-line
directive and the lines of the block are skipped. For the go.mod with single-line require
directives the result lists one "path version" entry for each. -/
theorem parseGoMod_on_require_block :
    parseGoMod blockGoMod
      = { module := Lsp.ofString "example.com/test", go := Lsp.ofString "1.24",
          require := [Lsp.ofString "("] } ∧
    (parseGoMod blockGoMod).require ≠ [Lsp.ofString "github.com/example/dep v1.0.0"] ∧
    parseGoMod singleLineGoMod
      = { module := Lsp.ofString "test", go := Lsp.ofString "1.24",
          require := [Lsp.ofString "dep1 v1.0.0", Lsp.ofString "dep2 v2.0.0"] } := by
  refine ⟨by rfl, by decide, by rfl⟩

end resources

namespace utils

theorem isValidPackagePath_ne_nil (p : Lsp.Bytes) (h : isValidPackagePath p = true) : p ≠ [] := by
  intro hp
  subst hp
  simp [isValidPackagePath] at h

theorem isValidPackagePath_no_query (p : Lsp.Bytes) (h : isValidPackagePath p = true) :
    (Lsp.strings.Contains p (Lsp.ofString "?") || Lsp.strings.Contains p (Lsp.ofString "#"))
      = false := by
  cases hc : (Lsp.strings.Contains p (Lsp.ofString "?")
      || Lsp.strings.Contains p (Lsp.ofString "#")) with
  | false => rfl
  | true =>
    exfalso
    have hne := isValidPackagePath_ne_nil p h
    simp only [isValidPackagePath, hne, if_false, hc, if_true] at h
    exact Bool.noConfusion h

theorem isPackageLink_ne_nil (p : Lsp.Bytes) (h : isPackageLink p = true) : p ≠ [] := by
  simp only [isPackageLink, Bool.and_eq_true] at h
  exact isValidPackagePath_ne_nil p h.1.1

theorem extractPackagePaths.step_core (st : List Lsp.Bytes × List Lsp.Bytes) (p : Lsp.Bytes) :
    (if p = [] ∨ p = Lsp.ofString "search" ∨ p = Lsp.ofString "about" then st
      else if Lsp.strings.HasPrefix p (Lsp.ofString "search")
          || Lsp.strings.HasPrefix p (Lsp.ofString "about") then st
      else if Lsp.strings.Contains p (Lsp.ofString "?")
          || Lsp.strings.Contains p (Lsp.ofString "#") then st
      else if !isValidPackagePath p then st
      else if p ∉ st.2 then (st.1 ++ [p], p :: st.2)
      else st)
      = if isPackageLink p = true ∧ p ∉ st.2 then (st.1 ++ [p], p :: st.2) else st := by
  cases hv : isValidPackagePath p with
  | false =>
    have hlink : isPackageLink p = false := by simp [isPackageLink, hv]
    simp only [hlink, Bool.false_eq_true, false_and, if_false, Bool.not_false, if_true]
    repeat' split
    all_goals rfl
  | true =>
    have hne := isValidPackagePath_ne_nil p hv
    have hq := isValidPackagePath_no_query p hv
    cases hs : Lsp.strings.HasPrefix p (Lsp.ofString "search") with
    | true =>
      have hlink : isPackageLink p = false := by simp [isPackageLink, hs]
      simp only [hlink, Bool.false_eq_true, false_and, if_false, Bool.true_or, if_true]
      split <;> rfl
    | false =>
      cases ha : Lsp.strings.HasPrefix p (Lsp.ofString "about") with
      | true =>
        have hlink : isPackageLink p = false := by simp [isPackageLink, hs, ha]
        simp only [hlink, Bool.false_eq_true, false_and, if_false, Bool.or_true, if_true]
        split <;> rfl
      | false =>
        have hns : p ≠ Lsp.ofString "search" := by
          intro heq
          rw [heq] at hs
          revert hs
          decide
        have hna : p ≠ Lsp.ofString "about" := by
          intro heq
          rw [heq] at ha
          revert ha
          decide
        have hlink : isPackageLink p = true := by simp [isPackageLink, hv, hs, ha]
        simp only [hne, hns, hna, or_self, if_false, Bool.or_self, Bool.false_eq_true, hq,
          Bool.not_true, hlink, true_and]

/-- The body of the loop appends a submatch that passes the tests and was not seen. -/
theorem extractPackagePaths.step_eq (st : List Lsp.Bytes × List Lsp.Bytes)
    (m : List Lsp.Bytes) :
    extractPackagePaths.step st m
      = if 2 ≤ m.length ∧ isPackageLink (m.getD 1 []) = true ∧ m.getD 1 [] ∉ st.2 then
          (st.1 ++ [m.getD 1 []], m.getD 1 [] :: st.2)
        else st := by
  unfold extractPackagePaths.step
  by_cases hlen : m.length < 2
  · have h2 : ¬ 2 ≤ m.length := by omega
    simp only [hlen, if_true, h2, false_and, if_false]
  · have h2 : 2 ≤ m.length := by omega
    simp only [hlen, if_false, h2, true_and]
    exact extractPackagePaths.step_core st (m.getD 1 [])

/-- What the loop of extractPackagePaths has built after the matches `ms`. -/
theorem extractPackagePaths.loop_inv (ms : List (List Lsp.Bytes)) :
    (∀ p, p ∈ (ms.foldl extractPackagePaths.step ([], [])).2
      ↔ p ∈ (ms.foldl extractPackagePaths.step ([], [])).1) ∧
    (∀ p ∈ (ms.foldl extractPackagePaths.step ([], [])).1,
      p ∈ ms.map (fun m => m.getD 1 []) ∧ isPackageLink p = true) ∧
    (∀ m ∈ ms, 2 ≤ m.length → isPackageLink (m.getD 1 []) = true →
      m.getD 1 [] ∈ (ms.foldl extractPackagePaths.step ([], [])).1) ∧
    (ms.foldl extractPackagePaths.step ([], [])).1.Pairwise
      (firstBefore (ms.map (fun m => m.getD 1 []))) := by
  induction ms using List.reverseRecOn with
  | nil => simp
  | append_singleton ms m ih =>
    obtain ⟨i1, i2, i3, i4⟩ := ih
    rw [List.foldl_append, List.foldl_cons, List.foldl_nil, List.map_append, List.map_cons,
      List.map_nil, extractPackagePaths.step_eq]
    generalize hst : ms.foldl extractPackagePaths.step ([], []) = st at i1 i2 i3 i4 ⊢
    generalize hL : ms.map (fun m => m.getD 1 []) = L at i2 i4 ⊢
    have hold : ∀ a b, firstBefore L a b → firstBefore (L ++ [m.getD 1 []]) a b := by
      rintro a b ⟨front, back, hsplit, hfront, hne⟩
      exact ⟨front, back ++ [m.getD 1 []], by rw [hsplit]; simp, hfront, hne⟩
    split
    · rename_i hadd
      obtain ⟨hlen, hlink, hnew⟩ := hadd
      have hnotL : m.getD 1 [] ∉ L := by
        intro hmem
        rw [← hL] at hmem
        obtain ⟨m', hm', heq⟩ := List.mem_map.mp hmem
        have hne := isPackageLink_ne_nil _ hlink
        have hlen' : 2 ≤ m'.length := by
          by_contra hshort
          apply hne
          rw [← heq]
          show m'.getD 1 [] = []
          rw [List.getD_eq_getElem?_getD, List.getElem?_eq_none (by omega)]
          rfl
        have heq' : m'.getD 1 [] = m.getD 1 [] := heq
        have hin := i3 m' hm' hlen' (by rw [heq']; exact hlink)
        rw [heq'] at hin
        exact hnew ((i1 _).mpr hin)
      refine ⟨?_, ?_, ?_, ?_⟩
      · intro p
        simp only [List.mem_cons, List.mem_append, List.mem_singleton, List.not_mem_nil,
          or_false, i1 p]
        tauto
      · intro p hp
        rcases List.mem_append.mp hp with h | h
        · exact ⟨List.mem_append_left _ (i2 p h).1, (i2 p h).2⟩
        · simp only [List.mem_singleton] at h
          subst h
          exact ⟨List.mem_append_right _ (List.mem_singleton_self _), hlink⟩
      · intro m' hm' hl hk
        rcases List.mem_append.mp hm' with h | h
        · exact List.mem_append_left _ (i3 m' h hl hk)
        · simp only [List.mem_singleton] at h
          subst h
          exact List.mem_append_right _ (List.mem_singleton_self _)
      · rw [List.pairwise_append]
        refine ⟨i4.imp (fun hlt => hold _ _ hlt), List.pairwise_singleton _ _, ?_⟩
        intro a ha b hb
        simp only [List.mem_singleton] at hb
        subst hb
        obtain ⟨front, back, hsplit⟩ := List.append_of_mem (i2 a ha).1
        refine ⟨front, back ++ [m.getD 1 []], by rw [hsplit]; simp, ?_, ?_⟩
        · intro hmem
          exact hnotL (by rw [hsplit]; exact List.mem_append_left _ hmem)
        · intro heq
          exact hnotL (by rw [heq]; exact (i2 a ha).1)
    · rename_i hadd
      refine ⟨i1, fun p hp => ⟨List.mem_append_left _ (i2 p hp).1, (i2 p hp).2⟩, ?_,
        i4.imp (fun hlt => hold _ _ hlt)⟩
      intro m' hm' hl hk
      rcases List.mem_append.mp hm' with h | h
      · exact i3 m' h hl hk
      · simp only [List.mem_singleton] at h
        subst h
        by_contra hnot
        exact hadd ⟨hl, hk, fun hmem => hnot ((i1 _).mp hmem)⟩

/-- A match at the start of `s` is a prefix of `s`: the literal, the submatch and a quote. -/
theorem matchHere_some (s g : Lsp.Bytes) (h : matchHere s = some g) :
    (hrefLiteral ++ g ++ [34]) <+: s ∧ g ≠ [] ∧ ∀ c ∈ g, pathChar c = true := by
  unfold matchHere at h
  split at h
  · rename_i hpre
    obtain ⟨t, ht⟩ := (Lsp.strings.HasPrefix_iff _ _).mp hpre
    subst ht
    simp only [List.drop_left] at h
    split at h
    · rename_i hg
      simp only [Option.some.injEq] at h
      subst h
      refine ⟨?_, hg.1, fun c hc => (List.mem_takeWhile_imp hc)⟩
      have hsplit := List.takeWhile_append_dropWhile pathChar t
      cases hd : t.dropWhile pathChar with
      | nil => rw [hd] at hg; simp at hg
      | cons q rest =>
        rw [hd] at hg hsplit
        simp only [List.head?_cons, Option.some.injEq] at hg
        refine ⟨rest, ?_⟩
        conv_rhs => rw [← hsplit, hg.2]
        simp
    · simp at h
  · simp at h

/-- Every match that is found is a link of the text, with its path as the submatch. -/
theorem findAllSubmatch_mem : ∀ (s : Lsp.Bytes) (skip : Nat) (m : List Lsp.Bytes),
    m ∈ findAllSubmatch skip s →
    ∃ g, m = [hrefLiteral ++ g ++ [34], g] ∧ (hrefLiteral ++ g ++ [34]) <:+: s ∧ g ≠ [] ∧
      ∀ c ∈ g, pathChar c = true
  | [], skip, m, h => by simp [findAllSubmatch] at h
  | c :: s, skip + 1, m, h => by
    simp only [findAllSubmatch] at h
    obtain ⟨g, hg, hin, hrest⟩ := findAllSubmatch_mem s skip m h
    exact ⟨g, hg, List.infix_cons hin, hrest⟩
  | c :: s, 0, m, h => by
    simp only [findAllSubmatch] at h
    split at h
    · rename_i g hmatch
      obtain ⟨hpre, hne, hall⟩ := matchHere_some _ _ hmatch
      rcases List.mem_cons.mp h with heq | hmem
      · exact ⟨g, heq, hpre.isInfix, hne, hall⟩
      · obtain ⟨g', hg', hin, hrest⟩ := findAllSubmatch_mem s _ m hmem
        exact ⟨g', hg', List.infix_cons hin, hrest⟩
    · obtain ⟨g, hg, hin, hrest⟩ := findAllSubmatch_mem s 0 m h
      exact ⟨g, hg, List.infix_cons hin, hrest⟩

theorem pathChar_iff (c : Nat) : pathChar c = true ↔ isPathByte c := by
  have ha : 'a'.toNat = 97 := rfl
  have hz : 'z'.toNat = 122 := rfl
  have hA : 'A'.toNat = 65 := rfl
  have hZ : 'Z'.toNat = 90 := rfl
  have h0 : '0'.toNat = 48 := rfl
  have h9 : '9'.toNat = 57 := rfl
  have hd : '.'.toNat = 46 := rfl
  have hu : '_'.toNat = 95 := rfl
  have hs : '/'.toNat = 47 := rfl
  have hh : '-'.toNat = 45 := rfl
  simp only [pathChar, isPathByte, Bool.or_eq_true, decide_eq_true_eq, ha, hz, hA, hZ, h0, h9,
    hd, hu, hs, hh]
  tauto

theorem takeWhile_append_stop (f : Nat → Bool) (x : Nat) (b : Lsp.Bytes) (hx : f x = false) :
    ∀ (p : Lsp.Bytes), (∀ c ∈ p, f c = true) →
      (p ++ x :: b).takeWhile f = p ∧ (p ++ x :: b).dropWhile f = x :: b
  | [], _ => by simp [List.takeWhile, List.dropWhile, hx]
  | c :: p, h => by
    have hc : f c = true := h c (List.mem_cons_self _ _)
    have ih := takeWhile_append_stop f x b hx p (fun d hd => h d (List.mem_cons_of_mem _ hd))
    simp [List.takeWhile, List.dropWhile, hc, ih.1, ih.2]

/-- A link at the start of a text is the match that starts there. -/
theorem matchHere_of_linkStarts (s p : Lsp.Bytes) (h : linkStarts s p) : matchHere s = some p := by
  obtain ⟨back, hs, hne, hall⟩ := h
  have hq : '"'.toNat = 34 := rfl
  rw [hq] at hs
  have hstop := takeWhile_append_stop pathChar 34 back (by decide) p
    (fun c hc => (pathChar_iff c).mpr (hall c hc))
  have hpre : Lsp.strings.HasPrefix s hrefLiteral = true := by
    rw [hs, List.append_assoc]
    exact Lsp.strings.HasPrefix_append _ _
  have hdrop : s.drop hrefLiteral.length = p ++ 34 :: back := by
    rw [hs, List.append_assoc]
    exact List.drop_left _ _
  simp only [matchHere, hpre, if_true, hdrop, hstop.1, hstop.2, List.head?_cons]
  simp [hne]

/-- The match that starts at the beginning of a text is a link. -/
theorem linkStarts_of_matchHere (s g : Lsp.Bytes) (h : matchHere s = some g) :
    linkStarts s g := by
  obtain ⟨⟨rest, hrest⟩, hne, hall⟩ := matchHere_some s g h
  refine ⟨rest, ?_, hne, fun c hc => (pathChar_iff c).mp (hall c hc)⟩
  have hq : '"'.toNat = 34 := rfl
  rw [hq, ← hrest]
  simp [hrefLiteral]

/-- A match does not reach into a link that starts after its first byte: the text "href="
of the link cannot lie inside the match. -/
theorem match_ends_before_link (a s' g p : Lsp.Bytes) (ha : a ≠ [])
    (hm : matchHere (a ++ s') = some g) (hl : linkStarts s' p) :
    hrefLiteral.length + g.length + 1 ≤ a.length := by
  obtain ⟨⟨rest, hrest⟩, -, hall⟩ := matchHere_some _ _ hm
  obtain ⟨back, hs', -, -⟩ := hl
  have hlit : Lsp.ofString "href=\"/" = hrefLiteral := rfl
  rw [hlit] at hs'
  have h7 : hrefLiteral.length = 7 := rfl
  have hK : ∀ k, k < 7 → (a ++ s')[a.length + k]? = hrefLiteral[k]? := by
    intro k hk
    rw [List.getElem?_append_right (by omega), Nat.add_sub_cancel_left, hs', List.append_assoc,
      List.getElem?_append_left (by omega)]
  have hA : ∀ i, i < 7 → (a ++ s')[i]? = hrefLiteral[i]? := by
    intro i hi
    rw [← hrest, List.append_assoc, List.append_assoc, List.getElem?_append_left (by omega)]
  have hB : ∀ i, i < g.length → ∃ c, (a ++ s')[7 + i]? = some c ∧ pathChar c = true := by
    intro i hi
    refine ⟨g[i], ?_, hall _ (List.getElem_mem _)⟩
    rw [← hrest, List.append_assoc, List.append_assoc, List.getElem?_append_right (by omega),
      h7, Nat.add_sub_cancel_left, List.getElem?_append_left hi, List.getElem?_eq_getElem hi]
  have hC : (a ++ s')[7 + g.length]? = some 34 := by
    rw [← hrest, List.append_assoc, List.append_assoc, List.getElem?_append_right (by omega),
      h7, Nat.add_sub_cancel_left, List.getElem?_append_right (le_refl _), Nat.sub_self]
    simp
  have hpos : 0 < a.length := List.length_pos.mpr ha
  rw [h7]
  by_contra hcon
  generalize a.length = n at hK hpos hcon
  generalize g.length = L at hB hC hcon
  generalize a ++ s' = S at hK hA hB hC
  have hn : n ≤ 7 + L := by omega
  by_cases h6 : n ≤ 6
  · have h1 := hA n (by omega)
    have h2 := hK 0 (by omega)
    rw [Nat.add_zero, h1] at h2
    interval_cases n <;> simp [hrefLiteral, Lsp.ofString] at h2
  · by_cases hin : n ≤ 6 + L
    · by_cases h4 : n + 4 ≤ 6 + L
      · obtain ⟨c, hc, hpc⟩ := hB (n + 4 - 7) (by omega)
        have h2 := hK 4 (by omega)
        have he : 7 + (n + 4 - 7) = n + 4 := by omega
        rw [he, h2] at hc
        simp [hrefLiteral, Lsp.ofString] at hc
        subst hc
        revert hpc
        decide
      · obtain ⟨j, hj⟩ : ∃ j, j = 7 + L - n := ⟨_, rfl⟩
        have h2 := hK j (by omega)
        have he : n + j = 7 + L := by omega
        rw [he, hC] at h2
        have hj1 : 1 ≤ j := by omega
        have hj4 : j ≤ 4 := by omega
        interval_cases j <;> simp [hrefLiteral, Lsp.ofString] at h2
    · have h2 := hK 0 (by omega)
      have he : n + 0 = 7 + L := by omega
      rw [he, hC] at h2
      simp [hrefLiteral, Lsp.ofString] at h2

theorem not_linkStarts_nil (p : Lsp.Bytes) : ¬ linkStarts [] p := by
  rintro ⟨back, hs, -, -⟩
  have := congrArg List.length hs
  simp [Lsp.ofString] at this

/-- The scan finds every link of the text that starts at or after the bytes still to be
passed over. -/
theorem findAllSubmatch_complete : ∀ (s : Lsp.Bytes) (skip : Nat) (a s' p : Lsp.Bytes),
    s = a ++ s' → linkStarts s' p → skip ≤ a.length →
    [hrefLiteral ++ p ++ [34], p] ∈ findAllSubmatch skip s
  | [], skip, a, s', p, hs, hl, _ => by
    have hs'nil : s' = [] := by
      have := congrArg List.length hs
      simp only [List.length_nil, List.length_append] at this
      exact List.length_eq_zero.mp (by omega)
    rw [hs'nil] at hl
    exact absurd hl (not_linkStarts_nil p)
  | c :: t, skip + 1, a, s', p, hs, hl, hskip => by
    cases a with
    | nil => simp at hskip
    | cons d a' =>
      simp only [List.cons_append, List.cons.injEq] at hs
      simp only [findAllSubmatch]
      exact findAllSubmatch_complete t skip a' s' p hs.2 hl (by simpa using hskip)
  | c :: t, 0, a, s', p, hs, hl, _ => by
    cases a with
    | nil =>
      simp only [List.nil_append] at hs
      have hm := matchHere_of_linkStarts s' p hl
      rw [← hs] at hm
      simp only [findAllSubmatch, hm]
      exact List.mem_cons_self _ _
    | cons d a' =>
      have hs2 : t = a' ++ s' := by
        simp only [List.cons_append, List.cons.injEq] at hs
        exact hs.2
      simp only [findAllSubmatch]
      split
      · rename_i g hm
        have hno := match_ends_before_link (d :: a') s' g p (by simp) (by rw [← hs]; exact hm) hl
        simp only [List.length_cons] at hno
        exact List.mem_cons_of_mem _
          (findAllSubmatch_complete t _ a' s' p hs2 hl (by omega))
      · exact findAllSubmatch_complete t 0 a' s' p hs2 hl (Nat.zero_le _)

/-- The submatches of the scan are in the order of the text: the one at a position of the
list is the path of a link of the text, and the links that start before it (and after the
bytes still to be passed over) have their paths earlier in the list. -/
theorem findAllSubmatch_order : ∀ (s : Lsp.Bytes) (skip : Nat) (front : List Lsp.Bytes)
    (a : Lsp.Bytes) (back : List Lsp.Bytes),
    (findAllSubmatch skip s).map (fun m => m.getD 1 []) = front ++ a :: back →
    ∃ i, skip ≤ i ∧ linkStarts (s.drop i) a ∧
      ∀ j p, skip ≤ j → j < i → linkStarts (s.drop j) p → p ∈ front
  | [], skip, front, a, back, h => by
    simp [findAllSubmatch] at h
  | c :: t, skip + 1, front, a, back, h => by
    simp only [findAllSubmatch] at h
    obtain ⟨i, hi, hl, hearlier⟩ := findAllSubmatch_order t skip front a back h
    refine ⟨i + 1, by omega, by simpa using hl, ?_⟩
    intro j p hj hji hlj
    cases j with
    | zero => omega
    | succ j => exact hearlier j p (by omega) (by omega) (by simpa using hlj)
  | c :: t, 0, front, a, back, h => by
    simp only [findAllSubmatch] at h
    split at h
    · rename_i g hm
      simp only [List.map_cons] at h
      have hg : ([hrefLiteral ++ g ++ [34], g] : List Lsp.Bytes).getD 1 [] = g := rfl
      rw [hg] at h
      cases front with
      | nil =>
        simp only [List.nil_append, List.cons.injEq] at h
        refine ⟨0, le_refl _, ?_, fun j p _ hj _ => absurd hj (Nat.not_lt_zero _)⟩
        rw [← h.1]
        exact linkStarts_of_matchHere _ _ hm
      | cons f front' =>
        simp only [List.cons_append, List.cons.injEq] at h
        obtain ⟨i, hi, hl, hearlier⟩ := findAllSubmatch_order t _ front' a back h.2
        refine ⟨i + 1, Nat.zero_le _, by simpa using hl, ?_⟩
        intro j p _ hji hlj
        cases j with
        | zero =>
          have hm' := matchHere_of_linkStarts _ _ hlj
          simp only [List.drop_zero] at hm'
          rw [hm] at hm'
          simp only [Option.some.injEq] at hm'
          rw [← hm', h.1]
          exact List.mem_cons_self _ _
        | succ j =>
          by_cases hjs : hrefLiteral.length + g.length ≤ j
          · exact List.mem_cons_of_mem _ (hearlier j p hjs (by omega) (by simpa using hlj))
          · exfalso
            have hjlen : j + 1 ≤ (c :: t).length := by
              by_contra hgt
              rw [List.drop_eq_nil_of_le (by omega)] at hlj
              exact not_linkStarts_nil p hlj
            have hno := match_ends_before_link ((c :: t).take (j + 1)) ((c :: t).drop (j + 1))
              g p (by simp) (by rw [List.take_append_drop]; exact hm) hlj
            rw [List.length_take, Nat.min_eq_left hjlen] at hno
            omega
    · rename_i hm
      obtain ⟨i, _, hl, hearlier⟩ := findAllSubmatch_order t 0 front a back h
      refine ⟨i + 1, Nat.zero_le _, by simpa using hl, ?_⟩
      intro j p _ hji hlj
      cases j with
      | zero =>
        have hm' := matchHere_of_linkStarts _ _ hlj
        simp only [List.drop_zero] at hm'
        rw [hm] at hm'
        simp at hm'
      | succ j => exact hearlier j p (Nat.zero_le _) (by omega) (by simpa using hlj)

/-- C25: for every HTML text, extractPackagePaths returns no path twice and lists the paths
in the order of the first occurrence of their links `href="/<path>"` in the text: of two
entries, the earlier has a link in the text before every link of the later. Every entry is
the path of a link of the text, satisfies isValidPackagePath and begins neither with
"search" nor with "about"; every path of a link of the text with these properties is
listed; and a text without such links yields the empty list. -/
theorem extractPackagePaths_lists_links_once (html : Lsp.Bytes) :
    (extractPackagePaths html).Nodup ∧
    (extractPackagePaths html).Pairwise (linkedBefore html) ∧
    (∀ p ∈ extractPackagePaths html,
      (∃ i, linkAt html i p) ∧ isValidPackagePath p = true ∧
      Lsp.strings.HasPrefix p (Lsp.ofString "search") = false ∧
      Lsp.strings.HasPrefix p (Lsp.ofString "about") = false) ∧
    (∀ i p, linkAt html i p → isValidPackagePath p = true →
      Lsp.strings.HasPrefix p (Lsp.ofString "search") = false →
      Lsp.strings.HasPrefix p (Lsp.ofString "about") = false → p ∈ extractPackagePaths html) ∧
    ((∀ i p, ¬ linkAt html i p) → extractPackagePaths html = []) := by
  obtain ⟨-, i2, i3, i4⟩ := extractPackagePaths.loop_inv (findAllSubmatch 0 html)
  have hlinked : ∀ a b, firstBefore (linkPaths html) a b → linkedBefore html a b := by
    rintro a b ⟨front, back, hsplit, hfront, hne⟩
    obtain ⟨i, -, hl, hearlier⟩ := findAllSubmatch_order html 0 front a back hsplit
    refine ⟨i, hl, fun j hj => ?_⟩
    rcases Nat.lt_trichotomy j i with hlt | heq | hgt
    · exact absurd (hearlier j b (Nat.zero_le _) hlt hj) hfront
    · subst heq
      have h1 := matchHere_of_linkStarts _ _ hl
      have h2 := matchHere_of_linkStarts _ _ hj
      rw [h1] at h2
      exact absurd (Option.some.inj h2).symm hne
    · exact hgt
  have hsound : ∀ p ∈ extractPackagePaths html, ∃ i, linkAt html i p := by
    intro p hp
    obtain ⟨front, back, hsplit⟩ := List.append_of_mem (i2 p hp).1
    obtain ⟨i, -, hl, -⟩ := findAllSubmatch_order html 0 front p back hsplit
    exact ⟨i, hl⟩
  refine ⟨?_, i4.imp (fun h => hlinked _ _ h), ?_, ?_, ?_⟩
  · exact i4.imp (fun ⟨_, _, _, _, hne⟩ => Ne.symm hne)
  · intro p hp
    have hlink := (i2 p hp).2
    simp only [isPackageLink, Bool.and_eq_true, Bool.not_eq_true', Bool.not_eq_eq_eq_not,
      Bool.not_true] at hlink
    exact ⟨hsound p hp, hlink.1.1, hlink.1.2, hlink.2⟩
  · intro i p hl hv hs ha
    have hmem := findAllSubmatch_complete html 0 (html.take i) (html.drop i) p
      (List.take_append_drop i html).symm hl (Nat.zero_le _)
    have hlink : isPackageLink (([hrefLiteral ++ p ++ [34], p] : List Lsp.Bytes).getD 1 [])
        = true := by
      show isPackageLink p = true
      simp [isPackageLink, hv, hs, ha]
    exact i3 _ hmem (by simp) hlink
  · intro hnone
    apply List.eq_nil_iff_forall_not_mem.mpr
    intro p hp
    obtain ⟨i, hl⟩ := hsound p hp
    exact hnone i p hl

/-- C25 for a text with a search link, an about link, two package links and a repeated
link: the result is the two package paths, in the order of the text. -/
theorem extractPackagePaths_lists_links_once_witness :
    extractPackagePaths exampleHTML
      = [Lsp.ofString "net/http", Lsp.ofString "github.com/gin-gonic/gin"] ∧
    (extractPackagePaths exampleHTML).Nodup ∧
    (extractPackagePaths exampleHTML).Pairwise (linkedBefore exampleHTML) ∧
    (∀ p ∈ extractPackagePaths exampleHTML,
      (∃ i, linkAt exampleHTML i p) ∧ isValidPackagePath p = true ∧
      Lsp.strings.HasPrefix p (Lsp.ofString "search") = false ∧
      Lsp.strings.HasPrefix p (Lsp.ofString "about") = false) ∧
    (∀ i p, linkAt exampleHTML i p → isValidPackagePath p = true →
      Lsp.strings.HasPrefix p (Lsp.ofString "search") = false →
      Lsp.strings.HasPrefix p (Lsp.ofString "about") = false →
      p ∈ extractPackagePaths exampleHTML) ∧
    ((∀ i p, ¬ linkAt exampleHTML i p) → extractPackagePaths exampleHTML = []) :=
  ⟨by decide, extractPackagePaths_lists_links_once exampleHTML⟩

end utils
